import Mathlib

/-!
# Verification of the please-show core algorithms

Shallow embedding of the graph-analysis, layout and geometry code of the
please-show repository (TypeScript, graphology-based), together with theorems
settling the specification claims.  Machine numbers are modelled as exact
rationals; JS `Map` and `Set` objects are modelled as association lists and
lists kept in insertion order, matching the iteration-order semantics of the
JS originals.
-/

namespace PleaseShow

/-- A node of the attributed directed graph (the graphology node attributes the
core reads: position, package path, hidden flag, color). -/
structure GNode where
  id : String
  x : ℚ := 0
  y : ℚ := 0
  pkg : String := ""
  hidden : Bool := false
  color : String := ""
  deriving DecidableEq, Repr

/-- Directed multigraph as used through graphology: node list and edge list in
insertion order.  An edge `(s, t)` means `s` depends on `t`. -/
structure SGraph where
  nodes : List GNode
  edges : List (String × String)
  deriving DecidableEq, Repr

namespace SGraph

/-- Node ids, in insertion order (graphology `graph.nodes()` / `forEachNode`). -/
def nodeIds (g : SGraph) : List String := g.nodes.map GNode.id

def hasNode (g : SGraph) (n : String) : Bool := g.nodeIds.contains n

/-- `graph.outNeighbors(n)` : targets of edges leaving `n`, edge insertion order. -/
def outNbrs (g : SGraph) (n : String) : List String :=
  (g.edges.filter (fun e => e.1 == n)).map Prod.snd

/-- `graph.inNeighbors(n)` : sources of edges entering `n`, edge insertion order. -/
def inNbrs (g : SGraph) (n : String) : List String :=
  (g.edges.filter (fun e => e.2 == n)).map Prod.fst


/-- `graph.outDegree(n)` : number of edges leaving `n`. -/
def outDegree (g : SGraph) (n : String) : ℕ :=
  (g.edges.filter (fun e => e.1 == n)).length

/-- `graph.inDegree(n)` : number of edges entering `n`. -/
def inDegree (g : SGraph) (n : String) : ℕ :=
  (g.edges.filter (fun e => e.2 == n)).length

/-- `graph.degree(n)` for a directed graphology graph: in-degree + out-degree. -/
def degree (g : SGraph) (n : String) : ℕ := g.inDegree n + g.outDegree n

/-- Well-formedness maintained by the graphology container: distinct node ids,
and every edge endpoint is a node of the graph. -/
def WF (g : SGraph) : Prop :=
  g.nodeIds.Nodup ∧ ∀ e ∈ g.edges, g.hasNode e.1 ∧ g.hasNode e.2

end SGraph

/-! ## Directed paths (mathematical reference notions)

A path is a nonempty node list whose consecutive pairs are edges in the given
direction.  These definitions are the mathematical yardstick the spec speaks
about; the code is compared against them. -/

/-- Consecutive pairs of `p` are forward edges of `g`. -/
def chainOut (g : SGraph) : List String → Prop
  | [] => True
  | [_] => True
  | a :: b :: rest => (a, b) ∈ g.edges ∧ chainOut g (b :: rest)

/-- Consecutive pairs of `p` are reverse edges of `g` (`(b, a)` is an edge). -/
def chainIn (g : SGraph) : List String → Prop
  | [] => True
  | [_] => True
  | a :: b :: rest => (b, a) ∈ g.edges ∧ chainIn g (b :: rest)

instance chainOutDec (g : SGraph) : ∀ p, Decidable (chainOut g p)
  | [] => by unfold chainOut; infer_instance
  | [_] => by unfold chainOut; infer_instance
  | _ :: _ :: _ => by
      unfold chainOut
      exact @instDecidableAnd _ _ _ (chainOutDec g _)

instance chainInDec (g : SGraph) : ∀ p, Decidable (chainIn g p)
  | [] => by unfold chainIn; infer_instance
  | [_] => by unfold chainIn; infer_instance
  | _ :: _ :: _ => by
      unfold chainIn
      exact @instDecidableAnd _ _ _ (chainInDec g _)

/-- `p` is a path from `s` to `t` along forward edges. -/
def IsPathOut (g : SGraph) (s t : String) (p : List String) : Prop :=
  p ≠ [] ∧ p.head? = some s ∧ p.getLast? = some t ∧ chainOut g p

/-- `p` is a path from `s` to `t` along reverse edges. -/
def IsPathIn (g : SGraph) (s t : String) (p : List String) : Prop :=
  p ≠ [] ∧ p.head? = some s ∧ p.getLast? = some t ∧ chainIn g p

instance (g : SGraph) (s t : String) (p : List String) : Decidable (IsPathOut g s t p) := by
  unfold IsPathOut; infer_instance

instance (g : SGraph) (s t : String) (p : List String) : Decidable (IsPathIn g s t p) := by
  unfold IsPathIn; infer_instance

/-! ## C9: adaptive edge weights (`computeAdaptiveEdgeWeights`, layout.ts) -/

/-- The weight `computeAdaptiveEdgeWeights` assigns to one edge `(s, t)`:
`1 + 10 / max(2·ds·dt/(ds+dt), 1)` where `ds`, `dt` are the endpoint degrees. -/
def adaptiveEdgeWeight (g : SGraph) (e : String × String) : ℚ :=
  let sourceDegree : ℚ := g.degree e.1
  let targetDegree : ℚ := g.degree e.2
  let harmonicDegree := (2 * sourceDegree * targetDegree) / (sourceDegree + targetDegree)
  1 + 10 / max harmonicDegree 1

/-- `computeAdaptiveEdgeWeights` : the derived weight of every edge of the graph,
in edge order (the JS code stores it as the `weight` edge attribute). -/
def computeAdaptiveEdgeWeights (g : SGraph) : List ((String × String) × ℚ) :=
  g.edges.map (fun e => (e, adaptiveEdgeWeight g e))

theorem one_le_degree_of_edge_left (g : SGraph) (e : String × String) (he : e ∈ g.edges) :
    1 ≤ g.degree e.1 := by
  have : (g.edges.filter (fun f => f.1 == e.1)).length ≠ 0 := by
    intro h0
    simp only [List.length_eq_zero, List.filter_eq_nil] at h0
    exact h0 e he (by simp)
  have := Nat.one_le_iff_ne_zero.2 this
  exact le_trans this (Nat.le_add_left _ _)

theorem one_le_degree_of_edge_right (g : SGraph) (e : String × String) (he : e ∈ g.edges) :
    1 ≤ g.degree e.2 := by
  have : (g.edges.filter (fun f => f.2 == e.2)).length ≠ 0 := by
    intro h0
    simp only [List.length_eq_zero, List.filter_eq_nil] at h0
    exact h0 e he (by simp)
  have h1 := Nat.one_le_iff_ne_zero.2 this
  exact le_trans h1 (Nat.le_add_right _ _)

/-- C9: every edge of the graph gets weight `1 + 10 / max h 1` where `h` is the
harmonic mean of the endpoint degrees, and this weight lies in `[1, 11]`. -/
theorem adaptive_edge_weights_spec (g : SGraph) (e : String × String) (he : e ∈ g.edges) :
    (e, adaptiveEdgeWeight g e) ∈ computeAdaptiveEdgeWeights g ∧
    adaptiveEdgeWeight g e =
      1 + 10 / max ((2 * (g.degree e.1 : ℚ) * (g.degree e.2 : ℚ)) /
        ((g.degree e.1 : ℚ) + (g.degree e.2 : ℚ))) 1 ∧
    1 ≤ adaptiveEdgeWeight g e ∧ adaptiveEdgeWeight g e ≤ 11 := by
  have hs : (1 : ℚ) ≤ (g.degree e.1 : ℚ) := by
    exact_mod_cast one_le_degree_of_edge_left g e he
  have ht : (1 : ℚ) ≤ (g.degree e.2 : ℚ) := by
    exact_mod_cast one_le_degree_of_edge_right g e he
  refine ⟨List.mem_map_of_mem _ he, rfl, ?_, ?_⟩
  · have h1 : (1 : ℚ) ≤ max ((2 * (g.degree e.1 : ℚ) * (g.degree e.2 : ℚ)) /
        ((g.degree e.1 : ℚ) + (g.degree e.2 : ℚ))) 1 := le_max_right _ _
    have h2 : (0 : ℚ) < max ((2 * (g.degree e.1 : ℚ) * (g.degree e.2 : ℚ)) /
        ((g.degree e.1 : ℚ) + (g.degree e.2 : ℚ))) 1 := lt_of_lt_of_le one_pos h1
    have : (0 : ℚ) ≤ 10 / max ((2 * (g.degree e.1 : ℚ) * (g.degree e.2 : ℚ)) /
        ((g.degree e.1 : ℚ) + (g.degree e.2 : ℚ))) 1 := by positivity
    unfold adaptiveEdgeWeight
    simp only []
    linarith
  · have h1 : (1 : ℚ) ≤ max ((2 * (g.degree e.1 : ℚ) * (g.degree e.2 : ℚ)) /
        ((g.degree e.1 : ℚ) + (g.degree e.2 : ℚ))) 1 := le_max_right _ _
    have h2 : 10 / max ((2 * (g.degree e.1 : ℚ) * (g.degree e.2 : ℚ)) /
        ((g.degree e.1 : ℚ) + (g.degree e.2 : ℚ))) 1 ≤ 10 / 1 := by
      apply div_le_div_of_nonneg_left (by norm_num) one_pos h1
    unfold adaptiveEdgeWeight
    simp only []
    have h3 : (10 : ℚ) / 1 = 10 := by norm_num
    linarith [h2]

/-- Two-node graph with the single edge a→b, used as concrete input. -/
def gAB : SGraph :=
  SGraph.mk [⟨"a", 0, 0, "", false, ""⟩, ⟨"b", 0, 0, "", false, ""⟩] [("a", "b")]

/-- Witness for C9 on a concrete two-node graph with one edge: both endpoint
degrees are 1, so the weight bounds of the claim hold there. -/
theorem adaptive_edge_weights_spec_witness :
    ("a", "b") ∈ gAB.edges ∧
    1 ≤ adaptiveEdgeWeight gAB ("a", "b") ∧ adaptiveEdgeWeight gAB ("a", "b") ≤ 11 := by
  have h := adaptive_edge_weights_spec gAB ("a", "b") (by simp [gAB])
  exact ⟨by simp [gAB], h.2.2.1, h.2.2.2⟩

/-! ## C4: cycle detection (`findCycles`, cycleDetector.ts)

The JS function does a DFS keeping a `visited` set, a recursion-stack set and
the current path; on meeting a neighbor that is on the recursion stack it
pushes `path.slice(path.indexOf(neighbor))` plus the closing neighbor as a
cycle.  The write-only `parent` map of the JS code has no observable effect
and is not modelled.  The recursion is driven by a fuel argument; the fuel
`g.nodes.length + 1` is larger than the deepest possible nesting (each nested
call marks a previously unvisited node), so the fuel branch is never taken on
the canonical entry point. -/

/-- JS `Set.add` on an insertion-ordered set. -/
def setAdd (l : List String) (x : String) : List String :=
  if l.contains x then l else l ++ [x]

/-- First-occurrence deduplication with an accumulator of already-seen ids. -/
def dedupFirstAux (seen : List String) : List String → List String
  | [] => []
  | x :: xs =>
    if seen.contains x then dedupFirstAux seen xs
    else x :: dedupFirstAux (seen ++ [x]) xs

/-- First-occurrence deduplication, the iteration order of graphology
neighbor iterators (`forEachOutNeighbor` visits each neighbor once). -/
def dedupFirst (l : List String) : List String := dedupFirstAux [] l

theorem mem_dedupFirstAux (a : String) :
    ∀ (l seen : List String), a ∈ dedupFirstAux seen l ↔ a ∈ l ∧ a ∉ seen := by
  intro l
  induction l with
  | nil => intro seen; simp [dedupFirstAux]
  | cons x xs ih =>
    intro seen
    by_cases hx : seen.contains x
    · rw [show dedupFirstAux seen (x :: xs) = dedupFirstAux seen xs by
        rw [dedupFirstAux]; rw [if_pos hx]]
      rw [ih seen]
      simp only [List.mem_cons]
      constructor
      · rintro ⟨h, hns⟩; exact ⟨Or.inr h, hns⟩
      · rintro ⟨h | h, hns⟩
        · subst h; exact absurd (by simpa using hx) hns
        · exact ⟨h, hns⟩
    · rw [show dedupFirstAux seen (x :: xs) = x :: dedupFirstAux (seen ++ [x]) xs by
        rw [dedupFirstAux]; rw [if_neg hx]]
      simp only [List.mem_cons]
      rw [ih (seen ++ [x])]
      constructor
      · rintro (h | ⟨h, hns⟩)
        · subst h
          refine ⟨Or.inl rfl, ?_⟩
          simpa using hx
        · refine ⟨Or.inr h, fun hc => hns ?_⟩
          simp [hc]
      · rintro ⟨h | h, hns⟩
        · subst h; exact Or.inl rfl
        · by_cases hax : a = x
          · subst hax; exact Or.inl rfl
          · refine Or.inr ⟨h, fun hc => ?_⟩
            simp only [List.mem_append, List.mem_singleton] at hc
            rcases hc with hc | hc
            · exact hns hc
            · exact hax hc

theorem mem_dedupFirst {a : String} {l : List String} : a ∈ dedupFirst l ↔ a ∈ l := by
  unfold dedupFirst
  rw [mem_dedupFirstAux a l []]
  simp

/-- `graph.neighbors(n)` / `forEachNeighbor` : each adjacent node once, in
first-occurrence order. -/
def SGraph.bothNbrs (g : SGraph) (n : String) : List String :=
  dedupFirst (g.outNbrs n ++ g.inNbrs n)

/-- JS `Array.prototype.indexOf` : index of the first occurrence. -/
def jsIndexOf : List String → String → Option ℕ
  | [], _ => none
  | y :: ys, x => if y = x then some 0 else (jsIndexOf ys x).map (· + 1)

theorem jsIndexOf_drop :
    ∀ (l : List String) (x : String) (i : ℕ), jsIndexOf l x = some i →
      ∃ rest, l.drop i = x :: rest := by
  intro l
  induction l with
  | nil => intro x i h; simp [jsIndexOf] at h
  | cons y ys ih =>
    intro x i h
    by_cases hyx : y = x
    · rw [jsIndexOf, if_pos hyx] at h
      cases h
      exact ⟨ys, by simp [hyx]⟩
    · rw [jsIndexOf, if_neg hyx] at h
      simp only [Option.map_eq_some'] at h
      obtain ⟨j, hj, hij⟩ := h
      obtain ⟨rest, hrest⟩ := ih x j hj
      exact ⟨rest, by simpa [← hij] using hrest⟩

/-- State threaded through the cycle-detection DFS: the visited set, the
recursion-stack set and the accumulated cycle list, all insertion-ordered. -/
structure CycSt where
  visited : List String
  stack : List String
  cycles : List (List String)
  deriving Repr

/-- The `forEachOutNeighbor` loop body of `dfs`, over the remaining neighbors;
`rec` is the recursive `dfs` call (at one fuel less). -/
def dfsCList (rec : String → List String → CycSt → CycSt)
    (nbrs : List String) (path : List String) (s : CycSt) : CycSt :=
  match nbrs with
  | [] => s
  | nb :: rest =>
    let s1 : CycSt :=
      if s.visited.contains nb then
        if s.stack.contains nb then
          match jsIndexOf path nb with
          | some idx => { s with cycles := s.cycles ++ [path.drop idx ++ [nb]] }
          | none => s
        else s
      else rec nb path s
    dfsCList rec rest path s1

/-- `dfs(node, path)` of `findCycles`. -/
def dfsC (g : SGraph) : ℕ → String → List String → CycSt → CycSt
  | 0, _, _, s => s
  | fuel + 1, node, path, s =>
    let path1 := path ++ [node]
    let s1 : CycSt := { s with visited := setAdd s.visited node, stack := setAdd s.stack node }
    let s2 := dfsCList (dfsC g fuel) (dedupFirst (g.outNbrs node)) path1 s1
    { s2 with stack := s2.stack.erase node }

/-- `findCycles(graph)` : run the DFS from every unvisited node, in node
insertion order; return the accumulated cycles. -/
def findCycles (g : SGraph) : List (List String) :=
  (g.nodeIds.foldl
    (fun (s : CycSt) (n : String) =>
      if s.visited.contains n then s else dfsC g (g.nodes.length + 1) n [] s)
    ⟨[], [], []⟩).cycles

/-- A directed cycle: a forward path of length ≥ 2 from some node to itself. -/
def Acyclic (g : SGraph) : Prop :=
  ¬ ∃ v p, 2 ≤ p.length ∧ IsPathOut g v v p

theorem mem_outNbrs {g : SGraph} {u v : String} : v ∈ g.outNbrs u ↔ (u, v) ∈ g.edges := by
  unfold SGraph.outNbrs
  simp only [List.mem_map, List.mem_filter, beq_iff_eq]
  constructor
  · rintro ⟨e, ⟨he, h1⟩, h2⟩
    have : e = (u, v) := by
      cases e; cases h1; cases h2; rfl
    rwa [this] at he
  · intro h
    exact ⟨(u, v), ⟨h, rfl⟩, rfl⟩

theorem mem_inNbrs {g : SGraph} {u v : String} : v ∈ g.inNbrs u ↔ (v, u) ∈ g.edges := by
  unfold SGraph.inNbrs
  simp only [List.mem_map, List.mem_filter, beq_iff_eq]
  constructor
  · rintro ⟨e, ⟨he, h1⟩, h2⟩
    have : e = (v, u) := by
      cases e; cases h1; cases h2; rfl
    rwa [this] at he
  · intro h
    exact ⟨(v, u), ⟨h, rfl⟩, rfl⟩

theorem chainOut_tail {g : SGraph} {a : String} {l : List String}
    (h : chainOut g (a :: l)) : chainOut g l := by
  cases l with
  | nil => trivial
  | cons b rest => exact h.2

theorem chainOut_drop {g : SGraph} : ∀ (i : ℕ) (l : List String),
    chainOut g l → chainOut g (l.drop i) := by
  intro i
  induction i with
  | zero => intro l h; simpa using h
  | succ j ih =>
    intro l h
    cases l with
    | nil => trivial
    | cons a rest =>
      rw [List.drop_succ_cons]
      exact ih rest (chainOut_tail h)

theorem chainOut_concat {g : SGraph} : ∀ (l : List String) (u v : String),
    chainOut g l → l.getLast? = some u → (u, v) ∈ g.edges → chainOut g (l ++ [v]) := by
  intro l
  induction l with
  | nil => intro u v _ h; simp at h
  | cons a rest ih =>
    intro u v hc hl he
    cases rest with
    | nil =>
      simp only [List.getLast?_singleton, Option.some_inj] at hl
      subst hl
      exact ⟨he, trivial⟩
    | cons b rest2 =>
      have hl2 : (b :: rest2).getLast? = some u := by
        rw [List.getLast?_cons_cons] at hl
        exact hl
      exact ⟨hc.1, ih u v hc.2 hl2 he⟩

theorem getLast?_drop_of_ne_nil {α : Type} : ∀ (l : List α) (i : ℕ),
    l.drop i ≠ [] → (l.drop i).getLast? = l.getLast? := by
  intro l
  induction l with
  | nil => intro i h; simp at h
  | cons a rest ih =>
    intro i h
    cases i with
    | zero => rfl
    | succ j =>
      rw [List.drop_succ_cons] at h ⊢
      rw [ih j h]
      cases rest with
      | nil => simp at h
      | cons b rest2 => rw [List.getLast?_cons_cons]

/-- Every accumulated cycle is a closed forward walk of length ≥ 2. -/
def CyclesOK (g : SGraph) (cs : List (List String)) : Prop :=
  ∀ c ∈ cs, ∃ v, 2 ≤ c.length ∧ IsPathOut g v v c

theorem dfsCList_cyclesOK (g : SGraph) (rec : String → List String → CycSt → CycSt)
    (hrec : ∀ nb path s, CyclesOK g s.cycles → chainOut g (path ++ [nb]) →
      CyclesOK g ((rec nb path s).cycles)) :
    ∀ (nbrs path : List String) (s : CycSt), chainOut g path →
      (∀ nb ∈ nbrs, ∃ u, path.getLast? = some u ∧ (u, nb) ∈ g.edges) →
      CyclesOK g s.cycles → CyclesOK g ((dfsCList rec nbrs path s).cycles) := by
  intro nbrs
  induction nbrs with
  | nil => intro path s _ _ hok; exact hok
  | cons nb rest ih =>
    intro path s hchain hnb hok
    rw [dfsCList]
    apply ih path _ hchain (fun x hx => hnb x (List.mem_cons_of_mem _ hx))
    by_cases hv : s.visited.contains nb
    · rw [if_pos hv]
      by_cases hst : s.stack.contains nb
      · rw [if_pos hst]
        rcases hidx : jsIndexOf path nb with _ | idx
        · exact hok
        · intro c hc
          simp only [List.mem_append, List.mem_singleton] at hc
          rcases hc with hc | hc
          · exact hok c hc
          · subst hc
            obtain ⟨u, hu, he⟩ := hnb nb (List.mem_cons_self _ _)
            obtain ⟨restp, hrest⟩ := jsIndexOf_drop path nb idx hidx
            refine ⟨nb, ?_, ?_, ?_, ?_, ?_⟩
            · rw [List.length_append, hrest]
              simp only [List.length_cons, List.length_singleton]
              omega
            · simp [hrest]
            · rw [hrest]; simp
            · rw [List.getLast?_concat]
            · have hdropne : path.drop idx ≠ [] := by rw [hrest]; simp
              have hlast : (path.drop idx).getLast? = some u := by
                rw [getLast?_drop_of_ne_nil path idx hdropne]; exact hu
              exact chainOut_concat (path.drop idx) u nb
                (chainOut_drop idx path hchain) hlast he
      · rw [if_neg hst]; exact hok
    · rw [if_neg hv]
      obtain ⟨u, hu, he⟩ := hnb nb (List.mem_cons_self _ _)
      apply hrec nb path s hok
      exact chainOut_concat path u nb hchain hu he

theorem dfsC_cyclesOK (g : SGraph) : ∀ (fuel : ℕ) (node : String) (path : List String)
    (s : CycSt), CyclesOK g s.cycles → chainOut g (path ++ [node]) →
    CyclesOK g ((dfsC g fuel node path s).cycles) := by
  intro fuel
  induction fuel with
  | zero => intro node path s hok _; exact hok
  | succ f ih =>
    intro node path s hok hchain
    rw [dfsC]
    apply dfsCList_cyclesOK g (dfsC g f) ih
    · exact hchain
    · intro nb hnb
      refine ⟨node, ?_, ?_⟩
      · simp
      · exact mem_outNbrs.1 (mem_dedupFirst.1 hnb)
    · exact hok

theorem findCycles_cyclesOK (g : SGraph) : CyclesOK g (findCycles g) := by
  unfold findCycles
  have main : ∀ (l : List String) (s : CycSt), CyclesOK g s.cycles →
      CyclesOK g ((l.foldl
        (fun (s : CycSt) (n : String) =>
          if s.visited.contains n then s else dfsC g (g.nodes.length + 1) n [] s) s).cycles) := by
    intro l
    induction l with
    | nil => intro s h; exact h
    | cons n rest ih =>
      intro s h
      rw [List.foldl_cons]
      apply ih
      by_cases hv : s.visited.contains n
      · rwa [if_pos hv]
      · rw [if_neg hv]
        exact dfsC_cyclesOK g (g.nodes.length + 1) n [] s h trivial
  exact main g.nodeIds ⟨[], [], []⟩ (fun c hc => absurd hc (List.not_mem_nil c))

/-- The triangle graph A→B→C→A, built in that insertion order. -/
def gTri : SGraph :=
  SGraph.mk [⟨"A", 0, 0, "", false, ""⟩, ⟨"B", 0, 0, "", false, ""⟩, ⟨"C", 0, 0, "", false, ""⟩]
    [("A", "B"), ("B", "C"), ("C", "A")]

/-- C4: on the triangle graph `findCycles` reports exactly one cycle whose node
set is exactly {A, B, C}, and on every acyclic graph it returns the empty
list. -/
theorem findCycles_spec :
    (findCycles gTri).length = 1 ∧
    (∀ w : String, w ∈ (findCycles gTri).headD [] ↔ w ∈ (["A", "B", "C"] : List String)) ∧
    (∀ g : SGraph, Acyclic g → findCycles g = []) := by
  refine ⟨?_, ?_, ?_⟩
  · have h : findCycles gTri = [["A", "B", "C", "A"]] := rfl
    rw [h]; rfl
  · have h : findCycles gTri = [["A", "B", "C", "A"]] := rfl
    rw [h]
    intro w
    simp only [List.headD_cons, List.mem_cons, List.not_mem_nil, or_false]
    tauto
  · intro g hg
    have hok := findCycles_cyclesOK g
    rcases hcs : findCycles g with _ | ⟨c, rest⟩
    · rfl
    · exfalso
      apply hg
      obtain ⟨v, hlen, hpath⟩ := hok c (by rw [hcs]; exact List.mem_cons_self _ _)
      exact ⟨v, c, hlen, hpath⟩

/-- Witness for C4: the two-node graph with the single edge a→b is acyclic and
`findCycles` returns the empty list on it. -/
theorem findCycles_spec_witness : findCycles gAB = [] := by
  apply findCycles_spec.2.2
  rintro ⟨v, p, hlen, hne, hh, hl, hc⟩
  cases p with
  | nil => exact absurd hlen (by decide)
  | cons a q =>
    cases q with
    | nil => simp at hlen
    | cons b rest =>
      have hab : (a, b) ∈ gAB.edges := hc.1
      simp only [gAB, List.mem_singleton] at hab
      have ha : a = "a" := congrArg Prod.fst hab
      have hb : b = "b" := congrArg Prod.snd hab
      cases rest with
      | nil =>
        simp only [List.head?_cons, Option.some_inj] at hh
        simp only [List.getLast?_cons_cons, List.getLast?_singleton, Option.some_inj] at hl
        rw [← hh, ha] at hl
        rw [hl] at hb
        exact absurd hb (by decide)
      | cons c rest2 =>
        have hbc : (b, c) ∈ gAB.edges := hc.2.1
        simp only [gAB, List.mem_singleton] at hbc
        have hba : b = "a" := congrArg Prod.fst hbc
        rw [hb] at hba
        exact absurd hba (by decide)

/-! ## C8: transitive reachability (`findReachableNodes`, highlight hook)

BFS over out-edges or in-edges; nodes are marked visited when popped, every
incident edge in the chosen direction is recorded, fresh endpoints are pushed,
and the start node is removed from the visited set at the end. -/

/-- The BFS direction: `out` follows edges, `inn` goes against them. -/
inductive Direction where
  | out
  | inn
  deriving DecidableEq, Repr

/-- Edges incident to `n` in the chosen direction (`forEachOutEdge` /
`forEachInEdge` iteration). -/
def dirEdges (g : SGraph) (dir : Direction) (n : String) : List (String × String) :=
  match dir with
  | .out => g.edges.filter (fun e => e.1 == n)
  | .inn => g.edges.filter (fun e => e.2 == n)

/-- The endpoint of an incident edge on the far side of the traversal. -/
def farEnd (dir : Direction) (e : String × String) : String :=
  match dir with
  | .out => e.2
  | .inn => e.1

theorem filter_length_le_of_imp {α : Type} (l : List α) (p q : α → Bool)
    (h : ∀ a ∈ l, q a = true → p a = true) :
    (l.filter q).length ≤ (l.filter p).length := by
  induction l with
  | nil => simp
  | cons x xs ih =>
    have ih2 := ih (fun a ha => h a (List.mem_cons_of_mem _ ha))
    by_cases hq : q x = true
    · rw [List.filter_cons_of_pos hq, List.filter_cons_of_pos (h x (List.mem_cons_self _ _) hq)]
      simpa using ih2
    · rw [List.filter_cons_of_neg (by simpa using hq)]
      by_cases hp : p x = true
      · rw [List.filter_cons_of_pos hp]
        exact le_trans ih2 (by simp)
      · rw [List.filter_cons_of_neg (by simpa using hp)]
        exact ih2

theorem filter_length_lt_of_strict {α : Type} (l : List α) (p q : α → Bool)
    (h : ∀ a ∈ l, q a = true → p a = true)
    (a : α) (hal : a ∈ l) (hpa : p a = true) (hqa : q a = false) :
    (l.filter q).length < (l.filter p).length := by
  induction l with
  | nil => simp at hal
  | cons x xs ih =>
    have hsub : ∀ b ∈ xs, q b = true → p b = true :=
      fun b hb => h b (List.mem_cons_of_mem _ hb)
    rcases List.mem_cons.1 hal with hax | hax
    · subst hax
      rw [List.filter_cons_of_pos hpa, List.filter_cons_of_neg (by simp [hqa])]
      exact Nat.lt_succ_of_le (filter_length_le_of_imp xs p q hsub)
    · by_cases hq : q x = true
      · rw [List.filter_cons_of_pos hq, List.filter_cons_of_pos (h x (List.mem_cons_self _ _) hq)]
        simpa using ih hsub hax
      · rw [List.filter_cons_of_neg (by simpa using hq)]
        by_cases hp : p x = true
        · rw [List.filter_cons_of_pos hp]
          exact Nat.lt_succ_of_le (le_of_lt (ih hsub hax))
        · rw [List.filter_cons_of_neg (by simpa using hp)]
          exact ih hsub hax

/-- All strings that can ever be enqueued by the traversal: node ids and edge
endpoints.  Only used as a termination measure. -/
def strUniverse (g : SGraph) : List String :=
  g.nodeIds ++ g.edges.map Prod.fst ++ g.edges.map Prod.snd

theorem farEnd_mem_strUniverse (g : SGraph) (dir : Direction) (n : String)
    (e : String × String) (he : e ∈ dirEdges g dir n) : farEnd dir e ∈ strUniverse g := by
  have hmem : e ∈ g.edges := by
    cases dir <;> exact (List.mem_filter.1 he).1
  cases dir with
  | out =>
    unfold strUniverse farEnd
    simp only [List.mem_append]
    exact Or.inr (List.mem_map_of_mem _ hmem)
  | inn =>
    unfold strUniverse farEnd
    simp only [List.mem_append]
    exact Or.inl (Or.inr (List.mem_map_of_mem _ hmem))

theorem dirEdges_src_mem_strUniverse (g : SGraph) (dir : Direction) (n : String)
    (e : String × String) (he : e ∈ dirEdges g dir n) : n ∈ strUniverse g := by
  have hmem : e ∈ g.edges := by
    cases dir <;> exact (List.mem_filter.1 he).1
  cases dir with
  | out =>
    have : e.1 = n := by simpa using (List.mem_filter.1 he).2
    unfold strUniverse
    simp only [List.mem_append]
    exact Or.inl (Or.inr (this ▸ List.mem_map_of_mem _ hmem))
  | inn =>
    have : e.2 = n := by simpa using (List.mem_filter.1 he).2
    unfold strUniverse
    simp only [List.mem_append]
    exact Or.inr (this ▸ List.mem_map_of_mem _ hmem)

/-- The `while (queue.length > 0)` loop of `findReachableNodes`. -/
def reachLoop (g : SGraph) (dir : Direction) :
    List String → List String → List (String × String) → List String × List (String × String)
  | [], visited, eAcc => (visited, eAcc)
  | current :: rest, visited, eAcc =>
    if hv : visited.contains current then
      reachLoop g dir rest visited eAcc
    else
      let incident := dirEdges g dir current
      let visited1 := visited ++ [current]
      let eAcc1 := incident.foldl (fun acc e => if acc.contains e then acc else acc ++ [e]) eAcc
      let pushes := (incident.map (farEnd dir)).filter (fun nb => !(visited1.contains nb))
      reachLoop g dir (rest ++ pushes) visited1 eAcc1
termination_by q visited _ =>
  (((strUniverse g).filter (fun n => !(visited.contains n))).length, q.length)
decreasing_by
  · apply Prod.Lex.right
    exact Nat.lt_succ_self _
  · by_cases hcu : current ∈ strUniverse g
    · apply Prod.Lex.left
      apply filter_length_lt_of_strict (strUniverse g)
        (fun n => !(visited.contains n)) (fun n => !((visited ++ [current]).contains n))
        ?_ current hcu ?_ ?_
      · intro a _ hq
        simp only [Bool.not_eq_true', Bool.not_eq_false] at hq ⊢
        rw [Bool.eq_false_iff] at hq ⊢
        intro hc
        apply hq
        simp only [List.contains_eq_any_beq] at hc ⊢
        simp only [List.any_eq_true] at hc ⊢
        obtain ⟨x, hx, hbeq⟩ := hc
        exact ⟨x, List.mem_append_left _ hx, hbeq⟩
      · simpa using hv
      · simp
    · have hinc : dirEdges g dir current = [] := by
        rcases hde : dirEdges g dir current with _ | ⟨e, es⟩
        · rfl
        · exact absurd
            (dirEdges_src_mem_strUniverse g dir current e (hde ▸ List.mem_cons_self _ _)) hcu
      have hfeq : ((strUniverse g).filter
            (fun n => !((visited ++ [current]).contains n))).length =
          ((strUniverse g).filter (fun n => !(visited.contains n))).length := by
        apply congrArg
        apply List.filter_congr
        intro a ha
        have hane : a ≠ current := fun hcc => hcu (hcc ▸ ha)
        simp [hane]
      simp only [hinc, List.map_nil, List.filter_nil, List.append_nil]
      rw [hfeq]
      apply Prod.Lex.right
      exact Nat.lt_succ_self _

/-- `findReachableNodes(graph, startNode, direction)` : BFS-reachable nodes and
traversed edges, with the start node removed from the node set at the end. -/
def findReachableNodes (g : SGraph) (startNode : String) (dir : Direction) :
    List String × List (String × String) :=
  let r := reachLoop g dir [startNode] [] []
  (r.1.erase startNode, r.2)

/-- A path in the chosen direction. -/
def IsPathDir (g : SGraph) (dir : Direction) (s t : String) (p : List String) : Prop :=
  match dir with
  | .out => IsPathOut g s t p
  | .inn => IsPathIn g s t p

/-- `t` is reachable from `s` following edges in the chosen direction
(reflexively: the single-node path witnesses `Reach g dir s s`). -/
def Reach (g : SGraph) (dir : Direction) (s t : String) : Prop :=
  ∃ p, IsPathDir g dir s t p

theorem reach_refl (g : SGraph) (dir : Direction) (s : String) : Reach g dir s s := by
  refine ⟨[s], ?_⟩
  cases dir <;> exact ⟨by simp, rfl, rfl, trivial⟩

theorem head?_append_left {α : Type} (l l2 : List α) (h : l ≠ []) :
    (l ++ l2).head? = l.head? := by
  cases l with
  | nil => exact absurd rfl h
  | cons a rest => rfl

theorem chainIn_concat {g : SGraph} : ∀ (l : List String) (u v : String),
    chainIn g l → l.getLast? = some u → (v, u) ∈ g.edges → chainIn g (l ++ [v]) := by
  intro l
  induction l with
  | nil => intro u v _ h; simp at h
  | cons a rest ih =>
    intro u v hc hl he
    cases rest with
    | nil =>
      simp only [List.getLast?_singleton, Option.some_inj] at hl
      subst hl
      exact ⟨he, trivial⟩
    | cons b rest2 =>
      have hl2 : (b :: rest2).getLast? = some u := by
        rw [List.getLast?_cons_cons] at hl
        exact hl
      exact ⟨hc.1, ih u v hc.2 hl2 he⟩

theorem mem_dirEdges {g : SGraph} {dir : Direction} {u : String} {e : String × String} :
    e ∈ dirEdges g dir u ↔ e ∈ g.edges ∧ (match dir with | .out => e.1 = u | .inn => e.2 = u) := by
  cases dir <;> simp [dirEdges, List.mem_filter]

theorem reach_step {g : SGraph} {dir : Direction} {s u : String} {e : String × String}
    (hr : Reach g dir s u) (he : e ∈ dirEdges g dir u) : Reach g dir s (farEnd dir e) := by
  obtain ⟨p, hp⟩ := hr
  obtain ⟨hee, heu⟩ := mem_dirEdges.1 he
  cases dir with
  | out =>
    obtain ⟨hne, hh, hl, hc⟩ := hp
    show Reach g Direction.out s e.2
    refine ⟨p ++ [e.2], ?_, ?_, ?_, ?_⟩
    · simp
    · rw [head?_append_left p _ hne]; exact hh
    · rw [List.getLast?_concat]
    · apply chainOut_concat p u e.2 hc hl
      have : e = (u, e.2) := by
        cases e; simp at heu ⊢; exact heu
      rwa [this] at hee
  | inn =>
    obtain ⟨hne, hh, hl, hc⟩ := hp
    show Reach g Direction.inn s e.1
    refine ⟨p ++ [e.1], ?_, ?_, ?_, ?_⟩
    · simp
    · rw [head?_append_left p _ hne]; exact hh
    · rw [List.getLast?_concat]
    · apply chainIn_concat p u e.1 hc hl
      have : e = (e.1, u) := by
        cases e; simp at heu ⊢; exact heu
      rwa [this] at hee

theorem reach_mem_closed {g : SGraph} {dir : Direction} (S : List String)
    (closed : ∀ u ∈ S, ∀ e ∈ dirEdges g dir u, farEnd dir e ∈ S) :
    ∀ (p : List String) (s v : String), s ∈ S → IsPathDir g dir s v p → v ∈ S := by
  intro p
  induction p with
  | nil =>
    intro s v _ hp
    exfalso
    cases dir <;> exact hp.1 rfl
  | cons a q ih =>
    intro s v hs hp
    cases q with
    | nil =>
      have hav : a = v := by
        cases dir <;>
          simpa using hp.2.2.1
      have has : a = s := by
        cases dir <;> simpa using hp.2.1
      rw [← hav, has]; exact hs
    | cons b rest =>
      have has : a = s := by
        cases dir <;> simpa using hp.2.1
      cases dir with
      | out =>
        obtain ⟨_, hh, hl, hc⟩ := hp
        have hb : b ∈ S := by
          have hab : (a, b) ∈ g.edges := hc.1
          have : ((a, b) : String × String) ∈ dirEdges g Direction.out a :=
            mem_dirEdges.2 ⟨hab, rfl⟩
          have := closed a (has ▸ hs) (a, b) this
          simpa [farEnd] using this
        apply ih b v hb
        refine ⟨by simp, by simp, ?_, hc.2⟩
        rw [List.getLast?_cons_cons] at hl
        exact hl
      | inn =>
        obtain ⟨_, hh, hl, hc⟩ := hp
        have hb : b ∈ S := by
          have hab : (b, a) ∈ g.edges := hc.1
          have : ((b, a) : String × String) ∈ dirEdges g Direction.inn a :=
            mem_dirEdges.2 ⟨hab, rfl⟩
          have := closed a (has ▸ hs) (b, a) this
          simpa [farEnd] using this
        apply ih b v hb
        refine ⟨by simp, by simp, ?_, hc.2⟩
        rw [List.getLast?_cons_cons] at hl
        exact hl

theorem reachLoop_visited_subset (g : SGraph) (dir : Direction) :
    ∀ (q visited : List String) (eAcc : List (String × String)) (x : String),
      x ∈ visited → x ∈ (reachLoop g dir q visited eAcc).1 := by
  intro q visited eAcc
  induction q, visited, eAcc using reachLoop.induct g dir with
  | case1 visited eAcc => intro x hx; rw [reachLoop]; exact hx
  | case2 current rest visited eAcc hv ih =>
    intro x hx
    rw [reachLoop, dif_pos hv]
    exact ih x hx
  | case3 current rest visited eAcc hv incident visited1 eAcc1 pushes ih =>
    intro x hx
    rw [reachLoop, dif_neg hv]
    exact ih x (List.mem_append_left _ hx)

theorem reachLoop_queue_subset (g : SGraph) (dir : Direction) :
    ∀ (q visited : List String) (eAcc : List (String × String)) (x : String),
      x ∈ q → x ∈ (reachLoop g dir q visited eAcc).1 := by
  intro q visited eAcc
  induction q, visited, eAcc using reachLoop.induct g dir with
  | case1 visited eAcc => intro x hx; rw [reachLoop]; simp at hx
  | case2 current rest visited eAcc hv ih =>
    intro x hx
    rw [reachLoop, dif_pos hv]
    rcases List.mem_cons.1 hx with hx | hx
    · subst hx
      exact reachLoop_visited_subset g dir rest visited eAcc x (by simpa using hv)
    · exact ih x hx
  | case3 current rest visited eAcc hv incident visited1 eAcc1 pushes ih =>
    intro x hx
    rw [reachLoop, dif_neg hv]
    rcases List.mem_cons.1 hx with hx | hx
    · subst hx
      exact reachLoop_visited_subset g dir _ _ _ x (List.mem_append_right _ (by simp))
    · exact ih x (List.mem_append_left _ hx)

theorem reachLoop_nodup (g : SGraph) (dir : Direction) :
    ∀ (q visited : List String) (eAcc : List (String × String)),
      visited.Nodup → (reachLoop g dir q visited eAcc).1.Nodup := by
  intro q visited eAcc
  induction q, visited, eAcc using reachLoop.induct g dir with
  | case1 visited eAcc => intro h; rw [reachLoop]; exact h
  | case2 current rest visited eAcc hv ih =>
    intro h
    rw [reachLoop, dif_pos hv]
    exact ih h
  | case3 current rest visited eAcc hv incident visited1 eAcc1 pushes ih =>
    intro h
    rw [reachLoop, dif_neg hv]
    apply ih
    show (visited ++ [current]).Nodup
    simp only [List.nodup_append, List.nodup_singleton]
    refine ⟨h, trivial, ?_⟩
    intro a ha hac
    simp only [List.mem_singleton] at hac
    subst hac
    have hnv : a ∉ visited := by simpa using hv
    exact hnv ha

theorem reachLoop_sound (g : SGraph) (dir : Direction) (startNode : String) :
    ∀ (q visited : List String) (eAcc : List (String × String)),
      (∀ x ∈ visited, Reach g dir startNode x) →
      (∀ x ∈ q, Reach g dir startNode x) →
      ∀ x ∈ (reachLoop g dir q visited eAcc).1, Reach g dir startNode x := by
  intro q visited eAcc
  induction q, visited, eAcc using reachLoop.induct g dir with
  | case1 visited eAcc => intro hvis _ x hx; rw [reachLoop] at hx; exact hvis x hx
  | case2 current rest visited eAcc hv ih =>
    intro hvis hq x hx
    rw [reachLoop, dif_pos hv] at hx
    exact ih hvis (fun y hy => hq y (List.mem_cons_of_mem _ hy)) x hx
  | case3 current rest visited eAcc hv incident visited1 eAcc1 pushes ih =>
    intro hvis hq x hx
    rw [reachLoop, dif_neg hv] at hx
    have hcur : Reach g dir startNode current := hq current (List.mem_cons_self _ _)
    apply ih ?_ ?_ x hx
    · intro y hy
      rcases List.mem_append.1 hy with hy | hy
      · exact hvis y hy
      · simp only [List.mem_singleton] at hy
        subst hy
        exact hcur
    · intro y hy
      rcases List.mem_append.1 hy with hy | hy
      · exact hq y (List.mem_cons_of_mem _ hy)
      · have hy2 := List.mem_filter.1 hy
        obtain ⟨e, he, hfe⟩ := List.mem_map.1 hy2.1
        subst hfe
        exact reach_step hcur he

theorem reachLoop_closed (g : SGraph) (dir : Direction) :
    ∀ (q visited : List String) (eAcc : List (String × String)),
      (∀ u ∈ visited, ∀ e ∈ dirEdges g dir u,
        farEnd dir e ∈ visited ∨ farEnd dir e ∈ q) →
      ∀ u ∈ (reachLoop g dir q visited eAcc).1, ∀ e ∈ dirEdges g dir u,
        farEnd dir e ∈ (reachLoop g dir q visited eAcc).1 := by
  intro q visited eAcc
  induction q, visited, eAcc using reachLoop.induct g dir with
  | case1 visited eAcc =>
    intro hinv u hu e he
    rw [reachLoop] at hu ⊢
    rcases hinv u hu e he with h | h
    · exact h
    · simp at h
  | case2 current rest visited eAcc hv ih =>
    intro hinv
    rw [reachLoop, dif_pos hv]
    apply ih
    intro u hu e he
    rcases hinv u hu e he with h | h
    · exact Or.inl h
    · rcases List.mem_cons.1 h with h | h
      · exact Or.inl (h ▸ (by simpa using hv))
      · exact Or.inr h
  | case3 current rest visited eAcc hv incident visited1 eAcc1 pushes ih =>
    intro hinv
    rw [reachLoop, dif_neg hv]
    apply ih
    intro u hu e he
    rcases List.mem_append.1 hu with hu | hu
    · rcases hinv u hu e he with h | h
      · exact Or.inl (List.mem_append_left _ h)
      · rcases List.mem_cons.1 h with h | h
        · exact Or.inl (List.mem_append_right _ (by simp [h]))
        · exact Or.inr (List.mem_append_left _ h)
    · simp only [List.mem_singleton] at hu
      subst hu
      by_cases hfv : farEnd dir e ∈ visited ++ [u]
      · exact Or.inl hfv
      · refine Or.inr (List.mem_append_right _ ?_)
        apply List.mem_filter.2
        refine ⟨List.mem_map_of_mem _ he, ?_⟩
        simp only [Bool.not_eq_true']
        rw [Bool.eq_false_iff]
        intro hc
        have hc2 : (visited ++ [u]).contains (farEnd dir e) = true := hc
        have hdis : farEnd dir e ∈ visited ∨ farEnd dir e = u := by simpa using hc2
        apply hfv
        rcases hdis with h | h
        · exact List.mem_append_left _ h
        · exact List.mem_append_right _ (by simp [h])

/-- The chain graph A→B→C, in that insertion order. -/
def gChain : SGraph :=
  SGraph.mk [⟨"A", 0, 0, "", false, ""⟩, ⟨"B", 0, 0, "", false, ""⟩, ⟨"C", 0, 0, "", false, ""⟩]
    [("A", "B"), ("B", "C")]

/-- C8: `findReachableNodes` returns exactly the nodes reachable from the start
in the chosen direction, excluding the start node itself; on the chain A→B→C
the forward reach of A is {B, C} and the reverse reach of C is {A, B}. -/
theorem findReachableNodes_spec :
    (∀ (g : SGraph) (startNode : String) (dir : Direction) (v : String),
      v ∈ (findReachableNodes g startNode dir).1 ↔
        v ≠ startNode ∧ Reach g dir startNode v) ∧
    (findReachableNodes gChain "A" Direction.out).1 = ["B", "C"] ∧
    (findReachableNodes gChain "C" Direction.inn).1 = ["B", "A"] := by
  refine ⟨?_, ?_, ?_⟩
  · intro g startNode dir v
    have hnodup : (reachLoop g dir [startNode] [] []).1.Nodup :=
      reachLoop_nodup g dir [startNode] [] [] List.nodup_nil
    have hshow : (findReachableNodes g startNode dir).1 =
        (reachLoop g dir [startNode] [] []).1.erase startNode := rfl
    rw [hshow]
    rw [List.Nodup.mem_erase_iff hnodup]
    constructor
    · rintro ⟨hne, hmem⟩
      refine ⟨hne, ?_⟩
      apply reachLoop_sound g dir startNode [startNode] [] [] ?_ ?_ v hmem
      · intro x hx; simp at hx
      · intro x hx
        simp only [List.mem_singleton] at hx
        rw [hx]
        exact reach_refl g dir startNode
    · rintro ⟨hne, hr⟩
      refine ⟨hne, ?_⟩
      obtain ⟨p, hp⟩ := hr
      apply reach_mem_closed (reachLoop g dir [startNode] [] []).1 ?_ p startNode v ?_ hp
      · apply reachLoop_closed g dir [startNode] [] []
        intro u hu; simp at hu
      · exact reachLoop_queue_subset g dir [startNode] [] [] startNode (by simp)
  · simp +decide [findReachableNodes, reachLoop, dirEdges, farEnd, gChain,
      SGraph.nodeIds, List.filter]
  · simp +decide [findReachableNodes, reachLoop, dirEdges, farEnd, gChain,
      SGraph.nodeIds, List.filter]

/-! ## C1 / C5: shortest path (`findShortestPath` / `bfsPath`, pathFinder.ts)

`bfsPath` does a BFS with a parent map and reconstructs the path when the
target is first discovered; `findShortestPath` tries the forward direction
first and falls back to the reverse direction. -/

/-- One step of movement in the chosen direction: `out` follows an edge,
`inn` walks an edge backwards. -/
def stepRel (g : SGraph) (dir : Direction) (a b : String) : Prop :=
  match dir with
  | .out => (a, b) ∈ g.edges
  | .inn => (b, a) ∈ g.edges

/-- Consecutive pairs of the list are related by `R`. -/
def chainRel (R : String → String → Prop) : List String → Prop
  | [] => True
  | [_] => True
  | a :: b :: rest => R a b ∧ chainRel R (b :: rest)

theorem chainOut_iff_chainRel {g : SGraph} :
    ∀ {p : List String}, chainOut g p ↔ chainRel (stepRel g Direction.out) p := by
  intro p
  induction p with
  | nil => exact Iff.rfl
  | cons a q ih =>
    cases q with
    | nil => exact Iff.rfl
    | cons b rest =>
      unfold chainOut chainRel
      rw [show chainOut g (b :: rest) ↔ chainRel (stepRel g Direction.out) (b :: rest) from ih]
      exact Iff.rfl

theorem chainIn_iff_chainRel {g : SGraph} :
    ∀ {p : List String}, chainIn g p ↔ chainRel (stepRel g Direction.inn) p := by
  intro p
  induction p with
  | nil => exact Iff.rfl
  | cons a q ih =>
    cases q with
    | nil => exact Iff.rfl
    | cons b rest =>
      unfold chainIn chainRel
      rw [show chainIn g (b :: rest) ↔ chainRel (stepRel g Direction.inn) (b :: rest) from ih]
      exact Iff.rfl

theorem isPathDir_iff {g : SGraph} {dir : Direction} {s t : String} {p : List String} :
    IsPathDir g dir s t p ↔
      p ≠ [] ∧ p.head? = some s ∧ p.getLast? = some t ∧ chainRel (stepRel g dir) p := by
  cases dir with
  | out =>
    unfold IsPathDir IsPathOut
    rw [show chainOut g p ↔ chainRel (stepRel g Direction.out) p from chainOut_iff_chainRel]
  | inn =>
    unfold IsPathDir IsPathIn
    rw [show chainIn g p ↔ chainRel (stepRel g Direction.inn) p from chainIn_iff_chainRel]

/-- The unique neighbors of `current` in the chosen direction, in edge
insertion order (`graph.outNeighbors` / `graph.inNeighbors`). -/
def nbrsOf (g : SGraph) (dir : Direction) (current : String) : List String :=
  match dir with
  | .out => dedupFirst (g.outNbrs current)
  | .inn => dedupFirst (g.inNbrs current)

theorem mem_nbrsOf {g : SGraph} {dir : Direction} {u v : String} :
    v ∈ nbrsOf g dir u ↔ stepRel g dir u v := by
  cases dir with
  | out =>
    unfold nbrsOf stepRel
    rw [mem_dedupFirst]
    exact mem_outNbrs
  | inn =>
    unfold nbrsOf stepRel
    rw [mem_dedupFirst]
    exact mem_inNbrs

/-- The parent map and visited set of `bfsPath`. -/
structure BfsSt where
  visited : List String
  par : List (String × String)
  deriving Repr, DecidableEq

/-- JS path reconstruction: walk the parent map from `node`, prepending each
parent (`while (parent.has(node)) { node = parent.get(node); path.unshift(node) }`).
The fuel bounds the walk; the invariants show `par.length` is always enough. -/
def buildPath (par : List (String × String)) : ℕ → String → List String → List String
  | 0, _, acc => acc
  | fuel + 1, node, acc =>
    match par.lookup node with
    | none => acc
    | some p => buildPath par fuel p (p :: acc)

/-- The `for (const neighbor of neighbors)` loop of `bfsPath`: marks fresh
neighbors, records parents, returns the reconstructed path the moment the
target is discovered, otherwise accumulates the nodes to enqueue. -/
def expandB (tgt current : String) :
    List String → BfsSt → List String → (List String) ⊕ (BfsSt × List String)
  | [], s, pushes => Sum.inr (s, pushes)
  | nb :: rest, s, pushes =>
    if s.visited.contains nb then expandB tgt current rest s pushes
    else
      let s1 : BfsSt := ⟨s.visited ++ [nb], s.par ++ [(nb, current)]⟩
      if nb = tgt then Sum.inl (buildPath s1.par s1.par.length tgt [tgt])
      else expandB tgt current rest s1 (pushes ++ [nb])

theorem expandB_visited_sub (tgt current : String) :
    ∀ (nbrs : List String) (s : BfsSt) (pushes : List String) (s2 : BfsSt)
      (pushes2 : List String), expandB tgt current nbrs s pushes = Sum.inr (s2, pushes2) →
      ∀ x ∈ s.visited, x ∈ s2.visited := by
  intro nbrs
  induction nbrs with
  | nil =>
    intro s pushes s2 pushes2 h x hx
    rw [expandB] at h
    cases h
    exact hx
  | cons nb rest ih =>
    intro s pushes s2 pushes2 h x hx
    rw [expandB] at h
    by_cases hv : s.visited.contains nb
    · rw [if_pos hv] at h
      exact ih s pushes s2 pushes2 h x hx
    · rw [if_neg hv] at h
      by_cases ht : nb = tgt
      · rw [if_pos ht] at h
        cases h
      · rw [if_neg ht] at h
        exact ih _ _ s2 pushes2 h x (List.mem_append_left _ hx)

theorem expandB_inr_eq (tgt current : String) :
    ∀ (nbrs : List String) (s : BfsSt) (pushes : List String) (s2 : BfsSt)
      (pushes2 : List String), expandB tgt current nbrs s pushes = Sum.inr (s2, pushes2) →
      ∃ fresh : List String,
        s2.visited = s.visited ++ fresh ∧
        s2.par = s.par ++ fresh.map (fun nb => (nb, current)) ∧
        pushes2 = pushes ++ fresh ∧
        (∀ x ∈ fresh, x ∈ nbrs ∧ x ∉ s.visited) := by
  intro nbrs
  induction nbrs with
  | nil =>
    intro s pushes s2 pushes2 h
    rw [expandB] at h
    cases h
    exact ⟨[], by simp, by simp, by simp, by simp⟩
  | cons nb rest ih =>
    intro s pushes s2 pushes2 h
    rw [expandB] at h
    by_cases hv : s.visited.contains nb
    · rw [if_pos hv] at h
      obtain ⟨fresh, h1, h2, h3, h4⟩ := ih s pushes s2 pushes2 h
      exact ⟨fresh, h1, h2, h3, fun x hx =>
        ⟨List.mem_cons_of_mem _ (h4 x hx).1, (h4 x hx).2⟩⟩
    · rw [if_neg hv] at h
      by_cases ht : nb = tgt
      · rw [if_pos ht] at h
        cases h
      · rw [if_neg ht] at h
        obtain ⟨fresh1, h1, h2, h3, h4⟩ := ih _ _ s2 pushes2 h
        refine ⟨nb :: fresh1, ?_, ?_, ?_, ?_⟩
        · rw [h1]; simp
        · rw [h2]; simp
        · rw [h3]; simp
        · intro x hx
          rcases List.mem_cons.1 hx with hx | hx
          · subst hx
            exact ⟨List.mem_cons_self _ _, by simpa using hv⟩
          · have h5 := h4 x hx
            refine ⟨List.mem_cons_of_mem _ h5.1, fun hc => h5.2 ?_⟩
            exact List.mem_append_left _ hc

theorem stepRel_tgt_mem_strUniverse {g : SGraph} {dir : Direction} {u v : String}
    (h : stepRel g dir u v) : v ∈ strUniverse g := by
  cases dir with
  | out =>
    unfold strUniverse
    simp only [List.mem_append]
    exact Or.inr (List.mem_map.2 ⟨(u, v), h, rfl⟩)
  | inn =>
    unfold strUniverse
    simp only [List.mem_append]
    exact Or.inl (Or.inr (List.mem_map.2 ⟨(v, u), h, rfl⟩))

/-- The `while (queue.length > 0)` loop of `bfsPath`. -/
def bfsLoop (g : SGraph) (dir : Direction) (tgt : String) :
    List String → BfsSt → Option (List String)
  | [], _ => none
  | current :: rest, s =>
    match hex : expandB tgt current (nbrsOf g dir current) s [] with
    | Sum.inl path => some path
    | Sum.inr (s1, pushes) => bfsLoop g dir tgt (rest ++ pushes) s1
termination_by q s =>
  (((strUniverse g).filter (fun n => !(s.visited.contains n))).length, q.length)
decreasing_by
  obtain ⟨fresh, hvis, hpar, hpush, hmem⟩ :=
    expandB_inr_eq tgt current (nbrsOf g dir current) s [] s1 pushes hex
  cases fresh with
  | nil =>
    rw [hvis, List.append_nil]
    rw [hpush]
    apply Prod.Lex.right
    simp only [List.append_nil, List.nil_append, List.length_append, List.length_cons,
      List.length_nil]
    omega
  | cons f fresh2 =>
    apply Prod.Lex.left
    have hf := hmem f (List.mem_cons_self _ _)
    apply filter_length_lt_of_strict (strUniverse g)
      (fun n => !(s.visited.contains n)) (fun n => !(s1.visited.contains n))
      ?_ f ?_ ?_ ?_
    · intro a _ hq
      simp only [Bool.not_eq_true'] at hq ⊢
      rw [Bool.eq_false_iff] at hq ⊢
      intro hc
      apply hq
      have hc2 : a ∈ s.visited := by simpa using hc
      have : a ∈ s1.visited := by
        rw [hvis]; exact List.mem_append_left _ hc2
      simpa using this
    · exact stepRel_tgt_mem_strUniverse (mem_nbrsOf.1 hf.1)
    · simp only [Bool.not_eq_true']
      rw [Bool.eq_false_iff]
      intro hc
      exact hf.2 (by simpa using hc)
    · simp only [Bool.not_eq_true', Bool.not_eq_false]
      have : f ∈ s1.visited := by
        rw [hvis]
        exact List.mem_append_right _ (List.mem_cons_self _ _)
      simpa using this

/-- `bfsPath(graph, source, target, direction)` : `[source]` when the two
coincide, otherwise the BFS starting from `source`. -/
def bfsPath (g : SGraph) (source target : String) (dir : Direction) :
    Option (List String) :=
  if source = target then some [source]
  else bfsLoop g dir target [source] ⟨[source], []⟩

/-- `findShortestPath(graph, source, target)` : try the forward direction, then
the reverse direction. -/
def findShortestPath (g : SGraph) (source target : String) : Option (List String) :=
  match bfsPath g source target Direction.out with
  | some p => some p
  | none => bfsPath g source target Direction.inn

theorem lookup_append_of_some {β : Type} {l1 l2 : List (String × β)} {k : String} {v : β}
    (h : l1.lookup k = some v) : (l1 ++ l2).lookup k = some v := by
  induction l1 with
  | nil => simp [List.lookup] at h
  | cons e rest ih =>
    rw [List.cons_append, List.lookup]
    rw [List.lookup] at h
    by_cases hk : (k == e.1) = true
    · rw [hk] at h ⊢
      exact h
    · have hkf : (k == e.1) = false := by simpa using hk
      rw [hkf] at h ⊢
      exact ih h

theorem lookup_append_of_none {β : Type} {l1 l2 : List (String × β)} {k : String}
    (h : l1.lookup k = none) : (l1 ++ l2).lookup k = l2.lookup k := by
  induction l1 with
  | nil => simp
  | cons e rest ih =>
    rw [List.cons_append, List.lookup]
    rw [List.lookup] at h
    by_cases hk : (k == e.1) = true
    · rw [hk] at h
      cases h
    · have hkf : (k == e.1) = false := by simpa using hk
      rw [hkf] at h ⊢
      exact ih h

theorem lookup_map_const_mem {β : Type} {xs : List String} {v : String} {c : β} (h : v ∈ xs) :
    (xs.map (fun nb => (nb, c))).lookup v = some c := by
  induction xs with
  | nil => simp at h
  | cons x rest ih =>
    rw [List.map_cons, List.lookup]
    by_cases hv : v = x
    · have hb : (v == x) = true := by simpa using hv
      rw [hb]
    · have hb : (v == x) = false := by simpa using hv
      rw [hb]
      exact ih (by
        rcases List.mem_cons.1 h with h1 | h1
        · exact absurd h1 hv
        · exact h1)

theorem lookup_map_const_not_mem {β : Type} {xs : List String} {v : String} {c : β}
    (h : v ∉ xs) : (xs.map (fun nb => (nb, c))).lookup v = none := by
  induction xs with
  | nil => simp
  | cons x rest ih =>
    rw [List.map_cons, List.lookup]
    have hv : v ≠ x := fun hc => h (hc ▸ List.mem_cons_self _ _)
    have hb : (v == x) = false := by simpa using hv
    rw [hb]
    exact ih (fun hc => h (List.mem_cons_of_mem _ hc))

theorem chainRel_concat {R : String → String → Prop} :
    ∀ (l : List String) (u v : String),
      chainRel R l → l.getLast? = some u → R u v → chainRel R (l ++ [v]) := by
  intro l
  induction l with
  | nil => intro u v _ h; simp at h
  | cons a rest ih =>
    intro u v hc hl hr
    cases rest with
    | nil =>
      simp only [List.getLast?_singleton, Option.some_inj] at hl
      subst hl
      exact ⟨hr, trivial⟩
    | cons b rest2 =>
      have hl2 : (b :: rest2).getLast? = some u := by
        rw [List.getLast?_cons_cons] at hl
        exact hl
      exact ⟨hc.1, ih u v hc.2 hl2 hr⟩

theorem chainRel_snoc_decomp {R : String → String → Prop} :
    ∀ (l : List String) (b : String), chainRel R (l ++ [b]) → l ≠ [] →
      chainRel R l ∧ ∃ u, l.getLast? = some u ∧ R u b := by
  intro l
  induction l with
  | nil => intro b _ h; exact absurd rfl h
  | cons a rest ih =>
    intro b hc _
    cases rest with
    | nil =>
      exact ⟨trivial, a, rfl, hc.1⟩
    | cons c rest2 =>
      have hc2 : chainRel R ((c :: rest2) ++ [b]) := hc.2
      obtain ⟨hcr, u, hu, hub⟩ := ih b hc2 (by simp)
      refine ⟨⟨hc.1, hcr⟩, u, ?_, hub⟩
      rw [List.getLast?_cons_cons]
      exact hu

theorem isPathDir_concat {g : SGraph} {dir : Direction} {s u v : String} {p : List String}
    (hp : IsPathDir g dir s u p) (hr : stepRel g dir u v) :
    IsPathDir g dir s v (p ++ [v]) := by
  rw [isPathDir_iff] at hp ⊢
  obtain ⟨hne, hh, hl, hc⟩ := hp
  refine ⟨by simp, ?_, ?_, ?_⟩
  · rw [head?_append_left p _ hne]; exact hh
  · rw [List.getLast?_concat]
  · exact chainRel_concat p u v hc hl hr

theorem isPathDir_closed_step {g : SGraph} {dir : Direction} (S : List String)
    (closed : ∀ u ∈ S, ∀ w, stepRel g dir u w → w ∈ S) :
    ∀ (p : List String) (s v : String), s ∈ S → IsPathDir g dir s v p → v ∈ S := by
  intro p
  induction p with
  | nil =>
    intro s v _ hp
    rw [isPathDir_iff] at hp
    exact absurd rfl hp.1
  | cons a q ih =>
    intro s v hs hp
    rw [isPathDir_iff] at hp
    obtain ⟨_, hh, hl, hc⟩ := hp
    have has : a = s := by simpa using hh
    cases q with
    | nil =>
      have hav : a = v := by simpa using hl
      rw [← hav, has]
      exact hs
    | cons b rest =>
      have hb : b ∈ S := closed a (has ▸ hs) b hc.1
      apply ih b v hb
      rw [isPathDir_iff]
      refine ⟨by simp, by simp, ?_, hc.2⟩
      rw [List.getLast?_cons_cons] at hl
      exact hl

/-- The invariant of the `bfsPath` BFS loop.  `d` is the (ghost) BFS depth of
each visited node: the length of its parent chain, which the invariant pins to
the exact graph distance from the source. -/
structure BfsInv (g : SGraph) (dir : Direction) (src tgt : String)
    (s : BfsSt) (queue : List String) (d : String → ℕ) : Prop where
  src_mem : src ∈ s.visited
  d_src : d src = 0
  tgt_not_mem : tgt ∉ s.visited
  visited_nodup : s.visited.Nodup
  queue_sub : ∀ x ∈ queue, x ∈ s.visited
  par_src : s.par.lookup src = none
  par_fresh : ∀ v, v ∉ s.visited → s.par.lookup v = none
  par_chain : ∀ v ∈ s.visited, v ≠ src →
    ∃ p, s.par.lookup v = some p ∧ p ∈ s.visited ∧ stepRel g dir p v ∧ d v = d p + 1
  d_bound : ∀ v ∈ s.visited, d v ≤ s.par.length
  d_min : ∀ v ∈ s.visited, ∀ q, IsPathDir g dir src v q → d v + 1 ≤ q.length
  d_real : ∀ v ∈ s.visited, ∃ q, IsPathDir g dir src v q ∧ q.length = d v + 1
  q_sorted : List.Pairwise (fun a b => d a ≤ d b) queue
  q_band : ∀ a ∈ queue, ∀ b ∈ queue, d b ≤ d a + 1
  full : ∀ u ∈ s.visited, u ∉ queue → ∀ w, stepRel g dir u w → w ∈ s.visited

/-- Any path to a node that is still undiscovered when `current` is popped has
at least `d current + 1` edges. -/
theorem bfs_bound {g : SGraph} {dir : Direction} {src tgt current : String}
    {s : BfsSt} {rest : List String} {d : String → ℕ}
    (inv : BfsInv g dir src tgt s (current :: rest) d) :
    ∀ (q : List String) (w : String), IsPathDir g dir src w q → w ∉ s.visited →
      d current + 2 ≤ q.length := by
  intro q
  induction q using List.reverseRecOn with
  | nil =>
    intro w hq _
    rw [isPathDir_iff] at hq
    exact absurd rfl hq.1
  | append_singleton l a ih =>
    intro w hq hw
    have haw : a = w := by
      rw [isPathDir_iff] at hq
      have := hq.2.2.1
      rw [List.getLast?_concat] at this
      simpa using this
    subst haw
    by_cases hlne : l = []
    · subst hlne
      rw [isPathDir_iff] at hq
      have : a = src := by simpa using hq.2.1
      exact absurd (this ▸ inv.src_mem) hw
    · rw [isPathDir_iff] at hq
      obtain ⟨_, hh, _, hc⟩ := hq
      obtain ⟨hcl, u, hu, hua⟩ := chainRel_snoc_decomp l a hc hlne
      have hpl : IsPathDir g dir src u l := by
        rw [isPathDir_iff]
        refine ⟨hlne, ?_, hu, hcl⟩
        rwa [head?_append_left l _ hlne] at hh
      by_cases hum : u ∈ s.visited
      · by_cases huq : u = current
        · have h1 := inv.d_min u hum l hpl
          rw [huq] at h1
          have : l.length + 1 = (l ++ [a]).length := by simp
          omega
        · by_cases hur : u ∈ rest
          · have hdc : d current ≤ d u := by
              have := inv.q_sorted
              rw [List.pairwise_cons] at this
              exact this.1 u hur
            have h1 := inv.d_min u hum l hpl
            have : l.length + 1 = (l ++ [a]).length := by simp
            omega
          · have hunq : u ∉ current :: rest := by
              intro hc2
              rcases List.mem_cons.1 hc2 with h | h
              · exact huq h
              · exact hur h
            have := inv.full u hum hunq a hua
            exact absurd this hw
      · have h1 := ih u hpl hum
        have : l.length ≤ (l ++ [a]).length := by simp
        omega

/-- Walking the parent map from a visited node builds a path from the source,
of length exactly the node depth plus the accumulator length. -/
theorem buildPath_spec {g : SGraph} {dir : Direction} {src : String} (s : BfsSt)
    (d : String → ℕ) (hdsrc : d src = 0) (hpar_src : s.par.lookup src = none)
    (hchain : ∀ v ∈ s.visited, v ≠ src →
      ∃ p, s.par.lookup v = some p ∧ p ∈ s.visited ∧ stepRel g dir p v ∧ d v = d p + 1) :
    ∀ (n : ℕ) (v : String) (acc : List String) (t : String) (fuel : ℕ),
      v ∈ s.visited → d v = n → n ≤ fuel →
      acc.head? = some v → acc.getLast? = some t → chainRel (stepRel g dir) acc →
      (buildPath s.par fuel v acc).head? = some src ∧
      (buildPath s.par fuel v acc).getLast? = some t ∧
      chainRel (stepRel g dir) (buildPath s.par fuel v acc) ∧
      (buildPath s.par fuel v acc).length = acc.length + n := by
  intro n
  induction n with
  | zero =>
    intro v acc t fuel hv hd _ hh hl hc
    have hvs : v = src := by
      by_contra hne
      obtain ⟨p, _, _, _, hdp⟩ := hchain v hv hne
      omega
    subst hvs
    cases fuel with
    | zero =>
      rw [buildPath]
      exact ⟨hh, hl, hc, by omega⟩
    | succ f =>
      have hbe : buildPath s.par (f + 1) v acc = acc := by
        rw [buildPath, hpar_src]
      rw [hbe]
      exact ⟨hh, hl, hc, by omega⟩
  | succ m ih =>
    intro v acc t fuel hv hd hfuel hh hl hc
    have hvs : v ≠ src := by
      intro hvs
      rw [hvs, hdsrc] at hd
      exact absurd hd.symm (Nat.succ_ne_zero m)
    obtain ⟨p, hlook, hpv, hstep, hdp⟩ := hchain v hv hvs
    cases fuel with
    | zero => omega
    | succ f =>
      rw [buildPath, hlook]
      have hacc_ne : acc ≠ [] := by
        intro hac
        rw [hac] at hh
        cases hh
      have hres := ih p (p :: acc) t f hpv (by omega) (by omega) rfl ?_ ?_
      · have hlen : (p :: acc).length + m = acc.length + (m + 1) := by
          simp only [List.length_cons]
          omega
        exact ⟨hres.1, hres.2.1, hres.2.2.1, by rw [hres.2.2.2]; exact hlen⟩
      · cases acc with
        | nil => exact absurd rfl hacc_ne
        | cons a acc2 =>
          rw [List.getLast?_cons_cons]
          exact hl
      · cases acc with
        | nil => exact absurd rfl hacc_ne
        | cons a acc2 =>
          have hav : a = v := by simpa using hh
          exact ⟨hav ▸ hstep, hc⟩

/-- Extending the visited set by fresh neighbors of `current` preserves the
parent-chain structure, with the fresh nodes one level deeper than `current`. -/
theorem mid_par_chain {g : SGraph} {dir : Direction} {src tgt current : String}
    {s0 : BfsSt} {rest : List String} {d0 : String → ℕ}
    (inv : BfsInv g dir src tgt s0 (current :: rest) d0)
    (ext : List String) (hfr : ∀ x ∈ ext, stepRel g dir current x ∧ x ∉ s0.visited) :
    ∀ v ∈ s0.visited ++ ext, v ≠ src →
      ∃ p, (s0.par ++ ext.map (fun nb => (nb, current))).lookup v = some p ∧
        p ∈ s0.visited ++ ext ∧ stepRel g dir p v ∧
        (if v ∈ ext then d0 current + 1 else d0 v) =
          (if p ∈ ext then d0 current + 1 else d0 p) + 1 := by
  intro v hv hvs
  have hcur_mem : current ∈ s0.visited := inv.queue_sub current (List.mem_cons_self _ _)
  have hcur_ne : current ∉ ext := fun hc => (hfr current hc).2 hcur_mem
  rcases List.mem_append.1 hv with hv0 | hvext
  · obtain ⟨p, hlook, hpmem, hstep, hdp⟩ := inv.par_chain v hv0 hvs
    have hvne : v ∉ ext := fun hc => (hfr v hc).2 hv0
    have hpne : p ∉ ext := fun hc => (hfr p hc).2 hpmem
    refine ⟨p, lookup_append_of_some hlook, List.mem_append_left _ hpmem, hstep, ?_⟩
    rw [if_neg hvne, if_neg hpne]
    exact hdp
  · have hvnv : v ∉ s0.visited := (hfr v hvext).2
    refine ⟨current, ?_, List.mem_append_left _ hcur_mem, (hfr v hvext).1, ?_⟩
    · rw [lookup_append_of_none (inv.par_fresh v hvnv)]
      exact lookup_map_const_mem hvext
    · rw [if_pos hvext, if_neg hcur_ne]

theorem head?_some_ne_nil {α : Type} {l : List α} {a : α} (h : l.head? = some a) :
    l ≠ [] := by
  intro hc
  rw [hc] at h
  cases h

/-- When the neighbor loop finds the target, the reconstructed path is a path
from the source to the target with exactly `d0 current + 1` edges. -/
theorem expandB_inl_spec {g : SGraph} {dir : Direction} {src tgt current : String}
    {s0 : BfsSt} {rest : List String} {d0 : String → ℕ}
    (inv : BfsInv g dir src tgt s0 (current :: rest) d0) :
    ∀ (nbrs : List String) (s : BfsSt) (pushes : List String) (path : List String),
      (∀ nb ∈ nbrs, stepRel g dir current nb) →
      s.visited = s0.visited ++ pushes →
      s.par = s0.par ++ pushes.map (fun nb => (nb, current)) →
      (∀ x ∈ pushes, stepRel g dir current x ∧ x ∉ s0.visited) →
      tgt ∉ pushes →
      expandB tgt current nbrs s pushes = Sum.inl path →
      IsPathDir g dir src tgt path ∧ path.length = d0 current + 2 := by
  intro nbrs
  induction nbrs with
  | nil =>
    intro s pushes path _ _ _ _ _ h
    rw [expandB] at h
    cases h
  | cons nb rest2 ih =>
    intro s pushes path hsub hvis hpar hfr htp h
    rw [expandB] at h
    by_cases hv : s.visited.contains nb
    · rw [if_pos hv] at h
      exact ih s pushes path (fun x hx => hsub x (List.mem_cons_of_mem _ hx))
        hvis hpar hfr htp h
    · rw [if_neg hv] at h
      by_cases ht : nb = tgt
      · rw [if_pos ht] at h
        subst ht
        cases h
        set ext := pushes ++ [nb] with hext
        have hnbv : nb ∉ s.visited := by simpa using hv
        have hfr2 : ∀ x ∈ ext, stepRel g dir current x ∧ x ∉ s0.visited := by
          intro x hx
          rcases List.mem_append.1 hx with hx | hx
          · exact hfr x hx
          · simp only [List.mem_singleton] at hx
            subst hx
            refine ⟨hsub x (List.mem_cons_self _ _), ?_⟩
            intro hc
            exact hnbv (by rw [hvis]; exact List.mem_append_left _ hc)
        have hsrc_ne : src ∉ ext := by
          intro hc
          exact (hfr2 src hc).2 inv.src_mem
        have hvis1 : (⟨s.visited ++ [nb], s.par ++ [(nb, current)]⟩ : BfsSt).visited =
            s0.visited ++ ext := by
          simp only [hvis, hext, List.append_assoc]
        have hpar1 : (⟨s.visited ++ [nb], s.par ++ [(nb, current)]⟩ : BfsSt).par =
            s0.par ++ ext.map (fun x => (x, current)) := by
          simp only [hpar, hext, List.map_append, List.map_cons, List.map_nil,
            List.append_assoc]
        have hchain := mid_par_chain inv ext hfr2
        have hcur_mem : current ∈ s0.visited := inv.queue_sub current (List.mem_cons_self _ _)
        have hres := @buildPath_spec g dir src
          ⟨s0.visited ++ ext, s0.par ++ ext.map (fun x => (x, current))⟩
          (fun x => if x ∈ ext then d0 current + 1 else d0 x)
          (by
            show (if src ∈ ext then d0 current + 1 else d0 src) = 0
            rw [if_neg hsrc_ne]; exact inv.d_src)
          (by
            show (s0.par ++ ext.map (fun x => (x, current))).lookup src = none
            rw [lookup_append_of_none inv.par_src]
            exact lookup_map_const_not_mem hsrc_ne)
          hchain
          (d0 current + 1) nb [nb] nb
          ((s0.par ++ ext.map (fun x => (x, current))).length)
          (by
            show nb ∈ s0.visited ++ ext
            exact List.mem_append_right _ (List.mem_append_right _ (by simp)))
          (by
            show (if nb ∈ ext then d0 current + 1 else d0 nb) = d0 current + 1
            rw [if_pos (List.mem_append_right _ (by simp))])
          (by
            have hdb := inv.d_bound current hcur_mem
            simp only [List.length_append, List.length_map, hext, List.length_cons,
              List.length_nil]
            omega)
          rfl rfl trivial
        rw [← hpar1] at hres
        constructor
        · rw [isPathDir_iff]
          exact ⟨head?_some_ne_nil hres.1, hres.1, hres.2.1, hres.2.2.1⟩
        · rw [hres.2.2.2]
          simp only [List.length_cons, List.length_nil]
          omega
      · rw [if_neg ht] at h
        have hnbv : nb ∉ s.visited := by simpa using hv
        apply ih ⟨s.visited ++ [nb], s.par ++ [(nb, current)]⟩ (pushes ++ [nb]) path
          (fun x hx => hsub x (List.mem_cons_of_mem _ hx)) ?_ ?_ ?_ ?_ h
        · simp only [hvis, List.append_assoc]
        · simp only [hpar, List.map_append, List.map_cons, List.map_nil, List.append_assoc]
        · intro x hx
          rcases List.mem_append.1 hx with hx | hx
          · exact hfr x hx
          · simp only [List.mem_singleton] at hx
            subst hx
            refine ⟨hsub x (List.mem_cons_self _ _), ?_⟩
            intro hc
            exact hnbv (by rw [hvis]; exact List.mem_append_left _ hc)
        · intro hc
          rcases List.mem_append.1 hc with hc | hc
          · exact htp hc
          · simp only [List.mem_singleton] at hc
            exact ht hc.symm

/-- When the neighbor loop does not find the target, the rest state extends the
start-of-step state exactly by the freshly pushed neighbors. -/
theorem expandB_inr_spec {g : SGraph} {dir : Direction} {tgt current : String}
    {s0 : BfsSt} :
    ∀ (nbrs : List String) (s : BfsSt) (pushes : List String) (s2 : BfsSt)
      (pushes2 : List String),
      (∀ nb ∈ nbrs, stepRel g dir current nb) →
      s.visited = s0.visited ++ pushes →
      s.par = s0.par ++ pushes.map (fun nb => (nb, current)) →
      (∀ x ∈ pushes, stepRel g dir current x ∧ x ∉ s0.visited) →
      pushes.Nodup →
      tgt ∉ pushes →
      expandB tgt current nbrs s pushes = Sum.inr (s2, pushes2) →
      s2.visited = s0.visited ++ pushes2 ∧
      s2.par = s0.par ++ pushes2.map (fun nb => (nb, current)) ∧
      (∀ x ∈ pushes2, stepRel g dir current x ∧ x ∉ s0.visited) ∧
      pushes2.Nodup ∧ tgt ∉ pushes2 ∧
      (∀ x ∈ pushes, x ∈ pushes2) ∧
      (∀ nb ∈ nbrs, nb ∈ s2.visited) := by
  intro nbrs
  induction nbrs with
  | nil =>
    intro s pushes s2 pushes2 _ hvis hpar hfr hnd htp h
    rw [expandB] at h
    cases h
    exact ⟨hvis, hpar, hfr, hnd, htp, fun x hx => hx, fun nb hnb => absurd hnb
      (List.not_mem_nil nb)⟩
  | cons nb rest2 ih =>
    intro s pushes s2 pushes2 hsub hvis hpar hfr hnd htp h
    rw [expandB] at h
    by_cases hv : s.visited.contains nb
    · rw [if_pos hv] at h
      obtain ⟨h1, h2, h3, h4, h5, h6, h7⟩ :=
        ih s pushes s2 pushes2 (fun x hx => hsub x (List.mem_cons_of_mem _ hx))
          hvis hpar hfr hnd htp h
      refine ⟨h1, h2, h3, h4, h5, h6, ?_⟩
      intro x hx
      rcases List.mem_cons.1 hx with hx | hx
      · subst hx
        have : x ∈ s.visited := by simpa using hv
        rw [hvis] at this
        rw [h1]
        rcases List.mem_append.1 this with h | h
        · exact List.mem_append_left _ h
        · exact List.mem_append_right _ (h6 x h)
      · exact h7 x hx
    · rw [if_neg hv] at h
      have hnbv : nb ∉ s.visited := by simpa using hv
      by_cases ht : nb = tgt
      · rw [if_pos ht] at h
        cases h
      · rw [if_neg ht] at h
        have hvis2 : (⟨s.visited ++ [nb], s.par ++ [(nb, current)]⟩ : BfsSt).visited =
            s0.visited ++ (pushes ++ [nb]) := by
          simp only [hvis, List.append_assoc]
        have hpar2 : (⟨s.visited ++ [nb], s.par ++ [(nb, current)]⟩ : BfsSt).par =
            s0.par ++ (pushes ++ [nb]).map (fun x => (x, current)) := by
          simp only [hpar, List.map_append, List.map_cons, List.map_nil, List.append_assoc]
        have hfr2 : ∀ x ∈ pushes ++ [nb], stepRel g dir current x ∧ x ∉ s0.visited := by
          intro x hx
          rcases List.mem_append.1 hx with hx | hx
          · exact hfr x hx
          · simp only [List.mem_singleton] at hx
            subst hx
            refine ⟨hsub x (List.mem_cons_self _ _), ?_⟩
            intro hc
            exact hnbv (by rw [hvis]; exact List.mem_append_left _ hc)
        have hnd2 : (pushes ++ [nb]).Nodup := by
          simp only [List.nodup_append, List.nodup_singleton]
          refine ⟨hnd, trivial, ?_⟩
          intro a ha hac
          simp only [List.mem_singleton] at hac
          subst hac
          exact hnbv (by rw [hvis]; exact List.mem_append_right _ ha)
        have htp2 : tgt ∉ pushes ++ [nb] := by
          intro hc
          rcases List.mem_append.1 hc with hc | hc
          · exact htp hc
          · simp only [List.mem_singleton] at hc
            exact ht hc.symm
        obtain ⟨h1, h2, h3, h4, h5, h6, h7⟩ :=
          ih ⟨s.visited ++ [nb], s.par ++ [(nb, current)]⟩ (pushes ++ [nb]) s2 pushes2
            (fun x hx => hsub x (List.mem_cons_of_mem _ hx)) hvis2 hpar2 hfr2 hnd2 htp2 h
        refine ⟨h1, h2, h3, h4, h5, ?_, ?_⟩
        · intro x hx
          exact h6 x (List.mem_append_left _ hx)
        · intro x hx
          rcases List.mem_cons.1 hx with hx | hx
          · subst hx
            rw [h1]
            have : x ∈ pushes2 := h6 x (List.mem_append_right _ (by simp))
            exact List.mem_append_right _ this
          · exact h7 x hx

/-- After a full pop-and-expand step that did not find the target, the BFS
invariant holds again, with the fresh nodes at depth `d0 current + 1`. -/
theorem bfs_step_inv {g : SGraph} {dir : Direction} {src tgt current : String}
    {s0 : BfsSt} {rest : List String} {d0 : String → ℕ}
    (inv : BfsInv g dir src tgt s0 (current :: rest) d0)
    {s2 : BfsSt} {pushes2 : List String}
    (h1 : s2.visited = s0.visited ++ pushes2)
    (h2 : s2.par = s0.par ++ pushes2.map (fun nb => (nb, current)))
    (h3 : ∀ x ∈ pushes2, stepRel g dir current x ∧ x ∉ s0.visited)
    (h4 : pushes2.Nodup)
    (h5 : tgt ∉ pushes2)
    (h7 : ∀ w, stepRel g dir current w → w ∈ s2.visited) :
    BfsInv g dir src tgt s2 (rest ++ pushes2)
      (fun v => if v ∈ pushes2 then d0 current + 1 else d0 v) := by
  have hcur_mem : current ∈ s0.visited := inv.queue_sub current (List.mem_cons_self _ _)
  have hsrc_np : src ∉ pushes2 := fun hc => (h3 src hc).2 inv.src_mem
  have hcur_np : current ∉ pushes2 := fun hc => (h3 current hc).2 hcur_mem
  have hrest_sub : ∀ x ∈ rest, x ∈ s0.visited :=
    fun x hx => inv.queue_sub x (List.mem_cons_of_mem _ hx)
  have hrest_np : ∀ x ∈ rest, x ∉ pushes2 :=
    fun x hx hc => (h3 x hc).2 (hrest_sub x hx)
  have hsorted0 : ∀ x ∈ rest, d0 current ≤ d0 x := by
    have := inv.q_sorted
    rw [List.pairwise_cons] at this
    exact this.1
  refine ⟨?_, ?_, ?_, ?_, ?_, ?_, ?_, ?_, ?_, ?_, ?_, ?_, ?_, ?_⟩
  · rw [h1]; exact List.mem_append_left _ inv.src_mem
  · simp only [if_neg hsrc_np]; exact inv.d_src
  · rw [h1]
    intro hc
    rcases List.mem_append.1 hc with hc | hc
    · exact inv.tgt_not_mem hc
    · exact h5 hc
  · rw [h1, List.nodup_append]
    refine ⟨inv.visited_nodup, h4, ?_⟩
    intro a ha hac
    exact (h3 a hac).2 ha
  · intro x hx
    rw [h1]
    rcases List.mem_append.1 hx with hx | hx
    · exact List.mem_append_left _ (hrest_sub x hx)
    · exact List.mem_append_right _ hx
  · rw [h2]
    rw [lookup_append_of_none inv.par_src]
    exact lookup_map_const_not_mem hsrc_np
  · intro v hv
    rw [h1] at hv
    rw [h2]
    have hv0 : v ∉ s0.visited := fun hc => hv (List.mem_append_left _ hc)
    have hvp : v ∉ pushes2 := fun hc => hv (List.mem_append_right _ hc)
    rw [lookup_append_of_none (inv.par_fresh v hv0)]
    exact lookup_map_const_not_mem hvp
  · intro v hv hvs
    rw [h1] at hv
    rw [h2, h1]
    exact mid_par_chain inv pushes2 h3 v hv hvs
  · intro v hv
    rw [h1] at hv
    have hlen : s2.par.length = s0.par.length + pushes2.length := by
      rw [h2]; simp
    rcases List.mem_append.1 hv with hv | hv
    · have hvp : v ∉ pushes2 := fun hc => (h3 v hc).2 hv
      simp only [if_neg hvp]
      have := inv.d_bound v hv
      omega
    · simp only [if_pos hv]
      have hp1 : 1 ≤ pushes2.length := by
        cases pushes2 with
        | nil => simp at hv
        | cons a l => simp
      have := inv.d_bound current hcur_mem
      omega
  · intro v hv q hq
    rw [h1] at hv
    rcases List.mem_append.1 hv with hv | hv
    · have hvp : v ∉ pushes2 := fun hc => (h3 v hc).2 hv
      simp only [if_neg hvp]
      exact inv.d_min v hv q hq
    · simp only [if_pos hv]
      have := bfs_bound inv q v hq (h3 v hv).2
      omega
  · intro v hv
    rw [h1] at hv
    rcases List.mem_append.1 hv with hv | hv
    · have hvp : v ∉ pushes2 := fun hc => (h3 v hc).2 hv
      simp only [if_neg hvp]
      exact inv.d_real v hv
    · simp only [if_pos hv]
      obtain ⟨q, hq, hql⟩ := inv.d_real current hcur_mem
      refine ⟨q ++ [v], isPathDir_concat hq (h3 v hv).1, ?_⟩
      simp only [List.length_append, List.length_cons, List.length_nil]
      omega
  · rw [List.pairwise_append]
    refine ⟨?_, ?_, ?_⟩
    · have htail : List.Pairwise (fun a b => d0 a ≤ d0 b) rest := by
        have := inv.q_sorted
        rw [List.pairwise_cons] at this
        exact this.2
      apply List.Pairwise.imp_of_mem ?_ htail
      intro a b ha hb hab
      simp only [if_neg (hrest_np a ha), if_neg (hrest_np b hb)]
      exact hab
    · apply List.pairwise_of_forall_mem_list
      intro a ha b hb
      simp only [if_pos ha, if_pos hb]
      exact le_refl _
    · intro a ha b hb
      simp only [if_neg (hrest_np a ha), if_pos hb]
      have := inv.q_band current (List.mem_cons_self _ _) a (List.mem_cons_of_mem _ ha)
      omega
  · intro a ha b hb
    rcases List.mem_append.1 ha with ha | ha <;> rcases List.mem_append.1 hb with hb | hb
    · simp only [if_neg (hrest_np a ha), if_neg (hrest_np b hb)]
      exact inv.q_band a (List.mem_cons_of_mem _ ha) b (List.mem_cons_of_mem _ hb)
    · simp only [if_neg (hrest_np a ha), if_pos hb]
      have := hsorted0 a ha
      omega
    · simp only [if_pos ha, if_neg (hrest_np b hb)]
      have := inv.q_band current (List.mem_cons_self _ _) b (List.mem_cons_of_mem _ hb)
      omega
    · simp only [if_pos ha, if_pos hb]
      omega
  · intro u hu hnq w hw
    rw [h1] at hu
    rcases List.mem_append.1 hu with hu | hu
    · by_cases hc : u = current
      · subst hc
        exact h7 w hw
      · have hunq : u ∉ current :: rest := by
          intro hq2
          rcases List.mem_cons.1 hq2 with hq2 | hq2
          · exact hc hq2
          · exact hnq (List.mem_append_left _ hq2)
        have := inv.full u hu hunq w hw
        rw [h1]
        exact List.mem_append_left _ this
    · exact absurd (List.mem_append_right rest hu) hnq

theorem bfsLoop_eq_inl {g : SGraph} {dir : Direction} {tgt current : String}
    {rest : List String} {s : BfsSt} {path : List String}
    (hex : expandB tgt current (nbrsOf g dir current) s [] = Sum.inl path) :
    bfsLoop g dir tgt (current :: rest) s = some path := by
  rw [bfsLoop]
  split
  · rename_i path2 hex2
    rw [hex] at hex2
    cases hex2
    rfl
  · rename_i s1 pushes hex2
    rw [hex] at hex2
    cases hex2

theorem bfsLoop_eq_inr {g : SGraph} {dir : Direction} {tgt current : String}
    {rest : List String} {s s1 : BfsSt} {pushes : List String}
    (hex : expandB tgt current (nbrsOf g dir current) s [] = Sum.inr (s1, pushes)) :
    bfsLoop g dir tgt (current :: rest) s = bfsLoop g dir tgt (rest ++ pushes) s1 := by
  rw [bfsLoop]
  split
  · rename_i path2 hex2
    rw [hex] at hex2
    cases hex2
  · rename_i s2 pushes2 hex2
    rw [hex] at hex2
    cases hex2
    rfl

/-- Correctness of the BFS loop: a returned path is a minimum-length path from
the source to the target; `none` means no such path exists. -/
theorem bfsLoop_spec {g : SGraph} {dir : Direction} {src tgt : String} :
    ∀ (queue : List String) (s : BfsSt),
      (∃ d, BfsInv g dir src tgt s queue d) →
      ((∀ p, bfsLoop g dir tgt queue s = some p →
          IsPathDir g dir src tgt p ∧
            ∀ q, IsPathDir g dir src tgt q → p.length ≤ q.length) ∧
       (bfsLoop g dir tgt queue s = none → ¬ ∃ q, IsPathDir g dir src tgt q)) := by
  intro queue s
  induction queue, s using bfsLoop.induct g dir tgt with
  | case1 s =>
    rintro ⟨d, inv⟩
    constructor
    · intro p hp
      rw [bfsLoop] at hp
      cases hp
    · rintro _ ⟨q, hq⟩
      have closed : ∀ u ∈ s.visited, ∀ w, stepRel g dir u w → w ∈ s.visited :=
        fun u hu w hw => inv.full u hu (List.not_mem_nil u) w hw
      exact inv.tgt_not_mem
        (isPathDir_closed_step s.visited closed q src tgt inv.src_mem hq)
  | case2 current rest s path hex =>
    rintro ⟨d, inv⟩
    have hr := expandB_inl_spec inv (nbrsOf g dir current) s [] path
      (fun nb hnb => mem_nbrsOf.1 hnb) (by simp) (by simp)
      (fun x hx => absurd hx (List.not_mem_nil x)) (List.not_mem_nil tgt) hex
    constructor
    · intro p hp
      rw [bfsLoop_eq_inl hex] at hp
      cases hp
      refine ⟨hr.1, ?_⟩
      intro q hq
      have hb := bfs_bound inv q tgt hq inv.tgt_not_mem
      omega
    · intro hnone
      rw [bfsLoop_eq_inl hex] at hnone
      cases hnone
  | case3 current rest s s1 pushes hex ih =>
    rintro ⟨d, inv⟩
    obtain ⟨h1, h2, h3, h4, h5, _, h7a⟩ := @expandB_inr_spec g dir tgt current s
      (nbrsOf g dir current) s [] s1
      pushes (fun nb hnb => mem_nbrsOf.1 hnb) (by simp) (by simp)
      (fun x hx => absurd hx (List.not_mem_nil x)) List.nodup_nil (List.not_mem_nil tgt) hex
    have h7 : ∀ w, stepRel g dir current w → w ∈ s1.visited :=
      fun w hw => h7a w (mem_nbrsOf.2 hw)
    have inv2 := bfs_step_inv inv h1 h2 h3 h4 h5 h7
    have hres := ih ⟨_, inv2⟩
    rw [bfsLoop_eq_inr hex]
    exact hres

/-- The invariant holds at loop entry. -/
theorem bfs_init_inv {g : SGraph} {dir : Direction} {src tgt : String} (hne : src ≠ tgt) :
    BfsInv g dir src tgt ⟨[src], []⟩ [src] (fun _ => 0) := by
  refine ⟨?_, ?_, ?_, ?_, ?_, ?_, ?_, ?_, ?_, ?_, ?_, ?_, ?_, ?_⟩
  · exact List.mem_singleton.2 rfl
  · rfl
  · intro hc
    simp only [List.mem_singleton] at hc
    exact hne hc.symm
  · exact List.nodup_singleton src
  · intro x hx
    exact hx
  · rfl
  · intro v _
    rfl
  · intro v hv hvs
    simp only [List.mem_singleton] at hv
    exact absurd hv hvs
  · intro v _
    exact Nat.zero_le _
  · intro v _ q hq
    rw [isPathDir_iff] at hq
    have : q.length ≠ 0 := fun hc => hq.1 (List.length_eq_zero.1 hc)
    omega
  · intro v hv
    simp only [List.mem_singleton] at hv
    subst hv
    refine ⟨[v], ?_, rfl⟩
    rw [isPathDir_iff]
    exact ⟨by simp, rfl, rfl, trivial⟩
  · exact List.pairwise_singleton _ _
  · intro a _ b _
    omega
  · intro u hu hnq w _
    simp only [List.mem_singleton] at hu
    subst hu
    exact absurd (List.mem_singleton.2 rfl) hnq

/-- Correctness of `bfsPath` : a returned path is a minimum-length path in the
requested direction, `[source]` when source = target, and `none` exactly when
no path exists. -/
theorem bfsPath_spec {g : SGraph} {dir : Direction} {src tgt : String} :
    (∀ p, bfsPath g src tgt dir = some p →
      IsPathDir g dir src tgt p ∧ ∀ q, IsPathDir g dir src tgt q → p.length ≤ q.length) ∧
    (bfsPath g src tgt dir = none → ¬ ∃ q, IsPathDir g dir src tgt q) := by
  by_cases hne : src = tgt
  · subst hne
    constructor
    · intro p hp
      rw [bfsPath, if_pos rfl] at hp
      cases hp
      constructor
      · rw [isPathDir_iff]
        exact ⟨by simp, rfl, rfl, trivial⟩
      · intro q hq
        rw [isPathDir_iff] at hq
        have : q.length ≠ 0 := fun hc => hq.1 (List.length_eq_zero.1 hc)
        simp only [List.length_cons, List.length_nil]
        omega
    · intro hnone
      rw [bfsPath, if_pos rfl] at hnone
      cases hnone
  · have hspec := @bfsLoop_spec g dir src tgt
      [src] ⟨[src], []⟩ ⟨fun _ => 0, bfs_init_inv hne⟩
    constructor
    · intro p hp
      rw [bfsPath, if_neg hne] at hp
      exact hspec.1 p hp
    · intro hnone
      rw [bfsPath, if_neg hne] at hnone
      exact hspec.2 hnone

/-- When `findShortestPath` returns `none` there is no path in either
direction. -/
theorem findShortestPath_none_no_paths (g : SGraph) (s t : String)
    (hnone : findShortestPath g s t = none) :
    (¬ ∃ p, IsPathOut g s t p) ∧ (¬ ∃ p, IsPathIn g s t p) := by
  have hout := @bfsPath_spec g Direction.out s t
  have hinn := @bfsPath_spec g Direction.inn s t
  rw [findShortestPath] at hnone
  rcases hbo : bfsPath g s t Direction.out with _ | p
  · rw [hbo] at hnone
    rcases hbi : bfsPath g s t Direction.inn with _ | p
    · exact ⟨hout.2 hbo, hinn.2 hbi⟩
    · rw [hbi] at hnone
      cases hnone
  · rw [hbo] at hnone
    cases hnone

/-- Two-node graph with the single edge b→a (so only a reverse path A⇒B). -/
def gBA : SGraph :=
  SGraph.mk [⟨"A", 0, 0, "", false, ""⟩, ⟨"B", 0, 0, "", false, ""⟩] [("B", "A")]

/-- C1 counterexample: both node ids exist, `findShortestPath` returns the
sequence [A, B], and its consecutive pair (A, B) is not a directed edge of the
graph — the function also searches against the edge direction, contradicting
the claim that only dependent→dependency edges are followed. -/
theorem findShortestPath_claim_counterexample :
    "A" ∈ gBA.nodeIds ∧ "B" ∈ gBA.nodeIds ∧
    findShortestPath gBA "A" "B" = some ["A", "B"] ∧
    ¬ chainOut gBA ["A", "B"] := by
  refine ⟨by decide, by decide, ?_, by decide⟩
  have hout : bfsPath gBA "A" "B" Direction.out = none := by
    rw [bfsPath, if_neg (by decide)]
    rw [@bfsLoop_eq_inr gBA Direction.out "B" "A" [] ⟨["A"], []⟩ ⟨["A"], []⟩ [] (by decide)]
    show bfsLoop gBA Direction.out "B" [] ⟨["A"], []⟩ = none
    rw [bfsLoop]
  have hinn : bfsPath gBA "A" "B" Direction.inn = some ["A", "B"] := by
    rw [bfsPath, if_neg (by decide)]
    rw [@bfsLoop_eq_inl gBA Direction.inn "B" "A" [] ⟨["A"], []⟩ ["A", "B"] (by decide)]
  rw [findShortestPath, hout, hinn]

/-- C1 amended: for existing source and target, `findShortestPath` returns
either `none` (no path in either direction), or a minimum-length forward path,
or — only when no forward path exists — a minimum-length reverse path; when
source = target it returns the single-element path. -/
theorem findShortestPath_spec_amended (g : SGraph) (s t : String)
    (hs : g.hasNode s = true) (ht : g.hasNode t = true) :
    (findShortestPath g s t = none →
      (¬ ∃ p, IsPathOut g s t p) ∧ (¬ ∃ p, IsPathIn g s t p)) ∧
    (∀ p, findShortestPath g s t = some p →
      (s = t → p = [s]) ∧
      ((IsPathOut g s t p ∧ ∀ q, IsPathOut g s t q → p.length ≤ q.length) ∨
       ((¬ ∃ q, IsPathOut g s t q) ∧ IsPathIn g s t p ∧
        ∀ q, IsPathIn g s t q → p.length ≤ q.length))) := by
  have hout := @bfsPath_spec g Direction.out s t
  have hinn := @bfsPath_spec g Direction.inn s t
  constructor
  · exact findShortestPath_none_no_paths g s t
  · intro p hp
    rw [findShortestPath] at hp
    have hseq : s = t → p = [s] := by
      intro hst
      have : bfsPath g s t Direction.out = some [s] := by
        rw [bfsPath, if_pos hst]
      rw [this] at hp
      cases hp
      rfl
    refine ⟨hseq, ?_⟩
    rcases hbo : bfsPath g s t Direction.out with _ | po
    · rw [hbo] at hp
      right
      have hi := hinn.1 p hp
      exact ⟨hout.2 hbo, hi.1, hi.2⟩
    · rw [hbo] at hp
      cases hp
      left
      exact hout.1 p hbo

/-- Witness for the amended C1: in the two-node graph a→b the returned path
[a, b] is a minimum-length forward path. -/
theorem gAB_shortest_eval : findShortestPath gAB "a" "b" = some ["a", "b"] := by
  rw [findShortestPath]
  rw [show bfsPath gAB "a" "b" Direction.out = some ["a", "b"] by
    rw [bfsPath, if_neg (by decide)]
    rw [@bfsLoop_eq_inl gAB Direction.out "b" "a" [] ⟨["a"], []⟩ ["a", "b"] (by decide)]]

theorem findShortestPath_spec_amended_witness :
    IsPathOut gAB "a" "b" ["a", "b"] ∧
    ∀ q, IsPathOut gAB "a" "b" q → (["a", "b"] : List String).length ≤ q.length := by
  have h := (findShortestPath_spec_amended gAB "a" "b" (by decide) (by decide)).2
    ["a", "b"] gAB_shortest_eval
  rcases h.2 with hgood | hbad
  · exact hgood
  · exact absurd ⟨["a", "b"], by decide⟩ hbad.1

/-! ## C5: the analysis panel path query (`handleFindPath`, AnalysisPanel.tsx) -/

/-- Modelled from the spec: `findAllPaths` is imported from
lib/analysis/pathFinder by the analysis panel, but its definition is not among
the sources under src/.  Spec §4.8: DFS enumerating every simple path (no
repeated nodes) from source to target, following dependent→dependency edges. -/
def allPathsDfs (g : SGraph) : ℕ → String → String → List String → List (List String)
  | 0, _, _, _ => []
  | fuel + 1, current, tgt, path =>
    let path1 := path ++ [current]
    if current = tgt then [path1]
    else
      ((dedupFirst (g.outNbrs current)).filter
        (fun nb => !(path1.contains nb))).flatMap
        (fun nb => allPathsDfs g fuel nb tgt path1)

/-- Modelled from the spec (see `allPathsDfs`): all simple forward paths. -/
def findAllPaths (g : SGraph) (s t : String) : List (List String) :=
  allPathsDfs g (g.nodes.length + 1) s t []

/-- The component state `handleFindPath` writes: the error message and the
path result (`setError` / `setPathResult`). -/
structure FindPathState where
  error : Option String
  pathResult : Option (List (List String))
  deriving DecidableEq, Repr

/-- `handleFindPath` of the analysis panel: an absent source or target id is an
error; a missing path between existing nodes is a distinct normal outcome. -/
def handleFindPath (g : Option SGraph) (sourceNode targetNode : String)
    (showAllPaths : Bool) (st : FindPathState) : FindPathState :=
  match g with
  | none => st
  | some graph =>
    if sourceNode = "" ∨ targetNode = "" then st
    else if ¬ graph.hasNode sourceNode then
      ⟨some ("Source node not found: " ++ sourceNode), none⟩
    else if ¬ graph.hasNode targetNode then
      ⟨some ("Target node not found: " ++ targetNode), none⟩
    else if showAllPaths then
      match findAllPaths graph sourceNode targetNode with
      | [] => ⟨some "No paths found between these nodes", none⟩
      | p :: rest => ⟨none, some (p :: rest)⟩
    else
      match findShortestPath graph sourceNode targetNode with
      | some path => ⟨none, some [path]⟩
      | none => ⟨some "No path found between these nodes", none⟩

theorem string_append_ne_of_head_ne {a b : String} (s : String)
    (ha : a.data.head? = some 'S' ∨ a.data.head? = some 'T')
    (hb : b.data.head? = some 'N') : a ++ s ≠ b := by
  intro h
  have hd := congrArg (fun x => x.data.head?) h
  simp only [String.data_append] at hd
  have hne : a.data ≠ [] := by
    rcases ha with ha | ha <;>
      exact fun hc => by rw [hc] at ha; cases ha
  rw [head?_append_left a.data s.data hne] at hd
  rcases ha with ha | ha <;> rw [ha] at hd <;> rw [hb] at hd <;> cases hd

/-- C5: a query with an absent source or target id produces the NotFound error
message; a query between two existing nodes with no connecting path produces
the distinct normal "no path" outcome; a found path produces a result with no
error; and the error messages of the two kinds of outcome can never coincide. -/
theorem handleFindPath_spec (g : SGraph) (s t : String) (showAll : Bool)
    (st : FindPathState) (hs : s ≠ "") (ht : t ≠ "") :
    (g.hasNode s = false →
      handleFindPath (some g) s t showAll st =
        ⟨some ("Source node not found: " ++ s), none⟩) ∧
    (g.hasNode s = true → g.hasNode t = false →
      handleFindPath (some g) s t showAll st =
        ⟨some ("Target node not found: " ++ t), none⟩) ∧
    (g.hasNode s = true → g.hasNode t = true → showAll = false →
      (findShortestPath g s t = none →
        handleFindPath (some g) s t showAll st =
          ⟨some "No path found between these nodes", none⟩ ∧
        (¬ ∃ p, IsPathOut g s t p) ∧ (¬ ∃ p, IsPathIn g s t p)) ∧
      (∀ p, findShortestPath g s t = some p →
        handleFindPath (some g) s t showAll st = ⟨none, some [p]⟩)) ∧
    (("Source node not found: " ++ s) ≠ "No path found between these nodes" ∧
     ("Target node not found: " ++ t) ≠ "No path found between these nodes") := by
  have hguard : ¬ (s = "" ∨ t = "") := by
    rintro (h | h)
    · exact hs h
    · exact ht h
  refine ⟨?_, ?_, ?_, ?_, ?_⟩
  · intro hsf
    rw [handleFindPath]
    rw [if_neg hguard, if_pos (by rw [hsf]; exact fun h => by cases h)]
  · intro hst htf
    rw [handleFindPath]
    rw [if_neg hguard, if_neg (by rw [hst]; exact fun h => h rfl),
      if_pos (by rw [htf]; exact fun h => by cases h)]
  · intro hst htt hsa
    subst hsa
    have hbase : handleFindPath (some g) s t false st =
        match findShortestPath g s t with
        | some path => ⟨none, some [path]⟩
        | none => ⟨some "No path found between these nodes", none⟩ := by
      rw [handleFindPath]
      rw [if_neg hguard, if_neg (by rw [hst]; exact fun h => h rfl),
        if_neg (by rw [htt]; exact fun h => h rfl)]
      rfl
    constructor
    · intro hnone
      have hnp := findShortestPath_none_no_paths g s t hnone
      refine ⟨?_, hnp⟩
      rw [hbase, hnone]
    · intro p hp
      rw [hbase, hp]
  · exact string_append_ne_of_head_ne s (Or.inl rfl) rfl
  · exact string_append_ne_of_head_ne t (Or.inr rfl) rfl

/-- Witness for C5: on the two-node graph a→b, the query (a, b) yields the
found-path outcome with no error set. -/
theorem handleFindPath_spec_witness :
    handleFindPath (some gAB) "a" "b" false ⟨none, none⟩ =
      ⟨none, some [["a", "b"]]⟩ := by
  have h := (handleFindPath_spec gAB "a" "b" false ⟨none, none⟩ (by decide) (by decide)).2.2.1
    (by decide) (by decide) rfl
  exact h.2 ["a", "b"] gAB_shortest_eval

/-! ## C10 / C2: package hulls (`computePackageHulls` / `grahamScan`, hulls.ts)

Coordinates are exact rationals.  `Math.sqrt` is modelled by an abstract
function `sqrtF`; the theorems assume only the properties of the square root
they need (positivity on positive inputs), so they hold for the real
square root.  `Math.atan2`-based angle comparison is modelled exactly: for
points in the closed upper half-plane relative to the pivot (which is where
the Graham scan uses it), comparing `atan2` values is equivalent to comparing
the angle class (negative-y, zero, positive-y, π) and then the sign of the
cross product. -/

/-- A 2D point (the `Point` interface of hulls.ts). -/
structure Point where
  x : ℚ
  y : ℚ
  deriving DecidableEq, Repr

/-- `cross(o, a, b)` : positive iff counter-clockwise. -/
def cross (o a b : Point) : ℚ :=
  (a.x - o.x) * (b.y - o.y) - (a.y - o.y) * (b.x - o.x)

/-- Squared distance (the comparator of the angle sort uses `** 2`). -/
def dist2 (a b : Point) : ℚ :=
  (b.x - a.x) ^ 2 + (b.y - a.y) ^ 2

/-- The pivot scan: the first point with lowest y (leftmost on ties). -/
def pivotFold (points : List Point) : Point :=
  match points with
  | [] => ⟨0, 0⟩
  | p0 :: _ =>
    points.foldl
      (fun piv p => if p.y < piv.y ∨ (p.y = piv.y ∧ p.x < piv.x) then p else piv) p0

/-- Class of the exact `atan2(p.y - piv.y, p.x - piv.x)` value inside
`(-π, π]` : 0 for negative angles, 1 for angle 0 (including the origin,
`atan2(0, 0) = 0`), 2 for angles in `(0, π)`, 3 for angle π. -/
def angClass (piv p : Point) : ℕ :=
  if p.y - piv.y < 0 then 0
  else if p.y - piv.y = 0 ∧ 0 ≤ p.x - piv.x then 1
  else if 0 < p.y - piv.y then 2
  else 3

/-- Exact model of `atan2(a) < atan2(b)` around the pivot: compare angle
classes, and inside one open half-plane class compare the cross product. -/
def angLtB (piv a b : Point) : Bool :=
  let ca := angClass piv a
  let cb := angClass piv b
  if ca ≠ cb then decide (ca < cb)
  else if ca = 0 ∨ ca = 2 then decide (0 < cross piv a b)
  else false

/-- The JS sort comparator: by exact angle, ties broken by squared distance
(closer first). -/
def angleDistLe (piv a b : Point) : Bool :=
  angLtB piv a b || (!(angLtB piv b a) && decide (dist2 piv a ≤ dist2 piv b))

/-- Stable insertion into a sorted list (ties keep earlier elements first). -/
def insertS {α : Type} (le : α → α → Bool) (x : α) : List α → List α
  | [] => [x]
  | y :: ys => if le y x && !(le x y) then y :: insertS le x ys else x :: y :: ys

/-- Stable sort; models `Array.prototype.sort` (stable per ES2019) with the
total preorder given by `le`. -/
def sortStable {α : Type} (le : α → α → Bool) : List α → List α
  | [] => []
  | x :: xs => insertS le x (sortStable le xs)

/-- One push of the Graham scan, after popping every stack top that makes a
non-counter-clockwise turn.  The stack is kept top-first (the reverse of the
JS array). -/
def scanStep (p : Point) : List Point → List Point
  | t :: prev :: rest => if cross prev t p ≤ 0 then scanStep p (prev :: rest)
      else p :: t :: prev :: rest
  | st => p :: st

/-- `grahamScan(points)` : hull in counter-clockwise order starting at the
pivot; fewer than 3 points are returned as-is. -/
def grahamScan (points : List Point) : List Point :=
  if points.length < 3 then points
  else
    let pivot := pivotFold points
    let sorted := sortStable (angleDistLe pivot) (points.erase pivot)
    (sorted.foldl (fun st p => scanStep p st) [pivot]).reverse

/-- `expandHull(points, center, padding)` : move every point radially outward
from the center by the padding amount. -/
def expandHull (sqrtF : ℚ → ℚ) (points : List Point) (center : Point)
    (padding : ℚ) : List Point :=
  points.map (fun p =>
    let dx := p.x - center.x
    let dy := p.y - center.y
    let dist := sqrtF (dx * dx + dy * dy)
    if dist = 0 then ⟨p.x + padding, p.y⟩
    else
      let scale := (dist + padding) / dist
      ⟨center.x + dx * scale, center.y + dy * scale⟩)

/-- `ensureHullVolume(points, minPadding)` : degenerate hulls (1 or 2 points)
become a square or a thin rectangle.  The empty case cannot be reached (every
caller passes at least one point) and is returned unchanged. -/
def ensureHullVolume (sqrtF : ℚ → ℚ) (points : List Point) (minPadding : ℚ) :
    List Point :=
  if 3 ≤ points.length then points
  else
    match points with
    | [p] =>
      [⟨p.x - minPadding, p.y - minPadding⟩, ⟨p.x + minPadding, p.y - minPadding⟩,
       ⟨p.x + minPadding, p.y + minPadding⟩, ⟨p.x - minPadding, p.y + minPadding⟩]
    | [p1, p2] =>
      let dx := p2.x - p1.x
      let dy := p2.y - p1.y
      let len := sqrtF (dx * dx + dy * dy)
      let perpX := if 0 < len then (-dy / len) * minPadding else minPadding
      let perpY := if 0 < len then (dx / len) * minPadding else 0
      [⟨p1.x + perpX, p1.y + perpY⟩, ⟨p2.x + perpX, p2.y + perpY⟩,
       ⟨p2.x - perpX, p2.y - perpY⟩, ⟨p1.x - perpX, p1.y - perpY⟩]
    | other => other

/-- The `PackageHull` record of hulls.ts. -/
structure PackageHull where
  pkg : String
  points : List Point
  center : Point
  color : String
  depth : ℕ
  deriving DecidableEq, Repr

/-- `getPackageDepth` : number of "/" separators (`split("/").length - 1`,
0 when no separator occurs — both equal the count of the separator char). -/
def getPackageDepth (pkg : String) : ℕ := pkg.data.count '/'

/-- `isDescendant(child, parent)` : `child.startsWith(parent + "/")`, modelled
on the underlying character lists. -/
def isDescendant (child parent : String) : Bool :=
  (parent ++ "/").data.isPrefixOf child.data

/-- Append one point to a package entry of the insertion-ordered map,
creating the entry (with the first node's color) when absent. -/
def addPkgPoint (m : List (String × (List Point × String))) (pkg : String)
    (pt : Point) (color : String) : List (String × (List Point × String)) :=
  match m with
  | [] => [(pkg, ([pt], color))]
  | (k, (pts, col)) :: rest =>
    if k = pkg then (k, (pts ++ [pt], col)) :: rest
    else (k, (pts, col)) :: addPkgPoint rest pkg pt color

/-- Step 1 of `computePackageHulls` : positions of the non-hidden nodes
grouped by their exact package, in node insertion order. -/
def packageNodesOf (g : SGraph) : List (String × (List Point × String)) :=
  g.nodes.foldl
    (fun m nd => if nd.hidden then m else addPkgPoint m nd.pkg ⟨nd.x, nd.y⟩ nd.color) []

/-- Step 2 of `computePackageHulls` : for each package key, gather its own and
all descendant points, compute centroid, hull, degenerate fallback and
padding expansion. -/
def computePackageHulls (sqrtF : ℚ → ℚ) (g : SGraph) (padding : ℚ) :
    List (String × PackageHull) :=
  let packageNodes := packageNodesOf g
  let allPackages := packageNodes.map Prod.fst
  allPackages.foldl
    (fun hulls pkg =>
      let allPoints := (packageNodes.filter
        (fun e => e.1 = pkg ∨ isDescendant e.1 pkg)).flatMap (fun e => e.2.1)
      let color := match packageNodes.lookup pkg with
        | some (_, c) => c
        | none => "#6366f1"
      if allPoints.length < 1 then hulls
      else
        let n : ℚ := allPoints.length
        let center : Point := ⟨(allPoints.map Point.x).sum / n, (allPoints.map Point.y).sum / n⟩
        let hullPoints := grahamScan allPoints
        let hullPoints2 := ensureHullVolume sqrtF hullPoints padding
        let expanded := expandHull sqrtF hullPoints2 center padding
        hulls ++ [(pkg, ⟨pkg, expanded, center, color, getPackageDepth pkg⟩)])
    []

theorem lookup_isSome_iff_mem_fst {α β : Type} [BEq α] [LawfulBEq α] :
    ∀ (l : List (α × β)) (k : α),
      (l.lookup k).isSome = true ↔ k ∈ l.map Prod.fst := by
  intro l
  induction l with
  | nil => intro k; simp [List.lookup]
  | cons e rest ih =>
    intro k
    rw [List.lookup]
    by_cases hk : (k == e.1) = true
    · rw [hk]
      simp only [Option.isSome_some, List.map_cons, List.mem_cons, true_iff]
      exact Or.inl (by simpa using hk)
    · have hkf : (k == e.1) = false := by simpa using hk
      rw [hkf]
      rw [ih k]
      simp only [List.map_cons, List.mem_cons]
      constructor
      · exact Or.inr
      · rintro (h | h)
        · exact absurd h (by simpa using hk)
        · exact h

theorem mem_fst_addPkgPoint :
    ∀ (m : List (String × (List Point × String))) (pkg : String) (pt : Point)
      (color q : String),
      q ∈ (addPkgPoint m pkg pt color).map Prod.fst ↔
        q ∈ m.map Prod.fst ∨ q = pkg := by
  intro m
  induction m with
  | nil => intro pkg pt color q; simp [addPkgPoint]
  | cons e rest ih =>
    intro pkg pt color q
    obtain ⟨k, pts, col⟩ := e
    rw [addPkgPoint]
    by_cases hk : k = pkg
    · rw [if_pos hk]
      subst hk
      simp only [List.map_cons, List.mem_cons]
      constructor
      · rintro (h | h)
        · exact Or.inl (Or.inl h)
        · exact Or.inl (Or.inr h)
      · rintro ((h | h) | h)
        · exact Or.inl h
        · exact Or.inr h
        · exact Or.inl (h ▸ rfl)
    · rw [if_neg hk]
      simp only [List.map_cons, List.mem_cons]
      rw [ih pkg pt color q]
      tauto

theorem nonempty_addPkgPoint :
    ∀ (m : List (String × (List Point × String))) (pkg : String) (pt : Point)
      (color : String),
      (∀ e ∈ m, e.2.1 ≠ []) → ∀ e ∈ addPkgPoint m pkg pt color, e.2.1 ≠ [] := by
  intro m
  induction m with
  | nil =>
    intro pkg pt color _ e he
    rw [addPkgPoint] at he
    simp only [List.mem_singleton] at he
    subst he
    simp
  | cons f rest ih =>
    intro pkg pt color hne e he
    obtain ⟨k, pts, col⟩ := f
    rw [addPkgPoint] at he
    by_cases hk : k = pkg
    · rw [if_pos hk] at he
      rcases List.mem_cons.1 he with h | h
      · subst h
        simp only [ne_eq]
        intro hc
        rw [List.append_eq_nil] at hc
        cases hc.2
      · exact hne e (List.mem_cons_of_mem _ h)
    · rw [if_neg hk] at he
      rcases List.mem_cons.1 he with h | h
      · subst h
        exact hne _ (List.mem_cons_self _ _)
      · exact ih pkg pt color (fun f hf => hne f (List.mem_cons_of_mem _ hf)) e h

theorem mem_fst_packageNodesOf_fold :
    ∀ (l : List GNode) (m : List (String × (List Point × String))) (q : String),
      q ∈ (l.foldl (fun m nd =>
          if nd.hidden then m else addPkgPoint m nd.pkg ⟨nd.x, nd.y⟩ nd.color) m).map
            Prod.fst ↔
        q ∈ m.map Prod.fst ∨ ∃ nd ∈ l, nd.hidden = false ∧ nd.pkg = q := by
  intro l
  induction l with
  | nil => intro m q; simp
  | cons nd rest ih =>
    intro m q
    rw [List.foldl_cons]
    by_cases hh : nd.hidden
    · rw [if_pos hh]
      rw [ih]
      constructor
      · rintro (h | ⟨x, hx, hxh, hxp⟩)
        · exact Or.inl h
        · exact Or.inr ⟨x, List.mem_cons_of_mem _ hx, hxh, hxp⟩
      · rintro (h | ⟨x, hx, hxh, hxp⟩)
        · exact Or.inl h
        · rcases List.mem_cons.1 hx with hx | hx
          · subst hx
            rw [hh] at hxh
            cases hxh
          · exact Or.inr ⟨x, hx, hxh, hxp⟩
    · rw [if_neg hh]
      rw [ih]
      rw [mem_fst_addPkgPoint]
      constructor
      · rintro ((h | h) | ⟨x, hx, hxh, hxp⟩)
        · exact Or.inl h
        · exact Or.inr ⟨nd, List.mem_cons_self _ _, by simpa using hh, h.symm⟩
        · exact Or.inr ⟨x, List.mem_cons_of_mem _ hx, hxh, hxp⟩
      · rintro (h | ⟨x, hx, hxh, hxp⟩)
        · exact Or.inl (Or.inl h)
        · rcases List.mem_cons.1 hx with hx | hx
          · subst hx
            exact Or.inl (Or.inr hxp.symm)
          · exact Or.inr ⟨x, hx, hxh, hxp⟩

theorem nonempty_packageNodesOf (g : SGraph) :
    ∀ e ∈ packageNodesOf g, e.2.1 ≠ [] := by
  unfold packageNodesOf
  have main : ∀ (l : List GNode) (m : List (String × (List Point × String))),
      (∀ e ∈ m, e.2.1 ≠ []) →
      ∀ e ∈ l.foldl (fun m nd =>
          if nd.hidden then m else addPkgPoint m nd.pkg ⟨nd.x, nd.y⟩ nd.color) m,
        e.2.1 ≠ [] := by
    intro l
    induction l with
    | nil => intro m hm e he; exact hm e he
    | cons nd rest ih =>
      intro m hm e he
      rw [List.foldl_cons] at he
      by_cases hh : nd.hidden
      · rw [if_pos hh] at he
        exact ih m hm e he
      · rw [if_neg hh] at he
        exact ih _ (nonempty_addPkgPoint m nd.pkg ⟨nd.x, nd.y⟩ nd.color hm) e he
  exact main g.nodes [] (fun e he => absurd he (List.not_mem_nil e))

theorem hullsFold_fst (sqrtF : ℚ → ℚ) (padding : ℚ)
    (packageNodes : List (String × (List Point × String)))
    (hne : ∀ e ∈ packageNodes, e.2.1 ≠ []) :
    ∀ (l : List String) (acc : List (String × PackageHull)),
      (∀ p ∈ l, p ∈ packageNodes.map Prod.fst) →
      (l.foldl
        (fun hulls pkg =>
          let allPoints := (packageNodes.filter
            (fun e => e.1 = pkg ∨ isDescendant e.1 pkg)).flatMap (fun e => e.2.1)
          let color := match packageNodes.lookup pkg with
            | some (_, c) => c
            | none => "#6366f1"
          if allPoints.length < 1 then hulls
          else
            let n : ℚ := allPoints.length
            let center : Point :=
              ⟨(allPoints.map Point.x).sum / n, (allPoints.map Point.y).sum / n⟩
            let hullPoints := grahamScan allPoints
            let hullPoints2 := ensureHullVolume sqrtF hullPoints padding
            let expanded := expandHull sqrtF hullPoints2 center padding
            hulls ++ [(pkg, ⟨pkg, expanded, center, color, getPackageDepth pkg⟩)])
        acc).map Prod.fst = acc.map Prod.fst ++ l := by
  intro l
  induction l with
  | nil => intro acc _; simp
  | cons pkg rest ih =>
    intro acc hsub
    rw [List.foldl_cons]
    have hmem : pkg ∈ packageNodes.map Prod.fst := hsub pkg (List.mem_cons_self _ _)
    obtain ⟨e, hepn, hefst⟩ := List.mem_map.1 hmem
    have hef : e ∈ packageNodes.filter (fun f => f.1 = pkg ∨ isDescendant f.1 pkg) := by
      apply List.mem_filter.2
      refine ⟨hepn, ?_⟩
      simp [hefst]
    have hpts : e.2.1 ≠ [] := hne e hepn
    have hx : ∃ q, q ∈ (packageNodes.filter
        (fun f => f.1 = pkg ∨ isDescendant f.1 pkg)).flatMap (fun f => f.2.1) := by
      cases hc : e.2.1 with
      | nil => exact absurd hc hpts
      | cons q qs =>
        refine ⟨q, List.mem_flatMap.2 ⟨e, hef, ?_⟩⟩
        rw [hc]
        exact List.mem_cons_self _ _
    have hlen : ¬((packageNodes.filter
        (fun f => f.1 = pkg ∨ isDescendant f.1 pkg)).flatMap (fun f => f.2.1)).length < 1 := by
      obtain ⟨q, hq⟩ := hx
      have := List.length_pos.2 (List.ne_nil_of_mem hq)
      omega
    rw [if_neg hlen]
    rw [ih _ (fun p hp => hsub p (List.mem_cons_of_mem _ hp))]
    simp

/-- C10: `computePackageHulls` has a hull exactly for those package paths with
at least one non-hidden node whose package equals that exact path (so a
package whose nodes all live in descendant packages gets no hull of its own),
and hidden nodes contribute nothing: the result is unchanged when they are
removed from the graph. -/
theorem computePackageHulls_spec (sqrtF : ℚ → ℚ) (g : SGraph) (padding : ℚ) :
    (∀ pkg : String,
      ((computePackageHulls sqrtF g padding).lookup pkg).isSome = true ↔
        ∃ nd ∈ g.nodes, nd.hidden = false ∧ nd.pkg = pkg) ∧
    computePackageHulls sqrtF g padding =
      computePackageHulls sqrtF ⟨g.nodes.filter (fun nd => !nd.hidden), g.edges⟩ padding := by
  constructor
  · intro pkg
    have hkeys : (computePackageHulls sqrtF g padding).map Prod.fst =
        (packageNodesOf g).map Prod.fst := by
      unfold computePackageHulls
      exact (hullsFold_fst sqrtF padding (packageNodesOf g) (nonempty_packageNodesOf g)
        ((packageNodesOf g).map Prod.fst) [] (fun p hp => hp)).trans (List.nil_append _)
    rw [lookup_isSome_iff_mem_fst, hkeys]
    have hpn : pkg ∈ (packageNodesOf g).map Prod.fst ↔
        pkg ∈ ([] : List (String × (List Point × String))).map Prod.fst ∨
          ∃ nd ∈ g.nodes, nd.hidden = false ∧ nd.pkg = pkg :=
      mem_fst_packageNodesOf_fold g.nodes [] pkg
    rw [hpn]
    simp
  · have hpn : packageNodesOf ⟨g.nodes.filter (fun nd => !nd.hidden), g.edges⟩ =
        packageNodesOf g := by
      unfold packageNodesOf
      show (g.nodes.filter (fun nd => !nd.hidden)).foldl _ [] = _
      have main : ∀ (l : List GNode) (m : List (String × (List Point × String))),
          (l.filter (fun nd => !nd.hidden)).foldl
            (fun m nd =>
              if nd.hidden then m else addPkgPoint m nd.pkg ⟨nd.x, nd.y⟩ nd.color) m =
          l.foldl
            (fun m nd =>
              if nd.hidden then m else addPkgPoint m nd.pkg ⟨nd.x, nd.y⟩ nd.color) m := by
        intro l
        induction l with
        | nil => intro m; rfl
        | cons nd rest ih =>
          intro m
          by_cases hh : nd.hidden
          · rw [List.filter_cons_of_neg (by simpa using hh), List.foldl_cons, if_pos hh]
            exact ih m
          · rw [List.filter_cons_of_pos (by simpa using hh), List.foldl_cons,
              List.foldl_cons, if_neg hh]
            exact ih _
      exact main g.nodes []
    unfold computePackageHulls
    rw [hpn]

/-! ## Shared: the distance-recording undirected BFS

Both `applyRadialLayout` and `computeAllPairsDistances` (stress layout) run
the same loop: a queue, a distance map filled at discovery time, undirected
neighbor traversal (`forEachNeighbor`). -/

/-- The `forEachNeighbor` body: record fresh neighbors at `cd + 1` and queue
them. -/
def distBfsExpand (cd : ℕ) :
    List String → List (String × ℕ) → List String → List (String × ℕ) × List String
  | [], dist, pushes => (dist, pushes)
  | nb :: rest, dist, pushes =>
    if (dist.lookup nb).isSome then distBfsExpand cd rest dist pushes
    else distBfsExpand cd rest (dist ++ [(nb, cd + 1)]) (pushes ++ [nb])

theorem distBfsExpand_eq (cd : ℕ) :
    ∀ (nbrs : List String) (dist : List (String × ℕ)) (pushes : List String),
      ∃ fresh : List String,
        (distBfsExpand cd nbrs dist pushes).1 = dist ++ fresh.map (fun nb => (nb, cd + 1)) ∧
        (distBfsExpand cd nbrs dist pushes).2 = pushes ++ fresh ∧
        (∀ x ∈ fresh, x ∈ nbrs ∧ (dist.lookup x) = none) ∧
        (∀ nb ∈ nbrs, ((distBfsExpand cd nbrs dist pushes).1.lookup nb).isSome = true) := by
  intro nbrs
  induction nbrs with
  | nil =>
    intro dist pushes
    exact ⟨[], by simp [distBfsExpand], by simp [distBfsExpand], by simp,
      fun nb hnb => absurd hnb (List.not_mem_nil nb)⟩
  | cons nb rest ih =>
    intro dist pushes
    rw [distBfsExpand]
    by_cases hv : (dist.lookup nb).isSome
    · rw [if_pos hv]
      obtain ⟨fresh, h1, h2, h3, h4⟩ := ih dist pushes
      refine ⟨fresh, h1, h2, ?_, ?_⟩
      · exact fun x hx => ⟨List.mem_cons_of_mem _ (h3 x hx).1, (h3 x hx).2⟩
      · intro y hy
        rcases List.mem_cons.1 hy with hy | hy
        · subst hy
          rw [h1]
          obtain ⟨v, hv2⟩ := Option.isSome_iff_exists.1 hv
          rw [lookup_append_of_some hv2]
          rfl
        · exact h4 y hy
    · rw [if_neg hv]
      obtain ⟨fresh, h1, h2, h3, h4⟩ := ih (dist ++ [(nb, cd + 1)]) (pushes ++ [nb])
      refine ⟨nb :: fresh, ?_, ?_, ?_, ?_⟩
      · rw [h1]; simp
      · rw [h2]; simp
      · intro x hx
        rcases List.mem_cons.1 hx with hx | hx
        · subst hx
          exact ⟨List.mem_cons_self _ _, Option.not_isSome_iff_eq_none.1 hv⟩
        · have h5 := h3 x hx
          refine ⟨List.mem_cons_of_mem _ h5.1, ?_⟩
          have h6 := h5.2
          rcases hc : dist.lookup x with _ | v
          · rfl
          · rw [lookup_append_of_some hc] at h6
            cases h6
      · intro y hy
        rcases List.mem_cons.1 hy with hy | hy
        · subst hy
          rw [h1]
          have : (dist ++ [(y, cd + 1)]).lookup y = some (cd + 1) := by
            rw [lookup_append_of_none (Option.not_isSome_iff_eq_none.1 hv)]
            simp [List.lookup]
          rw [show dist ++ [(y, cd + 1)] ++ fresh.map (fun nb => (nb, cd + 1)) =
            (dist ++ [(y, cd + 1)]) ++ fresh.map (fun nb => (nb, cd + 1)) by simp]
          rw [lookup_append_of_some this]
          rfl
        · exact h4 y hy

/-- The `while (queue.length > 0)` distance BFS loop. -/
def distBfsLoop (g : SGraph) :
    List String → List (String × ℕ) → List (String × ℕ)
  | [], dist => dist
  | current :: rest, dist =>
    let cd := (dist.lookup current).getD 0
    let r := distBfsExpand cd (g.bothNbrs current) dist []
    distBfsLoop g (rest ++ r.2) r.1
termination_by q dist =>
  (((strUniverse g).filter (fun n => !((dist.lookup n).isSome))).length, q.length)
decreasing_by
  obtain ⟨fresh, h1, h2, h3, _⟩ :=
    distBfsExpand_eq ((dist.lookup current).getD 0) (g.bothNbrs current) dist []
  cases fresh with
  | nil =>
    rw [h1, h2]
    simp only [List.map_nil, List.append_nil, List.nil_append]
    apply Prod.Lex.right
    simp only [List.length_append, List.length_cons, List.length_nil]
    omega
  | cons f fresh2 =>
    rw [h1]
    apply Prod.Lex.left
    have hf := h3 f (List.mem_cons_self _ _)
    have hfu : f ∈ strUniverse g := by
      have hfn := hf.1
      have : f ∈ g.outNbrs current ∨ f ∈ g.inNbrs current := by
        have h9 := hfn
        unfold SGraph.bothNbrs at h9
        rw [mem_dedupFirst] at h9
        exact List.mem_append.1 h9
      rcases this with h | h
      · exact @stepRel_tgt_mem_strUniverse g Direction.out current f (mem_outNbrs.1 h)
      · exact @stepRel_tgt_mem_strUniverse g Direction.inn current f (mem_inNbrs.1 h)
    apply filter_length_lt_of_strict (strUniverse g)
      (fun n => !((dist.lookup n).isSome))
      (fun n => !(((dist ++ (f :: fresh2).map (fun nb => (nb, cd + 1))).lookup n).isSome))
      ?_ f hfu ?_ ?_
    · intro a _ hq
      simp only [Bool.not_eq_true', Option.not_isSome_iff_eq_none] at hq ⊢
      rcases hc : dist.lookup a with _ | v
      · rfl
      · rw [lookup_append_of_some hc] at hq
        cases hq
    · show (!(List.lookup f dist).isSome) = true
      rw [hf.2]
      rfl
    · show (!((dist ++ (f :: fresh2).map
          (fun nb => (nb, (dist.lookup current).getD 0 + 1))).lookup f).isSome) = false
      rw [lookup_append_of_none hf.2]
      rw [show (f :: fresh2).map (fun nb => (nb, cd + 1)) =
        (f, cd + 1) :: fresh2.map (fun nb => (nb, cd + 1)) from rfl]
      simp [List.lookup]

/-- BFS distances from one start node (the loop of `applyRadialLayout` and of
`computeAllPairsDistances`). -/
def bfsDistancesFrom (g : SGraph) (start : String) : List (String × ℕ) :=
  distBfsLoop g [start] [(start, 0)]

/-! ## C7: stress-majorization determinism (`applyStressMajorizationLayout`)

The layout re-randomizes every node position with unseeded `Math.random()`
before iterating; the random stream is made explicit as `rand : ℕ → ℚ`
(values consumed in node order, x before y), and `Math.sqrt` as `sqrtF`. -/

/-- `computeAllPairsDistances(graph)` : per-node BFS distances over the
undirected view; unreached nodes are recorded with `none` (JS `Infinity`), in
node order after the BFS entries. -/
def computeAllPairsDistances (g : SGraph) :
    List (String × List (String × Option ℕ)) :=
  g.nodeIds.map (fun startNode =>
    let distances := bfsDistancesFrom g startNode
    (startNode,
      distances.map (fun e => (e.1, some e.2)) ++
        (g.nodeIds.filter (fun n => !((distances.lookup n).isSome))).map
          (fun n => (n, (none : Option ℕ)))))

/-- `graph.getNodeAttribute(n, "x")`. -/
def getX (g : SGraph) (n : String) : ℚ :=
  match g.nodes.find? (fun nd => nd.id == n) with
  | some nd => nd.x
  | none => 0

/-- `graph.getNodeAttribute(n, "y")`. -/
def getY (g : SGraph) (n : String) : ℚ :=
  match g.nodes.find? (fun nd => nd.id == n) with
  | some nd => nd.y
  | none => 0

/-- Write a batch of positions back (`setNodeAttribute` per node). -/
def setPositionsXY (g : SGraph) (pos : List (String × (ℚ × ℚ))) : SGraph :=
  { g with nodes := g.nodes.map (fun nd =>
      match pos.lookup nd.id with
      | some p => { nd with x := p.1, y := p.2 }
      | none => nd) }

/-- The weighted-average position one stress iteration computes for `nodeId`. -/
def stressNewPos (sqrtF : ℚ → ℚ) (g : SGraph)
    (gd : List (String × List (String × Option ℕ))) (nodes : List String)
    (nodeId : String) : ℚ × ℚ :=
  let nodeDistances := (gd.lookup nodeId).getD []
  let acc := nodes.foldl
    (fun (acc : ℚ × ℚ × ℚ) otherId =>
      if nodeId = otherId then acc
      else
        match (nodeDistances.lookup otherId).getD none with
        | none => acc
        | some graphDist =>
          let x1 := getX g nodeId
          let y1 := getY g nodeId
          let x2 := getX g otherId
          let y2 := getY g otherId
          let euclideanDist := sqrtF ((x2 - x1) ^ 2 + (y2 - y1) ^ 2)
          let weight : ℚ := 1 / ((graphDist : ℚ) * (graphDist : ℚ) + 1 / 100)
          let targetDist : ℚ := (graphDist : ℚ) * 50
          if euclideanDist < 1 then
            (acc.1 + weight * x2, acc.2.1 + weight * y2, acc.2.2 + weight)
          else
            let ratio := targetDist / euclideanDist
            (acc.1 + weight * (x1 + (x2 - x1) * ratio),
             acc.2.1 + weight * (y1 + (y2 - y1) * ratio),
             acc.2.2 + weight))
    (0, 0, 0)
  if 0 < acc.2.2 then (acc.1 / acc.2.2, acc.2.1 / acc.2.2)
  else (getX g nodeId, getY g nodeId)

/-- One stress-majorization iteration: compute all new positions from the
current ones, then apply them. -/
def stressOnce (sqrtF : ℚ → ℚ) (g : SGraph)
    (gd : List (String × List (String × Option ℕ))) (nodes : List String) : SGraph :=
  setPositionsXY g (nodes.map (fun nodeId => (nodeId, stressNewPos sqrtF g gd nodes nodeId)))

/-- The `for (let iter = 0; iter < iterations; iter++)` loop. -/
def stressIter (sqrtF : ℚ → ℚ) (gd : List (String × List (String × Option ℕ)))
    (nodes : List String) : ℕ → SGraph → SGraph
  | 0, g => g
  | it + 1, g => stressIter sqrtF gd nodes it (stressOnce sqrtF g gd nodes)

/-- `applyStressMajorizationLayout(graph, { iterations })` : all-pairs BFS
distances, unseeded random re-initialization of every position, then the
iteration loop. -/
def applyStressMajorizationLayout (sqrtF : ℚ → ℚ) (rand : ℕ → ℚ) (g : SGraph)
    (iterations : ℕ) : SGraph :=
  if g.nodes.length = 0 then g
  else
    let graphDistances := computeAllPairsDistances g
    let g1 : SGraph := { g with nodes := g.nodes.enum.map (fun e =>
        { e.2 with x := rand (2 * e.1) * 500 - 250, y := rand (2 * e.1 + 1) * 500 - 250 }) }
    let nodes := g1.nodeIds
    stressIter sqrtF graphDistances nodes iterations g1

/-- A node with its position erased; two node lists agree "up to positions"
when their `stripPos` images agree. -/
def stripPos (nd : GNode) : GNode := { nd with x := 0, y := 0 }

/-- One-node graph used for the determinism counterexample. -/
def gOne : SGraph := SGraph.mk [⟨"n", 1, 2, "", false, ""⟩] []

theorem stress_eval_one (r : ℕ → ℚ) (x y : ℚ) :
    applyStressMajorizationLayout id r (SGraph.mk [⟨"n", x, y, "", false, ""⟩] []) 1 =
      SGraph.mk [⟨"n", r 0 * 500 - 250, r 1 * 500 - 250, "", false, ""⟩] [] := by
  rw [applyStressMajorizationLayout]
  have hne : ¬ ((SGraph.mk [(⟨"n", x, y, "", false, ""⟩ : GNode)] [] : SGraph).nodes.length = 0) := by
    simp
  rw [if_neg hne]
  simp +decide [stressIter, stressOnce, stressNewPos, setPositionsXY, getX, getY,
    SGraph.nodeIds, List.enum, List.enumFrom, List.find?, List.lookup]

/-- C7 counterexample: on a one-node graph with identical initial positions
and identical settings, two runs of the stress layout differ (the unseeded
random draws differ between runs), and re-running does not reproduce the
previous coordinates. -/
theorem stress_determinism_counterexample :
    applyStressMajorizationLayout id (fun _ => 0) gOne 1 ≠
      applyStressMajorizationLayout id (fun _ => 1 / 2) gOne 1 ∧
    applyStressMajorizationLayout id (fun _ => 1 / 2)
        (applyStressMajorizationLayout id (fun _ => 0) gOne 1) 1 ≠
      applyStressMajorizationLayout id (fun _ => 0) gOne 1 := by
  have h0 : applyStressMajorizationLayout id (fun _ => 0) gOne 1 =
      SGraph.mk [⟨"n", -250, -250, "", false, ""⟩] [] := by
    rw [show gOne = SGraph.mk [⟨"n", 1, 2, "", false, ""⟩] [] from rfl]
    rw [stress_eval_one]
    norm_num
  have hh : applyStressMajorizationLayout id (fun _ => 1 / 2) gOne 1 =
      SGraph.mk [⟨"n", 0, 0, "", false, ""⟩] [] := by
    rw [show gOne = SGraph.mk [⟨"n", 1, 2, "", false, ""⟩] [] from rfl]
    rw [stress_eval_one]
    norm_num
  have hr : applyStressMajorizationLayout id (fun _ => 1 / 2)
      (SGraph.mk [⟨"n", -250, -250, "", false, ""⟩] []) 1 =
      SGraph.mk [⟨"n", 0, 0, "", false, ""⟩] [] := by
    rw [stress_eval_one]
    norm_num
  refine ⟨?_, ?_⟩
  · rw [h0, hh]
    intro hc
    have := congrArg (fun s => s.nodes) hc
    simp only [List.cons.injEq, GNode.mk.injEq] at this
    norm_num at this
  · rw [h0, hr]
    intro hc
    have := congrArg (fun s => s.nodes) hc
    simp only [List.cons.injEq, GNode.mk.injEq] at this
    norm_num at this

theorem setPositionsXY_stripPos (g : SGraph) (pos : List (String × (ℚ × ℚ))) :
    (setPositionsXY g pos).nodes.map stripPos = g.nodes.map stripPos ∧
    (setPositionsXY g pos).edges = g.edges := by
  constructor
  · show (g.nodes.map _).map stripPos = _
    rw [List.map_map]
    apply List.map_congr_left
    intro nd _
    show stripPos (match pos.lookup nd.id with
      | some p => { nd with x := p.1, y := p.2 }
      | none => nd) = stripPos nd
    rcases pos.lookup nd.id with _ | p
    · rfl
    · rfl
  · rfl

theorem stressIter_stripPos (sqrtF : ℚ → ℚ) (gd : List (String × List (String × Option ℕ)))
    (nodes : List String) :
    ∀ (it : ℕ) (g : SGraph),
      (stressIter sqrtF gd nodes it g).nodes.map stripPos = g.nodes.map stripPos ∧
      (stressIter sqrtF gd nodes it g).edges = g.edges := by
  intro it
  induction it with
  | zero => intro g; exact ⟨rfl, rfl⟩
  | succ k ih =>
    intro g
    rw [stressIter]
    obtain ⟨h1, h2⟩ := ih (stressOnce sqrtF g gd nodes)
    obtain ⟨h3, h4⟩ := setPositionsXY_stripPos g
      (nodes.map (fun nodeId => (nodeId, stressNewPos sqrtF g gd nodes nodeId)))
    exact ⟨h1.trans h3, h2.trans h4⟩

theorem enumFrom_overwrite_stripPos (rand : ℕ → ℚ) :
    ∀ (l : List GNode) (k : ℕ),
      ((List.enumFrom k l).map (fun e =>
        ({ e.2 with
            x := rand (2 * e.1) * 500 - 250,
            y := rand (2 * e.1 + 1) * 500 - 250 } : GNode))).map stripPos =
      l.map stripPos := by
  intro l
  induction l with
  | nil => intro k; rfl
  | cons nd rest ih =>
    intro k
    rw [List.enumFrom]
    simp only [List.map_cons]
    rw [ih (k + 1)]
    rfl

theorem applyStress_stripPos (sqrtF : ℚ → ℚ) (rand : ℕ → ℚ) (g : SGraph)
    (iterations : ℕ) :
    (applyStressMajorizationLayout sqrtF rand g iterations).nodes.map stripPos =
      g.nodes.map stripPos ∧
    (applyStressMajorizationLayout sqrtF rand g iterations).edges = g.edges := by
  rw [applyStressMajorizationLayout]
  by_cases hz : g.nodes.length = 0
  · rw [if_pos hz]
    exact ⟨rfl, rfl⟩
  · rw [if_neg hz]
    obtain ⟨h1, h2⟩ := stressIter_stripPos sqrtF (computeAllPairsDistances g)
      (SGraph.nodeIds { g with nodes := g.nodes.enum.map (fun e =>
        { e.2 with
          x := rand (2 * e.1) * 500 - 250,
          y := rand (2 * e.1 + 1) * 500 - 250 }) })
      iterations
      { g with nodes := g.nodes.enum.map (fun e =>
        { e.2 with
          x := rand (2 * e.1) * 500 - 250,
          y := rand (2 * e.1 + 1) * 500 - 250 }) }
    refine ⟨h1.trans ?_, h2⟩
    show ((List.enumFrom 0 g.nodes).map _).map stripPos = _
    exact enumFrom_overwrite_stripPos rand g.nodes 0

theorem stripPos_map_nodeIds {l1 l2 : List GNode}
    (h : l1.map stripPos = l2.map stripPos) : l1.map GNode.id = l2.map GNode.id := by
  have h1 : (l1.map stripPos).map GNode.id = (l2.map stripPos).map GNode.id := by rw [h]
  rw [List.map_map, List.map_map] at h1
  have he : ∀ l : List GNode, l.map (GNode.id ∘ stripPos) = l.map GNode.id := by
    intro l
    apply List.map_congr_left
    intro nd _
    rfl
  rw [he l1, he l2] at h1
  exact h1

theorem distBfsLoop_edges_congr (g g2 : SGraph) (he : g.edges = g2.edges) :
    ∀ (q : List String) (dist : List (String × ℕ)),
      distBfsLoop g q dist = distBfsLoop g2 q dist := by
  have hnb : ∀ n, g.bothNbrs n = g2.bothNbrs n := by
    intro n
    unfold SGraph.bothNbrs SGraph.outNbrs SGraph.inNbrs
    rw [he]
  intro q dist
  induction q, dist using distBfsLoop.induct g with
  | case1 dist => rw [distBfsLoop, distBfsLoop]
  | case2 current rest dist cd r ih =>
    rw [distBfsLoop, distBfsLoop]
    rw [← hnb current]
    exact ih

/-- C7 amended: stress majorization is a deterministic function of the graph
topology and attributes, the settings and the random stream; it ignores prior
positions entirely, so two runs agree exactly when their random draws agree,
and re-running with the same draws reproduces the coordinates. -/
theorem applyStress_spec_amended (sqrtF : ℚ → ℚ) (rand rand2 : ℕ → ℚ)
    (iterations : ℕ) (g g2 : SGraph)
    (hn : g.nodes.map stripPos = g2.nodes.map stripPos)
    (he : g.edges = g2.edges) :
    applyStressMajorizationLayout sqrtF rand g iterations =
      applyStressMajorizationLayout sqrtF rand g2 iterations ∧
    applyStressMajorizationLayout sqrtF rand
        (applyStressMajorizationLayout sqrtF rand2 g iterations) iterations =
      applyStressMajorizationLayout sqrtF rand g iterations := by
  have main : ∀ (ga gb : SGraph), ga.nodes.map stripPos = gb.nodes.map stripPos →
      ga.edges = gb.edges →
      applyStressMajorizationLayout sqrtF rand ga iterations =
        applyStressMajorizationLayout sqrtF rand gb iterations := by
    intro ga gb hab_n hab_e
    have hlen : ga.nodes.length = gb.nodes.length := by
      have := congrArg List.length hab_n
      simpa using this
    rw [applyStressMajorizationLayout, applyStressMajorizationLayout]
    by_cases hz : ga.nodes.length = 0
    · rw [if_pos hz, if_pos (hlen ▸ hz)]
      have hga : ga.nodes = [] := List.length_eq_zero.1 hz
      have hgb : gb.nodes = [] := List.length_eq_zero.1 (hlen ▸ hz)
      cases ga with
      | mk an ae =>
        cases gb with
        | mk bn be =>
          simp only at hga hgb hab_e
          rw [hga, hgb, hab_e]
    · rw [if_neg hz, if_neg (hlen ▸ hz)]
      have hover : ∀ (l1 l2 : List GNode) (k : ℕ), l1.map stripPos = l2.map stripPos →
          (List.enumFrom k l1).map (fun e =>
            ({ e.2 with
               x := rand (2 * e.1) * 500 - 250,
               y := rand (2 * e.1 + 1) * 500 - 250 } : GNode)) =
          (List.enumFrom k l2).map (fun e =>
            ({ e.2 with
               x := rand (2 * e.1) * 500 - 250,
               y := rand (2 * e.1 + 1) * 500 - 250 } : GNode)) := by
        intro l1
        induction l1 with
        | nil =>
          intro l2 k h
          cases l2 with
          | nil => rfl
          | cons b bs => cases h
        | cons a as ih =>
          intro l2 k h
          cases l2 with
          | nil => cases h
          | cons b bs =>
            simp only [List.map_cons, List.cons.injEq] at h
            rw [List.enumFrom, List.enumFrom]
            simp only [List.map_cons, List.cons.injEq]
            constructor
            · have hab : a = { b with x := a.x, y := a.y } := by
                cases a
                cases b
                simp only [stripPos, GNode.mk.injEq] at h
                simp only [GNode.mk.injEq]
                exact h.1
              rw [hab]
            · exact ih bs (k + 1) h.2
      have hg1 : ({ ga with nodes := ga.nodes.enum.map (fun e =>
          { e.2 with
            x := rand (2 * e.1) * 500 - 250,
            y := rand (2 * e.1 + 1) * 500 - 250 }) } : SGraph) =
          { gb with nodes := gb.nodes.enum.map (fun e =>
          { e.2 with
            x := rand (2 * e.1) * 500 - 250,
            y := rand (2 * e.1 + 1) * 500 - 250 }) } := by
        cases ga with
        | mk an ae =>
          cases gb with
          | mk bn be =>
            simp only at hab_n hab_e ⊢
            rw [hab_e]
            rw [show List.enum an = List.enumFrom 0 an from rfl,
              show List.enum bn = List.enumFrom 0 bn from rfl]
            rw [hover an bn 0 hab_n]
      have hapd : computeAllPairsDistances ga = computeAllPairsDistances gb := by
        unfold computeAllPairsDistances
        unfold SGraph.nodeIds
        rw [stripPos_map_nodeIds hab_n]
        apply List.map_congr_left
        intro startNode _
        unfold bfsDistancesFrom
        rw [distBfsLoop_edges_congr ga gb hab_e]
      rw [hg1, hapd]
  refine ⟨main g g2 hn he, ?_⟩
  obtain ⟨h1, h2⟩ := applyStress_stripPos sqrtF rand2 g iterations
  exact main _ g h1 h2

/-! ## C6: radial layout (`applyRadialLayout`, layout.ts)

The layout BFS walks `forEachNeighbor` (both edge directions); the reference
notion is the undirected path, and the code's distance map is proved to hold
exactly the minimal undirected path lengths. -/

/-- One undirected step: a forward or a backward edge (`forEachNeighbor`). -/
def stepU (g : SGraph) (a b : String) : Prop :=
  (a, b) ∈ g.edges ∨ (b, a) ∈ g.edges

instance (g : SGraph) (a b : String) : Decidable (stepU g a b) := by
  unfold stepU
  infer_instance

/-- `p` is an undirected path from `s` to `t`. -/
def IsUPath (g : SGraph) (s t : String) (p : List String) : Prop :=
  p ≠ [] ∧ p.head? = some s ∧ p.getLast? = some t ∧ chainRel (stepU g) p

instance (g : SGraph) (s t : String) (p : List String) : Decidable (IsUPath g s t p) := by
  unfold IsUPath
  have : ∀ q, Decidable (chainRel (stepU g) q) := by
    intro q
    induction q with
    | nil => unfold chainRel; infer_instance
    | cons a rest ih =>
      cases rest with
      | nil => unfold chainRel; infer_instance
      | cons b r2 =>
        unfold chainRel
        exact @instDecidableAnd _ _ _ ih
  exact @instDecidableAnd _ _ _ (@instDecidableAnd _ _ _ (@instDecidableAnd _ _ _ (this p)))

/-- `k` is the exact undirected BFS-distance from `s` to `v`: some path has
`k` edges and none has fewer. -/
def MinUDist (g : SGraph) (s v : String) (k : ℕ) : Prop :=
  (∃ q, IsUPath g s v q ∧ q.length = k + 1) ∧ ∀ q, IsUPath g s v q → k + 1 ≤ q.length

theorem mem_bothNbrs {g : SGraph} {u v : String} : v ∈ g.bothNbrs u ↔ stepU g u v := by
  unfold SGraph.bothNbrs stepU
  rw [mem_dedupFirst, List.mem_append, mem_outNbrs, mem_inNbrs]

theorem isUPath_concat {g : SGraph} {s u v : String} {p : List String}
    (hp : IsUPath g s u p) (hr : stepU g u v) : IsUPath g s v (p ++ [v]) := by
  obtain ⟨hne, hh, hl, hc⟩ := hp
  refine ⟨by simp, ?_, ?_, ?_⟩
  · rw [head?_append_left p _ hne]; exact hh
  · rw [List.getLast?_concat]
  · exact chainRel_concat p u v hc hl hr

theorem isUPath_closed_step {g : SGraph} (S : List String)
    (closed : ∀ u ∈ S, ∀ w, stepU g u w → w ∈ S) :
    ∀ (p : List String) (s v : String), s ∈ S → IsUPath g s v p → v ∈ S := by
  intro p
  induction p with
  | nil =>
    intro s v _ hp
    exact absurd rfl hp.1
  | cons a q ih =>
    intro s v hs hp
    obtain ⟨_, hh, hl, hc⟩ := hp
    have has : a = s := by simpa using hh
    cases q with
    | nil =>
      have hav : a = v := by simpa using hl
      rw [← hav, has]
      exact hs
    | cons b rest =>
      have hb : b ∈ S := closed a (has ▸ hs) b hc.1
      apply ih b v hb
      refine ⟨by simp, by simp, ?_, hc.2⟩
      rw [List.getLast?_cons_cons] at hl
      exact hl

/-- Invariant of the distance BFS loop: the map holds exact minimal undirected
distances from `start`, its keys are distinct and lie in the node/edge
universe, the queue sits inside the map sorted by distance with spread at most
one, and every processed node has all its neighbors recorded. -/
structure RadInv (g : SGraph) (start : String)
    (dist : List (String × ℕ)) (queue : List String) : Prop where
  start_mem : dist.lookup start = some 0
  keys_nodup : (dist.map Prod.fst).Nodup
  keys_sub : ∀ e ∈ dist, e.1 = start ∨ e.1 ∈ strUniverse g
  d_min : ∀ v k, dist.lookup v = some k → ∀ q, IsUPath g start v q → k + 1 ≤ q.length
  d_real : ∀ v k, dist.lookup v = some k → ∃ q, IsUPath g start v q ∧ q.length = k + 1
  queue_sub : ∀ x ∈ queue, (dist.lookup x).isSome = true
  q_sorted : List.Pairwise
    (fun a b => (dist.lookup a).getD 0 ≤ (dist.lookup b).getD 0) queue
  q_band : ∀ a ∈ queue, ∀ b ∈ queue,
    (dist.lookup b).getD 0 ≤ (dist.lookup a).getD 0 + 1
  full : ∀ u, (dist.lookup u).isSome = true → u ∉ queue →
    ∀ w, stepU g u w → (dist.lookup w).isSome = true

/-- Any undirected path to a node still absent from the distance map when
`current` is popped has at least `d current + 1` edges. -/
theorem rad_bound {g : SGraph} {start current : String} {dist : List (String × ℕ)}
    {rest : List String}
    (inv : RadInv g start dist (current :: rest)) :
    ∀ (q : List String) (w : String), IsUPath g start w q → dist.lookup w = none →
      (dist.lookup current).getD 0 + 2 ≤ q.length := by
  obtain ⟨cd, hcd⟩ := Option.isSome_iff_exists.1
    (inv.queue_sub current (List.mem_cons_self _ _))
  intro q
  induction q using List.reverseRecOn with
  | nil =>
    intro w hq _
    exact absurd rfl hq.1
  | append_singleton l a ih =>
    intro w hq hw
    have haw : a = w := by
      have := hq.2.2.1
      rw [List.getLast?_concat] at this
      simpa using this
    subst haw
    by_cases hlne : l = []
    · subst hlne
      have : a = start := by simpa using hq.2.1
      rw [this, inv.start_mem] at hw
      cases hw
    · obtain ⟨_, hh, _, hc⟩ := hq
      obtain ⟨hcl, u, hu, hua⟩ := chainRel_snoc_decomp l a hc hlne
      have hpl : IsUPath g start u l :=
        ⟨hlne, by rwa [head?_append_left l _ hlne] at hh, hu, hcl⟩
      rcases hud : dist.lookup u with _ | du
      · have h1 := ih u hpl hud
        have : l.length ≤ (l ++ [a]).length := by simp
        omega
      · by_cases huq : u = current
        · have h1 := inv.d_min u du hud l hpl
          rw [huq] at hud
          rw [hcd] at hud
          have hdu : du = cd := by
            injection hud with h2
            exact h2.symm
          rw [hcd]
          have : (l ++ [a]).length = l.length + 1 := by simp
          simp only [Option.getD_some]
          omega
        · by_cases hur : u ∈ rest
          · have hsorted := inv.q_sorted
            rw [List.pairwise_cons] at hsorted
            have hcu := hsorted.1 u hur
            rw [hcd, hud] at hcu
            simp only [Option.getD_some] at hcu
            have h1 := inv.d_min u du hud l hpl
            rw [hcd]
            have : (l ++ [a]).length = l.length + 1 := by simp
            simp only [Option.getD_some]
            omega
          · have hunq : u ∉ current :: rest := by
              intro hc2
              rcases List.mem_cons.1 hc2 with h | h
              · exact huq h
              · exact hur h
            have := inv.full u (by rw [hud]; rfl) hunq a hua
            rw [hw] at this
            cases this

theorem lookup_none_iff_not_mem_fst {α β : Type} [BEq α] [LawfulBEq α]
    (l : List (α × β)) (k : α) :
    l.lookup k = none ↔ k ∉ l.map Prod.fst := by
  rw [← Option.not_isSome_iff_eq_none]
  constructor
  · intro h hm
    exact h ((lookup_isSome_iff_mem_fst l k).2 hm)
  · intro h hs
    exact h ((lookup_isSome_iff_mem_fst l k).1 hs)

theorem pairwise_mono_of_mem {α : Type} {R S : α → α → Prop} :
    ∀ {l : List α}, (∀ a ∈ l, ∀ b ∈ l, R a b → S a b) → l.Pairwise R → l.Pairwise S := by
  intro l
  induction l with
  | nil => intro _ _; exact List.Pairwise.nil
  | cons a rest ih =>
    intro h hp
    rw [List.pairwise_cons] at hp ⊢
    refine ⟨?_, ?_⟩
    · intro b hb
      exact h a (List.mem_cons_self _ _) b (List.mem_cons_of_mem _ hb) (hp.1 b hb)
    · exact ih (fun x hx y hy => h x (List.mem_cons_of_mem _ hx) y (List.mem_cons_of_mem _ hy))
        hp.2

theorem pairwise_of_all {α : Type} {R : α → α → Prop} :
    ∀ {l : List α}, (∀ a ∈ l, ∀ b ∈ l, R a b) → l.Pairwise R := by
  intro l
  induction l with
  | nil => intro _; exact List.Pairwise.nil
  | cons a rest ih =>
    intro h
    rw [List.pairwise_cons]
    exact ⟨fun b hb => h a (List.mem_cons_self _ _) b (List.mem_cons_of_mem _ hb),
      ih (fun x hx y hy => h x (List.mem_cons_of_mem _ hx) y (List.mem_cons_of_mem _ hy))⟩

theorem distBfsExpand_keys_nodup (cd : ℕ) :
    ∀ (nbrs : List String) (dist : List (String × ℕ)) (pushes : List String),
      (dist.map Prod.fst).Nodup →
      ((distBfsExpand cd nbrs dist pushes).1.map Prod.fst).Nodup := by
  intro nbrs
  induction nbrs with
  | nil =>
    intro dist pushes h
    exact h
  | cons nb rest ih =>
    intro dist pushes h
    rw [distBfsExpand]
    by_cases hv : (dist.lookup nb).isSome
    · rw [if_pos hv]
      exact ih dist pushes h
    · rw [if_neg hv]
      apply ih
      rw [List.map_append]
      rw [List.nodup_append]
      refine ⟨h, by simp, ?_⟩
      intro x hx hx2
      simp only [List.map_cons, List.map_nil, List.mem_singleton] at hx2
      subst hx2
      have := (lookup_none_iff_not_mem_fst dist x).1 (Option.not_isSome_iff_eq_none.1 hv)
      exact this hx

/-- Popping `current` and running the neighbor expansion preserves the
invariant. -/
theorem rad_step_inv {g : SGraph} {start current : String} {dist : List (String × ℕ)}
    {rest : List String}
    (inv : RadInv g start dist (current :: rest)) :
    RadInv g start
      (distBfsExpand ((dist.lookup current).getD 0) (g.bothNbrs current) dist []).1
      (rest ++
        (distBfsExpand ((dist.lookup current).getD 0) (g.bothNbrs current) dist []).2) := by
  obtain ⟨cd, hcd⟩ := Option.isSome_iff_exists.1
    (inv.queue_sub current (List.mem_cons_self _ _))
  have hcd0 : (dist.lookup current).getD 0 = cd := by rw [hcd]; rfl
  obtain ⟨fresh, h1, h2, h3, h4⟩ :=
    distBfsExpand_eq ((dist.lookup current).getD 0) (g.bothNbrs current) dist []
  have hq2 : (distBfsExpand ((dist.lookup current).getD 0)
      (g.bothNbrs current) dist []).2 = fresh := by simpa using h2
  have hfresh_step : ∀ x ∈ fresh, stepU g current x := by
    intro x hx
    exact mem_bothNbrs.1 (h3 x hx).1
  have hfresh_new : ∀ x ∈ fresh,
      (distBfsExpand ((dist.lookup current).getD 0) (g.bothNbrs current) dist []).1.lookup x =
        some ((dist.lookup current).getD 0 + 1) := by
    intro x hx
    rw [h1, lookup_append_of_none (h3 x hx).2]
    exact lookup_map_const_mem hx
  have hpres : ∀ (v : String) (k : ℕ), dist.lookup v = some k →
      (distBfsExpand ((dist.lookup current).getD 0)
        (g.bothNbrs current) dist []).1.lookup v = some k := by
    intro v k hv
    rw [h1]
    exact lookup_append_of_some hv
  have hcases : ∀ (v : String) (k : ℕ),
      (distBfsExpand ((dist.lookup current).getD 0)
        (g.bothNbrs current) dist []).1.lookup v = some k →
      dist.lookup v = some k ∨
        (dist.lookup v = none ∧ v ∈ fresh ∧ k = (dist.lookup current).getD 0 + 1) := by
    intro v k hv
    rw [h1] at hv
    rcases hd : dist.lookup v with _ | k0
    · rw [lookup_append_of_none hd] at hv
      by_cases hm : v ∈ fresh
      · rw [lookup_map_const_mem hm] at hv
        injection hv with hv
        exact Or.inr ⟨rfl, hm, hv.symm⟩
      · rw [lookup_map_const_not_mem hm] at hv
        cases hv
    · rw [lookup_append_of_some hd] at hv
      injection hv with hv
      exact Or.inl (by rw [hv])
  have hrest_pres : ∀ a ∈ rest,
      (distBfsExpand ((dist.lookup current).getD 0)
        (g.bothNbrs current) dist []).1.lookup a = dist.lookup a := by
    intro a ha
    obtain ⟨v, hv⟩ := Option.isSome_iff_exists.1
      (inv.queue_sub a (List.mem_cons_of_mem _ ha))
    rw [hv]
    exact hpres a v hv
  have hrest_lb : ∀ a ∈ rest, cd ≤ (dist.lookup a).getD 0 := by
    intro a ha
    have hsorted := inv.q_sorted
    rw [List.pairwise_cons] at hsorted
    have := hsorted.1 a ha
    rw [hcd] at this
    exact this
  have hrest_ub : ∀ a ∈ rest, (dist.lookup a).getD 0 ≤ cd + 1 := by
    intro a ha
    have := inv.q_band current (List.mem_cons_self _ _) a (List.mem_cons_of_mem _ ha)
    rw [hcd] at this
    exact this
  refine ⟨?_, ?_, ?_, ?_, ?_, ?_, ?_, ?_, ?_⟩
  · exact hpres start 0 inv.start_mem
  · exact distBfsExpand_keys_nodup _ _ _ _ inv.keys_nodup
  · intro e he
    rw [h1] at he
    rcases List.mem_append.1 he with he | he
    · exact inv.keys_sub e he
    · obtain ⟨x, hx, hxe⟩ := List.mem_map.1 he
      rcases hfresh_step x hx with hs | hs
      · exact hxe ▸ Or.inr (@stepRel_tgt_mem_strUniverse g Direction.out current x hs)
      · exact hxe ▸ Or.inr (@stepRel_tgt_mem_strUniverse g Direction.inn current x hs)
  · intro v k hvk q hq
    rcases hcases v k hvk with hd | ⟨hd, hm, hk⟩
    · exact inv.d_min v k hd q hq
    · have := rad_bound inv q v hq hd
      omega
  · intro v k hvk
    rcases hcases v k hvk with hd | ⟨hd, hm, hk⟩
    · exact inv.d_real v k hd
    · obtain ⟨q0, hq0, hlen⟩ := inv.d_real current cd hcd
      refine ⟨q0 ++ [v], isUPath_concat hq0 (hfresh_step v hm), ?_⟩
      rw [List.length_append, hlen, hk, hcd0]
      simp
  · intro x hx
    rw [hq2] at hx
    rcases List.mem_append.1 hx with hx | hx
    · rw [hrest_pres x hx]
      exact inv.queue_sub x (List.mem_cons_of_mem _ hx)
    · rw [hfresh_new x hx]
      rfl
  · rw [hq2, List.pairwise_append]
    refine ⟨?_, ?_, ?_⟩
    · have htail := inv.q_sorted
      rw [List.pairwise_cons] at htail
      apply pairwise_mono_of_mem ?_ htail.2
      intro a ha b hb hab
      rw [hrest_pres a ha, hrest_pres b hb]
      exact hab
    · apply pairwise_of_all
      intro a ha b hb
      rw [hfresh_new a ha, hfresh_new b hb]
    · intro a ha b hb
      rw [hrest_pres a ha, hfresh_new b hb, hcd0]
      have := hrest_ub a ha
      simp only [Option.getD_some]
      omega
  · intro a ha b hb
    rw [hq2] at ha hb
    rcases List.mem_append.1 ha with ha | ha <;> rcases List.mem_append.1 hb with hb | hb
    · rw [hrest_pres a ha, hrest_pres b hb]
      exact inv.q_band a (List.mem_cons_of_mem _ ha) b (List.mem_cons_of_mem _ hb)
    · rw [hrest_pres a ha, hfresh_new b hb, hcd0]
      have := hrest_lb a ha
      simp only [Option.getD_some]
      omega
    · rw [hfresh_new a ha, hrest_pres b hb, hcd0]
      have := hrest_ub b hb
      simp only [Option.getD_some]
      omega
    · rw [hfresh_new a ha, hfresh_new b hb]
      simp
  · intro u hus hunq w hsw
    by_cases hu_cur : u = current
    · subst hu_cur
      exact h4 w (mem_bothNbrs.2 hsw)
    · have hu_fresh : u ∉ fresh := by
        intro hm
        exact hunq (hq2 ▸ List.mem_append.2 (Or.inr hm))
      have hu_old : (dist.lookup u).isSome = true := by
        rcases hd : dist.lookup u with _ | k0
        · rw [h1, lookup_append_of_none hd, lookup_map_const_not_mem hu_fresh] at hus
          cases hus
        · rfl
      obtain ⟨k0, hk0⟩ := Option.isSome_iff_exists.1 hu_old
      have hu_nq : u ∉ current :: rest := by
        intro hc
        rcases List.mem_cons.1 hc with h | h
        · exact hu_cur h
        · exact hunq (hq2 ▸ List.mem_append.2 (Or.inl h))
      have := inv.full u hu_old hu_nq w hsw
      obtain ⟨kw, hkw⟩ := Option.isSome_iff_exists.1 this
      rw [hpres w kw hkw]
      rfl

theorem distBfsLoop_inv (g : SGraph) (start : String) :
    ∀ (queue : List String) (dist : List (String × ℕ)),
      RadInv g start dist queue → RadInv g start (distBfsLoop g queue dist) [] := by
  intro queue dist
  induction queue, dist using distBfsLoop.induct g with
  | case1 dist =>
    intro inv
    rw [distBfsLoop]
    exact inv
  | case2 current rest dist cd r ih =>
    intro inv
    rw [distBfsLoop]
    exact ih (rad_step_inv inv)

theorem lookup_singleton {β : Type} (v a : String) (b : β) :
    List.lookup v [(a, b)] = if v = a then some b else none := by
  by_cases hv : v = a
  · rw [if_pos hv]
    subst hv
    simp [List.lookup]
  · rw [if_neg hv]
    have hb : (v == a) = false := by simpa using hv
    simp [List.lookup, hb]

theorem radInv_init (g : SGraph) (start : String) :
    RadInv g start [(start, 0)] [start] := by
  have hlk : ∀ v k, List.lookup v [(start, (0 : ℕ))] = some k → v = start ∧ k = 0 := by
    intro v k h
    rw [lookup_singleton] at h
    by_cases hv : v = start
    · rw [if_pos hv] at h
      injection h with h
      exact ⟨hv, h.symm⟩
    · rw [if_neg hv] at h
      cases h
  refine ⟨?_, ?_, ?_, ?_, ?_, ?_, ?_, ?_, ?_⟩
  · rw [lookup_singleton, if_pos rfl]
  · simp
  · intro e he
    rw [List.mem_singleton] at he
    exact Or.inl (congrArg Prod.fst he)
  · intro v k hvk q hq
    obtain ⟨_, hk⟩ := hlk v k hvk
    subst hk
    have := List.length_pos.2 hq.1
    omega
  · intro v k hvk
    obtain ⟨hv, hk⟩ := hlk v k hvk
    subst hv
    subst hk
    exact ⟨[v], ⟨by simp, rfl, rfl, trivial⟩, rfl⟩
  · intro x hx
    rw [List.mem_singleton] at hx
    subst hx
    rw [lookup_singleton, if_pos rfl]
    rfl
  · exact List.pairwise_singleton _ _
  · intro a ha b hb
    rw [List.mem_singleton] at ha hb
    subst ha
    subst hb
    omega
  · intro u hus hunq w hsw
    obtain ⟨k, hk⟩ := Option.isSome_iff_exists.1 hus
    obtain ⟨hu, _⟩ := hlk u k hk
    exact absurd (hu ▸ List.mem_singleton.2 rfl) hunq

theorem bfsDistancesFrom_inv (g : SGraph) (start : String) :
    RadInv g start (bfsDistancesFrom g start) [] := by
  unfold bfsDistancesFrom
  exact distBfsLoop_inv g start [start] [(start, 0)] (radInv_init g start)

theorem bfsDistancesFrom_closed (g : SGraph) (start v : String) (q : List String)
    (hq : IsUPath g start v q) : v ∈ (bfsDistancesFrom g start).map Prod.fst := by
  have inv := bfsDistancesFrom_inv g start
  apply isUPath_closed_step ((bfsDistancesFrom g start).map Prod.fst) ?_ q start v ?_ hq
  · intro u hu w hsw
    have h1 := inv.full u ((lookup_isSome_iff_mem_fst _ _).2 hu) (List.not_mem_nil u) w hsw
    exact (lookup_isSome_iff_mem_fst _ _).1 h1
  · exact (lookup_isSome_iff_mem_fst _ _).1 (by rw [inv.start_mem]; rfl)

/-- The BFS distance map holds `some k` exactly on the nodes whose minimal
undirected path from the start has `k` edges. -/
theorem bfsDistancesFrom_some_iff (g : SGraph) (start v : String) (k : ℕ) :
    (bfsDistancesFrom g start).lookup v = some k ↔ MinUDist g start v k := by
  have inv := bfsDistancesFrom_inv g start
  constructor
  · intro h
    exact ⟨inv.d_real v k h, inv.d_min v k h⟩
  · rintro ⟨⟨q, hq, hlen⟩, hmin⟩
    have hvS := bfsDistancesFrom_closed g start v q hq
    obtain ⟨k2, hk2⟩ := Option.isSome_iff_exists.1 ((lookup_isSome_iff_mem_fst _ _).2 hvS)
    obtain ⟨q2, hq2, hlen2⟩ := inv.d_real v k2 hk2
    have hle1 := hmin q2 hq2
    have hle2 := inv.d_min v k2 hk2 q hq
    have hkk : k2 = k := by omega
    rw [← hkk]
    exact hk2

/-- The BFS distance map misses exactly the nodes with no undirected path from
the start. -/
theorem bfsDistancesFrom_none_iff (g : SGraph) (start v : String) :
    (bfsDistancesFrom g start).lookup v = none ↔ ∀ q, ¬ IsUPath g start v q := by
  have inv := bfsDistancesFrom_inv g start
  constructor
  · intro h q hq
    rw [lookup_none_iff_not_mem_fst] at h
    exact h (bfsDistancesFrom_closed g start v q hq)
  · intro h
    rcases hd : (bfsDistancesFrom g start).lookup v with _ | k
    · rfl
    · obtain ⟨q, hq, _⟩ := inv.d_real v k hd
      exact absurd hq (h q)

/-- The `maxDegree` scan: highest-degree node, first one wins ties
(strictly-greater comparison against a running maximum starting at `-1`). -/
def pickMaxDegree (g : SGraph) : Option String :=
  (g.nodeIds.foldl
    (fun (acc : ℤ × Option String) nodeId =>
      if (g.degree nodeId : ℤ) > acc.1 then ((g.degree nodeId : ℤ), some nodeId) else acc)
    ((-1 : ℤ), (none : Option String))).2

/-- Center selection of `applyRadialLayout`: a given, existing, non-empty id is
kept (`""` is falsy in JS), otherwise the highest-degree node. -/
def radialCenter (g : SGraph) (copt : Option String) : Option String :=
  match copt with
  | some c => if c ≠ "" ∧ g.hasNode c = true then some c else pickMaxDegree g
  | none => pickMaxDegree g

/-- The distance map after the disconnected-node fill: BFS entries, then the
remaining nodes with `Infinity` (modelled `none`), in node order. -/
def radialDistancesInf (g : SGraph) (c : String) : List (String × Option ℕ) :=
  let distances := bfsDistancesFrom g c
  distances.map (fun e => (e.1, some e.2)) ++
    (g.nodeIds.filter (fun n => !((distances.lookup n).isSome))).map
      (fun n => (n, (none : Option ℕ)))

/-- `layers.get(dist) || []` pushed and re-`set`: append the node to the entry
in place, or append a new entry at the end. -/
def layersAdd : List (Option ℕ × List String) → Option ℕ → String →
    List (Option ℕ × List String)
  | [], k, n => [(k, [n])]
  | (k0, l0) :: rest, k, n =>
    if k0 = k then (k0, l0 ++ [n]) :: rest else (k0, l0) :: layersAdd rest k n

/-- The `distances.forEach` grouping loop building the layer map. -/
def buildLayers (distF : List (String × Option ℕ)) : List (Option ℕ × List String) :=
  distF.foldl (fun ls e => layersAdd ls e.2 e.1) []

/-- The `maxFiniteLayer` accumulator of the same loop. -/
def maxFiniteLayer (distF : List (String × Option ℕ)) : ℕ :=
  distF.foldl (fun m e => match e.2 with | some d => max m d | none => m) 0

/-- JS `Map.set`: replace the value in place, or append a new entry. -/
def layersSet : List (Option ℕ × List String) → Option ℕ → List String →
    List (Option ℕ × List String)
  | [], k, v => [(k, v)]
  | (k0, l0) :: rest, k, v =>
    if k0 = k then (k0, v) :: rest else (k0, l0) :: layersSet rest k v

/-- Layer construction, including moving the `Infinity` nodes to one extra
layer `maxFiniteLayer + 1`. -/
def radialLayers (g : SGraph) (c : String) : List (Option ℕ × List String) :=
  let distF := radialDistancesInf g c
  let layers := buildLayers distF
  let disconnectedNodes := (layers.lookup (none : Option ℕ)).getD []
  if 0 < disconnectedNodes.length then
    layersSet (layers.filter (fun e => !(e.1 == (none : Option ℕ))))
      (some (maxFiniteLayer distF + 1)) disconnectedNodes
  else layers

/-- The position batch one layer writes: layer 0 puts `nodes[0]` at the
origin; layer `k+1` spreads its nodes on the circle of radius
`100 + k * increment` at angles `i * 2π/len - π/2`.  (An `Infinity` key never
survives the replacement step, so it writes nothing.) -/
def layerAssign (cosF sinF : ℚ → ℚ) (piQ : ℚ) (inc : ℚ) (e : Option ℕ × List String) :
    List (String × (ℚ × ℚ)) :=
  match e.1 with
  | some 0 =>
    match e.2 with
    | [] => []
    | n0 :: _ => [(n0, (0, 0))]
  | some (k + 1) =>
    let radius : ℚ := 100 + (k : ℚ) * inc
    let angleStep : ℚ := 2 * piQ / (e.2.length : ℚ)
    e.2.enum.map (fun p =>
      (p.2, (cosF ((p.1 : ℚ) * angleStep - piQ / 2) * radius,
             sinF ((p.1 : ℚ) * angleStep - piQ / 2) * radius)))
  | none => []

/-- `applyRadialLayout(graph, options)` with `Math.cos`, `Math.sin` and
`Math.PI` abstracted (`radiusIncrement = max(80, order*2)`, `baseRadius=100`). -/
def applyRadialLayout (cosF sinF : ℚ → ℚ) (piQ : ℚ) (g : SGraph)
    (copt : Option String) : SGraph :=
  if g.nodes.length = 0 then g
  else
    match radialCenter g copt with
    | none => g
    | some c =>
      if c = "" then g
      else
        (radialLayers g c).foldl
          (fun acc e => setPositionsXY acc
            (layerAssign cosF sinF piQ (max 80 ((g.nodes.length : ℚ) * 2)) e)) g

theorem lookup_map_snd {β γ : Type} (f : β → γ) :
    ∀ (l : List (String × β)) (k : String),
      (l.map (fun e => (e.1, f e.2))).lookup k = (l.lookup k).map f := by
  intro l
  induction l with
  | nil => intro k; rfl
  | cons e rest ih =>
    intro k
    rw [List.map_cons, List.lookup, List.lookup]
    rcases hb : (k == e.1) with _ | _
    · exact ih k
    · rfl

theorem lookup_some_mem {α β : Type} [BEq α] [LawfulBEq α] :
    ∀ {l : List (α × β)} {k : α} {v : β}, l.lookup k = some v → (k, v) ∈ l := by
  intro l
  induction l with
  | nil => intro k v h; cases h
  | cons e rest ih =>
    intro k v h
    rw [List.lookup] at h
    rcases hb : (k == e.1) with _ | _
    · rw [hb] at h
      exact List.mem_cons_of_mem _ (ih h)
    · rw [hb] at h
      injection h with h
      have hk : k = e.1 := by simpa using hb
      have : (k, v) = e := by
        rw [hk, ← h]
      exact this ▸ List.mem_cons_self _ _

theorem mem_lookup_of_nodup {α β : Type} [BEq α] [LawfulBEq α] :
    ∀ {l : List (α × β)}, (l.map Prod.fst).Nodup →
      ∀ {k : α} {v : β}, (k, v) ∈ l → l.lookup k = some v := by
  intro l
  induction l with
  | nil =>
    intro _ k v h
    cases h
  | cons e rest ih =>
    intro hn k v h
    rw [List.map_cons, List.nodup_cons] at hn
    rw [List.lookup]
    rcases List.mem_cons.1 h with h | h
    · have h1 : k = e.1 := by rw [← h]
      have h2 : v = e.2 := by rw [← h]
      have hb : (k == e.1) = true := by simpa using h1
      rw [hb, h2]
    · have hk : k ≠ e.1 := by
        intro hc
        exact hn.1 (hc ▸ List.mem_map.2 ⟨(k, v), h, rfl⟩)
      have hb : (k == e.1) = false := by simpa using hk
      rw [hb]
      exact ih hn.2 h

theorem mem_nodup_keys_eq {α β : Type} [BEq α] [LawfulBEq α] {l : List (α × β)}
    (hn : (l.map Prod.fst).Nodup) {k : α} {v v2 : β}
    (h1 : (k, v) ∈ l) (h2 : (k, v2) ∈ l) : v = v2 := by
  have e1 := mem_lookup_of_nodup hn h1
  have e2 := mem_lookup_of_nodup hn h2
  rw [e1] at e2
  exact Option.some.inj e2

theorem lookup_singleton_poly {α β : Type} [BEq α] [LawfulBEq α] [DecidableEq α]
    (v a : α) (b : β) :
    List.lookup v [(a, b)] = if v = a then some b else none := by
  by_cases hv : v = a
  · rw [if_pos hv]
    subst hv
    have hb : (v == v) = true := by simp
    rw [List.lookup, hb]
  · rw [if_neg hv]
    have hb : (v == a) = false := by simpa using hv
    rw [List.lookup, hb]
    rfl

theorem layersAdd_lookup (ls : List (Option ℕ × List String)) (k : Option ℕ)
    (n : String) (κ : Option ℕ) :
    (layersAdd ls k n).lookup κ =
      if κ = k then some (((ls.lookup k).getD []) ++ [n]) else ls.lookup κ := by
  induction ls with
  | nil =>
    rw [layersAdd]
    by_cases hk : κ = k
    · rw [if_pos hk]
      subst hk
      rw [lookup_singleton_poly, if_pos rfl]
      rfl
    · rw [if_neg hk]
      rw [lookup_singleton_poly, if_neg hk]
      rfl
  | cons e rest ih =>
    obtain ⟨k0, l0⟩ := e
    rw [layersAdd]
    by_cases h0 : k0 = k
    · rw [if_pos h0]
      subst h0
      by_cases hk : κ = k0
      · rw [if_pos hk]
        subst hk
        rw [List.lookup, List.lookup]
        have hb : (κ == κ) = true := by simp
        rw [hb]
        rfl
      · rw [if_neg hk]
        rw [List.lookup, List.lookup]
        have hb : (κ == k0) = false := by simpa using hk
        rw [hb]
    · rw [if_neg h0]
      by_cases hk : κ = k0
      · have hkk : ¬ (κ = k) := by
          intro hc
          exact h0 (by rw [← hk]; exact hc)
        rw [if_neg hkk]
        subst hk
        rw [List.lookup, List.lookup]
        have hb : (κ == κ) = true := by simp
        rw [hb]
      · rw [List.lookup]
        have hb : (κ == k0) = false := by simpa using hk
        rw [hb]
        rw [ih]
        by_cases hkk : κ = k
        · rw [if_pos hkk, if_pos hkk]
          subst hkk
          rw [List.lookup]
          have hb2 : (κ == k0) = false := by simpa using hk
          rw [hb2]
        · rw [if_neg hkk, if_neg hkk]
          rw [List.lookup, hb]

theorem layersSet_lookup (ls : List (Option ℕ × List String)) (k : Option ℕ)
    (v : List String) (κ : Option ℕ) :
    (layersSet ls k v).lookup κ = if κ = k then some v else ls.lookup κ := by
  induction ls with
  | nil =>
    rw [layersSet]
    by_cases hk : κ = k
    · rw [if_pos hk]
      subst hk
      rw [lookup_singleton_poly, if_pos rfl]
    · rw [if_neg hk]
      rw [lookup_singleton_poly, if_neg hk]
      rfl
  | cons e rest ih =>
    obtain ⟨k0, l0⟩ := e
    rw [layersSet]
    by_cases h0 : k0 = k
    · rw [if_pos h0]
      subst h0
      by_cases hk : κ = k0
      · rw [if_pos hk]
        subst hk
        rw [List.lookup]
        have hb : (κ == κ) = true := by simp
        rw [hb]
      · rw [if_neg hk]
        rw [List.lookup, List.lookup]
        have hb : (κ == k0) = false := by simpa using hk
        rw [hb]
    · rw [if_neg h0]
      by_cases hk : κ = k0
      · have hkk : ¬ (κ = k) := by
          intro hc
          exact h0 (by rw [← hk]; exact hc)
        rw [if_neg hkk]
        subst hk
        rw [List.lookup, List.lookup]
        have hb : (κ == κ) = true := by simp
        rw [hb]
      · rw [List.lookup]
        have hb : (κ == k0) = false := by simpa using hk
        rw [hb, ih]
        by_cases hkk : κ = k
        · rw [if_pos hkk, if_pos hkk]
        · rw [if_neg hkk, if_neg hkk]
          rw [List.lookup, hb]

theorem foldl_layersAdd_none :
    ∀ (l : List (String × Option ℕ)) (acc : List (Option ℕ × List String)) (κ : Option ℕ),
      (l.foldl (fun ls e => layersAdd ls e.2 e.1) acc).lookup κ = none ↔
        acc.lookup κ = none ∧ l.filter (fun e => e.2 == κ) = [] := by
  intro l
  induction l with
  | nil =>
    intro acc κ
    simp
  | cons e rest ih =>
    intro acc κ
    rw [List.foldl_cons, ih (layersAdd acc e.2 e.1) κ, layersAdd_lookup]
    by_cases hk : κ = e.2
    · have hb : (e.2 == κ) = true := by
        rw [hk]
        simp
      rw [if_pos hk, List.filter_cons, if_pos hb]
      simp
    · have hbn : ¬ ((e.2 == κ) = true) := by
        intro hc
        have hce : e.2 = κ := by simpa using hc
        exact hk hce.symm
      rw [if_neg hk, List.filter_cons, if_neg hbn]

theorem foldl_layersAdd_getD :
    ∀ (l : List (String × Option ℕ)) (acc : List (Option ℕ × List String)) (κ : Option ℕ),
      ((l.foldl (fun ls e => layersAdd ls e.2 e.1) acc).lookup κ).getD [] =
        ((acc.lookup κ).getD []) ++ (l.filter (fun e => e.2 == κ)).map Prod.fst := by
  intro l
  induction l with
  | nil =>
    intro acc κ
    simp
  | cons e rest ih =>
    intro acc κ
    rw [List.foldl_cons, ih (layersAdd acc e.2 e.1) κ, layersAdd_lookup]
    by_cases hk : κ = e.2
    · have hb : (e.2 == κ) = true := by
        rw [hk]
        simp
      rw [if_pos hk, List.filter_cons, if_pos hb]
      subst hk
      simp [List.append_assoc]
    · have hbn : ¬ ((e.2 == κ) = true) := by
        intro hc
        have hce : e.2 = κ := by simpa using hc
        exact hk hce.symm
      rw [if_neg hk, List.filter_cons, if_neg hbn]

theorem layersAdd_keys (ls : List (Option ℕ × List String)) (k : Option ℕ) (n : String) :
    (layersAdd ls k n).map Prod.fst =
      if k ∈ ls.map Prod.fst then ls.map Prod.fst else ls.map Prod.fst ++ [k] := by
  induction ls with
  | nil =>
    simp [layersAdd]
  | cons e rest ih =>
    obtain ⟨k0, l0⟩ := e
    rw [layersAdd]
    by_cases h0 : k0 = k
    · rw [if_pos h0]
      subst h0
      have hm0 : k0 ∈ ((k0, l0) :: rest).map Prod.fst := by simp
      rw [if_pos hm0]
      simp
    · rw [if_neg h0]
      rw [List.map_cons, List.map_cons, ih]
      by_cases hm : k ∈ rest.map Prod.fst
      · rw [if_pos hm, if_pos (List.mem_cons_of_mem _ hm)]
      · rw [if_neg hm, if_neg ?_]
        · simp
        · intro hc
          rcases List.mem_cons.1 hc with hc | hc
          · exact h0 hc.symm
          · exact hm hc

theorem buildLayers_keys_nodup (distF : List (String × Option ℕ)) :
    ((buildLayers distF).map Prod.fst).Nodup := by
  unfold buildLayers
  have : ∀ (l : List (String × Option ℕ)) (acc : List (Option ℕ × List String)),
      (acc.map Prod.fst).Nodup →
      (((l.foldl (fun ls e => layersAdd ls e.2 e.1) acc)).map Prod.fst).Nodup := by
    intro l
    induction l with
    | nil => intro acc h; exact h
    | cons e rest ih =>
      intro acc h
      rw [List.foldl_cons]
      apply ih
      rw [layersAdd_keys]
      by_cases hm : e.2 ∈ acc.map Prod.fst
      · rw [if_pos hm]; exact h
      · rw [if_neg hm]
        rw [List.nodup_append]
        refine ⟨h, by simp, ?_⟩
        intro x hx hx2
        simp only [List.mem_singleton] at hx2
        subst hx2
        exact hm hx
  exact this distF [] (by simp)

theorem layersSet_keys (ls : List (Option ℕ × List String)) (k : Option ℕ)
    (v : List String) :
    (layersSet ls k v).map Prod.fst =
      if k ∈ ls.map Prod.fst then ls.map Prod.fst else ls.map Prod.fst ++ [k] := by
  induction ls with
  | nil =>
    simp [layersSet]
  | cons e rest ih =>
    obtain ⟨k0, l0⟩ := e
    rw [layersSet]
    by_cases h0 : k0 = k
    · rw [if_pos h0]
      subst h0
      have hm0 : k0 ∈ ((k0, l0) :: rest).map Prod.fst := by simp
      rw [if_pos hm0]
      simp
    · rw [if_neg h0]
      rw [List.map_cons, List.map_cons, ih]
      by_cases hm : k ∈ rest.map Prod.fst
      · rw [if_pos hm, if_pos (List.mem_cons_of_mem _ hm)]
      · rw [if_neg hm, if_neg ?_]
        · simp
        · intro hc
          rcases List.mem_cons.1 hc with hc | hc
          · exact h0 hc.symm
          · exact hm hc

theorem lookup_enumFrom_map {β : Type} (f : ℕ → β) :
    ∀ (l : List String) (k : ℕ) (n : String), n ∈ l →
      ∃ i, ((List.enumFrom k l).map (fun p => (p.2, f p.1))).lookup n = some (f i) := by
  intro l
  induction l with
  | nil =>
    intro k n h
    cases h
  | cons a rest ih =>
    intro k n h
    rw [List.enumFrom, List.map_cons, List.lookup]
    by_cases hn : n = a
    · refine ⟨k, ?_⟩
      have hb : (n == a) = true := by simpa using hn
      rw [hb]
    · have hb : (n == a) = false := by simpa using hn
      rw [hb]
      apply ih (k + 1) n
      rcases List.mem_cons.1 h with h | h
      · exact absurd h hn
      · exact h

theorem find?_map_id_pres (u : GNode → GNode) (hu : ∀ nd, (u nd).id = nd.id) :
    ∀ (l : List GNode) (n : String),
      (l.map u).find? (fun nd => nd.id == n) = (l.find? (fun nd => nd.id == n)).map u := by
  intro l
  induction l with
  | nil =>
    intro n
    rfl
  | cons a rest ih =>
    intro n
    by_cases hb : (a.id == n) = true
    · rw [List.map_cons,
        @List.find?_cons_of_pos GNode (fun nd => nd.id == n) (u a) (rest.map u)
          (show ((u a).id == n) = true by rw [hu a]; exact hb),
        @List.find?_cons_of_pos GNode (fun nd => nd.id == n) a rest hb]
      rfl
    · rw [List.map_cons,
        @List.find?_cons_of_neg GNode (fun nd => nd.id == n) (u a) (rest.map u)
          (show ¬ (((u a).id == n) = true) by rw [hu a]; exact hb),
        @List.find?_cons_of_neg GNode (fun nd => nd.id == n) a rest hb]
      exact ih n

theorem find?_id_of_mem :
    ∀ (l : List GNode) (n : String), n ∈ l.map GNode.id →
      ∃ nd, l.find? (fun nd2 => nd2.id == n) = some nd ∧ nd.id = n := by
  intro l
  induction l with
  | nil =>
    intro n h
    cases h
  | cons a rest ih =>
    intro n h
    by_cases hb : (a.id == n) = true
    · exact ⟨a, @List.find?_cons_of_pos GNode (fun nd2 => nd2.id == n) a rest hb,
        by simpa using hb⟩
    · rw [@List.find?_cons_of_neg GNode (fun nd2 => nd2.id == n) a rest hb]
      apply ih
      rcases List.mem_cons.1 h with h | h
      · exact absurd (by simpa using h.symm) hb
      · exact h

theorem setPositionsXY_nodes (g : SGraph) (pos : List (String × (ℚ × ℚ))) :
    (setPositionsXY g pos).nodes = g.nodes.map (fun nd =>
      match pos.lookup nd.id with
      | some p => { nd with x := p.1, y := p.2 }
      | none => nd) := rfl

theorem setPositionsXY_upd_id (pos : List (String × (ℚ × ℚ))) (nd : GNode) :
    ((match pos.lookup nd.id with
      | some p => { nd with x := p.1, y := p.2 }
      | none => nd) : GNode).id = nd.id := by
  rcases pos.lookup nd.id with _ | p
  · rfl
  · rfl

theorem setPositionsXY_nodeIds (g : SGraph) (pos : List (String × (ℚ × ℚ))) :
    (setPositionsXY g pos).nodeIds = g.nodeIds := by
  unfold SGraph.nodeIds
  rw [setPositionsXY_nodes, List.map_map]
  apply List.map_congr_left
  intro nd _
  exact setPositionsXY_upd_id pos nd

theorem setPositionsXY_get_none (g : SGraph) (pos : List (String × (ℚ × ℚ)))
    (n : String) (hl : pos.lookup n = none) :
    getX (setPositionsXY g pos) n = getX g n ∧
    getY (setPositionsXY g pos) n = getY g n := by
  unfold getX getY
  rw [setPositionsXY_nodes,
    find?_map_id_pres _ (setPositionsXY_upd_id pos) g.nodes n]
  rcases hf : g.nodes.find? (fun nd => nd.id == n) with _ | nd
  · rw [hf]
    exact ⟨rfl, rfl⟩
  · have hnd : nd.id = n := by
      have := List.find?_some hf
      simpa using this
    rw [hf, Option.map_some']
    show (match pos.lookup nd.id with
      | some p => ({ nd with x := p.1, y := p.2 } : GNode)
      | none => nd).x = nd.x ∧ (match pos.lookup nd.id with
      | some p => ({ nd with x := p.1, y := p.2 } : GNode)
      | none => nd).y = nd.y
    rw [hnd, hl]
    exact ⟨rfl, rfl⟩

theorem setPositionsXY_get_some (g : SGraph) (pos : List (String × (ℚ × ℚ)))
    (n : String) (p : ℚ × ℚ) (hl : pos.lookup n = some p) (hn : n ∈ g.nodeIds) :
    getX (setPositionsXY g pos) n = p.1 ∧
    getY (setPositionsXY g pos) n = p.2 := by
  obtain ⟨nd, hf, hid⟩ := find?_id_of_mem g.nodes n hn
  unfold getX getY
  rw [setPositionsXY_nodes,
    find?_map_id_pres _ (setPositionsXY_upd_id pos) g.nodes n, hf, Option.map_some']
  show (match pos.lookup nd.id with
    | some q => ({ nd with x := q.1, y := q.2 } : GNode)
    | none => nd).x = p.1 ∧ (match pos.lookup nd.id with
    | some q => ({ nd with x := q.1, y := q.2 } : GNode)
    | none => nd).y = p.2
  rw [hid, hl]
  exact ⟨rfl, rfl⟩

theorem foldl_setPositions_nodeIds (A : Option ℕ × List String → List (String × (ℚ × ℚ))) :
    ∀ (entries : List (Option ℕ × List String)) (g0 : SGraph),
      ((entries.foldl (fun acc e => setPositionsXY acc (A e)) g0)).nodeIds = g0.nodeIds := by
  intro entries
  induction entries with
  | nil => intro g0; rfl
  | cons e rest ih =>
    intro g0
    rw [List.foldl_cons, ih, setPositionsXY_nodeIds]

theorem foldl_setPositions_get_none (A : Option ℕ × List String → List (String × (ℚ × ℚ))) :
    ∀ (entries : List (Option ℕ × List String)) (g0 : SGraph) (n : String),
      (∀ e ∈ entries, (A e).lookup n = none) →
      getX (entries.foldl (fun acc e => setPositionsXY acc (A e)) g0) n = getX g0 n ∧
      getY (entries.foldl (fun acc e => setPositionsXY acc (A e)) g0) n = getY g0 n := by
  intro entries
  induction entries with
  | nil =>
    intro g0 n _
    exact ⟨rfl, rfl⟩
  | cons e rest ih =>
    intro g0 n h
    rw [List.foldl_cons]
    obtain ⟨h1, h2⟩ := ih (setPositionsXY g0 (A e)) n
      (fun e2 he2 => h e2 (List.mem_cons_of_mem _ he2))
    obtain ⟨h3, h4⟩ := setPositionsXY_get_none g0 (A e) n (h e (List.mem_cons_self _ _))
    exact ⟨h1.trans h3, h2.trans h4⟩

theorem foldl_setPositions_get_some (A : Option ℕ × List String → List (String × (ℚ × ℚ)))
    (pre post : List (Option ℕ × List String)) (e : Option ℕ × List String)
    (g0 : SGraph) (n : String) (p : ℚ × ℚ)
    (hl : (A e).lookup n = some p) (hpost : ∀ e2 ∈ post, (A e2).lookup n = none)
    (hn : n ∈ g0.nodeIds) :
    getX ((pre ++ e :: post).foldl (fun acc e2 => setPositionsXY acc (A e2)) g0) n = p.1 ∧
    getY ((pre ++ e :: post).foldl (fun acc e2 => setPositionsXY acc (A e2)) g0) n = p.2 := by
  rw [List.foldl_append, List.foldl_cons]
  obtain ⟨h1, h2⟩ := foldl_setPositions_get_none A post
    (setPositionsXY (pre.foldl (fun acc e2 => setPositionsXY acc (A e2)) g0) (A e)) n hpost
  obtain ⟨h3, h4⟩ := setPositionsXY_get_some
    (pre.foldl (fun acc e2 => setPositionsXY acc (A e2)) g0) (A e) n p hl
    (by rw [foldl_setPositions_nodeIds]; exact hn)
  exact ⟨h1.trans h3, h2.trans h4⟩

theorem foldl_maxF_ge_acc :
    ∀ (l : List (String × Option ℕ)) (acc : ℕ),
      acc ≤ l.foldl (fun m e => match e.2 with | some d => max m d | none => m) acc := by
  intro l
  induction l with
  | nil =>
    intro acc
    exact le_refl _
  | cons e rest ih =>
    intro acc
    rw [List.foldl_cons]
    refine le_trans ?_ (ih _)
    rcases e.2 with _ | d
    · exact le_refl _
    · exact le_max_left _ _

theorem maxFiniteLayer_ge {distF : List (String × Option ℕ)} {n : String} {k : ℕ}
    (h : (n, some k) ∈ distF) : k ≤ maxFiniteLayer distF := by
  unfold maxFiniteLayer
  have : ∀ (l : List (String × Option ℕ)) (acc : ℕ), (n, some k) ∈ l →
      k ≤ l.foldl (fun m e => match e.2 with | some d => max m d | none => m) acc := by
    intro l
    induction l with
    | nil =>
      intro acc h2
      cases h2
    | cons e rest ih =>
      intro acc h2
      rw [List.foldl_cons]
      rcases List.mem_cons.1 h2 with h2 | h2
      · refine le_trans ?_ (foldl_maxF_ge_acc rest _)
        rw [← h2]
        exact le_max_right _ _
      · exact ih _ h2
  exact this distF 0 h

theorem maxFiniteLayer_le {distF : List (String × Option ℕ)} {K : ℕ}
    (h : ∀ e ∈ distF, ∀ d, e.2 = some d → d ≤ K) : maxFiniteLayer distF ≤ K := by
  unfold maxFiniteLayer
  have : ∀ (l : List (String × Option ℕ)) (acc : ℕ), acc ≤ K →
      (∀ e ∈ l, ∀ d, e.2 = some d → d ≤ K) →
      l.foldl (fun m e => match e.2 with | some d => max m d | none => m) acc ≤ K := by
    intro l
    induction l with
    | nil =>
      intro acc ha _
      exact ha
    | cons e rest ih =>
      intro acc ha h2
      rw [List.foldl_cons]
      apply ih
      · rcases he : e.2 with _ | d
        · exact ha
        · exact max_le ha (h2 e (List.mem_cons_self _ _) d he)
      · exact fun e2 he2 => h2 e2 (List.mem_cons_of_mem _ he2)
  exact this distF 0 (Nat.zero_le _) h

theorem hasNode_iff {g : SGraph} {n : String} : g.hasNode n = true ↔ n ∈ g.nodeIds := by
  simp [SGraph.hasNode, List.contains]

theorem strUniverse_sub_nodeIds {g : SGraph} (hwf : g.WF) :
    ∀ x ∈ strUniverse g, x ∈ g.nodeIds := by
  intro x hx
  unfold strUniverse at hx
  rcases List.mem_append.1 hx with hx | hx
  · rcases List.mem_append.1 hx with hx | hx
    · exact hx
    · obtain ⟨e, he, hex⟩ := List.mem_map.1 hx
      exact hex ▸ hasNode_iff.1 (hwf.2 e he).1
  · obtain ⟨e, he, hex⟩ := List.mem_map.1 hx
    exact hex ▸ hasNode_iff.1 (hwf.2 e he).2

theorem pickMaxDegree_mem {g : SGraph} {c : String} (h : pickMaxDegree g = some c) :
    c ∈ g.nodeIds := by
  unfold pickMaxDegree at h
  have hfold : ∀ (l : List String) (acc : ℤ × Option String),
      (l.foldl (fun acc2 nodeId =>
        if (g.degree nodeId : ℤ) > acc2.1 then ((g.degree nodeId : ℤ), some nodeId)
        else acc2) acc).2 = acc.2 ∨
      ∃ x ∈ l, (l.foldl (fun acc2 nodeId =>
        if (g.degree nodeId : ℤ) > acc2.1 then ((g.degree nodeId : ℤ), some nodeId)
        else acc2) acc).2 = some x := by
    intro l
    induction l with
    | nil =>
      intro acc
      exact Or.inl rfl
    | cons a rest ih =>
      intro acc
      rw [List.foldl_cons]
      by_cases hcond : (g.degree a : ℤ) > acc.1
      · rw [if_pos hcond]
        rcases ih ((g.degree a : ℤ), some a) with h2 | ⟨x, hx, h2⟩
        · exact Or.inr ⟨a, List.mem_cons_self _ _, h2⟩
        · exact Or.inr ⟨x, List.mem_cons_of_mem _ hx, h2⟩
      · rw [if_neg hcond]
        rcases ih acc with h2 | ⟨x, hx, h2⟩
        · exact Or.inl h2
        · exact Or.inr ⟨x, List.mem_cons_of_mem _ hx, h2⟩
  rcases hfold g.nodeIds ((-1 : ℤ), none) with h2 | ⟨x, hx, h2⟩
  · rw [h2] at h
    cases h
  · rw [h2] at h
    injection h with h
    exact h ▸ hx

theorem radialCenter_mem {g : SGraph} {copt : Option String} {c : String}
    (h : radialCenter g copt = some c) : c ∈ g.nodeIds := by
  cases copt with
  | none =>
    rw [show radialCenter g none = pickMaxDegree g from rfl] at h
    exact pickMaxDegree_mem h
  | some c0 =>
    rw [show radialCenter g (some c0) =
      (if c0 ≠ "" ∧ g.hasNode c0 = true then some c0 else pickMaxDegree g) from rfl] at h
    by_cases hcond : c0 ≠ "" ∧ g.hasNode c0 = true
    · rw [if_pos hcond] at h
      injection h with h
      exact h ▸ hasNode_iff.1 hcond.2
    · rw [if_neg hcond] at h
      exact pickMaxDegree_mem h

theorem radialDistancesInf_eq (g : SGraph) (c : String) : radialDistancesInf g c =
    (bfsDistancesFrom g c).map (fun e => (e.1, some e.2)) ++
      (g.nodeIds.filter (fun n => !(((bfsDistancesFrom g c).lookup n).isSome))).map
        (fun n => (n, (none : Option ℕ))) := rfl

theorem radialDistancesInf_keys_nodup (g : SGraph) (c : String) (hwf : g.WF) :
    ((radialDistancesInf g c).map Prod.fst).Nodup := by
  have inv := bfsDistancesFrom_inv g c
  rw [radialDistancesInf_eq, List.map_append, List.map_map, List.map_map]
  have h1 : ((bfsDistancesFrom g c).map
      (Prod.fst ∘ fun e => (e.1, (some e.2 : Option ℕ)))) =
      (bfsDistancesFrom g c).map Prod.fst := by
    apply List.map_congr_left
    intro e _
    rfl
  have h2 : ((g.nodeIds.filter (fun n => !(((bfsDistancesFrom g c).lookup n).isSome))).map
      (Prod.fst ∘ fun n => (n, (none : Option ℕ)))) =
      g.nodeIds.filter (fun n => !(((bfsDistancesFrom g c).lookup n).isSome)) := by
    have : (g.nodeIds.filter (fun n => !(((bfsDistancesFrom g c).lookup n).isSome))).map
        (Prod.fst ∘ fun n => (n, (none : Option ℕ))) =
        (g.nodeIds.filter (fun n => !(((bfsDistancesFrom g c).lookup n).isSome))).map id := by
      apply List.map_congr_left
      intro x _
      rfl
    rw [this, List.map_id]
  rw [List.nodup_append, h1, h2]
  refine ⟨inv.keys_nodup, List.Nodup.filter _ hwf.1, ?_⟩
  intro x hx hx2
  have hs : ((bfsDistancesFrom g c).lookup x).isSome = true :=
    (lookup_isSome_iff_mem_fst _ _).2 hx
  have := (List.mem_filter.1 hx2).2
  rw [hs] at this
  cases this

theorem radialDistancesInf_lookup_some {g : SGraph} {c n : String} {k : ℕ}
    (h : (bfsDistancesFrom g c).lookup n = some k) :
    (radialDistancesInf g c).lookup n = some (some k) := by
  rw [radialDistancesInf_eq]
  apply lookup_append_of_some
  rw [lookup_map_snd some (bfsDistancesFrom g c) n, h]
  rfl

theorem radialDistancesInf_lookup_inf {g : SGraph} {c n : String} (hn : n ∈ g.nodeIds)
    (h : (bfsDistancesFrom g c).lookup n = none) :
    (radialDistancesInf g c).lookup n = some none := by
  rw [radialDistancesInf_eq]
  rw [lookup_append_of_none (by rw [lookup_map_snd some (bfsDistancesFrom g c) n, h]; rfl)]
  apply lookup_map_const_mem
  rw [List.mem_filter]
  refine ⟨hn, ?_⟩
  rw [h]
  rfl

theorem radialDistancesInf_lookup_some_inv {g : SGraph} {c n : String} {k : ℕ}
    (h : (radialDistancesInf g c).lookup n = some (some k)) :
    (bfsDistancesFrom g c).lookup n = some k := by
  rw [radialDistancesInf_eq] at h
  rcases hd : (bfsDistancesFrom g c).lookup n with _ | k2
  · rw [lookup_append_of_none
      (by rw [lookup_map_snd some (bfsDistancesFrom g c) n, hd]; rfl)] at h
    by_cases hm : n ∈ g.nodeIds.filter (fun n2 => !(((bfsDistancesFrom g c).lookup n2).isSome))
    · rw [lookup_map_const_mem hm] at h
      injection h with h
    · rw [lookup_map_const_not_mem hm] at h
      cases h
  · rw [lookup_append_of_some
      (by rw [lookup_map_snd some (bfsDistancesFrom g c) n, hd]; rfl)] at h
    injection h with h

theorem radialDistancesInf_lookup_inf_inv {g : SGraph} {c n : String}
    (h : (radialDistancesInf g c).lookup n = some none) :
    (bfsDistancesFrom g c).lookup n = none := by
  rcases hd : (bfsDistancesFrom g c).lookup n with _ | k2
  · rfl
  · have := radialDistancesInf_lookup_some hd
    rw [h] at this
    injection this with this
    cases this

theorem radialDistancesInf_mem_some {g : SGraph} {c : String} (hwf : g.WF) {n : String}
    {k : ℕ} (h : (n, some k) ∈ radialDistancesInf g c) :
    (bfsDistancesFrom g c).lookup n = some k :=
  radialDistancesInf_lookup_some_inv
    (mem_lookup_of_nodup (radialDistancesInf_keys_nodup g c hwf) h)

theorem radialDistancesInf_mem_none {g : SGraph} {c : String} (hwf : g.WF) {n : String}
    (h : (n, (none : Option ℕ)) ∈ radialDistancesInf g c) :
    (bfsDistancesFrom g c).lookup n = none :=
  radialDistancesInf_lookup_inf_inv
    (mem_lookup_of_nodup (radialDistancesInf_keys_nodup g c hwf) h)

theorem buildLayers_getD (distF : List (String × Option ℕ)) (κ : Option ℕ) :
    ((buildLayers distF).lookup κ).getD [] =
      (distF.filter (fun e => e.2 == κ)).map Prod.fst := by
  unfold buildLayers
  rw [foldl_layersAdd_getD]
  rfl

theorem buildLayers_none_iff (distF : List (String × Option ℕ)) (κ : Option ℕ) :
    (buildLayers distF).lookup κ = none ↔ distF.filter (fun e => e.2 == κ) = [] := by
  unfold buildLayers
  rw [foldl_layersAdd_none]
  simp

theorem buildLayers_mem_iff (distF : List (String × Option ℕ)) (κ : Option ℕ) (n : String) :
    n ∈ ((buildLayers distF).lookup κ).getD [] ↔ (n, κ) ∈ distF := by
  rw [buildLayers_getD]
  constructor
  · intro h
    obtain ⟨e, he, hne⟩ := List.mem_map.1 h
    have hmf := List.mem_filter.1 he
    have hv : e.2 = κ := by simpa using hmf.2
    have hee : e = (n, κ) := by
      obtain ⟨e1, e2⟩ := e
      simp only at hne hv
      rw [hne, hv]
    exact hee ▸ hmf.1
  · intro h
    apply List.mem_map.2
    refine ⟨(n, κ), ?_, rfl⟩
    rw [List.mem_filter]
    exact ⟨h, by simp⟩

theorem radialLayers_eq (g : SGraph) (c : String) : radialLayers g c =
    (if 0 < (((buildLayers (radialDistancesInf g c)).lookup
        (none : Option ℕ)).getD []).length
     then layersSet ((buildLayers (radialDistancesInf g c)).filter
         (fun e => !(e.1 == (none : Option ℕ))))
       (some (maxFiniteLayer (radialDistancesInf g c) + 1))
       (((buildLayers (radialDistancesInf g c)).lookup (none : Option ℕ)).getD [])
     else buildLayers (radialDistancesInf g c)) := rfl

theorem filter_not_none_lookup (ls : List (Option ℕ × List String)) (k : ℕ) :
    (ls.filter (fun e => !(e.1 == (none : Option ℕ)))).lookup (some k) =
      ls.lookup (some k) := by
  induction ls with
  | nil => rfl
  | cons e rest ih =>
    obtain ⟨k0, l0⟩ := e
    rcases k0 with _ | k2
    · rw [List.filter_cons, if_neg (by simp)]
      rw [ih, List.lookup]
      have hb : ((some k : Option ℕ) == none) = false := rfl
      rw [hb]
    · rw [List.filter_cons, if_pos (by simp)]
      rw [List.lookup, List.lookup]
      rcases hb : ((some k : Option ℕ) == some k2) with _ | _
      · exact ih
      · rfl

theorem filter_not_none_lookup_none (ls : List (Option ℕ × List String)) :
    (ls.filter (fun e => !(e.1 == (none : Option ℕ)))).lookup (none : Option ℕ) = none := by
  induction ls with
  | nil => rfl
  | cons e rest ih =>
    obtain ⟨k0, l0⟩ := e
    rcases k0 with _ | k2
    · rw [List.filter_cons, if_neg (by simp)]
      exact ih
    · rw [List.filter_cons, if_pos (by simp)]
      rw [List.lookup]
      have hb : ((none : Option ℕ) == some k2) = false := rfl
      rw [hb]
      exact ih

theorem radialLayers_keys_nodup (g : SGraph) (c : String) :
    ((radialLayers g c).map Prod.fst).Nodup := by
  rw [radialLayers_eq]
  have hfn : (((buildLayers (radialDistancesInf g c)).filter
      (fun e => !(e.1 == (none : Option ℕ)))).map Prod.fst).Nodup :=
    ((List.filter_sublist _).map Prod.fst).nodup (buildLayers_keys_nodup _)
  by_cases hd : 0 < (((buildLayers (radialDistancesInf g c)).lookup
      (none : Option ℕ)).getD []).length
  · rw [if_pos hd, layersSet_keys]
    by_cases hm : some (maxFiniteLayer (radialDistancesInf g c) + 1) ∈
        ((buildLayers (radialDistancesInf g c)).filter
          (fun e => !(e.1 == (none : Option ℕ)))).map Prod.fst
    · rw [if_pos hm]
      exact hfn
    · rw [if_neg hm, List.nodup_append]
      refine ⟨hfn, by simp, ?_⟩
      intro x hx hx2
      simp only [List.mem_singleton] at hx2
      subst hx2
      exact hm hx
  · rw [if_neg hd]
    exact buildLayers_keys_nodup _

theorem lookup_enumFrom_map_not_mem {β : Type} (f : ℕ → β) :
    ∀ (l : List String) (k : ℕ) (n : String), n ∉ l →
      ((List.enumFrom k l).map (fun p => (p.2, f p.1))).lookup n = none := by
  intro l
  induction l with
  | nil =>
    intro k n _
    rfl
  | cons a rest ih =>
    intro k n h
    rw [List.enumFrom, List.map_cons, List.lookup]
    have hn : n ≠ a := fun hc => h (hc ▸ List.mem_cons_self _ _)
    have hb : (n == a) = false := by simpa using hn
    rw [hb]
    exact ih (k + 1) n (fun hc => h (List.mem_cons_of_mem _ hc))

theorem layerAssign_zero (cosF sinF : ℚ → ℚ) (piQ inc : ℚ) (n0 : String)
    (rest : List String) :
    layerAssign cosF sinF piQ inc ((some 0 : Option ℕ), n0 :: rest) = [(n0, (0, 0))] := rfl

theorem layerAssign_succ (cosF sinF : ℚ → ℚ) (piQ inc : ℚ) (k : ℕ) (l : List String) :
    layerAssign cosF sinF piQ inc ((some (k + 1) : Option ℕ), l) =
      (List.enumFrom 0 l).map (fun p =>
        (p.2, (cosF ((p.1 : ℚ) * (2 * piQ / (l.length : ℚ)) - piQ / 2) *
                 (100 + (k : ℚ) * inc),
               sinF ((p.1 : ℚ) * (2 * piQ / (l.length : ℚ)) - piQ / 2) *
                 (100 + (k : ℚ) * inc)))) := rfl

theorem layerAssign_lookup_not_mem (cosF sinF : ℚ → ℚ) (piQ inc : ℚ)
    (e : Option ℕ × List String) (n : String) (hn : n ∉ e.2) :
    (layerAssign cosF sinF piQ inc e).lookup n = none := by
  obtain ⟨κe, le⟩ := e
  rcases κe with _ | k
  · rfl
  · cases k with
    | zero =>
      cases le with
      | nil => rfl
      | cons n0 rest =>
        rw [layerAssign_zero, lookup_singleton]
        rw [if_neg (show ¬ (n = n0) from fun hc => hn (by rw [hc]; exact List.mem_cons_self _ _))]
    | succ k2 =>
      rw [layerAssign_succ]
      exact lookup_enumFrom_map_not_mem
        (fun i => (cosF ((i : ℚ) * (2 * piQ / (le.length : ℚ)) - piQ / 2) *
            (100 + (k2 : ℚ) * inc),
          sinF ((i : ℚ) * (2 * piQ / (le.length : ℚ)) - piQ / 2) *
            (100 + (k2 : ℚ) * inc)))
        le 0 n hn

theorem minUDist_zero {g : SGraph} {c n : String} (h : MinUDist g c n 0) : n = c := by
  obtain ⟨⟨q, hq, hlen⟩, _⟩ := h
  cases q with
  | nil => exact absurd rfl hq.1
  | cons a rest =>
    cases rest with
    | nil =>
      have h1 : a = c := by simpa using hq.2.1
      have h2 : a = n := by simpa using hq.2.2.1
      rw [← h2, h1]
    | cons b r2 => simp at hlen

theorem nodup_all_eq_singleton {l : List String} {c : String} (hc : c ∈ l)
    (hall : ∀ x ∈ l, x = c) (hnd : l.Nodup) : l = [c] := by
  cases l with
  | nil => cases hc
  | cons a rest =>
    have ha : a = c := hall a (List.mem_cons_self _ _)
    subst ha
    cases rest with
    | nil => rfl
    | cons b r2 =>
      have hb : b = a := hall b (List.mem_cons_of_mem _ (List.mem_cons_self _ _))
      subst hb
      rw [List.nodup_cons] at hnd
      exact absurd (List.mem_cons_self _ _) hnd.1

theorem radialLayers_lookup_fin (g : SGraph) (c : String) {k : ℕ}
    (hle : k ≤ maxFiniteLayer (radialDistancesInf g c)) :
    (radialLayers g c).lookup (some k) =
      (buildLayers (radialDistancesInf g c)).lookup (some k) := by
  rw [radialLayers_eq]
  by_cases hd : 0 < (((buildLayers (radialDistancesInf g c)).lookup
      (none : Option ℕ)).getD []).length
  · rw [if_pos hd, layersSet_lookup]
    have hne : ¬ ((some k : Option ℕ) = some (maxFiniteLayer (radialDistancesInf g c) + 1)) := by
      intro hc2
      injection hc2 with hc2
      omega
    rw [if_neg hne, filter_not_none_lookup]
  · rw [if_neg hd]

theorem radialLayers_lookup_extra (g : SGraph) (c : String)
    (hd : 0 < (((buildLayers (radialDistancesInf g c)).lookup
      (none : Option ℕ)).getD []).length) :
    (radialLayers g c).lookup (some (maxFiniteLayer (radialDistancesInf g c) + 1)) =
      some (((buildLayers (radialDistancesInf g c)).lookup (none : Option ℕ)).getD []) := by
  rw [radialLayers_eq, if_pos hd, layersSet_lookup, if_pos rfl]

/-- Every entry of the final layer map has a finite key, and a node in its
list either carries that key as its distance-map value, or sits on the extra
`maxFiniteLayer + 1` layer and is unreachable (`Infinity` in the map). -/
theorem radialLayers_entry (g : SGraph) (c : String)
    {κ2 : Option ℕ} {l2 : List String} (he : (κ2, l2) ∈ radialLayers g c)
    {n : String} (hn : n ∈ l2) :
    (∃ kk, κ2 = some kk) ∧
    ((n, κ2) ∈ radialDistancesInf g c ∨
      (κ2 = some (maxFiniteLayer (radialDistancesInf g c) + 1) ∧
        (n, (none : Option ℕ)) ∈ radialDistancesInf g c)) := by
  have hla := mem_lookup_of_nodup (radialLayers_keys_nodup g c) he
  rw [radialLayers_eq] at hla
  by_cases hd : 0 < (((buildLayers (radialDistancesInf g c)).lookup
      (none : Option ℕ)).getD []).length
  · rw [if_pos hd, layersSet_lookup] at hla
    by_cases hke : κ2 = some (maxFiniteLayer (radialDistancesInf g c) + 1)
    · rw [if_pos hke] at hla
      injection hla with hla
      refine ⟨⟨_, hke⟩, Or.inr ⟨hke, ?_⟩⟩
      rw [← hla] at hn
      exact (buildLayers_mem_iff _ _ _).1 hn
    · rw [if_neg hke] at hla
      rcases κ2 with _ | kk
      · rw [filter_not_none_lookup_none] at hla
        cases hla
      · rw [filter_not_none_lookup] at hla
        refine ⟨⟨kk, rfl⟩, Or.inl ?_⟩
        apply (buildLayers_mem_iff _ _ _).1
        rw [hla]
        exact hn
  · rw [if_neg hd] at hla
    rcases κ2 with _ | kk
    · exfalso
      apply hd
      rw [hla]
      exact List.length_pos.2 (List.ne_nil_of_mem hn)
    · refine ⟨⟨kk, rfl⟩, Or.inl ?_⟩
      apply (buildLayers_mem_iff _ _ _).1
      rw [hla]
      exact hn

/-- The position the radial fold leaves on a node equals the one its own
layer assigns (later layers never touch it). -/
theorem radial_fold_get (cosF sinF : ℚ → ℚ) (piQ inc : ℚ) (g : SGraph) (c : String)
    (hwf : g.WF) {κ2 : Option ℕ} {l2 : List String}
    (hlk : (radialLayers g c).lookup κ2 = some l2)
    {n : String} (hn : n ∈ l2) (hnid : n ∈ g.nodeIds)
    {px py : ℚ} (hass : (layerAssign cosF sinF piQ inc (κ2, l2)).lookup n = some (px, py))
    (hκfin : ∃ kk, κ2 = some kk)
    (hκn : (n, κ2) ∈ radialDistancesInf g c ∨
      (κ2 = some (maxFiniteLayer (radialDistancesInf g c) + 1) ∧
        (n, (none : Option ℕ)) ∈ radialDistancesInf g c)) :
    getX ((radialLayers g c).foldl
      (fun acc e => setPositionsXY acc (layerAssign cosF sinF piQ inc e)) g) n = px ∧
    getY ((radialLayers g c).foldl
      (fun acc e => setPositionsXY acc (layerAssign cosF sinF piQ inc e)) g) n = py := by
  have hmem : (κ2, l2) ∈ radialLayers g c := lookup_some_mem hlk
  obtain ⟨pre, post, hdecomp⟩ := List.append_of_mem hmem
  have hkeys := radialLayers_keys_nodup g c
  rw [hdecomp] at hkeys ⊢
  have hpostk : κ2 ∉ post.map Prod.fst := by
    rw [List.map_append, List.nodup_append] at hkeys
    have h2 := hkeys.2.1
    rw [List.map_cons, List.nodup_cons] at h2
    exact h2.1
  have hpost : ∀ e2 ∈ post, (layerAssign cosF sinF piQ inc e2).lookup n = none := by
    intro e2 he2
    apply layerAssign_lookup_not_mem
    intro hne2
    have he2m : (e2.1, e2.2) ∈ radialLayers g c := by
      rw [hdecomp]
      exact List.mem_append.2 (Or.inr (List.mem_cons_of_mem _ he2))
    obtain ⟨⟨kk, hkk⟩, hch⟩ := radialLayers_entry g c he2m hne2
    have hne : e2.1 ≠ κ2 := by
      intro hceq
      exact hpostk (hceq ▸ List.mem_map.2 ⟨e2, he2, rfl⟩)
    have hnodup := radialDistancesInf_keys_nodup g c hwf
    rcases hκn with hκn | ⟨hκ2eq, hκn⟩
    · rcases hch with hch | ⟨hche, hch⟩
      · exact hne (mem_nodup_keys_eq hnodup hch hκn)
      · obtain ⟨kk2, hkk2⟩ := hκfin
        have := mem_nodup_keys_eq hnodup hκn hch
        rw [hkk2] at this
        cases this
    · rcases hch with hch | ⟨hche, hch⟩
      · have := mem_nodup_keys_eq hnodup hch hκn
        rw [hkk] at this
        cases this
      · exact hne (hche.trans hκ2eq.symm)
  obtain ⟨h1, h2⟩ := foldl_setPositions_get_some _ pre post (κ2, l2) g n (px, py)
    hass hpost hnid
  exact ⟨h1, h2⟩

/-- C6: after `applyRadialLayout` with center `c`, the center sits at the
origin; every node at undirected BFS-distance `k ≥ 1` from `c` lies on the
circle of radius `100 + (k-1) * max(80, 2*order)` around the origin (exactly:
machine `cos`/`sin` are abstracted by functions with `cos² + sin² = 1`); and
every node with no undirected path from `c`, instead of failing, lies on the
single extra ring `100 + K * max(80, 2*order)` just outside the largest
finite ring `K`. -/
theorem applyRadialLayout_spec (cosF sinF : ℚ → ℚ) (piQ : ℚ) (g : SGraph)
    (copt : Option String) (c : String) (K : ℕ)
    (hwf : g.WF)
    (htrig : ∀ a, cosF a ^ 2 + sinF a ^ 2 = 1)
    (hc : radialCenter g copt = some c) (hcne : c ≠ "")
    (hK : ∃ n0 ∈ g.nodeIds, MinUDist g c n0 K)
    (hKmax : ∀ n ∈ g.nodeIds, ∀ k, MinUDist g c n k → k ≤ K) :
    (getX (applyRadialLayout cosF sinF piQ g copt) c = 0 ∧
      getY (applyRadialLayout cosF sinF piQ g copt) c = 0) ∧
    (∀ n k, n ∈ g.nodeIds → MinUDist g c n k → 1 ≤ k →
      getX (applyRadialLayout cosF sinF piQ g copt) n ^ 2 +
        getY (applyRadialLayout cosF sinF piQ g copt) n ^ 2 =
        (100 + ((k : ℚ) - 1) * max 80 ((g.nodes.length : ℚ) * 2)) ^ 2) ∧
    (∀ n, n ∈ g.nodeIds → (∀ q, ¬ IsUPath g c n q) →
      getX (applyRadialLayout cosF sinF piQ g copt) n ^ 2 +
        getY (applyRadialLayout cosF sinF piQ g copt) n ^ 2 =
        (100 + (K : ℚ) * max 80 ((g.nodes.length : ℚ) * 2)) ^ 2) := by
  have hcm : c ∈ g.nodeIds := radialCenter_mem hc
  have hord2 : ¬ (g.nodes.length = 0) := by
    intro h0
    rw [List.length_eq_zero] at h0
    have hids : g.nodeIds = [] := by
      unfold SGraph.nodeIds
      rw [h0]
      rfl
    rw [hids] at hcm
    cases hcm
  have hg2 : applyRadialLayout cosF sinF piQ g copt =
      (radialLayers g c).foldl
        (fun acc e => setPositionsXY acc
          (layerAssign cosF sinF piQ (max 80 ((g.nodes.length : ℚ) * 2)) e)) g := by
    rw [applyRadialLayout, if_neg hord2, hc]
    show (if c = "" then g
      else (radialLayers g c).foldl
        (fun acc e => setPositionsXY acc
          (layerAssign cosF sinF piQ (max 80 ((g.nodes.length : ℚ) * 2)) e)) g) = _
    rw [if_neg hcne]
  have harith : ∀ a r : ℚ, (cosF a * r) ^ 2 + (sinF a * r) ^ 2 = r ^ 2 := by
    intro a r
    have h2 : (cosF a * r) ^ 2 + (sinF a * r) ^ 2 =
        (cosF a ^ 2 + sinF a ^ 2) * r ^ 2 := by ring
    rw [h2, htrig a, one_mul]
  have hnodup := radialDistancesInf_keys_nodup g c hwf
  have inv := bfsDistancesFrom_inv g c
  have hc0 : (c, (some 0 : Option ℕ)) ∈ radialDistancesInf g c :=
    lookup_some_mem (radialDistancesInf_lookup_some inv.start_mem)
  have hKfin : maxFiniteLayer (radialDistancesInf g c) = K := by
    apply le_antisymm
    · apply maxFiniteLayer_le
      intro e he d hd
      have hmem : (e.1, (some d : Option ℕ)) ∈ radialDistancesInf g c := by
        rw [← hd]
        exact he
      have hbfs := radialDistancesInf_mem_some hwf hmem
      have hmd := (bfsDistancesFrom_some_iff g c e.1 d).1 hbfs
      have huniv := inv.keys_sub (e.1, d) (lookup_some_mem hbfs)
      have hnid : e.1 ∈ g.nodeIds := by
        rcases huniv with h | h
        · exact h ▸ hcm
        · exact strUniverse_sub_nodeIds hwf _ h
      exact hKmax e.1 hnid d hmd
    · obtain ⟨n0, hn0, hmd⟩ := hK
      exact maxFiniteLayer_ge (lookup_some_mem (radialDistancesInf_lookup_some
        ((bfsDistancesFrom_some_iff g c n0 K).2 hmd)))
  refine ⟨?_, ?_, ?_⟩
  · have hl0 : (((buildLayers (radialDistancesInf g c)).lookup
        (some 0 : Option ℕ)).getD []) = [c] := by
      apply nodup_all_eq_singleton
      · exact (buildLayers_mem_iff _ _ _).2 hc0
      · intro x hx
        have hxm := (buildLayers_mem_iff _ _ _).1 hx
        have hbfs := radialDistancesInf_mem_some hwf hxm
        exact minUDist_zero ((bfsDistancesFrom_some_iff g c x 0).1 hbfs)
      · rw [buildLayers_getD]
        exact ((List.filter_sublist _).map Prod.fst).nodup hnodup
    have hlkb : (buildLayers (radialDistancesInf g c)).lookup (some 0 : Option ℕ) =
        some [c] := by
      rcases hcase : (buildLayers (radialDistancesInf g c)).lookup (some 0 : Option ℕ)
        with _ | l0
      · rw [hcase] at hl0
        simp at hl0
      · rw [hcase] at hl0
        rw [show l0 = [c] from hl0]
    have hlk : (radialLayers g c).lookup (some 0 : Option ℕ) = some [c] := by
      rw [radialLayers_lookup_fin g c (Nat.zero_le _), hlkb]
    have hass : (layerAssign cosF sinF piQ (max 80 ((g.nodes.length : ℚ) * 2))
        ((some 0 : Option ℕ), [c])).lookup c = some ((0 : ℚ), (0 : ℚ)) := by
      rw [layerAssign_zero, lookup_singleton, if_pos rfl]
    obtain ⟨hX, hY⟩ := radial_fold_get cosF sinF piQ
      (max 80 ((g.nodes.length : ℚ) * 2)) g c hwf hlk
      (List.mem_singleton.2 rfl) hcm hass ⟨0, rfl⟩ (Or.inl hc0)
    rw [hg2]
    exact ⟨hX, hY⟩
  · intro n k hnid hmd hk1
    have hbfs := (bfsDistancesFrom_some_iff g c n k).2 hmd
    have hdmem : (n, (some k : Option ℕ)) ∈ radialDistancesInf g c :=
      lookup_some_mem (radialDistancesInf_lookup_some hbfs)
    have hle : k ≤ maxFiniteLayer (radialDistancesInf g c) := maxFiniteLayer_ge hdmem
    have hnl : n ∈ (((buildLayers (radialDistancesInf g c)).lookup
        (some k : Option ℕ)).getD []) := (buildLayers_mem_iff _ _ _).2 hdmem
    rcases hcase : (buildLayers (radialDistancesInf g c)).lookup (some k : Option ℕ)
      with _ | l2
    · rw [hcase] at hnl
      simp at hnl
    · rw [hcase] at hnl
      have hlk : (radialLayers g c).lookup (some k : Option ℕ) = some l2 := by
        rw [radialLayers_lookup_fin g c hle, hcase]
      obtain ⟨kk, rfl⟩ : ∃ kk, k = kk + 1 := ⟨k - 1, by omega⟩
      obtain ⟨i, hass⟩ := lookup_enumFrom_map
        (fun j => (cosF ((j : ℚ) * (2 * piQ / (l2.length : ℚ)) - piQ / 2) *
            (100 + (kk : ℚ) * max 80 ((g.nodes.length : ℚ) * 2)),
          sinF ((j : ℚ) * (2 * piQ / (l2.length : ℚ)) - piQ / 2) *
            (100 + (kk : ℚ) * max 80 ((g.nodes.length : ℚ) * 2))))
        l2 0 n hnl
      have hass2 : (layerAssign cosF sinF piQ (max 80 ((g.nodes.length : ℚ) * 2))
          ((some (kk + 1) : Option ℕ), l2)).lookup n =
          some (cosF ((i : ℚ) * (2 * piQ / (l2.length : ℚ)) - piQ / 2) *
              (100 + (kk : ℚ) * max 80 ((g.nodes.length : ℚ) * 2)),
            sinF ((i : ℚ) * (2 * piQ / (l2.length : ℚ)) - piQ / 2) *
              (100 + (kk : ℚ) * max 80 ((g.nodes.length : ℚ) * 2))) := by
        rw [layerAssign_succ]
        exact hass
      obtain ⟨hX, hY⟩ := radial_fold_get cosF sinF piQ
        (max 80 ((g.nodes.length : ℚ) * 2)) g c hwf hlk hnl hnid hass2
        ⟨kk + 1, rfl⟩ (Or.inl hdmem)
      rw [hg2, hX, hY, harith]
      push_cast
      ring
  · intro n hnid hunreach
    have hbfs : (bfsDistancesFrom g c).lookup n = none :=
      (bfsDistancesFrom_none_iff g c n).2 hunreach
    have hdmem : (n, (none : Option ℕ)) ∈ radialDistancesInf g c :=
      lookup_some_mem (radialDistancesInf_lookup_inf hnid hbfs)
    have hnl : n ∈ (((buildLayers (radialDistancesInf g c)).lookup
        (none : Option ℕ)).getD []) := (buildLayers_mem_iff _ _ _).2 hdmem
    have hd : 0 < ((((buildLayers (radialDistancesInf g c)).lookup
        (none : Option ℕ)).getD [])).length :=
      List.length_pos.2 (List.ne_nil_of_mem hnl)
    have hlk := radialLayers_lookup_extra g c hd
    obtain ⟨i, hass⟩ := lookup_enumFrom_map
      (fun j => (cosF ((j : ℚ) * (2 * piQ /
            (((((buildLayers (radialDistancesInf g c)).lookup
              (none : Option ℕ)).getD [])).length : ℚ)) - piQ / 2) *
          (100 + (maxFiniteLayer (radialDistancesInf g c) : ℚ) *
            max 80 ((g.nodes.length : ℚ) * 2)),
        sinF ((j : ℚ) * (2 * piQ /
            (((((buildLayers (radialDistancesInf g c)).lookup
              (none : Option ℕ)).getD [])).length : ℚ)) - piQ / 2) *
          (100 + (maxFiniteLayer (radialDistancesInf g c) : ℚ) *
            max 80 ((g.nodes.length : ℚ) * 2))))
      (((buildLayers (radialDistancesInf g c)).lookup (none : Option ℕ)).getD [])
      0 n hnl
    have hass2 : (layerAssign cosF sinF piQ (max 80 ((g.nodes.length : ℚ) * 2))
        ((some (maxFiniteLayer (radialDistancesInf g c) + 1) : Option ℕ),
          (((buildLayers (radialDistancesInf g c)).lookup
            (none : Option ℕ)).getD []))).lookup n =
        some (cosF ((i : ℚ) * (2 * piQ /
              (((((buildLayers (radialDistancesInf g c)).lookup
                (none : Option ℕ)).getD [])).length : ℚ)) - piQ / 2) *
            (100 + (maxFiniteLayer (radialDistancesInf g c) : ℚ) *
              max 80 ((g.nodes.length : ℚ) * 2)),
          sinF ((i : ℚ) * (2 * piQ /
              (((((buildLayers (radialDistancesInf g c)).lookup
                (none : Option ℕ)).getD [])).length : ℚ)) - piQ / 2) *
            (100 + (maxFiniteLayer (radialDistancesInf g c) : ℚ) *
              max 80 ((g.nodes.length : ℚ) * 2))) := by
      rw [layerAssign_succ]
      exact hass
    obtain ⟨hX, hY⟩ := radial_fold_get cosF sinF piQ
      (max 80 ((g.nodes.length : ℚ) * 2)) g c hwf hlk hnl hnid hass2
      ⟨maxFiniteLayer (radialDistancesInf g c) + 1, rfl⟩ (Or.inr ⟨rfl, hdmem⟩)
    rw [hg2, hX, hY, harith, hKfin]

theorem isUPath_ne_two_le {g : SGraph} {s t : String} {p : List String}
    (hne : s ≠ t) (hp : IsUPath g s t p) : 2 ≤ p.length := by
  obtain ⟨hn, hh, hl, _⟩ := hp
  cases p with
  | nil => exact absurd rfl hn
  | cons a q =>
    cases q with
    | nil =>
      have h1 : a = s := by simpa using hh
      have h2 : a = t := by simpa using hl
      exact absurd (by rw [← h1, h2]) hne
    | cons b r =>
      simp only [List.length_cons]
      omega

theorem no_upath_isolated {g : SGraph} {s t : String} (hne : s ≠ t)
    (hiso : ∀ e ∈ g.edges, e.1 ≠ t ∧ e.2 ≠ t) : ∀ q, ¬ IsUPath g s t q := by
  intro q
  induction q using List.reverseRecOn with
  | nil =>
    intro hq
    exact hq.1 rfl
  | append_singleton l a _ =>
    intro hq
    obtain ⟨hn, hh, hl, hc⟩ := hq
    have hat : a = t := by
      rw [List.getLast?_concat] at hl
      simpa using hl
    subst hat
    by_cases hlne : l = []
    · subst hlne
      have h1 : a = s := by simpa using hh
      exact hne h1.symm
    · obtain ⟨hcl, u, hu, hua⟩ := chainRel_snoc_decomp l a hc hlne
      rcases hua with he | he
      · exact (hiso (u, a) he).2 rfl
      · exact (hiso (a, u) he).1 rfl

/-- Three-node graph A→B with an isolated node D, for the radial witness. -/
def gRad : SGraph :=
  SGraph.mk [⟨"A", 0, 0, "", false, ""⟩, ⟨"B", 0, 0, "", false, ""⟩,
    ⟨"D", 0, 0, "", false, ""⟩] [("A", "B")]

/-- Witness for C6: the theorem applied to the graph A→B plus isolated D,
center A, largest finite distance 1. -/
theorem applyRadialLayout_spec_witness :
    gRad.WF ∧
    (getX (applyRadialLayout (fun _ => 1) (fun _ => 0) 0 gRad (some "A")) "A" = 0 ∧
      getY (applyRadialLayout (fun _ => 1) (fun _ => 0) 0 gRad (some "A")) "A" = 0) ∧
    (∀ n k, n ∈ gRad.nodeIds → MinUDist gRad "A" n k → 1 ≤ k →
      getX (applyRadialLayout (fun _ => 1) (fun _ => 0) 0 gRad (some "A")) n ^ 2 +
        getY (applyRadialLayout (fun _ => 1) (fun _ => 0) 0 gRad (some "A")) n ^ 2 =
        (100 + ((k : ℚ) - 1) * max 80 ((gRad.nodes.length : ℚ) * 2)) ^ 2) ∧
    (∀ n, n ∈ gRad.nodeIds → (∀ q, ¬ IsUPath gRad "A" n q) →
      getX (applyRadialLayout (fun _ => 1) (fun _ => 0) 0 gRad (some "A")) n ^ 2 +
        getY (applyRadialLayout (fun _ => 1) (fun _ => 0) 0 gRad (some "A")) n ^ 2 =
        (100 + ((1 : ℕ) : ℚ) * max 80 ((gRad.nodes.length : ℚ) * 2)) ^ 2) := by
  have h := applyRadialLayout_spec (fun _ => 1) (fun _ => 0) 0 gRad (some "A") "A" 1
    (by unfold SGraph.WF; decide)
    (by intro a; norm_num)
    (by decide)
    (by decide)
    ⟨"B", by decide, ⟨["A", "B"], by decide, rfl⟩,
      fun q hq => isUPath_ne_two_le (by decide) hq⟩
    (by
      intro n hn k hmd
      have hn3 : n = "A" ∨ n = "B" ∨ n = "D" := by
        simpa [gRad, SGraph.nodeIds] using hn
      rcases hn3 with rfl | rfl | rfl
      · have h1 := hmd.2 ["A"] (by decide)
        simp only [List.length_singleton] at h1
        omega
      · have h1 := hmd.2 ["A", "B"] (by decide)
        simp only [List.length_cons, List.length_nil] at h1
        omega
      · exfalso
        obtain ⟨⟨q, hq, _⟩, _⟩ := hmd
        exact no_upath_isolated (by decide) (by decide) q hq)
  exact ⟨by unfold SGraph.WF; decide, h.1, h.2.1, h.2.2⟩

/-- Witness for the amended C7: the theorem applied to two one-node graphs
that differ only in their stored positions. -/
theorem applyStress_spec_amended_witness :
    applyStressMajorizationLayout id (fun _ => 0) gOne 1 =
      applyStressMajorizationLayout id (fun _ => 0)
        (SGraph.mk [⟨"n", 7, 8, "", false, ""⟩] []) 1 :=
  (applyStress_spec_amended id (fun _ => 0) (fun _ => 0) 1 gOne
    (SGraph.mk [⟨"n", 7, 8, "", false, ""⟩] []) (by decide) (by decide)).1

/-! ## C3: squarified treemap (`squarifiedTreemap`, treemap.ts)

Children are `(fullPath, weight)` pairs; `Bounds` is the rectangle record.
JS `Infinity` (the aspect ratio of an empty row or zero width) is modelled as
`none`; within the claim's hypotheses (positive weights, bounds at least 1)
no division by zero occurs, so exact rationals match the JS arithmetic. -/

structure Bounds where
  x : ℚ
  y : ℚ
  width : ℚ
  height : ℚ
  deriving DecidableEq, Repr

/-- JS `Map.set`: replace the value in place, or append a new entry. -/
def jsMapSet {α β : Type} [BEq α] : List (α × β) → α → β → List (α × β)
  | [], k, v => [(k, v)]
  | (k0, v0) :: rest, k, v =>
    if k0 == k then (k0, v) :: rest else (k0, v0) :: jsMapSet rest k v

/-- `row.reduce((sum, r) => sum + r.weight, 0)`. -/
def rowSum (row : List (String × ℚ)) : ℚ := row.foldl (fun s r => s + r.2) 0

/-- Aspect-ratio comparison with `Infinity` as `none`. -/
def qleInf : Option ℚ → Option ℚ → Bool
  | _, none => true
  | none, some _ => false
  | some a, some b => decide (a ≤ b)

/-- `worstAspectRatio(row, width, totalArea)`. -/
def worstAspectRatio (row : List (String × ℚ)) (width : ℚ) (totalArea : ℚ) : Option ℚ :=
  if row.length = 0 ∨ width = 0 then none
  else
    let rowWeight := rowSum row
    let rowArea := (rowWeight / totalArea) * width * width
    some (row.foldl (fun worst item =>
      let itemArea := (item.2 / totalArea) * width * width
      let itemHeight := rowArea / width
      let itemWidth := itemArea / itemHeight
      max worst (max (itemWidth / itemHeight) (itemHeight / itemWidth))) 0)

/-- The `for (let i = 0; ...)` greedy row builder: keep adding the next item
while the worst aspect ratio does not get worse. -/
def buildRow (shortSide remainingWeight : ℚ) :
    List (String × ℚ) → List (String × ℚ) → List (String × ℚ)
  | [], row => row
  | item :: rest, row =>
    if row.length = 0 then buildRow shortSide remainingWeight rest (row ++ [item])
    else if qleInf (worstAspectRatio (row ++ [item]) shortSide remainingWeight)
        (worstAspectRatio row shortSide remainingWeight) = true then
      buildRow shortSide remainingWeight rest (row ++ [item])
    else row

/-- The built row, with the `if (row.length === 0)` forced first item. -/
def rowOf (shortSide remainingWeight : ℚ) (remainingItems : List (String × ℚ)) :
    List (String × ℚ) :=
  let row := buildRow shortSide remainingWeight remainingItems []
  if row.length = 0 then
    match remainingItems with
    | [] => row
    | it :: _ => [it]
  else row

/-- `layoutRow(row, bounds, totalWeight, isWide, result)` : stack the row's
items along the row's long side, each taking its weight fraction. -/
def layoutRow (row : List (String × ℚ)) (bounds : Bounds) (totalWeight : ℚ)
    (isWide : Bool) (result : List (String × Bounds)) : List (String × Bounds) :=
  (row.foldl (fun (acc : ℚ × List (String × Bounds)) item =>
    let fraction := item.2 / totalWeight
    if isWide then
      let itemHeight := bounds.height * fraction
      (acc.1 + itemHeight,
        jsMapSet acc.2 item.1 ⟨bounds.x, bounds.y + acc.1, bounds.width, itemHeight⟩)
    else
      let itemWidth := bounds.width * fraction
      (acc.1 + itemWidth,
        jsMapSet acc.2 item.1 ⟨bounds.x + acc.1, bounds.y, itemWidth, bounds.height⟩))
    (0, result)).2

theorem buildRow_take (shortSide remainingWeight : ℚ) :
    ∀ (l row : List (String × ℚ)), ∃ m,
      buildRow shortSide remainingWeight l row = row ++ l.take m := by
  intro l
  induction l with
  | nil =>
    intro row
    exact ⟨0, by simp [buildRow]⟩
  | cons item rest ih =>
    intro row
    rw [buildRow]
    by_cases h0 : row.length = 0
    · rw [if_pos h0]
      obtain ⟨m, hm⟩ := ih (row ++ [item])
      exact ⟨m + 1, by rw [hm]; simp⟩
    · rw [if_neg h0]
      by_cases h1 : qleInf (worstAspectRatio (row ++ [item]) shortSide remainingWeight)
          (worstAspectRatio row shortSide remainingWeight) = true
      · rw [if_pos h1]
        obtain ⟨m, hm⟩ := ih (row ++ [item])
        exact ⟨m + 1, by rw [hm]; simp⟩
      · rw [if_neg h1]
        exact ⟨0, by simp⟩

theorem rowOf_take (shortSide remainingWeight : ℚ)
    (items : List (String × ℚ)) (hne : items ≠ []) :
    ∃ m, 0 < m ∧ m ≤ items.length ∧
      rowOf shortSide remainingWeight items = items.take m := by
  obtain ⟨m0, hm0⟩ := buildRow_take shortSide remainingWeight items []
  rw [rowOf.eq_def]
  simp only [List.nil_append] at hm0
  rw [hm0]
  by_cases hz : (items.take m0).length = 0
  · rw [if_pos hz]
    cases items with
    | nil => exact absurd rfl hne
    | cons it rest =>
      exact ⟨1, by omega, by simp, by rw [List.take_succ_cons, List.take_zero]⟩
  · rw [if_neg hz]
    refine ⟨min m0 items.length, ?_, min_le_right _ _, ?_⟩
    · rw [List.length_take] at hz
      omega
    · by_cases hle : m0 ≤ items.length
      · rw [min_eq_left hle]
      · have hge : items.length ≤ m0 := by omega
        rw [min_eq_right hge, List.take_length, List.take_of_length_le hge]

theorem rowOf_len_lt (s w : ℚ) (it : String × ℚ) (rest : List (String × ℚ)) :
    ((it :: rest).drop (rowOf s w (it :: rest)).length).length < (it :: rest).length := by
  obtain ⟨m, hm0, hmle, hmeq⟩ := rowOf_take s w (it :: rest) (by simp)
  rw [hmeq, List.length_drop, List.length_take, min_eq_left hmle]
  simp only [List.length_cons] at hmle ⊢
  omega

/-- The `while (remainingItems.length > 0)` loop of `layoutSquarified`:
build a row, slice it off the long side, lay it out, recurse on the rest. -/
def squarLoop (isWide : Bool) :
    List (String × ℚ) → Bounds → ℚ → List (String × Bounds) → List (String × Bounds)
  | [], _, _, result => result
  | it :: rest, currentBounds, remainingWeight, result =>
    let shortSide := if isWide then currentBounds.height else currentBounds.width
    let row := rowOf shortSide remainingWeight (it :: rest)
    let rowWeight := rowSum row
    let rowFraction := rowWeight / remainingWeight
    if isWide then
      let rowWidth := currentBounds.width * rowFraction
      let rowBounds : Bounds :=
        ⟨currentBounds.x, currentBounds.y, rowWidth, currentBounds.height⟩
      squarLoop isWide ((it :: rest).drop row.length)
        ⟨currentBounds.x + rowWidth, currentBounds.y,
          currentBounds.width - rowWidth, currentBounds.height⟩
        (remainingWeight - rowWeight)
        (layoutRow row rowBounds rowWeight isWide result)
    else
      let rowHeight := currentBounds.height * rowFraction
      let rowBounds : Bounds :=
        ⟨currentBounds.x, currentBounds.y, currentBounds.width, rowHeight⟩
      squarLoop isWide ((it :: rest).drop row.length)
        ⟨currentBounds.x, currentBounds.y + rowHeight,
          currentBounds.width, currentBounds.height - rowHeight⟩
        (remainingWeight - rowWeight)
        (layoutRow row rowBounds rowWeight isWide result)
termination_by items _ _ _ => items.length
decreasing_by
  · exact rowOf_len_lt shortSide remainingWeight it rest
  · exact rowOf_len_lt shortSide remainingWeight it rest

/-- `layoutSquarified(items, bounds, totalWeight, result)`. -/
def layoutSquarified (items : List (String × ℚ)) (bounds : Bounds) (totalWeight : ℚ)
    (result : List (String × Bounds)) : List (String × Bounds) :=
  if items.length = 0 then result
  else if items.length = 1 then
    match items with
    | [] => result
    | item :: _ => jsMapSet result item.1 bounds
  else if bounds.width < 1 ∨ bounds.height < 1 then
    items.foldl (fun res item => jsMapSet res item.1 bounds) result
  else
    squarLoop (decide (bounds.height ≤ bounds.width)) items bounds totalWeight result

/-- Stable insertion into a weight-descending list (JS stable
`sort((a, b) => b.weight - a.weight)`). -/
def insertDescW (a : String × ℚ) : List (String × ℚ) → List (String × ℚ)
  | [] => [a]
  | b :: rest => if b.2 < a.2 then a :: b :: rest else b :: insertDescW a rest

def sortDescW : List (String × ℚ) → List (String × ℚ)
  | [] => []
  | a :: rest => insertDescW a (sortDescW rest)

theorem jsMapSet_lookup {α β : Type} [BEq α] [LawfulBEq α] [DecidableEq α]
    (m : List (α × β)) (k : α) (v : β) (κ : α) :
    (jsMapSet m k v).lookup κ = if κ = k then some v else m.lookup κ := by
  induction m with
  | nil =>
    rw [jsMapSet]
    by_cases hk : κ = k
    · rw [if_pos hk]
      subst hk
      rw [lookup_singleton_poly, if_pos rfl]
    · rw [if_neg hk]
      rw [lookup_singleton_poly, if_neg hk]
      rfl
  | cons e rest ih =>
    obtain ⟨k0, v0⟩ := e
    rw [jsMapSet]
    by_cases h0 : (k0 == k) = true
    · rw [if_pos h0]
      have h0e : k0 = k := by simpa using h0
      subst h0e
      by_cases hk : κ = k0
      · rw [if_pos hk]
        subst hk
        rw [List.lookup]
        have hb : (κ == κ) = true := by simp
        rw [hb]
      · rw [if_neg hk]
        rw [List.lookup, List.lookup]
        have hb : (κ == k0) = false := by simpa using hk
        rw [hb]
    · rw [if_neg h0]
      have h0e : ¬ (k0 = k) := by simpa using h0
      by_cases hk : κ = k0
      · have hkk : ¬ (κ = k) := by
          intro hc
          exact h0e (by rw [← hk]; exact hc)
        rw [if_neg hkk]
        subst hk
        rw [List.lookup, List.lookup]
        have hb : (κ == κ) = true := by simp
        rw [hb]
      · rw [List.lookup]
        have hb : (κ == k0) = false := by simpa using hk
        rw [hb, ih]
        by_cases hkk : κ = k
        · rw [if_pos hkk, if_pos hkk]
        · rw [if_neg hkk, if_neg hkk]
          rw [List.lookup, hb]

theorem rowSum_shift :
    ∀ (l : List (String × ℚ)) (x : ℚ),
      l.foldl (fun s r => s + r.2) x = x + l.foldl (fun s r => s + r.2) 0 := by
  intro l
  induction l with
  | nil =>
    intro x
    simp
  | cons a rest ih =>
    intro x
    rw [List.foldl_cons, List.foldl_cons, ih (x + a.2), ih (0 + a.2)]
    ring

theorem rowSum_cons (a : String × ℚ) (l : List (String × ℚ)) :
    rowSum (a :: l) = a.2 + rowSum l := by
  rw [show rowSum (a :: l) = List.foldl (fun s r => s + r.2) (0 + a.2) l from rfl]
  rw [rowSum_shift]
  rw [show rowSum l = List.foldl (fun s r => s + r.2) 0 l from rfl]
  ring

theorem rowSum_append (l1 l2 : List (String × ℚ)) :
    rowSum (l1 ++ l2) = rowSum l1 + rowSum l2 := by
  induction l1 with
  | nil => simp [rowSum]
  | cons a rest ih =>
    rw [List.cons_append, rowSum_cons, rowSum_cons, ih]
    ring

theorem rowSum_nonneg {l : List (String × ℚ)} (h : ∀ c ∈ l, 0 < c.2) :
    0 ≤ rowSum l := by
  induction l with
  | nil => simp [rowSum]
  | cons a rest ih =>
    rw [rowSum_cons]
    have h1 := h a (List.mem_cons_self _ _)
    have h2 := ih (fun c hc => h c (List.mem_cons_of_mem _ hc))
    linarith

theorem rowSum_pos {l : List (String × ℚ)} (hne : l ≠ [])
    (h : ∀ c ∈ l, 0 < c.2) : 0 < rowSum l := by
  cases l with
  | nil => exact absurd rfl hne
  | cons a rest =>
    rw [rowSum_cons]
    have h1 := h a (List.mem_cons_self _ _)
    have h2 := rowSum_nonneg (fun c hc => h c (List.mem_cons_of_mem _ hc))
    linarith

/-- A point strictly inside a rectangle. -/
def insideB (b : Bounds) (px py : ℚ) : Prop :=
  b.x < px ∧ px < b.x + b.width ∧ b.y < py ∧ py < b.y + b.height

/-- The interiors of the two rectangles do not meet. -/
def DisjointB (b1 b2 : Bounds) : Prop :=
  ∀ px py, ¬ (insideB b1 px py ∧ insideB b2 px py)

/-- `b` lies within `cb`. -/
def subB (b cb : Bounds) : Prop :=
  cb.x ≤ b.x ∧ b.x + b.width ≤ cb.x + cb.width ∧
  cb.y ≤ b.y ∧ b.y + b.height ≤ cb.y + cb.height

theorem subB_trans {b1 b2 b3 : Bounds} (h1 : subB b1 b2) (h2 : subB b2 b3) :
    subB b1 b3 := by
  obtain ⟨a1, a2, a3, a4⟩ := h1
  obtain ⟨c1, c2, c3, c4⟩ := h2
  exact ⟨le_trans c1 a1, le_trans a2 c2, le_trans c3 a3, le_trans a4 c4⟩

theorem disjointB_of_sep_x {b1 b2 : Bounds} (h : b1.x + b1.width ≤ b2.x) :
    DisjointB b1 b2 := by
  rintro px py ⟨⟨_, h2, _, _⟩, ⟨h5, _, _, _⟩⟩
  linarith

theorem disjointB_of_sep_y {b1 b2 : Bounds} (h : b1.y + b1.height ≤ b2.y) :
    DisjointB b1 b2 := by
  rintro px py ⟨⟨_, _, _, h4⟩, ⟨_, _, h7, _⟩⟩
  linarith

theorem disjointB_symm {b1 b2 : Bounds} (h : DisjointB b1 b2) : DisjointB b2 b1 := by
  rintro px py ⟨ha, hb⟩
  exact h px py ⟨hb, ha⟩

theorem disjointB_sub {b1 b2 c1 c2 : Bounds} (h1 : subB b1 c1) (h2 : subB b2 c2)
    (hd : DisjointB c1 c2) : DisjointB b1 b2 := by
  rintro px py ⟨ha, hb⟩
  obtain ⟨a1, a2, a3, a4⟩ := h1
  obtain ⟨e1, e2, e3, e4⟩ := h2
  obtain ⟨i1, i2, i3, i4⟩ := ha
  obtain ⟨j1, j2, j3, j4⟩ := hb
  exact hd px py ⟨⟨by linarith, by linarith, by linarith, by linarith⟩,
    ⟨by linarith, by linarith, by linarith, by linarith⟩⟩

theorem insertDescW_perm (a : String × ℚ) :
    ∀ l : List (String × ℚ), List.Perm (insertDescW a l) (a :: l) := by
  intro l
  induction l with
  | nil => exact List.Perm.refl _
  | cons b rest ih =>
    rw [insertDescW]
    by_cases hb : b.2 < a.2
    · rw [if_pos hb]
    · rw [if_neg hb]
      exact List.Perm.trans (List.Perm.cons b ih) (List.Perm.swap a b rest)

theorem sortDescW_perm : ∀ l : List (String × ℚ), List.Perm (sortDescW l) l := by
  intro l
  induction l with
  | nil => exact List.Perm.refl _
  | cons a rest ih =>
    rw [sortDescW]
    exact List.Perm.trans (insertDescW_perm a (sortDescW rest)) (List.Perm.cons a ih)

theorem rowSum_eq_sum (l : List (String × ℚ)) : rowSum l = (l.map Prod.snd).sum := by
  induction l with
  | nil => simp [rowSum]
  | cons a rest ih =>
    rw [rowSum_cons, List.map_cons, List.sum_cons, ih]

/-- The `layoutRow` fold with `isWide = true` unrolled (items stack along y). -/
def rowFoldW (rb : Bounds) (tw : ℚ) :
    List (String × ℚ) → ℚ × List (String × Bounds) → ℚ × List (String × Bounds)
  | [], acc => acc
  | item :: rest, acc =>
    rowFoldW rb tw rest
      (acc.1 + rb.height * (item.2 / tw),
        jsMapSet acc.2 item.1 ⟨rb.x, rb.y + acc.1, rb.width, rb.height * (item.2 / tw)⟩)

/-- The `layoutRow` fold with `isWide = false` unrolled (items stack along x). -/
def rowFoldT (rb : Bounds) (tw : ℚ) :
    List (String × ℚ) → ℚ × List (String × Bounds) → ℚ × List (String × Bounds)
  | [], acc => acc
  | item :: rest, acc =>
    rowFoldT rb tw rest
      (acc.1 + rb.width * (item.2 / tw),
        jsMapSet acc.2 item.1 ⟨rb.x + acc.1, rb.y, rb.width * (item.2 / tw), rb.height⟩)

theorem layoutRow_wide_eq (row : List (String × ℚ)) (rb : Bounds) (tw : ℚ)
    (result : List (String × Bounds)) :
    layoutRow row rb tw true result = (rowFoldW rb tw row (0, result)).2 := by
  rw [layoutRow]
  have h : ∀ (l : List (String × ℚ)) (acc : ℚ × List (String × Bounds)),
      l.foldl (fun (acc2 : ℚ × List (String × Bounds)) item =>
        let fraction := item.2 / tw
        if (true : Bool) then
          let itemHeight := rb.height * fraction
          (acc2.1 + itemHeight,
            jsMapSet acc2.2 item.1 ⟨rb.x, rb.y + acc2.1, rb.width, itemHeight⟩)
        else
          let itemWidth := rb.width * fraction
          (acc2.1 + itemWidth,
            jsMapSet acc2.2 item.1 ⟨rb.x + acc2.1, rb.y, itemWidth, rb.height⟩)) acc =
      rowFoldW rb tw l acc := by
    intro l
    induction l with
    | nil =>
      intro acc
      rfl
    | cons item rest ih =>
      intro acc
      rw [List.foldl_cons, rowFoldW]
      exact ih _
  exact congrArg Prod.snd (h row (0, result))

theorem layoutRow_tall_eq (row : List (String × ℚ)) (rb : Bounds) (tw : ℚ)
    (result : List (String × Bounds)) :
    layoutRow row rb tw false result = (rowFoldT rb tw row (0, result)).2 := by
  rw [layoutRow]
  have h : ∀ (l : List (String × ℚ)) (acc : ℚ × List (String × Bounds)),
      l.foldl (fun (acc2 : ℚ × List (String × Bounds)) item =>
        let fraction := item.2 / tw
        if (false : Bool) then
          let itemHeight := rb.height * fraction
          (acc2.1 + itemHeight,
            jsMapSet acc2.2 item.1 ⟨rb.x, rb.y + acc2.1, rb.width, itemHeight⟩)
        else
          let itemWidth := rb.width * fraction
          (acc2.1 + itemWidth,
            jsMapSet acc2.2 item.1 ⟨rb.x + acc2.1, rb.y, itemWidth, rb.height⟩)) acc =
      rowFoldT rb tw l acc := by
    intro l
    induction l with
    | nil =>
      intro acc
      rfl
    | cons item rest ih =>
      intro acc
      rw [List.foldl_cons, rowFoldT]
      exact ih _
  exact congrArg Prod.snd (h row (0, result))

theorem rowFoldW_spec (rb : Bounds) (tw : ℚ) (htw : 0 < tw) (hh : 0 < rb.height) :
    ∀ (row : List (String × ℚ)) (off : ℚ) (result : List (String × Bounds)),
      (∀ c ∈ row, 0 < c.2) → (row.map Prod.fst).Nodup →
      (rowFoldW rb tw row (off, result)).1 = off + rb.height * (rowSum row / tw) ∧
      (∀ k, k ∉ row.map Prod.fst →
        (rowFoldW rb tw row (off, result)).2.lookup k = result.lookup k) ∧
      (∀ c ∈ row, ∃ j,
        (rowFoldW rb tw row (off, result)).2.lookup c.1 =
          some ⟨rb.x, rb.y + j, rb.width, rb.height * (c.2 / tw)⟩ ∧
        off ≤ j ∧ j + rb.height * (c.2 / tw) ≤ off + rb.height * (rowSum row / tw)) ∧
      (∀ c1 ∈ row, ∀ c2 ∈ row, c1.1 ≠ c2.1 → ∀ b1 b2,
        (rowFoldW rb tw row (off, result)).2.lookup c1.1 = some b1 →
        (rowFoldW rb tw row (off, result)).2.lookup c2.1 = some b2 →
        DisjointB b1 b2) := by
  intro row
  induction row with
  | nil =>
    intro off result _ _
    refine ⟨?_, fun k _ => rfl, fun c hc => absurd hc (List.not_mem_nil c),
      fun c1 hc1 => absurd hc1 (List.not_mem_nil c1)⟩
    rw [show rowSum ([] : List (String × ℚ)) = 0 from rfl]
    rw [zero_div, mul_zero, add_zero]
    rfl
  | cons c rest ih =>
    intro off result hpos hnd
    rw [List.map_cons, List.nodup_cons] at hnd
    have hcpos := hpos c (List.mem_cons_self _ _)
    have hrpos : ∀ x ∈ rest, 0 < x.2 := fun x hx => hpos x (List.mem_cons_of_mem _ hx)
    have hcfr : 0 < rb.height * (c.2 / tw) :=
      mul_pos hh (div_pos hcpos htw)
    have hSr : 0 ≤ rowSum rest := rowSum_nonneg hrpos
    obtain ⟨ih1, ih2, ih3, ih4⟩ := ih (off + rb.height * (c.2 / tw))
      (jsMapSet result c.1 ⟨rb.x, rb.y + off, rb.width, rb.height * (c.2 / tw)⟩)
      hrpos hnd.2
    have hcl : (rowFoldW rb tw (c :: rest) (off, result)).2.lookup c.1 =
        some ⟨rb.x, rb.y + off, rb.width, rb.height * (c.2 / tw)⟩ := by
      rw [rowFoldW]
      rw [ih2 c.1 hnd.1, jsMapSet_lookup, if_pos rfl]
    have hsum : rb.height * (c.2 / tw) + rb.height * (rowSum rest / tw) =
        rb.height * (rowSum (c :: rest) / tw) := by
      rw [rowSum_cons]
      ring
    refine ⟨?_, ?_, ?_, ?_⟩
    · rw [rowFoldW, ih1, ← hsum]
      ring
    · intro k hk
      have hk1 : k ≠ c.1 := fun hc2 => hk (hc2 ▸ List.mem_cons_self _ _)
      have hk2 : k ∉ rest.map Prod.fst := fun hc2 => hk (List.mem_cons_of_mem _ hc2)
      rw [rowFoldW, ih2 k hk2, jsMapSet_lookup, if_neg hk1]
    · intro c2 hc2
      rcases List.mem_cons.1 hc2 with hc2 | hc2
      · subst hc2
        refine ⟨off, hcl, le_refl _, ?_⟩
        rw [← hsum]
        have : 0 ≤ rb.height * (rowSum rest / tw) :=
          mul_nonneg hh.le (div_nonneg hSr htw.le)
        linarith
      · obtain ⟨j, hj1, hj2, hj3⟩ := ih3 c2 hc2
        refine ⟨j, ?_, ?_, ?_⟩
        · rw [rowFoldW]
          exact hj1
        · linarith
        · rw [← hsum]
          linarith
    · intro c1 hc1 c2 hc2 hne b1 b2 hb1 hb2
      rw [rowFoldW] at hb1 hb2
      rcases List.mem_cons.1 hc1 with hc1 | hc1 <;> rcases List.mem_cons.1 hc2 with hc2 | hc2
      · rw [hc1, hc2] at hne
        exact absurd rfl hne
      · rw [rowFoldW] at hcl
        rw [hc1, hcl] at hb1
        injection hb1 with hb1
        obtain ⟨j, hj1, hj2, hj3⟩ := ih3 c2 hc2
        rw [hj1] at hb2
        injection hb2 with hb2
        apply disjointB_of_sep_y
        rw [← hb1, ← hb2]
        show rb.y + off + rb.height * (c.2 / tw) ≤ rb.y + j
        linarith
      · rw [rowFoldW] at hcl
        rw [hc2, hcl] at hb2
        injection hb2 with hb2
        obtain ⟨j, hj1, hj2, hj3⟩ := ih3 c1 hc1
        rw [hj1] at hb1
        injection hb1 with hb1
        apply disjointB_symm
        apply disjointB_of_sep_y
        rw [← hb2, ← hb1]
        show rb.y + off + rb.height * (c.2 / tw) ≤ rb.y + j
        linarith
      · exact ih4 c1 hc1 c2 hc2 hne b1 b2 hb1 hb2

theorem rowFoldT_spec (rb : Bounds) (tw : ℚ) (htw : 0 < tw) (hw : 0 < rb.width) :
    ∀ (row : List (String × ℚ)) (off : ℚ) (result : List (String × Bounds)),
      (∀ c ∈ row, 0 < c.2) → (row.map Prod.fst).Nodup →
      (rowFoldT rb tw row (off, result)).1 = off + rb.width * (rowSum row / tw) ∧
      (∀ k, k ∉ row.map Prod.fst →
        (rowFoldT rb tw row (off, result)).2.lookup k = result.lookup k) ∧
      (∀ c ∈ row, ∃ j,
        (rowFoldT rb tw row (off, result)).2.lookup c.1 =
          some ⟨rb.x + j, rb.y, rb.width * (c.2 / tw), rb.height⟩ ∧
        off ≤ j ∧ j + rb.width * (c.2 / tw) ≤ off + rb.width * (rowSum row / tw)) ∧
      (∀ c1 ∈ row, ∀ c2 ∈ row, c1.1 ≠ c2.1 → ∀ b1 b2,
        (rowFoldT rb tw row (off, result)).2.lookup c1.1 = some b1 →
        (rowFoldT rb tw row (off, result)).2.lookup c2.1 = some b2 →
        DisjointB b1 b2) := by
  intro row
  induction row with
  | nil =>
    intro off result _ _
    refine ⟨?_, fun k _ => rfl, fun c hc => absurd hc (List.not_mem_nil c),
      fun c1 hc1 => absurd hc1 (List.not_mem_nil c1)⟩
    rw [show rowSum ([] : List (String × ℚ)) = 0 from rfl]
    rw [zero_div, mul_zero, add_zero]
    rfl
  | cons c rest ih =>
    intro off result hpos hnd
    rw [List.map_cons, List.nodup_cons] at hnd
    have hcpos := hpos c (List.mem_cons_self _ _)
    have hrpos : ∀ x ∈ rest, 0 < x.2 := fun x hx => hpos x (List.mem_cons_of_mem _ hx)
    have hcfr : 0 < rb.width * (c.2 / tw) :=
      mul_pos hw (div_pos hcpos htw)
    have hSr : 0 ≤ rowSum rest := rowSum_nonneg hrpos
    obtain ⟨ih1, ih2, ih3, ih4⟩ := ih (off + rb.width * (c.2 / tw))
      (jsMapSet result c.1 ⟨rb.x + off, rb.y, rb.width * (c.2 / tw), rb.height⟩)
      hrpos hnd.2
    have hcl : (rowFoldT rb tw (c :: rest) (off, result)).2.lookup c.1 =
        some ⟨rb.x + off, rb.y, rb.width * (c.2 / tw), rb.height⟩ := by
      rw [rowFoldT]
      rw [ih2 c.1 hnd.1, jsMapSet_lookup, if_pos rfl]
    have hsum : rb.width * (c.2 / tw) + rb.width * (rowSum rest / tw) =
        rb.width * (rowSum (c :: rest) / tw) := by
      rw [rowSum_cons]
      ring
    refine ⟨?_, ?_, ?_, ?_⟩
    · rw [rowFoldT, ih1, ← hsum]
      ring
    · intro k hk
      have hk1 : k ≠ c.1 := fun hc2 => hk (hc2 ▸ List.mem_cons_self _ _)
      have hk2 : k ∉ rest.map Prod.fst := fun hc2 => hk (List.mem_cons_of_mem _ hc2)
      rw [rowFoldT, ih2 k hk2, jsMapSet_lookup, if_neg hk1]
    · intro c2 hc2
      rcases List.mem_cons.1 hc2 with hc2 | hc2
      · subst hc2
        refine ⟨off, hcl, le_refl _, ?_⟩
        rw [← hsum]
        have : 0 ≤ rb.width * (rowSum rest / tw) :=
          mul_nonneg hw.le (div_nonneg hSr htw.le)
        linarith
      · obtain ⟨j, hj1, hj2, hj3⟩ := ih3 c2 hc2
        refine ⟨j, ?_, ?_, ?_⟩
        · rw [rowFoldT]
          exact hj1
        · linarith
        · rw [← hsum]
          linarith
    · intro c1 hc1 c2 hc2 hne b1 b2 hb1 hb2
      rw [rowFoldT] at hb1 hb2
      rcases List.mem_cons.1 hc1 with hc1 | hc1 <;> rcases List.mem_cons.1 hc2 with hc2 | hc2
      · rw [hc1, hc2] at hne
        exact absurd rfl hne
      · rw [rowFoldT] at hcl
        rw [hc1, hcl] at hb1
        injection hb1 with hb1
        obtain ⟨j, hj1, hj2, hj3⟩ := ih3 c2 hc2
        rw [hj1] at hb2
        injection hb2 with hb2
        apply disjointB_of_sep_x
        rw [← hb1, ← hb2]
        show rb.x + off + rb.width * (c.2 / tw) ≤ rb.x + j
        linarith
      · rw [rowFoldT] at hcl
        rw [hc2, hcl] at hb2
        injection hb2 with hb2
        obtain ⟨j, hj1, hj2, hj3⟩ := ih3 c1 hc1
        rw [hj1] at hb1
        injection hb1 with hb1
        apply disjointB_symm
        apply disjointB_of_sep_x
        rw [← hb2, ← hb1]
        show rb.x + off + rb.width * (c.2 / tw) ≤ rb.x + j
        linarith
      · exact ih4 c1 hc1 c2 hc2 hne b1 b2 hb1 hb2

theorem squarLoop_cons_wide (it : String × ℚ) (rest : List (String × ℚ))
    (cb : Bounds) (rw0 : ℚ) (result : List (String × Bounds)) :
    squarLoop true (it :: rest) cb rw0 result =
      squarLoop true ((it :: rest).drop (rowOf cb.height rw0 (it :: rest)).length)
        ⟨cb.x + cb.width * (rowSum (rowOf cb.height rw0 (it :: rest)) / rw0), cb.y,
          cb.width - cb.width * (rowSum (rowOf cb.height rw0 (it :: rest)) / rw0),
          cb.height⟩
        (rw0 - rowSum (rowOf cb.height rw0 (it :: rest)))
        (layoutRow (rowOf cb.height rw0 (it :: rest))
          ⟨cb.x, cb.y,
            cb.width * (rowSum (rowOf cb.height rw0 (it :: rest)) / rw0), cb.height⟩
          (rowSum (rowOf cb.height rw0 (it :: rest))) true result) := by
  rw [squarLoop]
  simp

theorem squarLoop_cons_tall (it : String × ℚ) (rest : List (String × ℚ))
    (cb : Bounds) (rw0 : ℚ) (result : List (String × Bounds)) :
    squarLoop false (it :: rest) cb rw0 result =
      squarLoop false ((it :: rest).drop (rowOf cb.width rw0 (it :: rest)).length)
        ⟨cb.x, cb.y + cb.height * (rowSum (rowOf cb.width rw0 (it :: rest)) / rw0),
          cb.width,
          cb.height - cb.height * (rowSum (rowOf cb.width rw0 (it :: rest)) / rw0)⟩
        (rw0 - rowSum (rowOf cb.width rw0 (it :: rest)))
        (layoutRow (rowOf cb.width rw0 (it :: rest))
          ⟨cb.x, cb.y, cb.width,
            cb.height * (rowSum (rowOf cb.width rw0 (it :: rest)) / rw0)⟩
          (rowSum (rowOf cb.width rw0 (it :: rest))) false result) := by
  rw [squarLoop]
  simp

/-- Invariant of the squarified row loop: with the region's area equal to the
remaining weight times the fixed density `ρ`, every remaining item receives a
rectangle of area `weight * ρ` inside the region, other keys are untouched,
and distinct items receive interior-disjoint rectangles. -/
theorem squarLoop_spec (isWide : Bool) (ρ : ℚ) (hρ : 0 < ρ) :
    ∀ (N : ℕ) (items : List (String × ℚ)) (cb : Bounds) (rw0 : ℚ)
      (result : List (String × Bounds)),
      items.length = N →
      rw0 = rowSum items →
      (∀ c ∈ items, 0 < c.2) →
      (items.map Prod.fst).Nodup →
      cb.width * cb.height = rowSum items * ρ →
      (isWide = true → 0 < cb.height) →
      (isWide = false → 0 < cb.width) →
      (∀ k, k ∉ items.map Prod.fst →
        (squarLoop isWide items cb rw0 result).lookup k = result.lookup k) ∧
      (∀ c ∈ items, ∃ b,
        (squarLoop isWide items cb rw0 result).lookup c.1 = some b ∧
        b.width * b.height = c.2 * ρ ∧ subB b cb) ∧
      (∀ c1 ∈ items, ∀ c2 ∈ items, c1.1 ≠ c2.1 → ∀ b1 b2,
        (squarLoop isWide items cb rw0 result).lookup c1.1 = some b1 →
        (squarLoop isWide items cb rw0 result).lookup c2.1 = some b2 →
        DisjointB b1 b2) := by
  intro N
  induction N using Nat.strong_induction_on with
  | _ N ih =>
    intro items cb rw0 result hlen hrw hpos hnd harea hhp hwp
    cases items with
    | nil =>
      rw [squarLoop]
      exact ⟨fun k _ => rfl, fun c hc => absurd hc (List.not_mem_nil c),
        fun c1 hc1 => absurd hc1 (List.not_mem_nil c1)⟩
    | cons it rest =>
      subst hrw
      have hS : 0 < rowSum (it :: rest) := rowSum_pos (by simp) hpos
      have hmapsplit : ∀ m : ℕ, ((it :: rest).map Prod.fst) =
          ((it :: rest).take m).map Prod.fst ++ ((it :: rest).drop m).map Prod.fst := by
        intro m
        rw [← List.map_append, List.take_append_drop]
      have hsplitS : ∀ m : ℕ, rowSum (it :: rest) =
          rowSum ((it :: rest).take m) + rowSum ((it :: rest).drop m) := by
        intro m
        conv_lhs => rw [← List.take_append_drop m (it :: rest)]
        rw [rowSum_append]
      cases isWide with
      | true =>
        have hh : 0 < cb.height := hhp rfl
        have hwd : 0 < cb.width := by nlinarith [mul_pos hS hρ]
        obtain ⟨m, hm0, hmle, hmeq⟩ :=
          rowOf_take cb.height (rowSum (it :: rest)) (it :: rest) (by simp)
        have htlen : ((it :: rest).take m).length = m := by
          rw [List.length_take, min_eq_left hmle]
        have htne : (it :: rest).take m ≠ [] := by
          intro hc
          have h2 := congrArg List.length hc
          rw [htlen] at h2
          simp at h2
          omega
        have hposT : ∀ c ∈ (it :: rest).take m, 0 < c.2 := by
          intro c hc
          apply hpos c
          rw [← List.take_append_drop m (it :: rest)]
          exact List.mem_append.2 (Or.inl hc)
        have hposD : ∀ c ∈ (it :: rest).drop m, 0 < c.2 := by
          intro c hc
          apply hpos c
          rw [← List.take_append_drop m (it :: rest)]
          exact List.mem_append.2 (Or.inr hc)
        have hSr : 0 < rowSum ((it :: rest).take m) := rowSum_pos htne hposT
        have hSd : 0 ≤ rowSum ((it :: rest).drop m) := rowSum_nonneg hposD
        have hfrle : rowSum ((it :: rest).take m) ≤ rowSum (it :: rest) := by
          have := hsplitS m
          linarith
        have hnds : (((it :: rest).take m).map Prod.fst).Nodup ∧
            (((it :: rest).drop m).map Prod.fst).Nodup ∧
            ∀ x ∈ ((it :: rest).take m).map Prod.fst,
              x ∉ ((it :: rest).drop m).map Prod.fst := by
          have h2 := hnd
          rw [hmapsplit m, List.nodup_append] at h2
          exact ⟨h2.1, h2.2.1, h2.2.2⟩
        have hrowWpos : 0 < cb.width *
            (rowSum ((it :: rest).take m) / rowSum (it :: rest)) :=
          mul_pos hwd (div_pos hSr hS)
        have hrowWle : cb.width *
            (rowSum ((it :: rest).take m) / rowSum (it :: rest)) ≤ cb.width := by
          have h1 : rowSum ((it :: rest).take m) / rowSum (it :: rest) ≤ 1 :=
            (div_le_one hS).2 hfrle
          nlinarith
        have harea2 : (cb.width *
            (rowSum ((it :: rest).take m) / rowSum (it :: rest))) * cb.height =
            rowSum ((it :: rest).take m) * ρ := by
          have h1 : (cb.width * (rowSum ((it :: rest).take m) / rowSum (it :: rest))) *
              cb.height = (cb.width * cb.height) *
                (rowSum ((it :: rest).take m) / rowSum (it :: rest)) := by ring
          rw [h1, harea]
          field_simp
          ring
        obtain ⟨rs1, rs2, rs3, rs4⟩ := rowFoldW_spec
          ⟨cb.x, cb.y, cb.width * (rowSum ((it :: rest).take m) / rowSum (it :: rest)),
            cb.height⟩
          (rowSum ((it :: rest).take m)) hSr hh
          ((it :: rest).take m) 0 result hposT hnds.1
        have hunf : squarLoop true (it :: rest) cb (rowSum (it :: rest)) result =
            squarLoop true ((it :: rest).drop m)
              ⟨cb.x + cb.width *
                  (rowSum ((it :: rest).take m) / rowSum (it :: rest)), cb.y,
                cb.width - cb.width *
                  (rowSum ((it :: rest).take m) / rowSum (it :: rest)), cb.height⟩
              (rowSum (it :: rest) - rowSum ((it :: rest).take m))
              ((rowFoldW
                ⟨cb.x, cb.y, cb.width *
                  (rowSum ((it :: rest).take m) / rowSum (it :: rest)), cb.height⟩
                (rowSum ((it :: rest).take m)) ((it :: rest).take m) (0, result)).2) := by
          rw [squarLoop_cons_wide, hmeq, htlen, layoutRow_wide_eq]
        obtain ⟨ihA, ihB, ihC⟩ := ih ((it :: rest).drop m).length
          (by
            rw [← hlen, List.length_drop]
            simp only [List.length_cons] at hmle ⊢
            omega)
          ((it :: rest).drop m)
          ⟨cb.x + cb.width * (rowSum ((it :: rest).take m) / rowSum (it :: rest)), cb.y,
            cb.width - cb.width * (rowSum ((it :: rest).take m) / rowSum (it :: rest)),
            cb.height⟩
          (rowSum (it :: rest) - rowSum ((it :: rest).take m))
          ((rowFoldW
            ⟨cb.x, cb.y, cb.width *
              (rowSum ((it :: rest).take m) / rowSum (it :: rest)), cb.height⟩
            (rowSum ((it :: rest).take m)) ((it :: rest).take m) (0, result)).2)
          rfl
          (by
            have := hsplitS m
            linarith)
          hposD
          hnds.2.1
          (by
            show (cb.width - cb.width *
                (rowSum ((it :: rest).take m) / rowSum (it :: rest))) * cb.height =
              rowSum ((it :: rest).drop m) * ρ
            have h3 := hsplitS m
            nlinarith [harea2, harea])
          (fun _ => hh)
          (fun hff => absurd hff (by decide))
        have hlkT : ∀ c ∈ (it :: rest).take m,
            (squarLoop true (it :: rest) cb (rowSum (it :: rest)) result).lookup c.1 =
            (rowFoldW
              ⟨cb.x, cb.y, cb.width *
                (rowSum ((it :: rest).take m) / rowSum (it :: rest)), cb.height⟩
              (rowSum ((it :: rest).take m)) ((it :: rest).take m) (0, result)).2.lookup
                c.1 := by
          intro c hc
          rw [hunf]
          apply ihA
          exact hnds.2.2 c.1 (List.mem_map.2 ⟨c, hc, rfl⟩)
        have hsubT : ∀ (j hgt : ℚ), 0 ≤ j →
            j + hgt ≤ 0 + cb.height * (rowSum ((it :: rest).take m) /
              rowSum ((it :: rest).take m)) →
            subB ⟨cb.x, cb.y + j,
                cb.width * (rowSum ((it :: rest).take m) / rowSum (it :: rest)), hgt⟩
              cb := by
          intro j hgt hj hup
          rw [div_self (ne_of_gt hSr)] at hup
          refine ⟨le_refl _, ?_, by linarith, ?_⟩
          · show cb.x + cb.width *
              (rowSum ((it :: rest).take m) / rowSum (it :: rest)) ≤ cb.x + cb.width
            linarith
          · show cb.y + j + hgt ≤ cb.y + cb.height
            linarith
        refine ⟨?_, ?_, ?_⟩
        · intro k hk
          have hkT : k ∉ ((it :: rest).take m).map Prod.fst := by
            intro hc
            exact hk (by rw [hmapsplit m]; exact List.mem_append.2 (Or.inl hc))
          have hkD : k ∉ ((it :: rest).drop m).map Prod.fst := by
            intro hc
            exact hk (by rw [hmapsplit m]; exact List.mem_append.2 (Or.inr hc))
          rw [hunf, ihA k hkD]
          exact rs2 k hkT
        · intro c hc
          rw [← List.take_append_drop m (it :: rest)] at hc
          rcases List.mem_append.1 hc with hc | hc
          · obtain ⟨j, hj1, hj2, hj3⟩ := rs3 c hc
            refine ⟨⟨cb.x, cb.y + j,
              cb.width * (rowSum ((it :: rest).take m) / rowSum (it :: rest)),
              cb.height * (c.2 / rowSum ((it :: rest).take m))⟩, ?_, ?_, ?_⟩
            · rw [hlkT c hc]
              exact hj1
            · show (cb.width * (rowSum ((it :: rest).take m) / rowSum (it :: rest))) *
                (cb.height * (c.2 / rowSum ((it :: rest).take m))) = c.2 * ρ
              have h4 : (cb.width * (rowSum ((it :: rest).take m) /
                  rowSum (it :: rest))) * (cb.height *
                    (c.2 / rowSum ((it :: rest).take m))) =
                  ((cb.width * (rowSum ((it :: rest).take m) / rowSum (it :: rest))) *
                    cb.height) * (c.2 / rowSum ((it :: rest).take m)) := by ring
              rw [h4, harea2]
              field_simp
              ring
            · exact hsubT j _ hj2 hj3
          · obtain ⟨b, hb1, hb2, hb3⟩ := ihB c hc
            refine ⟨b, ?_, hb2, ?_⟩
            · rw [hunf]
              exact hb1
            · refine subB_trans hb3 ⟨?_, ?_, le_refl _, le_refl _⟩
              · show cb.x ≤ cb.x + cb.width *
                  (rowSum ((it :: rest).take m) / rowSum (it :: rest))
                linarith
              · show cb.x + cb.width *
                    (rowSum ((it :: rest).take m) / rowSum (it :: rest)) +
                    (cb.width - cb.width *
                      (rowSum ((it :: rest).take m) / rowSum (it :: rest))) ≤
                  cb.x + cb.width
                linarith
        · intro c1 hc1 c2 hc2 hne b1 b2 hb1 hb2
          rw [← List.take_append_drop m (it :: rest)] at hc1 hc2
          rcases List.mem_append.1 hc1 with hc1 | hc1 <;>
            rcases List.mem_append.1 hc2 with hc2 | hc2
          · rw [hlkT c1 hc1] at hb1
            rw [hlkT c2 hc2] at hb2
            exact rs4 c1 hc1 c2 hc2 hne b1 b2 hb1 hb2
          · obtain ⟨j, hj1, hj2, hj3⟩ := rs3 c1 hc1
            rw [hlkT c1 hc1, hj1] at hb1
            injection hb1 with hb1
            obtain ⟨b2e, hb2e1, _, hb2e3⟩ := ihB c2 hc2
            rw [hunf, hb2e1] at hb2
            injection hb2 with hb2
            apply disjointB_of_sep_x
            rw [← hb1, ← hb2]
            have h5 := hb2e3.1
            show cb.x + cb.width *
                (rowSum ((it :: rest).take m) / rowSum (it :: rest)) ≤ b2e.x
            exact h5
          · obtain ⟨j, hj1, hj2, hj3⟩ := rs3 c2 hc2
            rw [hlkT c2 hc2, hj1] at hb2
            injection hb2 with hb2
            obtain ⟨b1e, hb1e1, _, hb1e3⟩ := ihB c1 hc1
            rw [hunf, hb1e1] at hb1
            injection hb1 with hb1
            apply disjointB_symm
            apply disjointB_of_sep_x
            rw [← hb2, ← hb1]
            have h5 := hb1e3.1
            show cb.x + cb.width *
                (rowSum ((it :: rest).take m) / rowSum (it :: rest)) ≤ b1e.x
            exact h5
          · rw [hunf] at hb1 hb2
            exact ihC c1 hc1 c2 hc2 hne b1 b2 hb1 hb2
      | false =>
        have hwd : 0 < cb.width := hwp rfl
        have hh : 0 < cb.height := by nlinarith [mul_pos hS hρ]
        obtain ⟨m, hm0, hmle, hmeq⟩ :=
          rowOf_take cb.width (rowSum (it :: rest)) (it :: rest) (by simp)
        have htlen : ((it :: rest).take m).length = m := by
          rw [List.length_take, min_eq_left hmle]
        have htne : (it :: rest).take m ≠ [] := by
          intro hc
          have h2 := congrArg List.length hc
          rw [htlen] at h2
          simp at h2
          omega
        have hposT : ∀ c ∈ (it :: rest).take m, 0 < c.2 := by
          intro c hc
          apply hpos c
          rw [← List.take_append_drop m (it :: rest)]
          exact List.mem_append.2 (Or.inl hc)
        have hposD : ∀ c ∈ (it :: rest).drop m, 0 < c.2 := by
          intro c hc
          apply hpos c
          rw [← List.take_append_drop m (it :: rest)]
          exact List.mem_append.2 (Or.inr hc)
        have hSr : 0 < rowSum ((it :: rest).take m) := rowSum_pos htne hposT
        have hSd : 0 ≤ rowSum ((it :: rest).drop m) := rowSum_nonneg hposD
        have hfrle : rowSum ((it :: rest).take m) ≤ rowSum (it :: rest) := by
          have := hsplitS m
          linarith
        have hnds : (((it :: rest).take m).map Prod.fst).Nodup ∧
            (((it :: rest).drop m).map Prod.fst).Nodup ∧
            ∀ x ∈ ((it :: rest).take m).map Prod.fst,
              x ∉ ((it :: rest).drop m).map Prod.fst := by
          have h2 := hnd
          rw [hmapsplit m, List.nodup_append] at h2
          exact ⟨h2.1, h2.2.1, h2.2.2⟩
        have hrowHpos : 0 < cb.height *
            (rowSum ((it :: rest).take m) / rowSum (it :: rest)) :=
          mul_pos hh (div_pos hSr hS)
        have hrowHle : cb.height *
            (rowSum ((it :: rest).take m) / rowSum (it :: rest)) ≤ cb.height := by
          have h1 : rowSum ((it :: rest).take m) / rowSum (it :: rest) ≤ 1 :=
            (div_le_one hS).2 hfrle
          nlinarith
        have harea2 : cb.width * (cb.height *
            (rowSum ((it :: rest).take m) / rowSum (it :: rest))) =
            rowSum ((it :: rest).take m) * ρ := by
          have h1 : cb.width * (cb.height *
              (rowSum ((it :: rest).take m) / rowSum (it :: rest))) =
              (cb.width * cb.height) *
                (rowSum ((it :: rest).take m) / rowSum (it :: rest)) := by ring
          rw [h1, harea]
          field_simp
          ring
        obtain ⟨rs1, rs2, rs3, rs4⟩ := rowFoldT_spec
          ⟨cb.x, cb.y, cb.width,
            cb.height * (rowSum ((it :: rest).take m) / rowSum (it :: rest))⟩
          (rowSum ((it :: rest).take m)) hSr hwd
          ((it :: rest).take m) 0 result hposT hnds.1
        have hunf : squarLoop false (it :: rest) cb (rowSum (it :: rest)) result =
            squarLoop false ((it :: rest).drop m)
              ⟨cb.x, cb.y + cb.height *
                  (rowSum ((it :: rest).take m) / rowSum (it :: rest)),
                cb.width, cb.height - cb.height *
                  (rowSum ((it :: rest).take m) / rowSum (it :: rest))⟩
              (rowSum (it :: rest) - rowSum ((it :: rest).take m))
              ((rowFoldT
                ⟨cb.x, cb.y, cb.width, cb.height *
                  (rowSum ((it :: rest).take m) / rowSum (it :: rest))⟩
                (rowSum ((it :: rest).take m)) ((it :: rest).take m) (0, result)).2) := by
          rw [squarLoop_cons_tall, hmeq, htlen, layoutRow_tall_eq]
        obtain ⟨ihA, ihB, ihC⟩ := ih ((it :: rest).drop m).length
          (by
            rw [← hlen, List.length_drop]
            simp only [List.length_cons] at hmle ⊢
            omega)
          ((it :: rest).drop m)
          ⟨cb.x, cb.y + cb.height *
              (rowSum ((it :: rest).take m) / rowSum (it :: rest)),
            cb.width, cb.height - cb.height *
              (rowSum ((it :: rest).take m) / rowSum (it :: rest))⟩
          (rowSum (it :: rest) - rowSum ((it :: rest).take m))
          ((rowFoldT
            ⟨cb.x, cb.y, cb.width, cb.height *
              (rowSum ((it :: rest).take m) / rowSum (it :: rest))⟩
            (rowSum ((it :: rest).take m)) ((it :: rest).take m) (0, result)).2)
          rfl
          (by
            have := hsplitS m
            linarith)
          hposD
          hnds.2.1
          (by
            show cb.width * (cb.height - cb.height *
                (rowSum ((it :: rest).take m) / rowSum (it :: rest))) =
              rowSum ((it :: rest).drop m) * ρ
            have h3 := hsplitS m
            nlinarith [harea2, harea])
          (fun htt => absurd htt (by decide))
          (fun _ => hwd)
        have hlkT : ∀ c ∈ (it :: rest).take m,
            (squarLoop false (it :: rest) cb (rowSum (it :: rest)) result).lookup c.1 =
            (rowFoldT
              ⟨cb.x, cb.y, cb.width, cb.height *
                (rowSum ((it :: rest).take m) / rowSum (it :: rest))⟩
              (rowSum ((it :: rest).take m)) ((it :: rest).take m) (0, result)).2.lookup
                c.1 := by
          intro c hc
          rw [hunf]
          apply ihA
          exact hnds.2.2 c.1 (List.mem_map.2 ⟨c, hc, rfl⟩)
        have hsubT : ∀ (j wid : ℚ), 0 ≤ j →
            j + wid ≤ 0 + cb.width * (rowSum ((it :: rest).take m) /
              rowSum ((it :: rest).take m)) →
            subB ⟨cb.x + j, cb.y, wid,
                cb.height * (rowSum ((it :: rest).take m) / rowSum (it :: rest))⟩
              cb := by
          intro j wid hj hup
          rw [div_self (ne_of_gt hSr)] at hup
          refine ⟨by linarith, ?_, le_refl _, ?_⟩
          · show cb.x + j + wid ≤ cb.x + cb.width
            linarith
          · show cb.y + cb.height *
              (rowSum ((it :: rest).take m) / rowSum (it :: rest)) ≤ cb.y + cb.height
            linarith
        refine ⟨?_, ?_, ?_⟩
        · intro k hk
          have hkT : k ∉ ((it :: rest).take m).map Prod.fst := by
            intro hc
            exact hk (by rw [hmapsplit m]; exact List.mem_append.2 (Or.inl hc))
          have hkD : k ∉ ((it :: rest).drop m).map Prod.fst := by
            intro hc
            exact hk (by rw [hmapsplit m]; exact List.mem_append.2 (Or.inr hc))
          rw [hunf, ihA k hkD]
          exact rs2 k hkT
        · intro c hc
          rw [← List.take_append_drop m (it :: rest)] at hc
          rcases List.mem_append.1 hc with hc | hc
          · obtain ⟨j, hj1, hj2, hj3⟩ := rs3 c hc
            refine ⟨⟨cb.x + j, cb.y,
              cb.width * (c.2 / rowSum ((it :: rest).take m)),
              cb.height * (rowSum ((it :: rest).take m) / rowSum (it :: rest))⟩,
              ?_, ?_, ?_⟩
            · rw [hlkT c hc]
              exact hj1
            · show (cb.width * (c.2 / rowSum ((it :: rest).take m))) *
                (cb.height * (rowSum ((it :: rest).take m) / rowSum (it :: rest))) =
                c.2 * ρ
              have h4 : (cb.width * (c.2 / rowSum ((it :: rest).take m))) *
                  (cb.height * (rowSum ((it :: rest).take m) / rowSum (it :: rest))) =
                  (cb.width * (cb.height *
                    (rowSum ((it :: rest).take m) / rowSum (it :: rest)))) *
                    (c.2 / rowSum ((it :: rest).take m)) := by ring
              rw [h4, harea2]
              field_simp
              ring
            · exact hsubT j _ hj2 hj3
          · obtain ⟨b, hb1, hb2, hb3⟩ := ihB c hc
            refine ⟨b, ?_, hb2, ?_⟩
            · rw [hunf]
              exact hb1
            · refine subB_trans hb3 ⟨le_refl _, le_refl _, ?_, ?_⟩
              · show cb.y ≤ cb.y + cb.height *
                  (rowSum ((it :: rest).take m) / rowSum (it :: rest))
                linarith
              · show cb.y + cb.height *
                    (rowSum ((it :: rest).take m) / rowSum (it :: rest)) +
                    (cb.height - cb.height *
                      (rowSum ((it :: rest).take m) / rowSum (it :: rest))) ≤
                  cb.y + cb.height
                linarith
        · intro c1 hc1 c2 hc2 hne b1 b2 hb1 hb2
          rw [← List.take_append_drop m (it :: rest)] at hc1 hc2
          rcases List.mem_append.1 hc1 with hc1 | hc1 <;>
            rcases List.mem_append.1 hc2 with hc2 | hc2
          · rw [hlkT c1 hc1] at hb1
            rw [hlkT c2 hc2] at hb2
            exact rs4 c1 hc1 c2 hc2 hne b1 b2 hb1 hb2
          · obtain ⟨j, hj1, hj2, hj3⟩ := rs3 c1 hc1
            rw [hlkT c1 hc1, hj1] at hb1
            injection hb1 with hb1
            obtain ⟨b2e, hb2e1, _, hb2e3⟩ := ihB c2 hc2
            rw [hunf, hb2e1] at hb2
            injection hb2 with hb2
            apply disjointB_of_sep_y
            rw [← hb1, ← hb2]
            have h5 := hb2e3.2.2.1
            show cb.y + cb.height *
                (rowSum ((it :: rest).take m) / rowSum (it :: rest)) ≤ b2e.y
            exact h5
          · obtain ⟨j, hj1, hj2, hj3⟩ := rs3 c2 hc2
            rw [hlkT c2 hc2, hj1] at hb2
            injection hb2 with hb2
            obtain ⟨b1e, hb1e1, _, hb1e3⟩ := ihB c1 hc1
            rw [hunf, hb1e1] at hb1
            injection hb1 with hb1
            apply disjointB_symm
            apply disjointB_of_sep_y
            rw [← hb2, ← hb1]
            have h5 := hb1e3.2.2.1
            show cb.y + cb.height *
                (rowSum ((it :: rest).take m) / rowSum (it :: rest)) ≤ b1e.y
            exact h5
          · rw [hunf] at hb1 hb2
            exact ihC c1 hc1 c2 hc2 hne b1 b2 hb1 hb2

/-- `squarifiedTreemap(children, bounds, totalWeight)`. -/
def squarifiedTreemap (children : List (String × ℚ)) (bounds : Bounds)
    (totalWeight : ℚ) : List (String × Bounds) :=
  if children.length = 0 ∨ totalWeight = 0 then []
  else if children.length = 1 then
    match children with
    | [] => []
    | child :: _ => [(child.1, bounds)]
  else
    let items := sortDescW (children.filter (fun wi => decide (0 < wi.2)))
    if items.length = 0 then []
    else layoutSquarified items bounds totalWeight []

/-- C3: for a region of width and height at least 1 and children of positive
weights summing to `W`, the squarified treemap assigns each child a rectangle
whose area is exactly (weight / W) times the region's area, and the interiors
of any two sibling rectangles are disjoint. -/
theorem squarifiedTreemap_spec (children : List (String × ℚ)) (bounds : Bounds)
    (W : ℚ) (hW : W = rowSum children)
    (hw1 : 1 ≤ bounds.width) (hh1 : 1 ≤ bounds.height)
    (hpos : ∀ c ∈ children, 0 < c.2)
    (hnd : (children.map Prod.fst).Nodup) :
    (∀ c ∈ children, ∃ b,
      (squarifiedTreemap children bounds W).lookup c.1 = some b ∧
      b.width * b.height = (c.2 / W) * (bounds.width * bounds.height)) ∧
    (∀ c1 ∈ children, ∀ c2 ∈ children, c1.1 ≠ c2.1 → ∀ b1 b2,
      (squarifiedTreemap children bounds W).lookup c1.1 = some b1 →
      (squarifiedTreemap children bounds W).lookup c2.1 = some b2 →
      DisjointB b1 b2) := by
  cases children with
  | nil =>
    exact ⟨fun c hc => absurd hc (List.not_mem_nil c),
      fun c1 hc1 => absurd hc1 (List.not_mem_nil c1)⟩
  | cons c0 rest =>
    have hWpos : 0 < W := by
      rw [hW]
      exact rowSum_pos (by simp) hpos
    cases rest with
    | nil =>
      have hc0 : W = c0.2 := by
        rw [hW, rowSum_cons, show rowSum ([] : List (String × ℚ)) = 0 from rfl,
          add_zero]
      have heq : squarifiedTreemap [c0] bounds W = [(c0.1, bounds)] := by
        simp only [squarifiedTreemap]
        have h1 : ¬ (([c0] : List (String × ℚ)).length = 0 ∨ W = 0) := by
          push_neg
          exact ⟨by simp, ne_of_gt hWpos⟩
        rw [if_neg h1,
          if_pos (show ([c0] : List (String × ℚ)).length = 1 from rfl)]
      refine ⟨?_, ?_⟩
      · intro c hc
        have hcc : c = c0 := by simpa using hc
        subst hcc
        refine ⟨bounds, ?_, ?_⟩
        · rw [heq]
          rw [List.lookup]
          have hb : (c.1 == c.1) = true := by simp
          rw [hb]
        · rw [← hc0, div_self (ne_of_gt hWpos)]
          ring
      · intro c1 hc1 c2 hc2 hne
        have h1 : c1 = c0 := by simpa using hc1
        have h2 : c2 = c0 := by simpa using hc2
        rw [h1, h2] at hne
        exact absurd rfl hne
    | cons c1' rest' =>
      have hfil : (c0 :: c1' :: rest').filter (fun wi => decide (0 < wi.2)) =
          c0 :: c1' :: rest' :=
        List.filter_eq_self.2 (fun a ha => by simpa using hpos a ha)
      have hperm : (sortDescW (c0 :: c1' :: rest')).Perm (c0 :: c1' :: rest') :=
        sortDescW_perm _
      have hWS : W = rowSum (sortDescW (c0 :: c1' :: rest')) := by
        rw [hW, rowSum_eq_sum, rowSum_eq_sum]
        exact (List.Perm.sum_eq (List.Perm.map Prod.snd hperm)).symm
      have hposI : ∀ c ∈ sortDescW (c0 :: c1' :: rest'), 0 < c.2 :=
        fun c hc => hpos c (hperm.mem_iff.1 hc)
      have hndI : ((sortDescW (c0 :: c1' :: rest')).map Prod.fst).Nodup :=
        ((List.Perm.map Prod.fst hperm).nodup_iff).2 hnd
      have hlenI : (sortDescW (c0 :: c1' :: rest')).length = rest'.length + 2 := by
        rw [List.Perm.length_eq hperm]
        simp
      have heq : squarifiedTreemap (c0 :: c1' :: rest') bounds W =
          squarLoop (decide (bounds.height ≤ bounds.width))
            (sortDescW (c0 :: c1' :: rest')) bounds W [] := by
        simp only [squarifiedTreemap]
        have h1 : ¬ ((c0 :: c1' :: rest').length = 0 ∨ W = 0) := by
          push_neg
          exact ⟨by simp, ne_of_gt hWpos⟩
        have h2 : ¬ ((c0 :: c1' :: rest').length = 1) := by simp
        rw [hfil]
        have h3 : ¬ (sortDescW (c0 :: c1' :: rest')).length = 0 := by
          rw [hlenI]
          omega
        rw [if_neg h1, if_neg h2, if_neg h3]
        simp only [layoutSquarified]
        have h4 : ¬ (sortDescW (c0 :: c1' :: rest')).length = 1 := by
          rw [hlenI]
          omega
        have h5 : ¬ (bounds.width < 1 ∨ bounds.height < 1) := by
          push_neg
          exact ⟨hw1, hh1⟩
        rw [if_neg h3, if_neg h4, if_neg h5]
      have hρ : 0 < (bounds.width * bounds.height) / W :=
        div_pos (mul_pos (by linarith) (by linarith)) hWpos
      obtain ⟨_, sB, sC⟩ := squarLoop_spec (decide (bounds.height ≤ bounds.width))
        ((bounds.width * bounds.height) / W) hρ
        (sortDescW (c0 :: c1' :: rest')).length (sortDescW (c0 :: c1' :: rest'))
        bounds W [] rfl hWS hposI hndI
        (by
          rw [← hWS]
          field_simp)
        (fun _ => by linarith)
        (fun _ => by linarith)
      refine ⟨?_, ?_⟩
      · intro c hc
        obtain ⟨b, hb1, hb2, _⟩ := sB c (hperm.mem_iff.2 hc)
        refine ⟨b, ?_, ?_⟩
        · rw [heq]
          exact hb1
        · rw [hb2]
          ring
      · intro ca hca cb hcb hne b1 b2 hb1 hb2
        rw [heq] at hb1 hb2
        exact sC ca (hperm.mem_iff.2 hca) cb (hperm.mem_iff.2 hcb) hne b1 b2 hb1 hb2

/-- Concrete run of the treemap area-conservation theorem: three children of
weights 1, 1, 2 in a 100 by 100 region. -/
theorem squarifiedTreemap_spec_witness :
    ((4 : ℚ) = rowSum [("a", (1 : ℚ)), ("b", 1), ("c", 2)]) ∧
    ((∀ c ∈ [("a", (1 : ℚ)), ("b", 1), ("c", 2)], ∃ b,
      (squarifiedTreemap [("a", (1 : ℚ)), ("b", 1), ("c", 2)]
        (Bounds.mk 0 0 100 100) 4).lookup c.1 = some b ∧
      b.width * b.height = (c.2 / 4) *
        ((Bounds.mk 0 0 100 100).width * (Bounds.mk 0 0 100 100).height)) ∧
    (∀ c1 ∈ [("a", (1 : ℚ)), ("b", 1), ("c", 2)],
      ∀ c2 ∈ [("a", (1 : ℚ)), ("b", 1), ("c", 2)], c1.1 ≠ c2.1 → ∀ b1 b2,
      (squarifiedTreemap [("a", (1 : ℚ)), ("b", 1), ("c", 2)]
        (Bounds.mk 0 0 100 100) 4).lookup c1.1 = some b1 →
      (squarifiedTreemap [("a", (1 : ℚ)), ("b", 1), ("c", 2)]
        (Bounds.mk 0 0 100 100) 4).lookup c2.1 = some b2 →
      DisjointB b1 b2)) :=
  ⟨by norm_num [rowSum],
    squarifiedTreemap_spec [("a", (1 : ℚ)), ("b", 1), ("c", 2)]
      (Bounds.mk 0 0 100 100) 4 (by norm_num [rowSum]) (by norm_num) (by norm_num)
      (by
        intro c hc
        simp only [List.mem_cons, List.not_mem_nil, or_false] at hc
        rcases hc with h | h | h <;> (rw [h]; norm_num))
      (by simp)⟩

/-! ## C2: hull containment (`computePackageHulls`, hulls.ts)

Every non-hidden node of a package (or of a descendant package) lies inside
or on the boundary of the returned hull polygon, formalised as membership in
the convex hull (over ℚ) of the polygon's vertex set. -/

/-- A point as a vector of the plane `ℚ × ℚ`. -/
def pv (p : Point) : ℚ × ℚ := (p.x, p.y)

/-- The set of plane vectors of a list of points. -/
def ptSet (l : List Point) : Set (ℚ × ℚ) := {q | ∃ v ∈ l, q = pv v}

theorem pv_mem_ptSet {p : Point} {l : List Point} (h : p ∈ l) : pv p ∈ ptSet l :=
  ⟨p, h, rfl⟩

theorem ptSet_subset {l1 l2 : List Point} (h : ∀ x ∈ l1, x ∈ l2) :
    ptSet l1 ⊆ ptSet l2 := by
  rintro q ⟨v, hv, rfl⟩
  exact ⟨v, h v hv, rfl⟩

theorem ptSet_reverse (l : List Point) : ptSet l.reverse = ptSet l := by
  ext q
  constructor <;> (rintro ⟨v, hv, rfl⟩; exact ⟨v, by simpa using hv, rfl⟩)

theorem ptSet_nonempty {l : List Point} (h : l ≠ []) : (ptSet l).Nonempty := by
  cases l with
  | nil => exact absurd rfl h
  | cons p rest => exact ⟨pv p, pv_mem_ptSet (List.mem_cons_self _ _)⟩

theorem pv_inj {a b : Point} (h : pv a = pv b) : a = b := by
  obtain ⟨ax, ay⟩ := a
  obtain ⟨bx, c⟩ := b
  simp only [pv, Prod.mk.injEq] at h
  rw [h.1, h.2]

theorem cross_swap23 (o a b : Point) : cross o a b = -cross o b a := by
  unfold cross
  ring

theorem cross_swap12 (a b c : Point) : cross a b c = -cross b a c := by
  unfold cross
  ring

theorem cross_sum (a b c t : Point) :
    cross t b c + cross a t c + cross a b t = cross a b c := by
  unfold cross
  ring

theorem cross_self12 (o b : Point) : cross o o b = 0 := by
  unfold cross
  ring

theorem bary_x (a b c t : Point) :
    cross t b c * a.x + cross a t c * b.x + cross a b t * c.x =
      cross a b c * t.x := by
  unfold cross
  ring

theorem bary_y (a b c t : Point) :
    cross t b c * a.y + cross a t c * b.y + cross a b t * c.y =
      cross a b c * t.y := by
  unfold cross
  ring

theorem smul_pair (a : ℚ) (p : ℚ × ℚ) : a • p = (a * p.1, a * p.2) := rfl

theorem seg_mk {x y z : ℚ × ℚ} {a b : ℚ} (ha : 0 ≤ a) (hb : 0 ≤ b)
    (hab : a + b = 1) (hx : a * x.1 + b * y.1 = z.1)
    (hy : a * x.2 + b * y.2 = z.2) : z ∈ segment ℚ x y := by
  refine ⟨a, b, ha, hb, hab, ?_⟩
  have hrw : a • x + b • y = (a * x.1 + b * y.1, a * x.2 + b * y.2) := rfl
  rw [hrw, hx, hy]

theorem seg_dest {x y z : ℚ × ℚ} (h : z ∈ segment ℚ x y) :
    ∃ a b : ℚ, 0 ≤ a ∧ 0 ≤ b ∧ a + b = 1 ∧
      a * x.1 + b * y.1 = z.1 ∧ a * x.2 + b * y.2 = z.2 := by
  obtain ⟨a, b, ha, hb, hab, hz⟩ := h
  have hrw : a • x + b • y = (a * x.1 + b * y.1, a * x.2 + b * y.2) := rfl
  rw [hrw] at hz
  exact ⟨a, b, ha, hb, hab, by rw [← hz], by rw [← hz]⟩

/-- Barycentric containment: if `t` has nonnegative barycentric coordinates
with respect to a positively oriented triangle `a b c`, then `t` lies in the
convex hull of `{a, b, c}`. -/
theorem mem_triangle {a b c t : Point} (hD : 0 < cross a b c)
    (h1 : 0 ≤ cross t b c) (h2 : 0 ≤ cross a t c) (h3 : 0 ≤ cross a b t) :
    pv t ∈ convexHull ℚ (ptSet [a, b, c]) := by
  have hsum := cross_sum a b c t
  have hbx := bary_x a b c t
  have hby := bary_y a b c t
  have hane : cross a b c ≠ 0 := ne_of_gt hD
  have hma : pv a ∈ ptSet [a, b, c] := pv_mem_ptSet (by simp)
  have hmb : pv b ∈ ptSet [a, b, c] := pv_mem_ptSet (by simp)
  have hmc : pv c ∈ ptSet [a, b, c] := pv_mem_ptSet (by simp)
  by_cases hbg : cross a t c + cross a b t = 0
  · have hb0 : cross a t c = 0 := by linarith
    have hg0 : cross a b t = 0 := by linarith
    have hax : a.x = t.x := by
      rw [hb0, hg0] at hbx
      have h4 : cross t b c = cross a b c := by linarith
      rw [h4] at hbx
      field_simp at hbx
      rcases hbx with h5 | h5
      · exact h5
      · exact absurd h5 hane
    have hay : a.y = t.y := by
      rw [hb0, hg0] at hby
      have h4 : cross t b c = cross a b c := by linarith
      rw [h4] at hby
      field_simp at hby
      rcases hby with h5 | h5
      · exact h5
      · exact absurd h5 hane
    have : pv t = pv a := by
      simp only [pv, Prod.mk.injEq]
      exact ⟨hax.symm, hay.symm⟩
    rw [this]
    exact subset_convexHull ℚ _ hma
  · have hbgpos : 0 < cross a t c + cross a b t := lt_of_le_of_ne (by linarith) (Ne.symm hbg)
    set β := cross a t c with hβ
    set γ := cross a b t with hγ
    set α := cross t b c with hα
    set S := β + γ with hS
    have hSne : S ≠ 0 := ne_of_gt hbgpos
    have hz : ((β / S) * b.x + (γ / S) * c.x, (β / S) * b.y + (γ / S) * c.y) ∈
        segment ℚ (pv b) (pv c) := by
      apply seg_mk (div_nonneg h2 hbgpos.le) (div_nonneg h3 hbgpos.le)
      · field_simp
      · rfl
      · rfl
    have hzconv : ((β / S) * b.x + (γ / S) * c.x, (β / S) * b.y + (γ / S) * c.y) ∈
        convexHull ℚ (ptSet [a, b, c]) :=
      (convex_convexHull ℚ _).segment_subset
        (subset_convexHull ℚ _ hmb) (subset_convexHull ℚ _ hmc) hz
    have htseg : pv t ∈ segment ℚ (pv a)
        ((β / S) * b.x + (γ / S) * c.x, (β / S) * b.y + (γ / S) * c.y) := by
      apply seg_mk (div_nonneg h1 hD.le) (div_nonneg hbgpos.le hD.le)
      · field_simp
        linarith
      · show α / cross a b c * a.x + S / cross a b c *
          ((β / S) * b.x + (γ / S) * c.x) = t.x
        field_simp
        linear_combination (S * cross a b c) * hbx
      · show α / cross a b c * a.y + S / cross a b c *
          ((β / S) * b.y + (γ / S) * c.y) = t.y
        field_simp
        linear_combination (S * cross a b c) * hby
    exact (convex_convexHull ℚ _).segment_subset
      (subset_convexHull ℚ _ hma) hzconv htseg

/-- `q` lies weakly above the pivot: strictly higher y, or equal y and weakly
greater x.  This holds for every input point relative to the scan's pivot. -/
def UHp (piv q : Point) : Prop :=
  piv.y < q.y ∨ (piv.y = q.y ∧ piv.x ≤ q.x)

theorem UHp_refl (piv : Point) : UHp piv piv := Or.inr ⟨rfl, le_refl _⟩

theorem UHp_y {piv q : Point} (h : UHp piv q) : 0 ≤ q.y - piv.y := by
  rcases h with h | h
  · linarith
  · linarith [h.1.le]

theorem UHp_x {piv q : Point} (h : UHp piv q) (hy : q.y - piv.y = 0) :
    0 ≤ q.x - piv.x := by
  rcases h with h | h
  · linarith
  · linarith [h.2]

theorem angClass_UHp {piv q : Point} (h : UHp piv q) :
    angClass piv q = if q.y - piv.y = 0 then 1 else 2 := by
  have hy := UHp_y h
  unfold angClass
  by_cases h0 : q.y - piv.y = 0
  · rw [if_pos h0]
    rw [if_neg (by linarith), if_pos ⟨h0, UHp_x h h0⟩]
  · have hpos : 0 < q.y - piv.y := lt_of_le_of_ne hy (Ne.symm h0)
    rw [if_neg h0]
    rw [if_neg (by linarith), if_neg (by
      rintro ⟨h1, _⟩
      exact h0 h1), if_pos hpos]

/-- A point on the same ray from the pivot, at no greater distance, lies on
the segment from the pivot. -/
theorem mem_seg_ray {piv t p : Point} (ht : UHp piv t) (hp : UHp piv p)
    (hcol : cross piv t p = 0) (hdist : dist2 piv t ≤ dist2 piv p) :
    pv t ∈ segment ℚ (pv piv) (pv p) := by
  have hTY := UHp_y ht
  have hPY := UHp_y hp
  have hcol' : (t.x - piv.x) * (p.y - piv.y) - (t.y - piv.y) * (p.x - piv.x) = 0 := hcol
  have hdist' : (t.x - piv.x) ^ 2 + (t.y - piv.y) ^ 2 ≤
      (p.x - piv.x) ^ 2 + (p.y - piv.y) ^ 2 := hdist
  by_cases hpy : p.y - piv.y = 0
  · by_cases hpx : p.x - piv.x = 0
    · have hT0 : t.x - piv.x = 0 ∧ t.y - piv.y = 0 := by
        constructor <;> nlinarith [sq_nonneg (t.x - piv.x), sq_nonneg (t.y - piv.y)]
      refine seg_mk (a := 1) (b := 0) (by norm_num) (by norm_num) (by norm_num) ?_ ?_
      · show 1 * piv.x + 0 * p.x = t.x
        linarith [hT0.1]
      · show 1 * piv.y + 0 * p.y = t.y
        linarith [hT0.2]
    · have hPX : 0 < p.x - piv.x :=
        lt_of_le_of_ne (UHp_x hp hpy) (Ne.symm hpx)
      have hTY0 : t.y - piv.y = 0 := by
        have h1 : (t.y - piv.y) * (p.x - piv.x) = 0 := by
          rw [hpy] at hcol'
          linarith
        rcases mul_eq_zero.1 h1 with h2 | h2
        · exact h2
        · exact absurd h2 (ne_of_gt hPX)
      have hTX : 0 ≤ t.x - piv.x := UHp_x ht hTY0
      have hTle : t.x - piv.x ≤ p.x - piv.x := by
        rw [hpy, hTY0] at hdist'
        nlinarith
      refine seg_mk (a := 1 - (t.x - piv.x) / (p.x - piv.x))
        (b := (t.x - piv.x) / (p.x - piv.x)) ?_ ?_ (by ring) ?_ ?_
      · have h3 : (t.x - piv.x) / (p.x - piv.x) ≤ 1 :=
          (div_le_one hPX).2 hTle
        linarith
      · exact div_nonneg hTX hPX.le
      · show (1 - (t.x - piv.x) / (p.x - piv.x)) * piv.x +
          (t.x - piv.x) / (p.x - piv.x) * p.x = t.x
        field_simp
        ring
      · show (1 - (t.x - piv.x) / (p.x - piv.x)) * piv.y +
          (t.x - piv.x) / (p.x - piv.x) * p.y = t.y
        have hpyy : p.y = piv.y := by linarith
        have htyy : t.y = piv.y := by linarith
        rw [hpyy, htyy]
        ring
  · have hPYpos : 0 < p.y - piv.y := lt_of_le_of_ne hPY (Ne.symm hpy)
    have hTXeq : t.x - piv.x = ((t.y - piv.y) / (p.y - piv.y)) * (p.x - piv.x) := by
      field_simp
      linarith [hcol']
    have hs0 : 0 ≤ (t.y - piv.y) / (p.y - piv.y) := div_nonneg hTY hPYpos.le
    have hs1 : (t.y - piv.y) / (p.y - piv.y) ≤ 1 := by
      rw [div_le_one hPYpos]
      by_contra hgt
      push_neg at hgt
      have h4 : (t.y - piv.y) ^ 2 > (p.y - piv.y) ^ 2 := by nlinarith
      have h5 : (t.x - piv.x) ^ 2 ≥ ((t.y - piv.y) / (p.y - piv.y)) ^ 2 *
          (p.x - piv.x) ^ 2 := by
        rw [hTXeq]
        ring_nf
        exact le_refl _
      have h6 : 1 < ((t.y - piv.y) / (p.y - piv.y)) ^ 2 := by
        rw [div_pow, lt_div_iff (by positivity)]
        nlinarith
      nlinarith [sq_nonneg (p.x - piv.x), sq_nonneg (t.x - piv.x), h5, h6]
    refine seg_mk (a := 1 - (t.y - piv.y) / (p.y - piv.y))
      (b := (t.y - piv.y) / (p.y - piv.y)) (by linarith) hs0 (by ring) ?_ ?_
    · show (1 - (t.y - piv.y) / (p.y - piv.y)) * piv.x +
        (t.y - piv.y) / (p.y - piv.y) * p.x = t.x
      have h7 : t.x = piv.x + ((t.y - piv.y) / (p.y - piv.y)) * (p.x - piv.x) := by
        linarith [hTXeq]
      rw [h7]
      ring
    · show (1 - (t.y - piv.y) / (p.y - piv.y)) * piv.y +
        (t.y - piv.y) / (p.y - piv.y) * p.y = t.y
      field_simp
      ring

theorem angClass_zero {piv a : Point} (h : angClass piv a = 0) :
    a.y - piv.y < 0 := by
  unfold angClass at h
  by_cases h1 : a.y - piv.y < 0
  · exact h1
  · rw [if_neg h1] at h
    by_cases h2 : a.y - piv.y = 0 ∧ 0 ≤ a.x - piv.x
    · rw [if_pos h2] at h
      exact absurd h (by decide)
    · rw [if_neg h2] at h
      by_cases h3 : 0 < a.y - piv.y
      · rw [if_pos h3] at h
        exact absurd h (by decide)
      · rw [if_neg h3] at h
        exact absurd h (by decide)

theorem angClass_two {piv a : Point} (h : angClass piv a = 2) :
    0 < a.y - piv.y := by
  unfold angClass at h
  by_cases h1 : a.y - piv.y < 0
  · rw [if_pos h1] at h
    exact absurd h (by decide)
  · rw [if_neg h1] at h
    by_cases h2 : a.y - piv.y = 0 ∧ 0 ≤ a.x - piv.x
    · rw [if_pos h2] at h
      exact absurd h (by decide)
    · rw [if_neg h2] at h
      by_cases h3 : 0 < a.y - piv.y
      · exact h3
      · rw [if_neg h3] at h
        exact absurd h (by decide)

/-- Signed-area cocycle identity used for transitivity of the exact angle
comparison. -/
theorem cross_cocycle (piv a b c : Point) :
    cross piv a c * (b.y - piv.y) =
      cross piv a b * (c.y - piv.y) + cross piv b c * (a.y - piv.y) := by
  unfold cross
  ring

theorem angLtB_true_iff (piv a b : Point) :
    angLtB piv a b = true ↔
      (angClass piv a < angClass piv b ∨
        (angClass piv a = angClass piv b ∧
          (angClass piv a = 0 ∨ angClass piv a = 2) ∧ 0 < cross piv a b)) := by
  simp only [angLtB]
  split_ifs with h1 h2
  · rw [decide_eq_true_eq]
    constructor
    · exact fun h => Or.inl h
    · rintro (h | ⟨he, _⟩)
      · exact h
      · exact absurd he h1
  · push_neg at h1
    rw [decide_eq_true_eq]
    constructor
    · exact fun h => Or.inr ⟨h1, h2, h⟩
    · rintro (h | ⟨_, _, h⟩)
      · exact absurd h (by rw [h1]; exact lt_irrefl _)
      · exact h
  · push_neg at h1
    constructor
    · intro h
      exact absurd h (by decide)
    · rintro (h | ⟨_, hk, _⟩)
      · exact absurd h (by rw [h1]; exact lt_irrefl _)
      · exact absurd hk h2

theorem angLtB_asymm {piv a b : Point} (h : angLtB piv a b = true) :
    angLtB piv b a = false := by
  rw [← Bool.not_eq_true]
  intro hba
  rw [angLtB_true_iff] at h hba
  rcases h with h | ⟨he, _, hc⟩ <;> rcases hba with h' | ⟨he', _, hc'⟩
  · omega
  · omega
  · omega
  · rw [cross_swap23] at hc'
    linarith

theorem angLtB_trans {piv a b c : Point} (hab : angLtB piv a b = true)
    (hbc : angLtB piv b c = true) : angLtB piv a c = true := by
  rw [angLtB_true_iff] at hab hbc ⊢
  rcases hab with h1 | ⟨he1, hk1, hc1⟩ <;> rcases hbc with h2 | ⟨he2, hk2, hc2⟩
  · exact Or.inl (by omega)
  · exact Or.inl (by omega)
  · exact Or.inl (by omega)
  · refine Or.inr ⟨by omega, hk1, ?_⟩
    have hid := cross_cocycle piv a b c
    rcases hk1 with hk | hk
    · have hya := angClass_zero hk
      have hyb := angClass_zero (by rw [← he1]; exact hk)
      have hyc := angClass_zero (by rw [← he2, ← he1]; exact hk)
      nlinarith
    · have hya := angClass_two hk
      have hyb := angClass_two (by rw [← he1]; exact hk)
      have hyc := angClass_two (by rw [← he2, ← he1]; exact hk)
      nlinarith

theorem angLtB_compat_right {piv a b c : Point} (hab : angLtB piv a b = true)
    (h1 : angLtB piv b c = false) (h2 : angLtB piv c b = false) :
    angLtB piv a c = true := by
  have hcc : angClass piv b = angClass piv c := by
    by_contra hne
    rcases Nat.lt_or_ge (angClass piv b) (angClass piv c) with h | h
    · rw [(angLtB_true_iff piv b c).2 (Or.inl h)] at h1
      exact absurd h1 (by decide)
    · have h' : angClass piv c < angClass piv b := lt_of_le_of_ne h (fun hq => hne hq.symm)
      rw [(angLtB_true_iff piv c b).2 (Or.inl h')] at h2
      exact absurd h2 (by decide)
  rw [angLtB_true_iff] at hab ⊢
  rcases hab with h | ⟨he, hk, hc⟩
  · exact Or.inl (by omega)
  · refine Or.inr ⟨by omega, hk, ?_⟩
    have hbc0 : cross piv b c = 0 := by
      by_contra hne
      rcases lt_or_gt_of_ne hne with hlt | hgt
      · have : angLtB piv c b = true := by
          rw [angLtB_true_iff]
          refine Or.inr ⟨hcc.symm, ?_, ?_⟩
          · rw [← hcc, ← he]
            exact hk
          · rw [cross_swap23]
            linarith
        rw [this] at h2
        exact absurd h2 (by decide)
      · have : angLtB piv b c = true := by
          rw [angLtB_true_iff]
          exact Or.inr ⟨hcc, by rw [← he]; exact hk, hgt⟩
        rw [this] at h1
        exact absurd h1 (by decide)
    have hid := cross_cocycle piv a b c
    rw [hbc0, zero_mul, add_zero] at hid
    rcases hk with hk | hk
    · have hyb := angClass_zero (by rw [← he]; exact hk)
      have hyc := angClass_zero (by rw [← hcc, ← he]; exact hk)
      nlinarith [mul_neg_of_pos_of_neg hc hyc]
    · have hyb := angClass_two (by rw [← he]; exact hk)
      have hyc := angClass_two (by rw [← hcc, ← he]; exact hk)
      nlinarith [mul_pos hc hyc]

theorem angLtB_compat_left {piv a b c : Point} (hbc : angLtB piv b c = true)
    (h1 : angLtB piv a b = false) (h2 : angLtB piv b a = false) :
    angLtB piv a c = true := by
  have hcc : angClass piv a = angClass piv b := by
    by_contra hne
    rcases Nat.lt_or_ge (angClass piv a) (angClass piv b) with h | h
    · rw [(angLtB_true_iff piv a b).2 (Or.inl h)] at h1
      exact absurd h1 (by decide)
    · have h' : angClass piv b < angClass piv a := lt_of_le_of_ne h (fun hq => hne hq.symm)
      rw [(angLtB_true_iff piv b a).2 (Or.inl h')] at h2
      exact absurd h2 (by decide)
  rw [angLtB_true_iff] at hbc ⊢
  rcases hbc with h | ⟨he, hk, hc⟩
  · exact Or.inl (by omega)
  · refine Or.inr ⟨by omega, by rw [hcc]; exact hk, ?_⟩
    have hab0 : cross piv a b = 0 := by
      by_contra hne
      rcases lt_or_gt_of_ne hne with hlt | hgt
      · have : angLtB piv b a = true := by
          rw [angLtB_true_iff]
          refine Or.inr ⟨hcc.symm, hk, ?_⟩
          rw [cross_swap23]
          linarith
        rw [this] at h2
        exact absurd h2 (by decide)
      · have : angLtB piv a b = true := by
          rw [angLtB_true_iff]
          exact Or.inr ⟨hcc, by rw [hcc]; exact hk, hgt⟩
        rw [this] at h1
        exact absurd h1 (by decide)
    have hid := cross_cocycle piv a b c
    rw [hab0, zero_mul, zero_add] at hid
    rcases hk with hk | hk
    · have hya := angClass_zero (by rw [hcc]; exact hk)
      have hyb := angClass_zero hk
      nlinarith [mul_neg_of_pos_of_neg hc hya]
    · have hya := angClass_two (by rw [hcc]; exact hk)
      have hyb := angClass_two hk
      nlinarith [mul_pos hc hya]

theorem angLtB_equiv_trans {piv a b c : Point}
    (h1 : angLtB piv a b = false) (h2 : angLtB piv b a = false)
    (h3 : angLtB piv b c = false) (h4 : angLtB piv c b = false) :
    angLtB piv a c = false ∧ angLtB piv c a = false := by
  constructor
  · rw [← Bool.not_eq_true]
    intro hac
    rw [angLtB_compat_left hac h2 h1] at h3
    exact absurd h3 (by decide)
  · rw [← Bool.not_eq_true]
    intro hca
    rw [angLtB_compat_left hca h3 h4] at h2
    exact absurd h2 (by decide)

theorem angleDistLe_cases {piv a b : Point} (h : angleDistLe piv a b = true) :
    angLtB piv a b = true ∨
      (angLtB piv b a = false ∧ dist2 piv a ≤ dist2 piv b) := by
  simp only [angleDistLe, Bool.or_eq_true, Bool.and_eq_true, Bool.not_eq_true',
    decide_eq_true_eq] at h
  exact h

theorem angleDistLe_total (piv a b : Point) :
    angleDistLe piv a b = true ∨ angleDistLe piv b a = true := by
  by_cases hab : angLtB piv a b = true
  · exact Or.inl (by simp [angleDistLe, hab])
  · by_cases hba : angLtB piv b a = true
    · exact Or.inr (by simp [angleDistLe, hba])
    · rw [Bool.not_eq_true] at hab hba
      rcases le_total (dist2 piv a) (dist2 piv b) with h | h
      · exact Or.inl (by simp [angleDistLe, hab, hba, h])
      · exact Or.inr (by simp [angleDistLe, hab, hba, h])

theorem angleDistLe_trans {piv a b c : Point} (h1 : angleDistLe piv a b = true)
    (h2 : angleDistLe piv b c = true) : angleDistLe piv a c = true := by
  rcases angleDistLe_cases h1 with hab | ⟨hba, hdab⟩ <;>
    rcases angleDistLe_cases h2 with hbc | ⟨hcb, hdbc⟩
  · simp [angleDistLe, angLtB_trans hab hbc]
  · by_cases hbc : angLtB piv b c = true
    · simp [angleDistLe, angLtB_trans hab hbc]
    · rw [Bool.not_eq_true] at hbc
      simp [angleDistLe, angLtB_compat_right hab hbc hcb]
  · by_cases hab : angLtB piv a b = true
    · simp [angleDistLe, angLtB_trans hab hbc]
    · rw [Bool.not_eq_true] at hab
      simp [angleDistLe, angLtB_compat_left hbc hab hba]
  · by_cases hab : angLtB piv a b = true
    · by_cases hbc : angLtB piv b c = true
      · simp [angleDistLe, angLtB_trans hab hbc]
      · rw [Bool.not_eq_true] at hbc
        simp [angleDistLe, angLtB_compat_right hab hbc hcb]
    · rw [Bool.not_eq_true] at hab
      by_cases hbc : angLtB piv b c = true
      · simp [angleDistLe, angLtB_compat_left hbc hab hba]
      · rw [Bool.not_eq_true] at hbc
        obtain ⟨hac, hca⟩ := angLtB_equiv_trans hab hba hbc hcb
        simp [angleDistLe, hac, hca, le_trans hdab hdbc]

theorem insertS_perm {α : Type} (le : α → α → Bool) (x : α) :
    ∀ l : List α, List.Perm (insertS le x l) (x :: l) := by
  intro l
  induction l with
  | nil => exact List.Perm.refl _
  | cons y ys ih =>
    rw [insertS]
    by_cases hc : (le y x && !(le x y)) = true
    · rw [if_pos hc]
      exact List.Perm.trans (List.Perm.cons y ih) (List.Perm.swap x y ys)
    · rw [if_neg hc]

theorem sortStable_perm {α : Type} (le : α → α → Bool) :
    ∀ l : List α, List.Perm (sortStable le l) l := by
  intro l
  induction l with
  | nil => exact List.Perm.refl _
  | cons y ys ih =>
    rw [sortStable]
    exact List.Perm.trans (insertS_perm le y (sortStable le ys)) (List.Perm.cons y ih)

theorem insertS_pairwise {α : Type} (le : α → α → Bool)
    (htot : ∀ a b, le a b = true ∨ le b a = true)
    (htrans : ∀ a b c, le a b = true → le b c = true → le a c = true) (x : α) :
    ∀ l : List α, l.Pairwise (fun a b => le a b = true) →
      (insertS le x l).Pairwise (fun a b => le a b = true) := by
  intro l
  induction l with
  | nil =>
    intro _
    exact List.pairwise_singleton _ _
  | cons y ys ih =>
    intro h
    rw [List.pairwise_cons] at h
    obtain ⟨hy, hys⟩ := h
    rw [insertS]
    by_cases hc : (le y x && !(le x y)) = true
    · rw [if_pos hc]
      rw [List.pairwise_cons]
      refine ⟨?_, ih hys⟩
      intro z hz
      have hz2 : z ∈ x :: ys := (insertS_perm le x ys).mem_iff.1 hz
      rcases List.mem_cons.1 hz2 with hz3 | hz3
      · rw [hz3]
        have hc' : le y x = true ∧ (!(le x y)) = true := by simpa using hc
        exact hc'.1
      · exact hy z hz3
    · rw [if_neg hc]
      have hxy : le x y = true := by
        rcases htot x y with h3 | h3
        · exact h3
        · have h4 := hc
          rw [h3] at h4
          simpa using h4
      rw [List.pairwise_cons]
      refine ⟨?_, List.pairwise_cons.2 ⟨hy, hys⟩⟩
      intro z hz
      rcases List.mem_cons.1 hz with hz3 | hz3
      · subst hz3
        exact hxy
      · exact htrans x y z hxy (hy z hz3)

theorem sortStable_pairwise {α : Type} (le : α → α → Bool)
    (htot : ∀ a b, le a b = true ∨ le b a = true)
    (htrans : ∀ a b c, le a b = true → le b c = true → le a c = true) :
    ∀ l : List α, (sortStable le l).Pairwise (fun a b => le a b = true) := by
  intro l
  induction l with
  | nil => exact List.Pairwise.nil
  | cons y ys ih =>
    rw [sortStable]
    exact insertS_pairwise le htot htrans y _ ih

theorem UHp_trans {a b c : Point} (h1 : UHp a b) (h2 : UHp b c) : UHp a c := by
  rcases h1 with h1 | ⟨h1, h1x⟩ <;> rcases h2 with h2 | ⟨h2, h2x⟩
  · exact Or.inl (lt_trans h1 h2)
  · exact Or.inl (by linarith)
  · exact Or.inl (by linarith)
  · exact Or.inr ⟨by linarith, by linarith⟩

theorem UHp_of_not {a b : Point} (h : ¬ UHp a b) : UHp b a := by
  unfold UHp at h
  push_neg at h
  obtain ⟨h1, h2⟩ := h
  by_cases he : b.y = a.y
  · exact Or.inr ⟨he, le_of_lt (h2 he.symm)⟩
  · exact Or.inl (lt_of_le_of_ne h1 he)

theorem pivotFold_aux :
    ∀ (l : List Point) (acc : Point),
      (l.foldl (fun piv p =>
          if p.y < piv.y ∨ (p.y = piv.y ∧ p.x < piv.x) then p else piv) acc ∈
        acc :: l) ∧
      (∀ p ∈ l, UHp (l.foldl (fun piv p =>
          if p.y < piv.y ∨ (p.y = piv.y ∧ p.x < piv.x) then p else piv) acc) p) ∧
      UHp (l.foldl (fun piv p =>
          if p.y < piv.y ∨ (p.y = piv.y ∧ p.x < piv.x) then p else piv) acc) acc := by
  intro l
  induction l with
  | nil =>
    intro acc
    exact ⟨List.mem_cons_self _ _, fun p hp => absurd hp (List.not_mem_nil p),
      UHp_refl acc⟩
  | cons p l ih =>
    intro acc
    rw [List.foldl_cons]
    by_cases hc : p.y < acc.y ∨ (p.y = acc.y ∧ p.x < acc.x)
    · rw [if_pos hc]
      obtain ⟨hm, hall, hacc⟩ := ih p
      have hpa : UHp p acc := by
        rcases hc with h | ⟨h1, h2⟩
        · exact Or.inl h
        · exact Or.inr ⟨h1, le_of_lt h2⟩
      refine ⟨?_, ?_, UHp_trans hacc hpa⟩
      · rcases List.mem_cons.1 hm with h | h
        · rw [h]
          exact List.mem_cons_of_mem _ (List.mem_cons_self _ _)
        · exact List.mem_cons_of_mem _ (List.mem_cons_of_mem _ h)
      · intro q hq
        rcases List.mem_cons.1 hq with h | h
        · rw [h]
          exact hacc
        · exact hall q h
    · rw [if_neg hc]
      obtain ⟨hm, hall, hacc⟩ := ih acc
      have hap : UHp acc p := by
        push_neg at hc
        obtain ⟨h1, h2⟩ := hc
        by_cases he : acc.y = p.y
        · exact Or.inr ⟨he, h2 he.symm⟩
        · exact Or.inl (lt_of_le_of_ne h1 he)
      refine ⟨?_, ?_, hacc⟩
      · rcases List.mem_cons.1 hm with h | h
        · rw [h]
          exact List.mem_cons_self _ _
        · exact List.mem_cons_of_mem _ (List.mem_cons_of_mem _ h)
      · intro q hq
        rcases List.mem_cons.1 hq with h | h
        · rw [h]
          exact UHp_trans hacc hap
        · exact hall q h

theorem pivotFold_mem {points : List Point} (h : points ≠ []) :
    pivotFold points ∈ points := by
  cases points with
  | nil => exact absurd rfl h
  | cons p0 rest =>
    have he : pivotFold (p0 :: rest) = (p0 :: rest).foldl (fun piv p =>
        if p.y < piv.y ∨ (p.y = piv.y ∧ p.x < piv.x) then p else piv) p0 := rfl
    rw [he]
    have := (pivotFold_aux (p0 :: rest) p0).1
    rcases List.mem_cons.1 this with h1 | h1
    · rw [h1]
      exact List.mem_cons_self _ _
    · exact h1

theorem pivotFold_min {points : List Point} (p : Point) (hp : p ∈ points) :
    UHp (pivotFold points) p := by
  cases points with
  | nil => exact absurd hp (List.not_mem_nil p)
  | cons p0 rest =>
    have he : pivotFold (p0 :: rest) = (p0 :: rest).foldl (fun piv p =>
        if p.y < piv.y ∨ (p.y = piv.y ∧ p.x < piv.x) then p else piv) p0 := rfl
    rw [he]
    exact (pivotFold_aux (p0 :: rest) p0).2.1 p hp

theorem le_not_lt_rev {piv a b : Point} (h : angleDistLe piv a b = true) :
    angLtB piv b a = false := by
  rcases angleDistLe_cases h with h1 | ⟨h1, _⟩
  · exact angLtB_asymm h1
  · exact h1

theorem sorted_cross {piv a b : Point} (ha : UHp piv a) (hb : UHp piv b)
    (h : angleDistLe piv a b = true) : 0 ≤ cross piv a b := by
  have hrev := le_not_lt_rev h
  by_cases hay : a.y - piv.y = 0
  · have hax := UHp_x ha hay
    have hby := UHp_y hb
    have hc : cross piv a b = (a.x - piv.x) * (b.y - piv.y) := by
      unfold cross
      rw [show a.y - piv.y = 0 from hay]
      ring
    rw [hc]
    exact mul_nonneg hax hby
  · have hca : angClass piv a = 2 := by rw [angClass_UHp ha, if_neg hay]
    by_cases hby : b.y - piv.y = 0
    · have hcb : angClass piv b = 1 := by rw [angClass_UHp hb, if_pos hby]
      have hlt : angLtB piv b a = true := by
        rw [angLtB_true_iff]
        exact Or.inl (by rw [hca, hcb]; omega)
      rw [hlt] at hrev
      exact absurd hrev (by decide)
    · have hcb : angClass piv b = 2 := by rw [angClass_UHp hb, if_neg hby]
      by_contra hneg
      push_neg at hneg
      have hlt : angLtB piv b a = true := by
        rw [angLtB_true_iff]
        refine Or.inr ⟨by rw [hca, hcb], Or.inr hcb, ?_⟩
        rw [cross_swap23]
        linarith
      rw [hlt] at hrev
      exact absurd hrev (by decide)

/-- The point popped by the scan lies on the segment from the pivot to the
current point. -/
theorem pop_segment {piv t p : Point} (ht : UHp piv t) (hp : UHp piv p)
    (hle : angleDistLe piv t p = true) (hpop : cross piv t p ≤ 0) :
    pv t ∈ segment ℚ (pv piv) (pv p) := by
  have hcol : cross piv t p = 0 := le_antisymm hpop (sorted_cross ht hp hle)
  have hcol' : (t.x - piv.x) * (p.y - piv.y) - (t.y - piv.y) * (p.x - piv.x) = 0 :=
    hcol
  have hdist : dist2 piv t ≤ dist2 piv p := by
    by_cases hty : t.y - piv.y = 0
    · by_cases hpy : p.y - piv.y = 0
      · have hct : angClass piv t = 1 := by rw [angClass_UHp ht, if_pos hty]
        have hcp : angClass piv p = 1 := by rw [angClass_UHp hp, if_pos hpy]
        rcases angleDistLe_cases hle with hlt | ⟨_, hd⟩
        · rw [angLtB_true_iff] at hlt
          rcases hlt with h1 | ⟨_, hk, _⟩
          · rw [hct, hcp] at h1
            omega
          · rw [hct] at hk
            omega
        · exact hd
      · have hPY : 0 < p.y - piv.y := lt_of_le_of_ne (UHp_y hp) (Ne.symm hpy)
        have hTX : t.x - piv.x = 0 := by
          have h1 : (t.x - piv.x) * (p.y - piv.y) = 0 := by
            rw [hty] at hcol'
            linarith
          rcases mul_eq_zero.1 h1 with h2 | h2
          · exact h2
          · exact absurd h2 (ne_of_gt hPY)
        show (t.x - piv.x) ^ 2 + (t.y - piv.y) ^ 2 ≤
          (p.x - piv.x) ^ 2 + (p.y - piv.y) ^ 2
        rw [hTX, hty]
        have h9 : (0 : ℚ) ^ 2 + (0 : ℚ) ^ 2 = 0 := by norm_num
        rw [h9]
        positivity
    · by_cases hpy : p.y - piv.y = 0
      · have hct : angClass piv t = 2 := by rw [angClass_UHp ht, if_neg hty]
        have hcp : angClass piv p = 1 := by rw [angClass_UHp hp, if_pos hpy]
        have hlt : angLtB piv p t = true := by
          rw [angLtB_true_iff]
          exact Or.inl (by rw [hct, hcp]; omega)
        rw [le_not_lt_rev hle] at hlt
        exact absurd hlt (by decide)
      · have hct : angClass piv t = 2 := by rw [angClass_UHp ht, if_neg hty]
        rcases angleDistLe_cases hle with hlt | ⟨_, hd⟩
        · rw [angLtB_true_iff] at hlt
          rcases hlt with h1 | ⟨_, _, hcr⟩
          · have hcp : angClass piv p = 2 := by rw [angClass_UHp hp, if_neg hpy]
            rw [hct, hcp] at h1
            omega
          · rw [hcol] at hcr
            exact absurd hcr (lt_irrefl 0)
        · exact hd
  exact mem_seg_ray ht hp hcol hdist

/-- Invariant of the Graham-scan stack (top first, pivot at the bottom):
every adjacent pair above the bottom makes a strictly positive cross product
as seen from the pivot. -/
def StkOk (piv : Point) : List Point → Prop
  | [] => False
  | [b] => b = piv
  | a :: b :: rest => StkOk piv (b :: rest) ∧ (rest ≠ [] → 0 < cross piv b a)

theorem StkOk_nil_iff (piv : Point) : StkOk piv [] ↔ False := Iff.rfl

theorem StkOk_single_iff (piv b : Point) : StkOk piv [b] ↔ b = piv := Iff.rfl

theorem StkOk_cons₂_iff (piv a b : Point) (rest : List Point) :
    StkOk piv (a :: b :: rest) ↔
      (StkOk piv (b :: rest) ∧ (rest ≠ [] → 0 < cross piv b a)) := Iff.rfl

theorem stkOk_piv_mem {piv : Point} :
    ∀ {St : List Point}, StkOk piv St → piv ∈ St := by
  intro St
  induction St with
  | nil => intro h; exact h.elim
  | cons a rest ih =>
    intro h
    cases rest with
    | nil =>
      rw [StkOk_single_iff] at h
      rw [h]
      exact List.mem_cons_self _ _
    | cons b rest2 =>
      rw [StkOk_cons₂_iff] at h
      exact List.mem_cons_of_mem _ (ih h.1)

theorem scanStep_nil (p : Point) : scanStep p [] = [p] := rfl

theorem scanStep_single (p t : Point) : scanStep p [t] = [p, t] := rfl

theorem scanStep_cons₂ (p t prev : Point) (rest : List Point) :
    scanStep p (t :: prev :: rest) =
      if cross prev t p ≤ 0 then scanStep p (prev :: rest)
      else p :: t :: prev :: rest := rfl

theorem mem_dropLast_cons₂ {t prev : Point} {rest : List Point} {x : Point}
    (h : x ∈ (prev :: rest).dropLast) : x ∈ (t :: prev :: rest).dropLast := by
  rw [List.dropLast_cons₂]
  exact List.mem_cons_of_mem _ h

theorem seg_dest_pt {piv p t : Point} (h : pv t ∈ segment ℚ (pv piv) (pv p)) :
    ∃ a b : ℚ, 0 ≤ a ∧ 0 ≤ b ∧ a + b = 1 ∧
      a * piv.x + b * p.x = t.x ∧ a * piv.y + b * p.y = t.y := by
  obtain ⟨a, b, ha, hb, hab, hx, hy⟩ := seg_dest h
  exact ⟨a, b, ha, hb, hab, hx, hy⟩

/-- One step of the Graham scan: pops are covered by the hull of the new
stack, the new stack is the processed point over a suffix of the old one,
and the stack invariant is preserved. -/
theorem scanStep_spec (piv p : Point) (hp : UHp piv p) :
    ∀ (St : List Point), StkOk piv St →
      (∀ q ∈ St, UHp piv q) →
      (∀ q ∈ St.dropLast, angleDistLe piv q p = true) →
      (∃ suf, suf.IsSuffix St ∧ suf ≠ [] ∧ scanStep p St = p :: suf) ∧
      StkOk piv (scanStep p St) ∧
      (∀ q ∈ St, pv q ∈ convexHull ℚ (ptSet (scanStep p St))) := by
  intro St
  induction St with
  | nil =>
    intro hOk _ _
    exact hOk.elim
  | cons t St' ih =>
    intro hOk hUH hsorted
    cases St' with
    | nil =>
      rw [StkOk_single_iff] at hOk
      rw [scanStep_single]
      refine ⟨⟨[t], List.suffix_refl _, by simp, rfl⟩, ?_, ?_⟩
      · rw [StkOk_cons₂_iff]
        exact ⟨by rw [StkOk_single_iff]; exact hOk, fun h => absurd rfl h⟩
      · intro q hq
        have hq2 : q = t := by simpa using hq
        rw [hq2]
        exact subset_convexHull ℚ _ (pv_mem_ptSet (by simp))
    | cons prev rest =>
      rw [StkOk_cons₂_iff] at hOk
      have htmem : t ∈ (t :: prev :: rest).dropLast := by
        rw [List.dropLast_cons₂]
        exact List.mem_cons_self _ _
      have hlet : angleDistLe piv t p = true := hsorted t htmem
      have hUHt : UHp piv t := hUH t (List.mem_cons_self _ _)
      by_cases hpop : cross prev t p ≤ 0
      · rw [scanStep_cons₂, if_pos hpop]
        obtain ⟨⟨suf, hsuf, hsufne, heq⟩, hOk', hconv⟩ := ih hOk.1
          (fun q hq => hUH q (List.mem_cons_of_mem _ hq))
          (fun q hq => hsorted q (mem_dropLast_cons₂ hq))
        have hpmem : pv p ∈ convexHull ℚ (ptSet (scanStep p (prev :: rest))) := by
          rw [heq]
          exact subset_convexHull ℚ _ (pv_mem_ptSet (List.mem_cons_self _ _))
        have hprevmem : pv prev ∈ convexHull ℚ (ptSet (scanStep p (prev :: rest))) :=
          hconv prev (List.mem_cons_self _ _)
        have hpivmem : pv piv ∈ convexHull ℚ (ptSet (scanStep p (prev :: rest))) :=
          hconv piv (stkOk_piv_mem hOk.1)
        refine ⟨⟨suf, hsuf.trans (List.suffix_cons _ _), hsufne, heq⟩, hOk', ?_⟩
        intro q hq
        rcases List.mem_cons.1 hq with hq2 | hq2
        · by_cases hrest : rest = []
          · have hprevpiv : prev = piv := by
              have h2 := hOk.1
              rw [hrest, StkOk_single_iff] at h2
              exact h2
            have hseg : pv t ∈ segment ℚ (pv piv) (pv p) := by
              apply pop_segment hUHt hp hlet
              rw [← hprevpiv]
              exact hpop
            rw [hq2]
            exact (convex_convexHull ℚ _).segment_subset hpivmem hpmem hseg
          · have hchain : 0 < cross piv prev t := hOk.2 hrest
            have hs2 : 0 ≤ cross piv t p := sorted_cross hUHt hp hlet
            have hs1 : 0 ≤ cross t prev p := by
              rw [cross_swap12]
              linarith
            have hD : 0 < cross piv prev p := by
              have hsum := cross_sum piv prev p t
              linarith
            have htri : pv t ∈ convexHull ℚ (ptSet [piv, prev, p]) :=
              mem_triangle hD hs1 hs2 hchain.le
            rw [hq2]
            refine convexHull_min ?_ (convex_convexHull ℚ _) htri
            rintro x ⟨v, hv, rfl⟩
            rcases List.mem_cons.1 hv with h1 | hv2
            · rw [h1]
              exact hpivmem
            · rcases List.mem_cons.1 hv2 with h1 | hv3
              · rw [h1]
                exact hprevmem
              · have h1 : v = p := by simpa using hv3
                rw [h1]
                exact hpmem
        · exact hconv q hq2
      · rw [scanStep_cons₂, if_neg hpop]
        push_neg at hpop
        have hcross : 0 < cross piv t p := by
          by_cases hrest : rest = []
          · have hprevpiv : prev = piv := by
              have h2 := hOk.1
              rw [hrest, StkOk_single_iff] at h2
              exact h2
            rw [← hprevpiv]
            exact hpop
          · have hchain : 0 < cross piv prev t := hOk.2 hrest
            have hs2 : 0 ≤ cross piv t p := sorted_cross hUHt hp hlet
            rcases lt_or_eq_of_le hs2 with h | h
            · exact h
            · exfalso
              have hseg : pv t ∈ segment ℚ (pv piv) (pv p) :=
                pop_segment hUHt hp hlet h.symm.le
              obtain ⟨a, b, ha, hb, hab, hx, hy⟩ := seg_dest_pt hseg
              have ht1x : t.x = piv.x + b * (p.x - piv.x) := by
                linear_combination (-1 : ℚ) * hx + piv.x * hab
              have ht2y : t.y = piv.y + b * (p.y - piv.y) := by
                linear_combination (-1 : ℚ) * hy + piv.y * hab
              have hKc : cross piv prev t = b * cross piv prev p := by
                unfold cross
                rw [ht1x, ht2y]
                ring
              have hEc : cross prev t p = (b - 1) * cross piv prev p := by
                unfold cross
                rw [ht1x, ht2y]
                ring
              have hble : b ≤ 1 := by linarith
              rw [hKc] at hchain
              rw [hEc] at hpop
              nlinarith [mul_pos hchain hpop,
                mul_nonneg (mul_nonneg hb (by linarith : (0 : ℚ) ≤ 1 - b))
                  (sq_nonneg (cross piv prev p))]
        refine ⟨⟨t :: prev :: rest, List.suffix_refl _, by simp, rfl⟩, ?_, ?_⟩
        · rw [StkOk_cons₂_iff]
          exact ⟨by rw [StkOk_cons₂_iff]; exact hOk, fun _ => hcross⟩
        · intro q hq
          exact subset_convexHull ℚ _ (pv_mem_ptSet (List.mem_cons_of_mem _ hq))

theorem mem_dropLast_of_suffix {suf St : List Point} (h : suf.IsSuffix St)
    (hne : suf ≠ []) {x : Point} (hx : x ∈ suf.dropLast) : x ∈ St.dropLast := by
  obtain ⟨pre, hpre⟩ := h
  rw [← hpre, List.dropLast_append_of_ne_nil pre hne]
  exact List.mem_append.2 (Or.inr hx)

/-- The full scan loop: the resulting stack satisfies the invariant, all its
elements come from the initial stack or the processed points, and every
initial-stack element and every processed point lies in the convex hull of
the final stack's point set. -/
theorem scanFold_spec (piv : Point) :
    ∀ (todo : List Point) (St : List Point),
      StkOk piv St →
      (∀ q ∈ St, UHp piv q) →
      (∀ r ∈ todo, UHp piv r) →
      List.Pairwise (fun a b => angleDistLe piv a b = true) todo →
      (∀ q ∈ St.dropLast, ∀ r ∈ todo, angleDistLe piv q r = true) →
      StkOk piv (todo.foldl (fun st q => scanStep q st) St) ∧
      (∀ q ∈ todo.foldl (fun st q => scanStep q st) St, q ∈ St ∨ q ∈ todo) ∧
      (∀ q ∈ St, pv q ∈
        convexHull ℚ (ptSet (todo.foldl (fun st q => scanStep q st) St))) ∧
      (∀ r ∈ todo, pv r ∈
        convexHull ℚ (ptSet (todo.foldl (fun st q => scanStep q st) St))) := by
  intro todo
  induction todo with
  | nil =>
    intro St hOk hUH _ _ _
    rw [List.foldl_nil]
    exact ⟨hOk, fun q hq => Or.inl hq,
      fun q hq => subset_convexHull ℚ _ (pv_mem_ptSet hq),
      fun r hr => absurd hr (List.not_mem_nil r)⟩
  | cons p todo' ih =>
    intro St hOk hUH htodoUH hpair hsq
    rw [List.foldl_cons]
    have hpUH : UHp piv p := htodoUH p (List.mem_cons_self _ _)
    obtain ⟨⟨suf, hsuf, hsufne, heq⟩, hOk', hconv⟩ := scanStep_spec piv p hpUH St hOk
      hUH (fun q hq => hsq q hq p (List.mem_cons_self _ _))
    rw [List.pairwise_cons] at hpair
    obtain ⟨hphead, hpair'⟩ := hpair
    have hsub' : ∀ q ∈ scanStep p St, q = p ∨ q ∈ St := by
      intro q hq
      rw [heq] at hq
      rcases List.mem_cons.1 hq with h | h
      · exact Or.inl h
      · exact Or.inr (hsuf.subset h)
    obtain ⟨ihOk, ihmem, ihSt, ihtodo⟩ := ih (scanStep p St) hOk'
      (fun q hq => by
        rcases hsub' q hq with h | h
        · rw [h]
          exact hpUH
        · exact hUH q h)
      (fun r hr => htodoUH r (List.mem_cons_of_mem _ hr))
      hpair'
      (fun q hq r hr => by
        rw [heq] at hq
        have hq2 : q = p ∨ q ∈ suf.dropLast := by
          cases suf with
          | nil => exact absurd rfl hsufne
          | cons s0 s2 =>
            rw [List.dropLast_cons₂] at hq
            exact List.mem_cons.1 hq
        rcases hq2 with h | h
        · rw [h]
          exact hphead r hr
        · exact hsq q (mem_dropLast_of_suffix hsuf hsufne h) r
            (List.mem_cons_of_mem _ hr))
    refine ⟨ihOk, ?_, ?_, ?_⟩
    · intro q hq
      rcases ihmem q hq with h | h
      · rcases hsub' q h with h2 | h2
        · exact Or.inr (by rw [h2]; exact List.mem_cons_self _ _)
        · exact Or.inl h2
      · exact Or.inr (List.mem_cons_of_mem _ h)
    · intro q hq
      have h1 : pv q ∈ convexHull ℚ (ptSet (scanStep p St)) := hconv q hq
      have h2 : ptSet (scanStep p St) ⊆
          convexHull ℚ (ptSet (todo'.foldl (fun st q => scanStep q st)
            (scanStep p St))) := by
        rintro x ⟨v, hv, rfl⟩
        exact ihSt v hv
      exact convexHull_min h2 (convex_convexHull ℚ _) h1
    · intro r hr
      rcases List.mem_cons.1 hr with h | h
      · rw [h]
        exact ihSt p (by rw [heq]; exact List.mem_cons_self _ _)
      · exact ihtodo r h

theorem ptSet_single (a : Point) : ptSet [a] = {pv a} := by
  ext q
  constructor
  · rintro ⟨v, hv, rfl⟩
    have : v = a := by simpa using hv
    rw [this]
    rfl
  · intro h
    exact ⟨a, List.mem_cons_self _ _, h⟩

theorem StkOk_triple {piv : Point} {St : List Point} (hOk : StkOk piv St)
    (hlen : 3 ≤ St.length) :
    ∃ s1 ∈ St, ∃ s2 ∈ St, 0 < cross piv s1 s2 := by
  cases St with
  | nil => exact hOk.elim
  | cons a St' =>
    cases St' with
    | nil => simp at hlen
    | cons b rest =>
      rw [StkOk_cons₂_iff] at hOk
      have hne : rest ≠ [] := by
        intro h
        rw [h] at hlen
        simp at hlen
      exact ⟨b, List.mem_cons_of_mem _ (List.mem_cons_self _ _),
        a, List.mem_cons_self _ _, hOk.2 hne⟩

theorem grahamScan_lt3 {points : List Point} (h : points.length < 3) :
    grahamScan points = points := by
  unfold grahamScan
  rw [if_pos h]

theorem grahamScan_eq_fold {points : List Point} (h : ¬ points.length < 3) :
    grahamScan points =
      ((sortStable (angleDistLe (pivotFold points))
          (points.erase (pivotFold points))).foldl
        (fun st p => scanStep p st) [pivotFold points]).reverse := by
  simp only [grahamScan]
  rw [if_neg h]

/-- The scan-fold facts instantiated at the actual inputs of `grahamScan`. -/
theorem grahamScan_fold_facts (points : List Point) (h3 : ¬ points.length < 3) :
    StkOk (pivotFold points)
      ((sortStable (angleDistLe (pivotFold points))
          (points.erase (pivotFold points))).foldl
        (fun st p => scanStep p st) [pivotFold points]) ∧
    (∀ q ∈ (sortStable (angleDistLe (pivotFold points))
          (points.erase (pivotFold points))).foldl
        (fun st p => scanStep p st) [pivotFold points], q ∈ points) ∧
    (∀ q ∈ points, pv q ∈ convexHull ℚ (ptSet
      ((sortStable (angleDistLe (pivotFold points))
          (points.erase (pivotFold points))).foldl
        (fun st p => scanStep p st) [pivotFold points]))) := by
  have hne : points ≠ [] := by
    intro h
    rw [h] at h3
    simp at h3
  have hpivmem : pivotFold points ∈ points := pivotFold_mem hne
  have hUHall : ∀ q ∈ points, UHp (pivotFold points) q :=
    fun q hq => pivotFold_min q hq
  have hperm := sortStable_perm (angleDistLe (pivotFold points))
    (points.erase (pivotFold points))
  have hpair := sortStable_pairwise (angleDistLe (pivotFold points))
    (fun a b => angleDistLe_total (pivotFold points) a b)
    (fun a b c h1 h2 => angleDistLe_trans h1 h2)
    (points.erase (pivotFold points))
  have hUHsorted : ∀ r ∈ sortStable (angleDistLe (pivotFold points))
      (points.erase (pivotFold points)), UHp (pivotFold points) r :=
    fun r hr => hUHall r (List.mem_of_mem_erase (hperm.mem_iff.1 hr))
  obtain ⟨hOkF, hmemF, hStF, htodoF⟩ := scanFold_spec (pivotFold points)
    (sortStable (angleDistLe (pivotFold points)) (points.erase (pivotFold points)))
    [pivotFold points]
    (by rw [StkOk_single_iff])
    (by
      intro q hq
      have hq2 : q = pivotFold points := by simpa using hq
      rw [hq2]
      exact UHp_refl _)
    hUHsorted hpair
    (by
      intro q hq
      exact absurd hq (by simp))
  refine ⟨hOkF, ?_, ?_⟩
  · intro q hq
    rcases hmemF q hq with h | h
    · have hq2 : q = pivotFold points := by simpa using h
      rw [hq2]
      exact hpivmem
    · exact List.mem_of_mem_erase (hperm.mem_iff.1 h)
  · intro q hq
    by_cases hqp : q = pivotFold points
    · rw [hqp]
      exact hStF _ (by simp)
    · have hqe : q ∈ points.erase (pivotFold points) :=
        (List.mem_erase_of_ne hqp).2 hq
      exact htodoF q (hperm.mem_iff.2 hqe)

theorem grahamScan_containment (points : List Point) :
    ∀ q ∈ points, pv q ∈ convexHull ℚ (ptSet (grahamScan points)) := by
  by_cases h3 : points.length < 3
  · intro q hq
    rw [grahamScan_lt3 h3]
    exact subset_convexHull ℚ _ (pv_mem_ptSet hq)
  · intro q hq
    rw [grahamScan_eq_fold h3, ptSet_reverse]
    exact (grahamScan_fold_facts points h3).2.2 q hq

theorem grahamScan_subset (points : List Point) :
    ∀ q ∈ grahamScan points, q ∈ points := by
  by_cases h3 : points.length < 3
  · rw [grahamScan_lt3 h3]
    exact fun q hq => hq
  · rw [grahamScan_eq_fold h3]
    intro q hq
    exact (grahamScan_fold_facts points h3).2.1 q (by simpa using hq)

theorem grahamScan_triple {points : List Point}
    (hlen : 3 ≤ (grahamScan points).length) :
    ∃ a ∈ points, ∃ b ∈ points, ∃ c ∈ points, 0 < cross a b c := by
  by_cases h3 : points.length < 3
  · rw [grahamScan_lt3 h3] at hlen
    omega
  · have hne : points ≠ [] := by
      intro h
      rw [h] at h3
      simp at h3
    obtain ⟨hOkF, hsubF, _⟩ := grahamScan_fold_facts points h3
    rw [grahamScan_eq_fold h3] at hlen
    rw [List.length_reverse] at hlen
    obtain ⟨s1, hs1, s2, hs2, hcr⟩ := StkOk_triple hOkF hlen
    exact ⟨pivotFold points, pivotFold_mem hne, s1, hsubF s1 hs1, s2,
      hsubF s2 hs2, hcr⟩

theorem sum_map_sub_const (f : Point → ℚ) (k : ℚ) :
    ∀ l : List Point,
      (l.map (fun q => f q - k)).sum = (l.map f).sum - l.length * k := by
  intro l
  induction l with
  | nil => simp
  | cons q rest ih =>
    simp only [List.map_cons, List.sum_cons, List.length_cons, ih]
    push_cast
    ring

/-- Aggregating, over a list of points, decompositions `q = t·c + (1-t)·z`
with `z` in a convex hull, into a single such decomposition for the sum of
displacements from `c`. -/
theorem combo_aux (s : Set (ℚ × ℚ)) (hs : s.Nonempty) (c : Point) :
    ∀ (pts : List Point),
      (∀ q ∈ pts, pv q ∈ convexHull ℚ (insert (pv c) s)) →
      ∃ T : ℚ, ∃ z : ℚ × ℚ, 0 ≤ T ∧ z ∈ convexHull ℚ s ∧
        (pts.map (fun q => q.x - c.x)).sum = T * (z.1 - c.x) ∧
        (pts.map (fun q => q.y - c.y)).sum = T * (z.2 - c.y) ∧
        (T = 0 → ∀ q ∈ pts, pv q = pv c) := by
  intro pts
  induction pts with
  | nil =>
    intro _
    obtain ⟨z0, hz0⟩ := hs
    exact ⟨0, z0, le_refl _, subset_convexHull ℚ _ hz0, by simp, by simp,
      fun _ q hq => absurd hq (List.not_mem_nil q)⟩
  | cons q rest ih =>
    intro hall
    have hq := hall q (List.mem_cons_self _ _)
    rw [convexHull_insert hs, mem_convexJoin] at hq
    obtain ⟨a0, ha0, zq, hzq, hseg⟩ := hq
    have ha0c : a0 = pv c := by simpa using ha0
    rw [ha0c] at hseg
    obtain ⟨aw, bw, haw, hbw, habw, hxw, hyw⟩ := seg_dest hseg
    have hqx : q.x - c.x = bw * (zq.1 - c.x) := by
      have h1 : aw * c.x + bw * zq.1 = q.x := hxw
      linear_combination (-1 : ℚ) * h1 + c.x * habw
    have hqy : q.y - c.y = bw * (zq.2 - c.y) := by
      have h1 : aw * c.y + bw * zq.2 = q.y := hyw
      linear_combination (-1 : ℚ) * h1 + c.y * habw
    obtain ⟨T', z', hT', hz', hsx, hsy, hT0⟩ :=
      ih (fun r hr => hall r (List.mem_cons_of_mem _ hr))
    by_cases hbw0 : bw = 0
    · refine ⟨T', z', hT', hz', ?_, ?_, ?_⟩
      · simp only [List.map_cons, List.sum_cons]
        rw [hqx, hbw0, hsx]
        ring
      · simp only [List.map_cons, List.sum_cons]
        rw [hqy, hbw0, hsy]
        ring
      · intro hT q2 hq2
        rcases List.mem_cons.1 hq2 with h | h
        · rw [h]
          have h1 : q.x = c.x := by
            rw [hbw0] at hqx
            linarith
          have h2 : q.y = c.y := by
            rw [hbw0] at hqy
            linarith
          simp only [pv, Prod.mk.injEq]
          exact ⟨h1, h2⟩
        · exact hT0 hT q2 h
    · have hbwpos : 0 < bw := lt_of_le_of_ne hbw (Ne.symm hbw0)
      by_cases hT'0 : T' = 0
      · refine ⟨bw, zq, hbw, hzq, ?_, ?_, ?_⟩
        · simp only [List.map_cons, List.sum_cons]
          rw [hqx, hsx, hT'0]
          ring
        · simp only [List.map_cons, List.sum_cons]
          rw [hqy, hsy, hT'0]
          ring
        · intro hT
          exact absurd hT hbw0
      · have hT'pos : 0 < T' := lt_of_le_of_ne hT' (Ne.symm hT'0)
        have hTpos : 0 < bw + T' := by linarith
        have hTne : bw + T' ≠ 0 := ne_of_gt hTpos
        have hzmem : (bw / (bw + T')) • zq + (T' / (bw + T')) • z' ∈
            convexHull ℚ s :=
          (convex_convexHull ℚ s) hzq hz'
            (div_nonneg hbw hTpos.le) (div_nonneg hT' hTpos.le)
            (by field_simp)
        refine ⟨bw + T', (bw / (bw + T')) • zq + (T' / (bw + T')) • z',
          hTpos.le, hzmem, ?_, ?_, fun hT => absurd hT hTne⟩
        · simp only [List.map_cons, List.sum_cons]
          rw [hqx, hsx]
          have hfst : ((bw / (bw + T')) • zq + (T' / (bw + T')) • z').1 =
              bw / (bw + T') * zq.1 + T' / (bw + T') * z'.1 := rfl
          rw [hfst]
          field_simp
          ring
        · simp only [List.map_cons, List.sum_cons]
          rw [hqy, hsy]
          have hsnd : ((bw / (bw + T')) • zq + (T' / (bw + T')) • z').2 =
              bw / (bw + T') * zq.2 + T' / (bw + T') * z'.2 := rfl
          rw [hsnd]
          field_simp
          ring

/-- The centroid of a list of points, each lying in the join of `{c}` and a
convex hull, lies in that hull itself provided some point differs from the
centroid. -/
theorem centroid_in_hull (s : Set (ℚ × ℚ)) (hs : s.Nonempty) (c : Point)
    (pts : List Point)
    (hall : ∀ q ∈ pts, pv q ∈ convexHull ℚ (insert (pv c) s))
    (hcx : (pts.map Point.x).sum = (pts.length : ℚ) * c.x)
    (hcy : (pts.map Point.y).sum = (pts.length : ℚ) * c.y)
    (hex : ∃ q ∈ pts, pv q ≠ pv c) :
    pv c ∈ convexHull ℚ s := by
  obtain ⟨T, z, hT, hz, hsx, hsy, hT0⟩ := combo_aux s hs c pts hall
  have hzx : (pts.map (fun q => q.x - c.x)).sum = 0 := by
    rw [sum_map_sub_const Point.x c.x pts, hcx]
    ring
  have hzy : (pts.map (fun q => q.y - c.y)).sum = 0 := by
    rw [sum_map_sub_const Point.y c.y pts, hcy]
    ring
  by_cases hT00 : T = 0
  · obtain ⟨q, hq, hqne⟩ := hex
    exact absurd (hT0 hT00 q hq) hqne
  · have hTpos : 0 < T := lt_of_le_of_ne hT (Ne.symm hT00)
    have hz1 : z.1 = c.x := by
      rw [hzx] at hsx
      have := hsx.symm
      rcases mul_eq_zero.1 this with h | h
      · exact absurd h hT00
      · linarith
    have hz2 : z.2 = c.y := by
      rw [hzy] at hsy
      have := hsy.symm
      rcases mul_eq_zero.1 this with h | h
      · exact absurd h hT00
      · linarith
    have : pv c = z := by
      simp only [pv]
      rw [← hz1, ← hz2]
    rw [this]
    exact hz

/-- The image of one point under `expandHull`. -/
def expand1 (sqrtF : ℚ → ℚ) (center : Point) (padding : ℚ) (p : Point) : Point :=
  let dx := p.x - center.x
  let dy := p.y - center.y
  let dist := sqrtF (dx * dx + dy * dy)
  if dist = 0 then ⟨p.x + padding, p.y⟩
  else
    let scale := (dist + padding) / dist
    ⟨center.x + dx * scale, center.y + dy * scale⟩

theorem expandHull_eq_map (sqrtF : ℚ → ℚ) (points : List Point) (center : Point)
    (padding : ℚ) :
    expandHull sqrtF points center padding =
      points.map (expand1 sqrtF center padding) := rfl

theorem expand1_eq (sqrtF : ℚ → ℚ) (center : Point) (padding : ℚ) (p : Point) :
    expand1 sqrtF center padding p =
      if sqrtF ((p.x - center.x) * (p.x - center.x) +
          (p.y - center.y) * (p.y - center.y)) = 0
      then ⟨p.x + padding, p.y⟩
      else ⟨center.x + (p.x - center.x) *
          ((sqrtF ((p.x - center.x) * (p.x - center.x) +
              (p.y - center.y) * (p.y - center.y)) + padding) /
            sqrtF ((p.x - center.x) * (p.x - center.x) +
              (p.y - center.y) * (p.y - center.y))),
        center.y + (p.y - center.y) *
          ((sqrtF ((p.x - center.x) * (p.x - center.x) +
              (p.y - center.y) * (p.y - center.y)) + padding) /
            sqrtF ((p.x - center.x) * (p.x - center.x) +
              (p.y - center.y) * (p.y - center.y)))⟩ := rfl

theorem expand1_x_of_ne (sqrtF : ℚ → ℚ) (center : Point) (padding : ℚ)
    (p : Point) (h : sqrtF ((p.x - center.x) * (p.x - center.x) +
      (p.y - center.y) * (p.y - center.y)) ≠ 0) :
    (expand1 sqrtF center padding p).x = center.x + (p.x - center.x) *
      ((sqrtF ((p.x - center.x) * (p.x - center.x) +
          (p.y - center.y) * (p.y - center.y)) + padding) /
        sqrtF ((p.x - center.x) * (p.x - center.x) +
          (p.y - center.y) * (p.y - center.y))) := by
  rw [expand1_eq, if_neg h]

theorem expand1_y_of_ne (sqrtF : ℚ → ℚ) (center : Point) (padding : ℚ)
    (p : Point) (h : sqrtF ((p.x - center.x) * (p.x - center.x) +
      (p.y - center.y) * (p.y - center.y)) ≠ 0) :
    (expand1 sqrtF center padding p).y = center.y + (p.y - center.y) *
      ((sqrtF ((p.x - center.x) * (p.x - center.x) +
          (p.y - center.y) * (p.y - center.y)) + padding) /
        sqrtF ((p.x - center.x) * (p.x - center.x) +
          (p.y - center.y) * (p.y - center.y))) := by
  rw [expand1_eq, if_neg h]

theorem expand1_center {sqrtF : ℚ → ℚ} (hs0 : sqrtF 0 = 0) (center : Point)
    (p : Point) (hp : pv p = pv center) (padding : ℚ) :
    expand1 sqrtF center padding p = ⟨p.x + padding, p.y⟩ := by
  have hx : p.x = center.x := congrArg Prod.fst hp
  have hy : p.y = center.y := congrArg Prod.snd hp
  rw [expand1_eq]
  have harg : (p.x - center.x) * (p.x - center.x) +
      (p.y - center.y) * (p.y - center.y) = 0 := by
    rw [hx, hy]
    ring
  rw [harg, hs0, if_pos rfl]

theorem expand1_scale {sqrtF : ℚ → ℚ} (hs1 : ∀ q, 0 ≤ sqrtF q)
    (hs2 : ∀ q, 0 < q → 0 < sqrtF q) (center : Point) (padding : ℚ)
    (hpad : 0 ≤ padding) (p : Point) (hp : pv p ≠ pv center) :
    ∃ lam : ℚ, 1 ≤ lam ∧
      (expand1 sqrtF center padding p).x = center.x + (p.x - center.x) * lam ∧
      (expand1 sqrtF center padding p).y = center.y + (p.y - center.y) * lam := by
  have hargpos : 0 < (p.x - center.x) * (p.x - center.x) +
      (p.y - center.y) * (p.y - center.y) := by
    rcases lt_trichotomy (p.x - center.x) 0 with h | h | h
    · nlinarith [mul_self_nonneg (p.y - center.y)]
    · have hyne : p.y - center.y ≠ 0 := by
        intro hc
        apply hp
        simp only [pv, Prod.mk.injEq]
        constructor <;> linarith
      rcases lt_or_gt_of_ne hyne with h2 | h2
      · nlinarith [mul_self_nonneg (p.x - center.x)]
      · nlinarith [mul_self_nonneg (p.x - center.x)]
    · nlinarith [mul_self_nonneg (p.y - center.y)]
  have hdistpos : 0 < sqrtF ((p.x - center.x) * (p.x - center.x) +
      (p.y - center.y) * (p.y - center.y)) := hs2 _ hargpos
  have hdne : sqrtF ((p.x - center.x) * (p.x - center.x) +
      (p.y - center.y) * (p.y - center.y)) ≠ 0 := ne_of_gt hdistpos
  refine ⟨(sqrtF ((p.x - center.x) * (p.x - center.x) +
      (p.y - center.y) * (p.y - center.y)) + padding) /
    sqrtF ((p.x - center.x) * (p.x - center.x) +
      (p.y - center.y) * (p.y - center.y)), ?_, ?_, ?_⟩
  · rw [le_div_iff hdistpos]
    linarith
  · exact expand1_x_of_ne sqrtF center padding p hdne
  · exact expand1_y_of_ne sqrtF center padding p hdne

theorem midpoint_mem {V : List Point} {a b : Point} (ha : a ∈ V) (hb : b ∈ V)
    {m : Point} (hmx : m.x * 2 = a.x + b.x) (hmy : m.y * 2 = a.y + b.y) :
    pv m ∈ convexHull ℚ (ptSet V) := by
  have hseg : pv m ∈ segment ℚ (pv a) (pv b) := by
    refine seg_mk (a := 1 / 2) (b := 1 / 2) (by norm_num) (by norm_num)
      (by norm_num) ?_ ?_
    · show 1 / 2 * a.x + 1 / 2 * b.x = m.x
      linarith
    · show 1 / 2 * a.y + 1 / 2 * b.y = m.y
      linarith
  exact (convex_convexHull ℚ _).segment_subset
    (subset_convexHull ℚ _ (pv_mem_ptSet ha))
    (subset_convexHull ℚ _ (pv_mem_ptSet hb)) hseg

/-- Symmetric pair of vertices around the center: their expanded images
average back to the center. -/
theorem expand1_sym_mid {sqrtF : ℚ → ℚ} (hs2 : ∀ q, 0 < q → 0 < sqrtF q)
    (center : Point) (padding : ℚ) (u v : Point)
    (hx : u.x - center.x = -(v.x - center.x))
    (hy : u.y - center.y = -(v.y - center.y))
    (hpos : 0 < (v.x - center.x) * (v.x - center.x) +
      (v.y - center.y) * (v.y - center.y)) :
    (expand1 sqrtF center padding u).x + (expand1 sqrtF center padding v).x =
      2 * center.x ∧
    (expand1 sqrtF center padding u).y + (expand1 sqrtF center padding v).y =
      2 * center.y := by
  have harg : (u.x - center.x) * (u.x - center.x) +
      (u.y - center.y) * (u.y - center.y) =
      (v.x - center.x) * (v.x - center.x) +
      (v.y - center.y) * (v.y - center.y) := by
    rw [hx, hy]
    ring
  have hdv : 0 < sqrtF ((v.x - center.x) * (v.x - center.x) +
      (v.y - center.y) * (v.y - center.y)) := hs2 _ hpos
  have hdu : sqrtF ((u.x - center.x) * (u.x - center.x) +
      (u.y - center.y) * (u.y - center.y)) =
      sqrtF ((v.x - center.x) * (v.x - center.x) +
      (v.y - center.y) * (v.y - center.y)) := by rw [harg]
  have hdune : sqrtF ((u.x - center.x) * (u.x - center.x) +
      (u.y - center.y) * (u.y - center.y)) ≠ 0 := by
    rw [hdu]
    exact ne_of_gt hdv
  constructor
  · rw [expand1_x_of_ne sqrtF center padding u hdune,
      expand1_x_of_ne sqrtF center padding v (ne_of_gt hdv), hdu, hx]
    ring
  · rw [expand1_y_of_ne sqrtF center padding u hdune,
      expand1_y_of_ne sqrtF center padding v (ne_of_gt hdv), hdu, hy]
    ring

/-- Every hull vertex lies in the hull of the center together with the
expanded vertex set. -/
theorem expand_vertex_mem {sqrtF : ℚ → ℚ} (hs0 : sqrtF 0 = 0)
    (hs1 : ∀ q, 0 ≤ sqrtF q) (hs2 : ∀ q, 0 < q → 0 < sqrtF q) (center : Point)
    (padding : ℚ) (hpad : 0 ≤ padding) (V : List Point) (v : Point) (hv : v ∈ V) :
    pv v ∈ convexHull ℚ
      (insert (pv center) (ptSet (expandHull sqrtF V center padding))) := by
  by_cases hvc : pv v = pv center
  · rw [hvc]
    exact subset_convexHull ℚ _ (Set.mem_insert _ _)
  · obtain ⟨lam, hlam, hwx, hwy⟩ := expand1_scale hs1 hs2 center padding hpad v hvc
    have hlamne : lam ≠ 0 := by
      intro h
      rw [h] at hlam
      norm_num at hlam
    have hwmem : expand1 sqrtF center padding v ∈ expandHull sqrtF V center padding := by
      rw [expandHull_eq_map]
      exact List.mem_map.2 ⟨v, hv, rfl⟩
    have hseg : pv v ∈ segment ℚ (pv center) (pv (expand1 sqrtF center padding v)) := by
      refine seg_mk (a := 1 - 1 / lam) (b := 1 / lam) ?_ ?_ (by ring) ?_ ?_
      · have h1 : 1 / lam ≤ 1 := by
          rw [div_le_one (by linarith)]
          exact hlam
        linarith
      · positivity
      · show (1 - 1 / lam) * center.x + 1 / lam * (expand1 sqrtF center padding v).x =
          v.x
        rw [hwx]
        field_simp
        ring
      · show (1 - 1 / lam) * center.y + 1 / lam * (expand1 sqrtF center padding v).y =
          v.y
        rw [hwy]
        field_simp
        ring
    exact (convex_convexHull ℚ _).segment_subset
      (subset_convexHull ℚ _ (Set.mem_insert _ _))
      (subset_convexHull ℚ _ (Set.mem_insert_of_mem _ (pv_mem_ptSet hwmem))) hseg

/-- If the center itself lies in the hull of the expanded set, the hull of
the original vertex set is contained in the hull of the expanded set. -/
theorem expandHull_spec {sqrtF : ℚ → ℚ} (hs0 : sqrtF 0 = 0)
    (hs1 : ∀ q, 0 ≤ sqrtF q) (hs2 : ∀ q, 0 < q → 0 < sqrtF q) (center : Point)
    (padding : ℚ) (hpad : 0 ≤ padding) (V : List Point)
    (hcm : pv center ∈ convexHull ℚ (ptSet (expandHull sqrtF V center padding))) :
    convexHull ℚ (ptSet V) ⊆
      convexHull ℚ (ptSet (expandHull sqrtF V center padding)) := by
  refine convexHull_min ?_ (convex_convexHull ℚ _)
  rintro x ⟨v, hv, rfl⟩
  by_cases hvc : pv v = pv center
  · rw [hvc]
    exact hcm
  · obtain ⟨lam, hlam, hwx, hwy⟩ := expand1_scale hs1 hs2 center padding hpad v hvc
    have hlamne : lam ≠ 0 := by
      intro h
      rw [h] at hlam
      norm_num at hlam
    have hwmem : expand1 sqrtF center padding v ∈ expandHull sqrtF V center padding := by
      rw [expandHull_eq_map]
      exact List.mem_map.2 ⟨v, hv, rfl⟩
    have hseg : pv v ∈ segment ℚ (pv center) (pv (expand1 sqrtF center padding v)) := by
      refine seg_mk (a := 1 - 1 / lam) (b := 1 / lam) ?_ ?_ (by ring) ?_ ?_
      · have h1 : 1 / lam ≤ 1 := by
          rw [div_le_one (by linarith)]
          exact hlam
        linarith
      · positivity
      · show (1 - 1 / lam) * center.x + 1 / lam * (expand1 sqrtF center padding v).x =
          v.x
        rw [hwx]
        field_simp
        ring
      · show (1 - 1 / lam) * center.y + 1 / lam * (expand1 sqrtF center padding v).y =
          v.y
        rw [hwy]
        field_simp
        ring
    exact (convex_convexHull ℚ _).segment_subset hcm
      (subset_convexHull ℚ _ (pv_mem_ptSet hwmem)) hseg

theorem ptSet_nil : ptSet [] = (∅ : Set (ℚ × ℚ)) := by
  ext q
  constructor
  · rintro ⟨v, hv, rfl⟩
    exact absurd hv (List.not_mem_nil v)
  · intro h
    exact h.elim

theorem ensure_ge3 {sqrtF : ℚ → ℚ} {pts : List Point} {pad : ℚ}
    (h : 3 ≤ pts.length) : ensureHullVolume sqrtF pts pad = pts := by
  unfold ensureHullVolume
  rw [if_pos h]

theorem ensure_single (sqrtF : ℚ → ℚ) (p : Point) (pad : ℚ) :
    ensureHullVolume sqrtF [p] pad =
      [⟨p.x - pad, p.y - pad⟩, ⟨p.x + pad, p.y - pad⟩,
       ⟨p.x + pad, p.y + pad⟩, ⟨p.x - pad, p.y + pad⟩] := rfl

theorem ensure_pair (sqrtF : ℚ → ℚ) (p1 p2 : Point) (pad : ℚ) :
    ∃ ex ey : ℚ, ensureHullVolume sqrtF [p1, p2] pad =
      [⟨p1.x + ex, p1.y + ey⟩, ⟨p2.x + ex, p2.y + ey⟩,
       ⟨p2.x - ex, p2.y - ey⟩, ⟨p1.x - ex, p1.y - ey⟩] ∧
      (pv p1 = pv p2 → sqrtF 0 = 0 → ex = pad ∧ ey = 0) := by
  refine ⟨if 0 < sqrtF ((p2.x - p1.x) * (p2.x - p1.x) +
      (p2.y - p1.y) * (p2.y - p1.y))
    then (-(p2.y - p1.y) / sqrtF ((p2.x - p1.x) * (p2.x - p1.x) +
      (p2.y - p1.y) * (p2.y - p1.y))) * pad else pad,
    if 0 < sqrtF ((p2.x - p1.x) * (p2.x - p1.x) +
      (p2.y - p1.y) * (p2.y - p1.y))
    then ((p2.x - p1.x) / sqrtF ((p2.x - p1.x) * (p2.x - p1.x) +
      (p2.y - p1.y) * (p2.y - p1.y))) * pad else 0, rfl, ?_⟩
  intro hpp hs0
  have hx : p1.x = p2.x := congrArg Prod.fst hpp
  have hy : p1.y = p2.y := congrArg Prod.snd hpp
  have harg : (p2.x - p1.x) * (p2.x - p1.x) + (p2.y - p1.y) * (p2.y - p1.y) = 0 := by
    rw [hx, hy]
    ring
  rw [harg, hs0]
  rw [if_neg (lt_irrefl 0), if_neg (lt_irrefl 0)]
  exact ⟨rfl, rfl⟩

/-- The full hull pipeline of `computePackageHulls` for one package: Graham
scan, degenerate-hull fallback, and padding expansion from the centroid.
Every input point lies in the convex hull of the final polygon's vertices. -/
theorem hullPipeline_spec (sqrtF : ℚ → ℚ) (hs0 : sqrtF 0 = 0)
    (hs1 : ∀ q, 0 ≤ sqrtF q) (hs2 : ∀ q, 0 < q → 0 < sqrtF q)
    (padding : ℚ) (hpad : 0 ≤ padding)
    (allPts : List Point) (hne : allPts ≠ []) (c : Point)
    (hcx : (allPts.map Point.x).sum = (allPts.length : ℚ) * c.x)
    (hcy : (allPts.map Point.y).sum = (allPts.length : ℚ) * c.y) :
    ∀ q ∈ allPts, pv q ∈ convexHull ℚ (ptSet
      (expandHull sqrtF (ensureHullVolume sqrtF (grahamScan allPts) padding) c
        padding)) := by
  have hVconv : ∀ q ∈ allPts, pv q ∈ convexHull ℚ
      (ptSet (ensureHullVolume sqrtF (grahamScan allPts) padding)) := by
    intro q hq
    have hgc := grahamScan_containment allPts q hq
    cases hH : grahamScan allPts with
    | nil =>
      rw [hH, ptSet_nil, convexHull_empty] at hgc
      exact hgc.elim
    | cons h1 H' =>
      cases H' with
      | nil =>
        rw [hH, ptSet_single, convexHull_singleton] at hgc
        rw [ensure_single]
        rw [hgc]
        exact midpoint_mem (a := ⟨h1.x - padding, h1.y - padding⟩)
          (b := ⟨h1.x + padding, h1.y + padding⟩) (by simp) (by simp)
          (by show h1.x * 2 = (h1.x - padding) + (h1.x + padding); ring)
          (by show h1.y * 2 = (h1.y - padding) + (h1.y + padding); ring)
      | cons h2 H'' =>
        cases H'' with
        | nil =>
          rw [hH] at hgc
          obtain ⟨ex, ey, hVeq, _⟩ := ensure_pair sqrtF h1 h2 padding
          rw [hVeq]
          refine convexHull_min ?_ (convex_convexHull ℚ _) hgc
          rintro x ⟨v, hv, rfl⟩
          rcases List.mem_cons.1 hv with h | hv2
          · rw [h]
            exact midpoint_mem (a := ⟨h1.x + ex, h1.y + ey⟩)
              (b := ⟨h1.x - ex, h1.y - ey⟩) (by simp) (by simp)
              (by show h1.x * 2 = (h1.x + ex) + (h1.x - ex); ring)
              (by show h1.y * 2 = (h1.y + ey) + (h1.y - ey); ring)
          · have h : v = h2 := by simpa using hv2
            rw [h]
            exact midpoint_mem (a := ⟨h2.x + ex, h2.y + ey⟩)
              (b := ⟨h2.x - ex, h2.y - ey⟩) (by simp) (by simp)
              (by show h2.x * 2 = (h2.x + ex) + (h2.x - ex); ring)
              (by show h2.y * 2 = (h2.y + ey) + (h2.y - ey); ring)
        | cons h3 H3 =>
          rw [ensure_ge3 (by simp)]
          rw [hH] at hgc
          exact hgc
  obtain ⟨q0, hq0⟩ : ∃ q0, q0 ∈ allPts := by
    cases allPts with
    | nil => exact absurd rfl hne
    | cons a rest => exact ⟨a, List.mem_cons_self _ _⟩
  have hVne : ensureHullVolume sqrtF (grahamScan allPts) padding ≠ [] := by
    intro hcontra
    have h1 := hVconv q0 hq0
    rw [hcontra, ptSet_nil, convexHull_empty] at h1
    exact h1.elim
  have hWlne : expandHull sqrtF
      (ensureHullVolume sqrtF (grahamScan allPts) padding) c padding ≠ [] := by
    rw [expandHull_eq_map]
    intro hc
    exact hVne (List.map_eq_nil.1 hc)
  have hWne : (ptSet (expandHull sqrtF
      (ensureHullVolume sqrtF (grahamScan allPts) padding) c padding)).Nonempty :=
    ptSet_nonempty hWlne
  have hcm : pv c ∈ convexHull ℚ (ptSet (expandHull sqrtF
      (ensureHullVolume sqrtF (grahamScan allPts) padding) c padding)) := by
    by_cases hex : ∃ q ∈ allPts, pv q ≠ pv c
    · refine centroid_in_hull _ hWne c allPts ?_ hcx hcy hex
      intro q hq
      refine convexHull_min ?_ (convex_convexHull ℚ _) (hVconv q hq)
      rintro x ⟨v, hv, rfl⟩
      exact expand_vertex_mem hs0 hs1 hs2 c padding hpad _ v hv
    · push_neg at hex
      cases hH : grahamScan allPts with
      | nil =>
        have h1 := grahamScan_containment allPts q0 hq0
        rw [hH, ptSet_nil, convexHull_empty] at h1
        exact h1.elim
      | cons h1 H' =>
        cases H' with
        | nil =>
          have hmem : h1 ∈ grahamScan allPts := by
            rw [hH]
            exact List.mem_cons_self _ _
          have hc1 : pv h1 = pv c := hex h1 (grahamScan_subset _ h1 hmem)
          have hc1x : h1.x = c.x := congrArg Prod.fst hc1
          have hc1y : h1.y = c.y := congrArg Prod.snd hc1
          rw [ensure_single]
          by_cases hp0 : padding = 0
          · have hcorner : pv (⟨h1.x - padding, h1.y - padding⟩ : Point) = pv c := by
              simp only [pv, Prod.mk.injEq]
              constructor
              · rw [hp0, sub_zero]
                exact hc1x
              · rw [hp0, sub_zero]
                exact hc1y
            have himg := expand1_center hs0 c _ hcorner padding
            have himgpv : pv (expand1 sqrtF c padding
                (⟨h1.x - padding, h1.y - padding⟩ : Point)) = pv c := by
              rw [himg]
              simp only [pv, Prod.mk.injEq]
              constructor
              · show h1.x - padding + padding = c.x
                rw [hc1x]
                ring
              · show h1.y - padding = c.y
                rw [hp0, sub_zero]
                exact hc1y
            have hmemimg : expand1 sqrtF c padding
                (⟨h1.x - padding, h1.y - padding⟩ : Point) ∈
                expandHull sqrtF
                  [⟨h1.x - padding, h1.y - padding⟩, ⟨h1.x + padding, h1.y - padding⟩,
                   ⟨h1.x + padding, h1.y + padding⟩, ⟨h1.x - padding, h1.y + padding⟩]
                  c padding := by
              rw [expandHull_eq_map]
              exact List.mem_map.2 ⟨_, by simp, rfl⟩
            rw [← himgpv]
            exact subset_convexHull ℚ _ (pv_mem_ptSet hmemimg)
          · have hppos : 0 < padding := lt_of_le_of_ne hpad (Ne.symm hp0)
            have hx : (⟨h1.x - padding, h1.y - padding⟩ : Point).x - c.x =
                -((⟨h1.x + padding, h1.y + padding⟩ : Point).x - c.x) := by
              show h1.x - padding - c.x = -(h1.x + padding - c.x)
              rw [hc1x]
              ring
            have hy : (⟨h1.x - padding, h1.y - padding⟩ : Point).y - c.y =
                -((⟨h1.x + padding, h1.y + padding⟩ : Point).y - c.y) := by
              show h1.y - padding - c.y = -(h1.y + padding - c.y)
              rw [hc1y]
              ring
            have hpos : 0 < ((⟨h1.x + padding, h1.y + padding⟩ : Point).x - c.x) *
                ((⟨h1.x + padding, h1.y + padding⟩ : Point).x - c.x) +
                ((⟨h1.x + padding, h1.y + padding⟩ : Point).y - c.y) *
                ((⟨h1.x + padding, h1.y + padding⟩ : Point).y - c.y) := by
              show 0 < (h1.x + padding - c.x) * (h1.x + padding - c.x) +
                (h1.y + padding - c.y) * (h1.y + padding - c.y)
              have he1 : h1.x + padding - c.x = padding := by
                rw [hc1x]
                ring
              have he2 : h1.y + padding - c.y = padding := by
                rw [hc1y]
                ring
              rw [he1, he2]
              positivity
            obtain ⟨hsx, hsy⟩ := expand1_sym_mid hs2 c padding _ _ hx hy hpos
            refine midpoint_mem (a := expand1 sqrtF c padding
                ⟨h1.x - padding, h1.y - padding⟩)
              (b := expand1 sqrtF c padding ⟨h1.x + padding, h1.y + padding⟩)
              ?_ ?_ (by linarith) (by linarith)
            · rw [expandHull_eq_map]
              exact List.mem_map.2 ⟨_, by simp, rfl⟩
            · rw [expandHull_eq_map]
              exact List.mem_map.2 ⟨_, by simp, rfl⟩
        | cons h2 H'' =>
          cases H'' with
          | nil =>
            have hmem1 : h1 ∈ grahamScan allPts := by
              rw [hH]
              exact List.mem_cons_self _ _
            have hmem2 : h2 ∈ grahamScan allPts := by
              rw [hH]
              exact List.mem_cons_of_mem _ (List.mem_cons_self _ _)
            have hc1 : pv h1 = pv c := hex h1 (grahamScan_subset _ h1 hmem1)
            have hc2 : pv h2 = pv c := hex h2 (grahamScan_subset _ h2 hmem2)
            have hc1x : h1.x = c.x := congrArg Prod.fst hc1
            have hc1y : h1.y = c.y := congrArg Prod.snd hc1
            have hc2x : h2.x = c.x := congrArg Prod.fst hc2
            have hc2y : h2.y = c.y := congrArg Prod.snd hc2
            obtain ⟨ex, ey, hVeq, hdeg⟩ := ensure_pair sqrtF h1 h2 padding
            obtain ⟨hexp, heyp⟩ := hdeg (hc1.trans hc2.symm) hs0
            rw [hVeq]
            by_cases hp0 : padding = 0
            · have hcorner : pv (⟨h1.x + ex, h1.y + ey⟩ : Point) = pv c := by
                simp only [pv, Prod.mk.injEq]
                constructor
                · rw [hexp, hp0, add_zero]
                  exact hc1x
                · rw [heyp, add_zero]
                  exact hc1y
              have himg := expand1_center hs0 c _ hcorner padding
              have himgpv : pv (expand1 sqrtF c padding
                  (⟨h1.x + ex, h1.y + ey⟩ : Point)) = pv c := by
                rw [himg]
                simp only [pv, Prod.mk.injEq]
                constructor
                · show h1.x + ex + padding = c.x
                  rw [hexp, hp0, hc1x]
                  ring
                · show h1.y + ey = c.y
                  rw [heyp, add_zero]
                  exact hc1y
              have hmemimg : expand1 sqrtF c padding
                  (⟨h1.x + ex, h1.y + ey⟩ : Point) ∈
                  expandHull sqrtF
                    [⟨h1.x + ex, h1.y + ey⟩, ⟨h2.x + ex, h2.y + ey⟩,
                     ⟨h2.x - ex, h2.y - ey⟩, ⟨h1.x - ex, h1.y - ey⟩] c padding := by
                rw [expandHull_eq_map]
                exact List.mem_map.2 ⟨_, by simp, rfl⟩
              rw [← himgpv]
              exact subset_convexHull ℚ _ (pv_mem_ptSet hmemimg)
            · have hppos : 0 < padding := lt_of_le_of_ne hpad (Ne.symm hp0)
              have hx : (⟨h1.x + ex, h1.y + ey⟩ : Point).x - c.x =
                  -((⟨h2.x - ex, h2.y - ey⟩ : Point).x - c.x) := by
                show h1.x + ex - c.x = -(h2.x - ex - c.x)
                rw [hc1x, hc2x]
                ring
              have hy : (⟨h1.x + ex, h1.y + ey⟩ : Point).y - c.y =
                  -((⟨h2.x - ex, h2.y - ey⟩ : Point).y - c.y) := by
                show h1.y + ey - c.y = -(h2.y - ey - c.y)
                rw [hc1y, hc2y]
                ring
              have hpos : 0 < ((⟨h2.x - ex, h2.y - ey⟩ : Point).x - c.x) *
                  ((⟨h2.x - ex, h2.y - ey⟩ : Point).x - c.x) +
                  ((⟨h2.x - ex, h2.y - ey⟩ : Point).y - c.y) *
                  ((⟨h2.x - ex, h2.y - ey⟩ : Point).y - c.y) := by
                show 0 < (h2.x - ex - c.x) * (h2.x - ex - c.x) +
                  (h2.y - ey - c.y) * (h2.y - ey - c.y)
                have he1 : h2.x - ex - c.x = -padding := by
                  rw [hexp, hc2x]
                  ring
                have he2 : h2.y - ey - c.y = 0 := by
                  rw [heyp, hc2y]
                  ring
                rw [he1, he2]
                have h9 : -padding * -padding = padding * padding := by ring
                rw [mul_zero, add_zero, h9]
                positivity
              obtain ⟨hsx, hsy⟩ := expand1_sym_mid hs2 c padding _ _ hx hy hpos
              refine midpoint_mem (a := expand1 sqrtF c padding
                  ⟨h1.x + ex, h1.y + ey⟩)
                (b := expand1 sqrtF c padding ⟨h2.x - ex, h2.y - ey⟩)
                ?_ ?_ (by linarith) (by linarith)
              · rw [expandHull_eq_map]
                exact List.mem_map.2 ⟨_, by simp, rfl⟩
              · rw [expandHull_eq_map]
                exact List.mem_map.2 ⟨_, by simp, rfl⟩
          | cons h3 H3 =>
            exfalso
            have hlen : 3 ≤ (grahamScan allPts).length := by
              rw [hH]
              simp
            obtain ⟨a, ha, b, hb, c', hc', hcr⟩ := grahamScan_triple hlen
            have ha' : a = c := pv_inj (hex a ha)
            have hb' : b = c := pv_inj (hex b hb)
            rw [ha', hb', cross_self12] at hcr
            exact absurd hcr (lt_irrefl 0)
  intro q hq
  exact expandHull_spec hs0 hs1 hs2 c padding hpad _ hcm (hVconv q hq)

/-- The points gathered for one package: its own and all descendants'. -/
def pkgPoints (g : SGraph) (pkg : String) : List Point :=
  ((packageNodesOf g).filter
    (fun e => e.1 = pkg ∨ isDescendant e.1 pkg)).flatMap (fun e => e.2.1)

/-- The color chosen for one package's hull. -/
def pkgColor (g : SGraph) (pkg : String) : String :=
  match (packageNodesOf g).lookup pkg with
  | some (_, c) => c
  | none => "#6366f1"

/-- The hull record built for one package. -/
def pkgHull (sqrtF : ℚ → ℚ) (g : SGraph) (padding : ℚ) (pkg : String) :
    PackageHull :=
  let allPoints := pkgPoints g pkg
  let n : ℚ := allPoints.length
  let center : Point := ⟨(allPoints.map Point.x).sum / n,
    (allPoints.map Point.y).sum / n⟩
  ⟨pkg, expandHull sqrtF (ensureHullVolume sqrtF (grahamScan allPoints) padding)
    center padding, center, pkgColor g pkg, getPackageDepth pkg⟩

/-- One step of the hull-building fold of `computePackageHulls`. -/
def hullStep (sqrtF : ℚ → ℚ) (g : SGraph) (padding : ℚ)
    (hulls : List (String × PackageHull)) (pkg : String) :
    List (String × PackageHull) :=
  let allPoints := ((packageNodesOf g).filter
    (fun e => e.1 = pkg ∨ isDescendant e.1 pkg)).flatMap (fun e => e.2.1)
  let color := match (packageNodesOf g).lookup pkg with
    | some (_, c) => c
    | none => "#6366f1"
  if allPoints.length < 1 then hulls
  else
    let n : ℚ := allPoints.length
    let center : Point := ⟨(allPoints.map Point.x).sum / n,
      (allPoints.map Point.y).sum / n⟩
    let hullPoints := grahamScan allPoints
    let hullPoints2 := ensureHullVolume sqrtF hullPoints padding
    let expanded := expandHull sqrtF hullPoints2 center padding
    hulls ++ [(pkg, ⟨pkg, expanded, center, color, getPackageDepth pkg⟩)]

theorem hullStep_eq (sqrtF : ℚ → ℚ) (g : SGraph) (padding : ℚ)
    (hulls : List (String × PackageHull)) (pkg : String) :
    hullStep sqrtF g padding hulls pkg =
      if (pkgPoints g pkg).length < 1 then hulls
      else hulls ++ [(pkg, pkgHull sqrtF g padding pkg)] := rfl

theorem foldl_opt_append {α β : Type} (f : α → Option β)
    (step : List β → α → List β)
    (hstep : ∀ acc x, step acc x = (f x).elim acc (fun b => acc ++ [b])) :
    ∀ (l : List α) (acc : List β), l.foldl step acc = acc ++ l.filterMap f := by
  intro l
  induction l with
  | nil =>
    intro acc
    simp
  | cons x xs ih =>
    intro acc
    rw [List.foldl_cons, hstep, List.filterMap_cons]
    cases hf : f x with
    | none =>
      simp only [Option.elim]
      rw [ih]
    | some b =>
      simp only [Option.elim]
      rw [ih]
      simp

theorem computePackageHulls_as_filterMap (sqrtF : ℚ → ℚ) (g : SGraph)
    (padding : ℚ) :
    computePackageHulls sqrtF g padding =
      ((packageNodesOf g).map Prod.fst).filterMap
        (fun pkg => if (pkgPoints g pkg).length < 1 then none
          else some (pkg, pkgHull sqrtF g padding pkg)) := by
  have h0 : computePackageHulls sqrtF g padding =
      ((packageNodesOf g).map Prod.fst).foldl (hullStep sqrtF g padding) [] := rfl
  rw [h0]
  have h1 := foldl_opt_append
    (fun pkg => if (pkgPoints g pkg).length < 1 then none
      else some (pkg, pkgHull sqrtF g padding pkg))
    (hullStep sqrtF g padding)
    (by
      intro acc x
      rw [hullStep_eq]
      by_cases h : (pkgPoints g x).length < 1
      · simp [h]
      · simp [h])
    ((packageNodesOf g).map Prod.fst) []
  rw [h1]
  simp

theorem addPkgPoint_adds (pkg : String) (pt : Point) (color : String) :
    ∀ (m : List (String × (List Point × String))),
      ∃ e ∈ addPkgPoint m pkg pt color, e.1 = pkg ∧ pt ∈ e.2.1 := by
  intro m
  induction m with
  | nil =>
    refine ⟨(pkg, ([pt], color)), ?_, rfl, List.mem_cons_self _ _⟩
    rw [addPkgPoint]
    exact List.mem_cons_self _ _
  | cons e0 rest ih =>
    obtain ⟨k, pts, col⟩ := e0
    rw [addPkgPoint]
    by_cases hk : k = pkg
    · rw [if_pos hk]
      refine ⟨(k, (pts ++ [pt], col)), List.mem_cons_self _ _, hk, ?_⟩
      exact List.mem_append.2 (Or.inr (List.mem_cons_self _ _))
    · rw [if_neg hk]
      obtain ⟨e, he, he1, he2⟩ := ih
      exact ⟨e, List.mem_cons_of_mem _ he, he1, he2⟩

theorem addPkgPoint_keeps (pkg : String) (pt : Point) (color : String) :
    ∀ (m : List (String × (List Point × String))), ∀ e ∈ m,
      ∃ e2 ∈ addPkgPoint m pkg pt color, e2.1 = e.1 ∧ ∀ q ∈ e.2.1, q ∈ e2.2.1 := by
  intro m
  induction m with
  | nil =>
    intro e he
    exact absurd he (List.not_mem_nil e)
  | cons e0 rest ih =>
    obtain ⟨k, pts, col⟩ := e0
    intro e he
    rw [addPkgPoint]
    by_cases hk : k = pkg
    · rw [if_pos hk]
      rcases List.mem_cons.1 he with h | h
      · refine ⟨(k, (pts ++ [pt], col)), List.mem_cons_self _ _, ?_, ?_⟩
        · rw [h]
        · intro q hq
          rw [h] at hq
          exact List.mem_append.2 (Or.inl hq)
      · exact ⟨e, List.mem_cons_of_mem _ h, rfl, fun q hq => hq⟩
    · rw [if_neg hk]
      rcases List.mem_cons.1 he with h | h
      · refine ⟨(k, (pts, col)), List.mem_cons_self _ _, ?_, ?_⟩
        · rw [h]
        · intro q hq
          rw [h] at hq
          exact hq
      · obtain ⟨e2, he2, he21, he22⟩ := ih e h
        exact ⟨e2, List.mem_cons_of_mem _ he2, he21, he22⟩

theorem packageNodes_fold_mem :
    ∀ (nodes : List GNode) (acc : List (String × (List Point × String))),
      (∀ nd ∈ nodes, nd.hidden = false →
        ∃ e ∈ nodes.foldl (fun m nd =>
            if nd.hidden then m else addPkgPoint m nd.pkg ⟨nd.x, nd.y⟩ nd.color)
          acc, e.1 = nd.pkg ∧ (⟨nd.x, nd.y⟩ : Point) ∈ e.2.1) ∧
      (∀ e ∈ acc, ∃ e2 ∈ nodes.foldl (fun m nd =>
            if nd.hidden then m else addPkgPoint m nd.pkg ⟨nd.x, nd.y⟩ nd.color)
          acc, e2.1 = e.1 ∧ ∀ q ∈ e.2.1, q ∈ e2.2.1) := by
  intro nodes
  induction nodes with
  | nil =>
    intro acc
    refine ⟨fun nd hnd _ => absurd hnd (List.not_mem_nil nd), fun e he => ?_⟩
    exact ⟨e, he, rfl, fun q hq => hq⟩
  | cons nd0 rest ih =>
    intro acc
    rw [List.foldl_cons]
    by_cases hh : nd0.hidden
    · rw [if_pos hh]
      obtain ⟨ihm, ihk⟩ := ih acc
      refine ⟨?_, ihk⟩
      intro nd hnd hndh
      rcases List.mem_cons.1 hnd with h | h
      · rw [h] at hndh
        rw [hndh] at hh
        exact absurd hh (by decide)
      · exact ihm nd h hndh
    · rw [if_neg hh]
      obtain ⟨ihm, ihk⟩ := ih (addPkgPoint acc nd0.pkg ⟨nd0.x, nd0.y⟩ nd0.color)
      refine ⟨?_, ?_⟩
      · intro nd hnd hndh
        rcases List.mem_cons.1 hnd with h | h
        · obtain ⟨e, he, he1, he2⟩ := addPkgPoint_adds nd0.pkg ⟨nd0.x, nd0.y⟩
            nd0.color acc
          obtain ⟨e2, he2m, he21, he22⟩ := ihk e he
          refine ⟨e2, he2m, ?_, ?_⟩
          · rw [he21, he1, h]
          · rw [h]
            exact he22 _ he2
        · exact ihm nd h hndh
      · intro e he
        obtain ⟨e1, he1, he11, he12⟩ := addPkgPoint_keeps nd0.pkg ⟨nd0.x, nd0.y⟩
          nd0.color acc e he
        obtain ⟨e2, he2, he21, he22⟩ := ihk e1 he1
        exact ⟨e2, he2, by rw [he21, he11], fun q hq => he22 q (he12 q hq)⟩

theorem packageNodesOf_mem {g : SGraph} {nd : GNode} (hnd : nd ∈ g.nodes)
    (hh : nd.hidden = false) :
    ∃ e ∈ packageNodesOf g, e.1 = nd.pkg ∧ (⟨nd.x, nd.y⟩ : Point) ∈ e.2.1 :=
  (packageNodes_fold_mem g.nodes []).1 nd hnd hh

theorem pkgPoints_mem {g : SGraph} {nd : GNode} (hnd : nd ∈ g.nodes)
    (hh : nd.hidden = false) {pkg : String}
    (hp : nd.pkg = pkg ∨ isDescendant nd.pkg pkg = true) :
    (⟨nd.x, nd.y⟩ : Point) ∈ pkgPoints g pkg := by
  obtain ⟨e, he, he1, he2⟩ := packageNodesOf_mem hnd hh
  unfold pkgPoints
  refine List.mem_flatMap.2 ⟨e, ?_, he2⟩
  rw [List.mem_filter]
  refine ⟨he, ?_⟩
  rw [he1]
  rcases hp with h | h
  · simp [h]
  · simp [h]

/-- C2: after `computePackageHulls` runs, for every package that receives a
hull and every non-hidden node whose package equals that package or is a
descendant of it (path prefix `pkg/`), the node's position lies inside or on
the boundary of the returned hull polygon, stated as membership of the
position in the convex hull of the polygon's vertex set.  `sqrtF` abstracts
`Math.sqrt`: any nonnegative function vanishing exactly at 0 (as the real
square root does on the nonnegative inputs supplied here). -/
theorem computePackageHulls_containment (sqrtF : ℚ → ℚ) (hs0 : sqrtF 0 = 0)
    (hs1 : ∀ q, 0 ≤ sqrtF q) (hs2 : ∀ q, 0 < q → 0 < sqrtF q)
    (g : SGraph) (padding : ℚ) (hpad : 0 ≤ padding)
    (pkg : String) (hull : PackageHull)
    (hlk : (computePackageHulls sqrtF g padding).lookup pkg = some hull)
    (nd : GNode) (hnd : nd ∈ g.nodes) (hh : nd.hidden = false)
    (hp : nd.pkg = pkg ∨ isDescendant nd.pkg pkg = true) :
    pv ⟨nd.x, nd.y⟩ ∈ convexHull ℚ (ptSet hull.points) := by
  have hmem : (pkg, hull) ∈ computePackageHulls sqrtF g padding :=
    lookup_some_mem hlk
  rw [computePackageHulls_as_filterMap] at hmem
  obtain ⟨pkg', hpkg', hF⟩ := List.mem_filterMap.1 hmem
  by_cases hlen : (pkgPoints g pkg').length < 1
  · rw [if_pos hlen] at hF
    exact absurd hF (by simp)
  · rw [if_neg hlen] at hF
    have hF2 := Option.some.inj hF
    have hpk : pkg' = pkg := congrArg Prod.fst hF2
    have hhl : pkgHull sqrtF g padding pkg' = hull := congrArg Prod.snd hF2
    rw [hpk] at hhl hlen
    have hne : pkgPoints g pkg ≠ [] := by
      intro hc
      rw [hc] at hlen
      simp at hlen
    have hnlen : (0 : ℚ) < ((pkgPoints g pkg).length : ℚ) := by
      have h1 : 1 ≤ (pkgPoints g pkg).length := by omega
      exact_mod_cast Nat.lt_of_lt_of_le Nat.zero_lt_one h1
    have hcx : ((pkgPoints g pkg).map Point.x).sum =
        ((pkgPoints g pkg).length : ℚ) *
          (((pkgPoints g pkg).map Point.x).sum /
            ((pkgPoints g pkg).length : ℚ)) := by
      field_simp
    have hcy : ((pkgPoints g pkg).map Point.y).sum =
        ((pkgPoints g pkg).length : ℚ) *
          (((pkgPoints g pkg).map Point.y).sum /
            ((pkgPoints g pkg).length : ℚ)) := by
      field_simp
    have hptsv : hull.points = expandHull sqrtF
        (ensureHullVolume sqrtF (grahamScan (pkgPoints g pkg)) padding)
        ⟨((pkgPoints g pkg).map Point.x).sum / ((pkgPoints g pkg).length : ℚ),
          ((pkgPoints g pkg).map Point.y).sum / ((pkgPoints g pkg).length : ℚ)⟩
        padding := by
      rw [← hhl]
      rfl
    rw [hptsv]
    exact hullPipeline_spec sqrtF hs0 hs1 hs2 padding hpad (pkgPoints g pkg)
      hne _ hcx hcy ⟨nd.x, nd.y⟩ (pkgPoints_mem hnd hh hp)

end PleaseShow
